import Mathlib

/-!
ptx: a conflict graph for optimistic transactions.

A shallow embedding of `ptx.c` and a verification development over it.

Conventions of the embedding

* Machine words are natural numbers.  Where the C arithmetic can wrap inside
  the address space (`uint8_t` / `uint16_t` DIB counters, the 64-bit ident
  counter, the 64-bit hash mixing) the reduction `% 2^w` is written out.
  Bucket counts and element counts are bounded by the size of memory and are
  left as plain naturals.
* A `struct ptx_node *` is represented by the `ident` of the node it points
  to.  Idents are handed out once per allocation by `ptx_graph_begin`, so
  while a node is in the live list the two determine each other.  A pointer
  whose node is no longer in the live list is dangling.
* A function returns `none` where the C program has no defined result: a
  failed `assert`, an access through a dangling or null pointer, an access
  outside an allocated block, or a loop that does not finish.  One access is
  not checked: `ptx_edge_equal` compares the idents kept in the two edges
  and does not look the nodes up, so an entry of an `ins` map whose node the
  collector has freed is compared as if the node were still there.  The
  statements about the entries of the edge maps along a run (symmetry,
  idempotence, growth of the maps of a deactivated node) are therefore made
  for runs without the collector, in which no pointer dangles.
* `graph->malloc` is an oracle carried in the graph: a script of outcomes,
  one per call, `none` for a null return and `some junk` for a block whose
  initial (uninitialised) contents are `junk`.  An exhausted script keeps
  succeeding.  `nallocs` counts the blocks handed out and not yet freed.
* `ptx_hashset_init` derives the bloom parameters with floating point
  (`log`, `pow`, `round`).  The embedding does not evaluate that: the graph
  carries the two results, the raw bit count `m` of line 131 and the final
  `set->k` of line 139, in place of `n` and `p`.
-/

/-! ## Constants -/

def PTX_ACTIVE : Nat := 0

def PTX_COMMITTED : Nat := 1

def PTX_ROLLEDBACK : Nat := 2

def PTX_NOMEM : Nat := 3

def PTX_RELEASED : Nat := 4

def PTX_WR : Nat := 1

def PTX_WW : Nat := 2

def PTX_RW : Nat := 4

/-! ## Data model -/

structure ptx_edge where
  dib : Nat
  kind : Nat
  node : Nat

deriving DecidableEq, Repr

structure ptx_edgemap where
  buckets : List ptx_edge
  count : Nat
  nbuckets : Nat

deriving DecidableEq, Repr

/-- The hybrid set.  `buckets = none` stands for `set->buckets == set->buckets0`
(the inline array); `some b` is a heap block with contents `b`.  `bits = none`
is the null pointer. -/
structure ptx_hashset where
  nbuckets : Nat
  count : Nat
  buckets : Option (List Nat)
  buckets0 : List Nat
  k : Nat
  m : Nat
  bits : Option (List Nat)

deriving DecidableEq, Repr

structure ptx_node where
  state : Nat
  ident : Nat
  reached : Bool
  nomem : Bool
  hasdeps : Bool
  hasreads : Bool
  haswrites : Bool
  outs : ptx_edgemap
  ins : ptx_edgemap
  reads : ptx_hashset
  writes : ptx_hashset

deriving DecidableEq, Repr

/-- The graph.  `nodes` is the live list from `head.next` to `tail.prev`. -/
structure ptx_graph where
  nodes : List ptx_node
  ident : Nat
  gccounter : Int
  autogc : Int
  malloc : List (Option (List Nat))
  nallocs : Int
  m : Nat
  k : Nat

deriving DecidableEq, Repr

/-- The options of `ptx_graph_new`; `m` and `k` stand for `n` and `p`. -/
structure ptx_graph_opts where
  malloc : List (Option (List Nat))
  m : Nat
  k : Nat
  autogc : Int

deriving DecidableEq, Repr

/-! ## Allocator and pointer access -/

/-- One call of `graph->malloc`: the outcome and the graph afterwards. -/
def ptx_graph.alloc (g : ptx_graph) : Option (List Nat) × ptx_graph :=
  match g.malloc with
  | [] => (some [], { g with nallocs := g.nallocs + 1 })
  | none :: rest => (none, { g with malloc := rest })
  | some junk :: rest => (some junk, { g with malloc := rest, nallocs := g.nallocs + 1 })

/-- One call of `graph->free` on a block. -/
def ptx_graph.release (g : ptx_graph) : ptx_graph :=
  { g with nallocs := g.nallocs - 1 }

/-- Dereference a node pointer: the live node with that ident. -/
def ptx_graph.find (g : ptx_graph) (node : Nat) : Option ptx_node :=
  g.nodes.find? (fun n => n.ident == node)

/-- Store through a node pointer. -/
def ptx_graph.update (g : ptx_graph) (node : Nat) (f : ptx_node → ptx_node) : ptx_graph :=
  { g with nodes := g.nodes.map (fun n => if n.ident == node then f n else n) }

/-! ## Hash set -/

def ptx_hashof (x : Nat) : Nat := ((x <<< 8) % 2 ^ 64) >>> 8

def ptx_dibof (x : Nat) : Nat := ((x % 2 ^ 64) >>> 56) % 256

def ptx_sethashdib (hash dib : Nat) : Nat :=
  ptx_hashof hash ||| ((dib % 256) <<< 56)

/-- The loop `set->m = 2; while (set->m < m) set->m *= 2;` on `size_t`. -/
def ptx_hashset_init_m (m : Nat) : Nat → Nat → Option Nat
  | 0, _ => none
  | fuel + 1, cur => if cur < m then ptx_hashset_init_m m fuel ((cur * 2) % 2 ^ 64) else some cur

def ptx_hashset_init (m k : Nat) : Option ptx_hashset :=
  match ptx_hashset_init_m m 65 2 with
  | none => none
  | some setm =>
    some { nbuckets := 4, count := 0, buckets := none, buckets0 := [0, 0, 0, 0],
           k := k, m := setm, bits := none }

/-- The array `set->buckets` points to. -/
def ptx_hashset.cur (set : ptx_hashset) : List Nat :=
  match set.buckets with
  | none => set.buckets0
  | some b => b

/-- Store `v` in `set->buckets[i]`. -/
def ptx_hashset.store (set : ptx_hashset) (i v : Nat) : ptx_hashset :=
  match set.buckets with
  | none => { set with buckets0 := set.buckets0.set i v }
  | some b => { set with buckets := some (b.set i v) }

/-- The mixing step of `ptx_testadd`:
`hash *= 0x94d049bb133111eb; hash ^= hash >> 31`. -/
def ptx_mix (hash : Nat) : Nat :=
  let h := (hash * 0x94d049bb133111eb) % 2 ^ 64
  h ^^^ (h >>> 31)

/-- The body of the loop of `ptx_testadd` at bit `j`: `none` outside the block,
otherwise the bits and whether the loop goes on (`false`: `return false`). -/
def ptx_testadd_bit (add : Bool) (bits : List Nat) (j : Nat) : Option (List Nat × Bool) :=
  match bits[j >>> 3]? with
  | none => none
  | some byte =>
    if add then some (bits.set (j >>> 3) ((byte ||| (1 <<< (j &&& 7))) % 256), true)
    else if (byte >>> (j &&& 7)) &&& 1 = 0 then some (bits, false)
    else some (bits, true)

/-- The loop of `ptx_testadd`; the first argument is `set->k-1 - i` on `size_t`,
the number of rounds after the current one. -/
def ptx_testadd_loop (m : Nat) (add : Bool) : Nat → List Nat → Nat → Nat → Option (List Nat × Bool)
  | 0, bits, _, j => ptx_testadd_bit add bits j
  | rem + 1, bits, hash, j =>
    match ptx_testadd_bit add bits j with
    | none => none
    | some (bits1, false) => some (bits1, false)
    | some (bits1, true) =>
      ptx_testadd_loop m add rem bits1 (ptx_mix hash) (ptx_mix hash &&& (m - 1))

def ptx_testadd (set : ptx_hashset) (hash : Nat) (add : Bool) : Option (ptx_hashset × Bool) :=
  match set.bits with
  | none => none
  | some bits =>
    match ptx_testadd_loop set.m add ((set.k + 2 ^ 64 - 1) % 2 ^ 64) bits (ptx_hashof hash)
        (ptx_hashof hash &&& (set.m - 1)) with
    | none => none
    | some (bits1, r) => some ({ set with bits := some bits1 }, r)

/-- The loop of `ptx_add0`; `dib` is a `uint8_t`.  The first argument bounds the
rounds. -/
def ptx_add0_loop : Nat → ptx_hashset → Nat → Nat → Nat → Option ptx_hashset
  | 0, _, _, _, _ => none
  | fuel + 1, set, hash, dib, i =>
    match set.cur[i]? with
    | none => none
    | some b =>
      if ptx_dibof b = 0 then
        some { set.store i (ptx_sethashdib hash dib) with count := set.count + 1 }
      else
        let set1 := if ptx_dibof b < dib then set.store i (ptx_sethashdib hash dib) else set
        let hash1 := if ptx_dibof b < dib then ptx_hashof b else hash
        let dib1 := if ptx_dibof b < dib then ptx_dibof b else dib
        match set1.cur[i]? with
        | none => none
        | some b1 =>
          if ptx_hashof b1 = hash1 then some set1
          else ptx_add0_loop fuel set1 hash1 ((dib1 + 1) % 256) ((i + 1) &&& (set.nbuckets - 1))

def ptx_add0 (set : ptx_hashset) (hash : Nat) : Option ptx_hashset :=
  ptx_add0_loop (256 * set.nbuckets) set (ptx_hashof hash) 1
    (ptx_hashof hash &&& (set.nbuckets - 1))

/-- The re-insertion loop of the upgrade branch of `ptx_grow`. -/
def ptx_grow_upgrade (set : ptx_hashset) : List Nat → Option ptx_hashset
  | [] => some set
  | b :: rest =>
    if ptx_dibof b ≠ 0 then
      match ptx_testadd set b true with
      | none => none
      | some (set1, _) => ptx_grow_upgrade set1 rest
    else ptx_grow_upgrade set rest

/-- The function `ptx_grow`, called with `set->bits == NULL`.  In the second
branch a successful allocation returns `false` and leaves `set->buckets`
pointing to the new uninitialised block; a null result goes on to `memset` it,
which is undefined, so the code after that test is not reached with a defined
state. -/
def ptx_grow (g : ptx_graph) (set : ptx_hashset) : Option (ptx_graph × ptx_hashset × Bool) :=
  if set.nbuckets * 2 * 8 ≥ set.m / 8 then
    match g.alloc with
    | (none, g1) => some (g1, { set with bits := none }, false)
    | (some _, g1) =>
      let old := set.cur
      let set1 := { set with bits := some (List.replicate (set.m / 8) 0),
                             count := 0, nbuckets := 0, buckets := none }
      match ptx_grow_upgrade set1 (old.take set.nbuckets) with
      | none => none
      | some set2 =>
        some (if set.buckets.isSome then g1.release else g1, set2, true)
  else
    match g.alloc with
    | (some junk, g1) => some (g1, { set with buckets := some junk }, false)
    | (none, _) => none

/-- The function `ptx_hashset_add`.  The `continue` after a successful
`ptx_grow` jumps to the test of `do ... while (0)`, which ends the loop. -/
def ptx_hashset_add (g : ptx_graph) (set : ptx_hashset) (hash : Nat) :
    Option (ptx_graph × ptx_hashset × Bool) :=
  if set.bits.isSome then
    match ptx_testadd set hash true with
    | none => none
    | some (set1, _) => some (g, set1, true)
  else if set.count < set.nbuckets >>> 1 then
    match ptx_add0 set hash with
    | none => none
    | some set1 => some (g, set1, true)
  else
    ptx_grow g set

/-- The table loop of `ptx_hashset_test`; `dib` is a `uint8_t`.  The first
argument bounds the rounds: the buckets do not change and `(dib, i)` repeats
after `256 * nbuckets` rounds, so a longer run never returns.  A word of an
uninitialised block that the allocator script does not give reads as `0`. -/
def ptx_hashset_test_loop (set : ptx_hashset) (hash : Nat) : Nat → Nat → Nat → Option Bool
  | 0, _, _ => none
  | fuel + 1, dib, i =>
    let b := set.cur.getD i 0
    if ptx_hashof b = hash then some true
    else if ptx_dibof b < dib then some false
    else ptx_hashset_test_loop set hash fuel ((dib + 1) % 256) ((i + 1) &&& (set.nbuckets - 1))

def ptx_hashset_test (set : ptx_hashset) (hash : Nat) : Option Bool :=
  if set.bits.isSome then
    match ptx_testadd set hash false with
    | none => none
    | some (_, r) => some r
  else
    ptx_hashset_test_loop set (ptx_hashof hash) (256 * set.nbuckets) 1
      (ptx_hashof hash &&& (set.nbuckets - 1))

def ptx_hashset_empty (set : ptx_hashset) : Bool :=
  set.bits.isNone && set.count == 0

/-- The function `ptx_hashset_free`. -/
def ptx_hashset_free (g : ptx_graph) (set : ptx_hashset) : ptx_graph :=
  let g1 := if set.buckets.isSome then g.release else g
  if set.bits.isSome then g1.release else g1

/-! ## Edge map -/

def ptx_edgemap_count (map : ptx_edgemap) : Nat := map.count

/-- The function `ptx_edgemap_free`; `map->buckets` is null exactly when
`nbuckets` is zero. -/
def ptx_edgemap_free (g : ptx_graph) (map : ptx_edgemap) : ptx_graph :=
  if map.nbuckets ≠ 0 then g.release else g

/-- The scan of `ptx_edgemap_iter` from `*pidx`: the edge found and the new
`*pidx`, or `none` when done. -/
def ptx_edgemap_iter_loop (map : ptx_edgemap) : Nat → Nat → Option (ptx_edge × Nat)
  | 0, _ => none
  | fuel + 1, pidx =>
    if pidx ≥ map.nbuckets then none
    else
      match map.buckets[pidx]? with
      | none => none
      | some edge =>
        if edge.dib > 0 then some (edge, pidx + 1)
        else ptx_edgemap_iter_loop map fuel (pidx + 1)

def ptx_edgemap_iter (map : ptx_edgemap) (pidx : Nat) : Option (ptx_edge × Nat) :=
  ptx_edgemap_iter_loop map (map.nbuckets + 1 - pidx) pidx

/-- The edges that the idiom `edge = iter(); while (edge) ... edge = iter();`
visits from `pidx`, in order. -/
def ptx_edgemap_walk (map : ptx_edgemap) : Nat → Nat → List ptx_edge
  | 0, _ => []
  | fuel + 1, pidx =>
    match ptx_edgemap_iter map pidx with
    | none => []
    | some (edge, pidx1) => edge :: ptx_edgemap_walk map fuel pidx1

/-- All edges of a map in iteration order. -/
def ptx_edgemap_edges (map : ptx_edgemap) : List ptx_edge :=
  ptx_edgemap_walk map (map.nbuckets + 1) 0

/-- The function `ptx_edge_equal`.  The C code reads the two idents through the
node pointers of the edges; here the pointer is the ident.  For a dangling
pointer the C code reads freed memory. -/
def ptx_edge_equal (a b : ptx_edge) : Bool :=
  a.node == b.node && a.kind == b.kind

/-- The loop of `ptx_edgemap_add0`; `edge.dib` is a `uint16_t`.  The first
argument bounds the rounds: the probe visits every bucket of a table within
`nbuckets` rounds, so a longer run has met neither a free bucket nor an equal
edge anywhere and gets no result here. -/
def ptx_edgemap_add0_loop : Nat → ptx_edgemap → ptx_edge → Nat → Option ptx_edgemap
  | 0, _, _, _ => none
  | fuel + 1, map, edge, i =>
    match map.buckets[i]? with
    | none => none
    | some b =>
      if b.dib = 0 then
        some { map with buckets := map.buckets.set i edge, count := map.count + 1 }
      else if ptx_edge_equal b edge then some map
      else
        let map1 := if b.dib < edge.dib then { map with buckets := map.buckets.set i edge } else map
        let edge1 := if b.dib < edge.dib then b else edge
        ptx_edgemap_add0_loop fuel map1 { edge1 with dib := (edge1.dib + 1) % 65536 }
          ((i + 1) &&& (map.nbuckets - 1))

def ptx_edgemap_add0 (map : ptx_edgemap) (edge : ptx_edge) : Option ptx_edgemap :=
  ptx_edgemap_add0_loop map.nbuckets map { edge with dib := 1 }
    (edge.node &&& (map.nbuckets - 1))

/-- The re-insertion loop of `ptx_edgemap_grow`. -/
def ptx_edgemap_grow_loop (map : ptx_edgemap) : List ptx_edge → Option ptx_edgemap
  | [] => some map
  | b :: rest =>
    if b.dib ≠ 0 then
      match ptx_edgemap_add0 map b with
      | none => none
      | some map1 => ptx_edgemap_grow_loop map1 rest
    else ptx_edgemap_grow_loop map rest

/-- A new block of `nbuckets` zeroed buckets with `count = 0`. -/
def ptx_edgemap_zeroed (nbuckets : Nat) : ptx_edgemap :=
  { buckets := List.replicate nbuckets { dib := 0, kind := 0, node := 0 },
    nbuckets := nbuckets, count := 0 }

def ptx_edgemap_grow (g : ptx_graph) (map : ptx_edgemap) : Option (ptx_graph × ptx_edgemap × Bool) :=
  match g.alloc with
  | (none, g1) => some (g1, map, false)
  | (some _, g1) =>
    match ptx_edgemap_grow_loop
        (ptx_edgemap_zeroed (if map.nbuckets = 0 then 2 else map.nbuckets * 2))
        (map.buckets.take map.nbuckets) with
    | none => none
    | some map2 => some (if map.nbuckets ≠ 0 then g1.release else g1, map2, true)

/-- The function `ptx_edgemap_add`; `node` is the target pointer and `kind` is
stored as a 16-bit value. -/
def ptx_edgemap_add (g : ptx_graph) (map : ptx_edgemap) (node kind : Nat) :
    Option (ptx_graph × ptx_edgemap × Bool) :=
  let grown :=
    if map.count = map.nbuckets / 2 then ptx_edgemap_grow g map else some (g, map, true)
  match grown with
  | none => none
  | some (g1, map1, false) => some (g1, map1, false)
  | some (g1, map1, true) =>
    match ptx_edgemap_add0 map1 { dib := 0, kind := kind % 65536, node := node } with
    | none => none
    | some map2 => some (g1, map2, true)

/-! ## Graph and nodes -/

/-- The graph structure as `ptx_graph_new` fills it in after the `memset`: the
allocator, the bloom sizing and the two sentinels of the empty list. -/
def ptx_graph_zeroed (opts : ptx_graph_opts) : ptx_graph :=
  { nodes := [], ident := 0, gccounter := 0, autogc := 0, malloc := opts.malloc,
    nallocs := 0, m := opts.m, k := opts.k }

/-- The function `ptx_graph_new`.  The local `autogc` is computed from the
options but never stored: `graph->autogc` keeps the `0` of the `memset`. -/
def ptx_graph_new (opts : ptx_graph_opts) : Option ptx_graph :=
  match (ptx_graph_zeroed opts).alloc with
  | (none, _) => none
  | (some _, g1) => some g1

/-- The function `ptx_node_free`: unlink the node and free its blocks. -/
def ptx_node_free (g : ptx_graph) (node : Nat) : Option ptx_graph :=
  match g.find node with
  | none => none
  | some n =>
    let g1 := { g with nodes := g.nodes.filter (fun x => x.ident != node) }
    let g2 := ptx_hashset_free g1 n.reads
    let g3 := ptx_hashset_free g2 n.writes
    let g4 := ptx_edgemap_free g3 n.ins
    let g5 := ptx_edgemap_free g4 n.outs
    some g5.release

/-- The function `ptx_node_gcmark`; the first argument bounds the depth of the
recursion. -/
def ptx_node_gcmark : Nat → ptx_graph → Nat → Option ptx_graph
  | 0, _, _ => none
  | fuel + 1, g, node =>
    match g.find node with
    | none => none
    | some n =>
      if n.reached then some g
      else
        (ptx_edgemap_edges n.outs).foldlM (fun acc edge => ptx_node_gcmark fuel acc edge.node)
          (g.update node (fun x => { x with reached := true }))

/-- The mark loop of `ptx_graph_gc` over the live list. -/
def ptx_graph_gc_mark (g : ptx_graph) : List Nat → Option ptx_graph
  | [] => some g
  | node :: rest =>
    match g.find node with
    | none => none
    | some n =>
      if n.state = PTX_ACTIVE then
        match ptx_node_gcmark (g.nodes.length + 1) g node with
        | none => none
        | some g1 => ptx_graph_gc_mark g1 rest
      else ptx_graph_gc_mark g rest

/-- The sweep loop of `ptx_graph_gc` over the live list. -/
def ptx_graph_gc_sweep (g : ptx_graph) : List Nat → Option ptx_graph
  | [] => some g
  | node :: rest =>
    match g.find node with
    | none => none
    | some n =>
      if !n.reached then
        match ptx_node_free g node with
        | none => none
        | some g1 => ptx_graph_gc_sweep g1 rest
      else ptx_graph_gc_sweep (g.update node (fun x => { x with reached := false })) rest

def ptx_graph_gc (g : ptx_graph) : Option ptx_graph :=
  match ptx_graph_gc_mark g (g.nodes.map (fun n => n.ident)) with
  | none => none
  | some g1 => ptx_graph_gc_sweep g1 (g1.nodes.map (fun n => n.ident))

def ptx_graph_autogc (g : ptx_graph) : Option ptx_graph :=
  if g.gccounter ≥ g.autogc then ptx_graph_gc { g with gccounter := 0 } else some g

/-- The function `ptx_graph_begin`: the graph afterwards and the new node
pointer (`none` for a null return). -/
def ptx_graph_begin (g : ptx_graph) : Option (ptx_graph × Option Nat) :=
  match g.alloc with
  | (none, g1) => some (g1, none)
  | (some _, g1) =>
    match ptx_hashset_init g1.m g1.k, ptx_hashset_init g1.m g1.k with
    | some reads, some writes =>
      let ident := (g1.ident + 1) % 2 ^ 64
      let empty : ptx_edgemap := { buckets := [], count := 0, nbuckets := 0 }
      let n : ptx_node :=
        { state := PTX_ACTIVE, ident := ident, reached := false, nomem := false,
          hasdeps := false, hasreads := false, haswrites := false,
          outs := empty, ins := empty, reads := reads, writes := writes }
      some ({ g1 with nodes := g1.nodes ++ [n], ident := ident }, some ident)
    | _, _ => none

/-- The function `ptx_node_deactivate`.  With `autogc > 0` a node without
edges is freed and then read again for `node->graph`, which is undefined. -/
def ptx_node_deactivate (g : ptx_graph) (node : Nat) (state : Nat) : Option ptx_graph :=
  match g.find node with
  | none => none
  | some n =>
    let g1 := g.update node (fun x => { x with state := state })
    if g1.autogc > 0 then
      let g2 := { g1 with gccounter := g1.gccounter + 1 }
      if ptx_edgemap_count n.outs = 0 ∧ n.hasdeps = false then none
      else ptx_graph_autogc g2
    else some g1

def ptx_node_rollback (g : ptx_graph) (node : Nat) : Option ptx_graph :=
  match g.find node with
  | none => none
  | some n =>
    if n.state = PTX_ACTIVE ∨ n.state = PTX_NOMEM then ptx_node_deactivate g node PTX_ROLLEDBACK
    else none

/-- The outcome of `ptx_node_commit`: the return value, the graph and the
value of the thread-local `_ptx_oom`, which every call assigns. -/
structure ptx_commit_result where
  ok : Bool
  graph : ptx_graph
  _ptx_oom : Bool

deriving DecidableEq, Repr

/-- The function `ptx_oom` after a commit. -/
def ptx_oom (r : ptx_commit_result) : Bool := r._ptx_oom

/-- The scan of `node->outs` in `ptx_node_commit`: the value of `abort`. -/
def ptx_node_commit_scan (g : ptx_graph) : List ptx_edge → Option Bool
  | [] => some false
  | edge :: rest =>
    match g.find edge.node with
    | none => none
    | some t =>
      if t.state = PTX_COMMITTED ∧ t.haswrites = true then some true
      else ptx_node_commit_scan g rest

def ptx_node_commit (g : ptx_graph) (node : Nat) : Option ptx_commit_result :=
  match g.find node with
  | none => none
  | some n =>
    if n.state = PTX_NOMEM then
      match ptx_node_deactivate g node PTX_ROLLEDBACK with
      | none => none
      | some g1 => some { ok := false, graph := g1, _ptx_oom := true }
    else if n.state = PTX_ACTIVE then
      match ptx_node_commit_scan g (ptx_edgemap_edges n.outs) with
      | none => none
      | some true =>
        match ptx_node_deactivate g node PTX_ROLLEDBACK with
        | none => none
        | some g1 => some { ok := false, graph := g1, _ptx_oom := false }
      | some false =>
        match ptx_node_deactivate g node PTX_COMMITTED with
        | none => none
        | some g1 => some { ok := true, graph := g1, _ptx_oom := false }
    else none

/-- The function `ptx_node_adddep`: an edge from node `a` to node `b`. -/
def ptx_node_adddep (g : ptx_graph) (a b kind : Nat) : Option (ptx_graph × Bool) :=
  match g.find b with
  | none => none
  | some nb =>
    match ptx_edgemap_add g nb.ins a kind with
    | none => none
    | some (g1, ins1, false) => some (g1.update b (fun x => { x with ins := ins1 }), false)
    | some (g1, ins1, true) =>
      let g2 := g1.update b (fun x => { x with ins := ins1 })
      match g2.find a with
      | none => none
      | some na =>
        match ptx_edgemap_add g2 na.outs b kind with
        | none => none
        | some (g3, outs1, false) => some (g3.update a (fun x => { x with outs := outs1 }), false)
        | some (g3, outs1, true) =>
          let g4 := g3.update a (fun x => { x with outs := outs1 })
          some (g4.update b (fun x => { x with hasdeps := true }), true)

/-- The loop of `ptx_node_read` over the live list. -/
def ptx_node_read_loop (node hash : Nat) : ptx_graph → List Nat → Option ptx_graph
  | g, [] => some g
  | g, other :: rest =>
    if other ≠ node then
      match g.find other with
      | none => none
      | some o =>
        match ptx_hashset_test o.writes hash with
        | none => none
        | some false => ptx_node_read_loop node hash g rest
        | some true =>
          match ptx_node_adddep g other node PTX_WR with
          | none => none
          | some (g1, false) => some (g1.update node (fun x => { x with state := PTX_NOMEM }))
          | some (g1, true) => ptx_node_read_loop node hash g1 rest
    else ptx_node_read_loop node hash g rest

def ptx_node_read (g : ptx_graph) (node hash : Nat) : Option ptx_graph :=
  match g.find node with
  | none => none
  | some n =>
    if n.state = PTX_NOMEM then some g
    else if n.state = PTX_ACTIVE then
      match ptx_hashset_add g n.reads hash with
      | none => none
      | some (g1, reads1, false) =>
        some (g1.update node (fun x => { x with reads := reads1, state := PTX_NOMEM }))
      | some (g1, reads1, true) =>
        ptx_node_read_loop node hash
          (g1.update node (fun x => { x with reads := reads1, hasreads := true }))
          (g1.nodes.map (fun x => x.ident))
    else none

/-- The second half of the loop body of `ptx_node_write`: the write/write test. -/
def ptx_node_write_ww (node hash other : Nat) (g : ptx_graph) : Option (ptx_graph × Bool) :=
  match g.find other with
  | none => none
  | some o =>
    match ptx_hashset_test o.writes hash with
    | none => none
    | some false => some (g, true)
    | some true =>
      match ptx_node_adddep g other node PTX_WW with
      | none => none
      | some (g1, false) => some (g1, false)
      | some (g1, true) => ptx_node_adddep g1 node other PTX_WW

/-- The loop of `ptx_node_write` over the live list. -/
def ptx_node_write_loop (node hash : Nat) : ptx_graph → List Nat → Option ptx_graph
  | g, [] => some g
  | g, other :: rest =>
    if other ≠ node then
      match g.find other with
      | none => none
      | some o =>
        match ptx_hashset_test o.reads hash with
        | none => none
        | some r =>
          match (if r then ptx_node_adddep g other node PTX_RW else some (g, true)) with
          | none => none
          | some (g1, false) => some (g1.update node (fun x => { x with state := PTX_NOMEM }))
          | some (g1, true) =>
            match ptx_node_write_ww node hash other g1 with
            | none => none
            | some (g2, false) => some (g2.update node (fun x => { x with state := PTX_NOMEM }))
            | some (g2, true) => ptx_node_write_loop node hash g2 rest
    else ptx_node_write_loop node hash g rest

def ptx_node_write (g : ptx_graph) (node hash : Nat) : Option ptx_graph :=
  match g.find node with
  | none => none
  | some n =>
    if n.state = PTX_NOMEM then some g
    else if n.state = PTX_ACTIVE then
      match ptx_hashset_add g n.writes hash with
      | none => none
      | some (g1, writes1, false) =>
        some (g1.update node (fun x => { x with writes := writes1, state := PTX_NOMEM }))
      | some (g1, writes1, true) =>
        ptx_node_write_loop node hash
          (g1.update node (fun x => { x with writes := writes1, haswrites := true }))
          (g1.nodes.map (fun x => x.ident))
    else none

/-! ## Executions -/

/-- A call of the public interface; nodes are named by their pointer. -/
inductive ptx_op where
  | begin : ptx_op
  | read : Nat → Nat → ptx_op
  | write : Nat → Nat → ptx_op
  | commit : Nat → ptx_op
  | rollback : Nat → ptx_op
  | gc : ptx_op

deriving DecidableEq, Repr

def ptx_apply (g : ptx_graph) : ptx_op → Option ptx_graph
  | .begin => (ptx_graph_begin g).map (fun r => r.1)
  | .read node hash => ptx_node_read g node (hash % 2 ^ 64)
  | .write node hash => ptx_node_write g node (hash % 2 ^ 64)
  | .commit node => (ptx_node_commit g node).map (fun r => r.graph)
  | .rollback node => ptx_node_rollback g node
  | .gc => ptx_graph_gc g

def ptx_run (g : ptx_graph) : List ptx_op → Option ptx_graph
  | [] => some g
  | op :: rest =>
    match ptx_apply g op with
    | none => none
    | some g1 => ptx_run g1 rest

/-! ## Specification vocabulary -/

/-- A bucket is occupied when its DIB is not zero. -/
def ptx_edge.used (e : ptx_edge) : Bool := decide (e.dib > 0)

/-- What `ptx_edge_equal` compares: the target and the kind. -/
def ptx_edge.key (e : ptx_edge) : Nat × Nat := (e.node, e.kind)

/-- The entries of a map: target and kind of every edge the iterator visits. -/
def ptx_edgemap_keys (map : ptx_edgemap) : List (Nat × Nat) :=
  (ptx_edgemap_edges map).map ptx_edge.key

/-- The allocator of the options never returns null. -/
def ptx_never_fails (script : List (Option (List Nat))) : Prop :=
  ∀ x ∈ script, x ≠ none

instance (script : List (Option (List Nat))) : Decidable (ptx_never_fails script) := by
  unfold ptx_never_fails
  exact inferInstance

/-- The states of the live list, in order. -/
def ptx_states (g : ptx_graph) : List Nat := g.nodes.map (fun n => n.state)

/-! ## Concrete configurations and executions -/

/-- The options of `test.c`: the counting allocator, which never fails, and the
default bloom sizing `n = 1000000`, `p = 0.01`, for which line 131 gives
`m = 9585058` (so `set->m = 2^24`) and line 139 gives `set->k = 4`. -/
def ptx_opts_default : ptx_graph_opts :=
  { malloc := [], m := 9585058, k := 4, autogc := -1 }

/-- A small bloom sizing, `n = 16`, `p = 0.01`: line 131 gives `m = 153` (so
`set->m = 256`, a 32 byte filter) and line 139 gives `set->k = 4`. -/
def ptx_opts_small : ptx_graph_opts :=
  { malloc := [], m := 153, k := 4, autogc := -1 }

/-- An allocator whose fifth call returns null. -/
def ptx_opts_fail5 : ptx_graph_opts :=
  { malloc := [some [], some [], some [], some [], none], m := 9585058, k := 4, autogc := -1 }

/-- Two transactions; the first writes an item and the second reads it. -/
def ptx_ops_write_read : List ptx_op :=
  [.begin, .begin, .write 1 7, .read 2 7]

/-- The test `write-write` up to the first commit, on the item `5`. -/
def ptx_ops_write_write : List ptx_op :=
  [.begin, .write 1 5, .begin, .write 2 5, .commit 1]

/-- One transaction reads two distinct items. -/
def ptx_ops_read2 : List ptx_op := [.begin, .read 1 1, .read 1 2]

/-- One transaction reads three distinct items. -/
def ptx_ops_read3 : List ptx_op := [.begin, .read 1 1, .read 1 2, .read 1 3]

/-- One transaction writes three distinct items. -/
def ptx_ops_write3 : List ptx_op := [.begin, .write 1 1, .write 1 2, .write 1 3]

/-- Transaction `A` writes the items `1`, `2`, `3`; then `B` begins and writes `3`. -/
def ptx_ops_lost_write : List ptx_op :=
  [.begin, .write 1 1, .write 1 2, .write 1 3, .begin, .write 2 3]

/-- Two transactions begin and do nothing else. -/
def ptx_ops_begin2 : List ptx_op := [.begin, .begin]

/-- Two transactions begin and the second writes the hash `0`. -/
def ptx_ops_write_zero : List ptx_op := [.begin, .begin, .write 2 0]

/-- Create a graph and run a sequence of calls on it. -/
def ptx_trace (opts : ptx_graph_opts) (ops : List ptx_op) : Option ptx_graph :=
  match ptx_graph_new opts with
  | none => none
  | some g => ptx_run g ops

/-- A sequence of `ptx_hashset_add` on a fresh set: the set and the result of the
last call. -/
def ptx_hashset_adds (g : ptx_graph) (set : ptx_hashset) : List Nat → Option (ptx_hashset × Bool)
  | [] => some (set, true)
  | [h] => match ptx_hashset_add g set h with
    | none => none
    | some (_, set1, r) => some (set1, r)
  | h :: rest => match ptx_hashset_add g set h with
    | none => none
    | some (g1, set1, _) => ptx_hashset_adds g1 set1 rest

/-- A sequence of `ptx_hashset_add` on the fresh set of a new graph. -/
def ptx_hashset_trace (opts : ptx_graph_opts) (hashes : List Nat) : Option (ptx_hashset × Bool) :=
  match ptx_graph_new opts, ptx_hashset_init opts.m opts.k with
  | some g, some set => ptx_hashset_adds g set hashes
  | _, _ => none

/-- Commit the given nodes in order: the return values and the final graph. -/
def ptx_commits : ptx_graph → List Nat → Option (List Bool × ptx_graph)
  | g, [] => some ([], g)
  | g, node :: rest =>
    match ptx_node_commit g node with
    | none => none
    | some r =>
      match ptx_commits r.graph rest with
      | none => none
      | some (oks, g1) => some (r.ok :: oks, g1)

/-- The set of a node that recorded the single hash `5`. -/
def ptx_example_set5 : ptx_hashset :=
  { nbuckets := 4, count := 1, buckets := none, buckets0 := [0, 72057594037927941, 0, 0],
    k := 4, m := 16777216, bits := none }

/-- The set of a node that recorded nothing. -/
def ptx_example_set0 : ptx_hashset :=
  { nbuckets := 4, count := 0, buckets := none, buckets0 := [0, 0, 0, 0],
    k := 4, m := 16777216, bits := none }

/-- Node `T1` of the test `write-write` after its commit. -/
def ptx_example_T1 : ptx_node :=
  { state := PTX_COMMITTED, ident := 1, reached := false, nomem := false,
    hasdeps := true, hasreads := false, haswrites := true,
    outs := { buckets := [{ dib := 1, kind := 2, node := 2 }, { dib := 0, kind := 0, node := 0 }],
              count := 1, nbuckets := 2 },
    ins := { buckets := [{ dib := 1, kind := 2, node := 2 }, { dib := 0, kind := 0, node := 0 }],
             count := 1, nbuckets := 2 },
    reads := ptx_example_set0, writes := ptx_example_set5 }

/-- Node `T2` of the test `write-write` before its commit. -/
def ptx_example_T2 : ptx_node :=
  { state := PTX_ACTIVE, ident := 2, reached := false, nomem := false,
    hasdeps := true, hasreads := false, haswrites := true,
    outs := { buckets := [{ dib := 0, kind := 0, node := 0 }, { dib := 1, kind := 2, node := 1 }],
              count := 1, nbuckets := 2 },
    ins := { buckets := [{ dib := 0, kind := 0, node := 0 }, { dib := 1, kind := 2, node := 1 }],
             count := 1, nbuckets := 2 },
    reads := ptx_example_set0, writes := ptx_example_set5 }

/-- The graph of the test `write-write` before the second commit: `T1` and `T2`
wrote the same item and `T1` has committed. -/
def ptx_example_ww : ptx_graph :=
  { nodes := [ptx_example_T1, ptx_example_T2],
    ident := 2, gccounter := 0, autogc := 0, malloc := [], nallocs := 7, m := 9585058, k := 4 }

/-! ## Proof vocabulary -/

/-- Two graphs that differ at most in the state of the allocator. -/
def ptx_graph.same (g g1 : ptx_graph) : Prop :=
  g1.nodes = g.nodes ∧ g1.ident = g.ident ∧ g1.autogc = g.autogc ∧ g1.m = g.m ∧ g1.k = g.k

/-- Well-formedness of a reachable graph: `autogc` is off, idents increase along
the live list and do not exceed the counter, every `outs` map has as many buckets
as `nbuckets` says and targets live nodes only, and no mark bit is set. -/
def ptx_wf (g : ptx_graph) : Prop :=
  g.autogc ≤ 0 ∧
  (g.nodes.map (fun n => n.ident)).Pairwise (fun a b => a < b) ∧
  (∀ n ∈ g.nodes, n.ident ≤ g.ident) ∧
  (∀ n ∈ g.nodes, n.outs.buckets.length = n.outs.nbuckets) ∧
  (∀ n ∈ g.nodes, ∀ x ∈ ptx_edgemap_keys n.outs, (g.find x.1).isSome = true) ∧
  (∀ n ∈ g.nodes, n.reached = false)

/-- The node `id` points to is in the live list and has its mark bit set. -/
def ptx_graph.marked (g : ptx_graph) (id : Nat) : Prop :=
  ∃ n, g.find id = some n ∧ n.reached = true

/-- The graph `g1` is `g` with some more mark bits set. -/
def ptx_graph.mono (g g1 : ptx_graph) : Prop :=
  g1.ident = g.ident ∧ g1.autogc = g.autogc ∧
  ∃ F : ptx_node → ptx_node, g1.nodes = g.nodes.map F ∧
    ∀ n, F n = n ∨ F n = { n with reached := true }

/-- Every target of the node's `outs` is marked. -/
def ptx_graph.closed (g : ptx_graph) (n : ptx_node) : Prop :=
  ∀ x ∈ ptx_edgemap_keys n.outs, g.marked x.1

/-! ## Further configurations and executions -/

/-- Options that ask for an automatic collection after every deactivation:
`opts.autogc = 1`, with the allocator and the sizing of `test.c`. -/
def ptx_opts_autogc1 : ptx_graph_opts :=
  { malloc := [], m := 9585058, k := 4, autogc := 1 }

/-- One transaction begins and commits. -/
def ptx_ops_begin_commit : List ptx_op := [.begin, .commit 1]

/-! ## Vocabulary of the collector -/

/-- The nodes GC must retain: a node is reachable when it is ACTIVE in the live
list or an `outs` edge of a reachable node of the live list targets it. -/
inductive ptx_graph.reaches (g : ptx_graph) : Nat → Prop where
  | root (n : ptx_node) : n ∈ g.nodes → n.state = PTX_ACTIVE → ptx_graph.reaches g n.ident
  | step (a : ptx_node) (e : ptx_edge) : a ∈ g.nodes → ptx_graph.reaches g a.ident →
      e ∈ ptx_edgemap_edges a.outs → ptx_graph.reaches g e.node

/-- The graph `g1` is `g` with some more mark bits set and nothing else changed. -/
def ptx_graph.marks (g g1 : ptx_graph) : Prop :=
  ∃ F : ptx_node → ptx_node, g1 = { g with nodes := g.nodes.map F } ∧
    ∀ n, F n = n ∨ F n = { n with reached := true }

/-- The number of nodes of the live list whose mark bit is clear. -/
def ptx_graph.unmarked (g : ptx_graph) : Nat :=
  g.nodes.countP (fun n => !n.reached)

/-- The heap blocks an edge map owns. -/
def ptx_edgemap.blocks (map : ptx_edgemap) : Int :=
  if map.nbuckets ≠ 0 then 1 else 0

/-- The heap blocks a set owns: the table when it is not the inline array, and
the bloom bits. -/
def ptx_hashset.blocks (set : ptx_hashset) : Int :=
  (if set.buckets.isSome then 1 else 0) + (if set.bits.isSome then 1 else 0)

/-- The heap blocks of a node: the node itself and the blocks of its sets and
maps, which are what `ptx_node_free` releases. -/
def ptx_node.blocks (n : ptx_node) : Int :=
  1 + n.reads.blocks + n.writes.blocks + n.ins.blocks + n.outs.blocks

/-- The heap blocks of the live list. -/
def ptx_graph.blocks (g : ptx_graph) : Int :=
  (g.nodes.map ptx_node.blocks).sum

/-- Bookkeeping of the live list: the idents are distinct and positive, and an
active node has both its tables in the inline array. -/
def ptx_kept (g : ptx_graph) : Prop :=
  (g.nodes.map (fun n => n.ident)).Nodup ∧
  (∀ n ∈ g.nodes, 0 < n.ident) ∧
  (∀ n ∈ g.nodes, n.state = PTX_ACTIVE → n.reads.buckets = none ∧ n.writes.buckets = none)

/-- Every block handed out and not yet freed is the graph itself or is owned by
a node of the live list. -/
def ptx_balanced (g : ptx_graph) : Prop :=
  ptx_kept g ∧ g.nallocs = 1 + g.blocks

/-- What a node keeps when a call does not change its state, its sets or the
flags of its sets. -/
def ptx_node.frozen (n n1 : ptx_node) : Prop :=
  n1.state = n.state ∧ n1.reads = n.reads ∧ n1.writes = n.writes ∧
  n1.hasreads = n.hasreads ∧ n1.haswrites = n.haswrites

/-- A call on `node` rewrites the nodes of the live list in place, keeps their
idents and leaves every other node frozen. -/
def ptx_framed (node : Nat) (g g1 : ptx_graph) : Prop :=
  g1.ident = g.ident ∧ ∃ F : ptx_node → ptx_node, g1.nodes = g.nodes.map F ∧
    ∀ n, (F n).ident = n.ident ∧ (n.ident ≠ node → n.frozen (F n))

/-- The graph `g1` follows `g`: the ident counter did not go back, and every node
of `g1` whose ident was handed out before `g` is a node of `g`, frozen since
then if it was COMMITTED or ROLLEDBACK in `g`. -/
def ptx_graph.holds (g g1 : ptx_graph) : Prop :=
  g.ident ≤ g1.ident ∧
  ∀ x n1, g1.find x = some n1 → x ≤ g.ident →
    ∃ n, g.find x = some n ∧
      ((n.state = PTX_COMMITTED ∨ n.state = PTX_ROLLEDBACK) → n.frozen n1)

/-- One transaction writes an item and commits. -/
def ptx_ops_write_commit : List ptx_op := [.begin, .write 1 7, .commit 1]

/-- One transaction writes an item and commits; then a second one begins and
writes the same item. -/
def ptx_ops_write_commit_write : List ptx_op :=
  [.begin, .write 1 7, .commit 1, .begin, .write 2 7]

/-- A second transaction begins and writes the item `7`. -/
def ptx_ops_begin_write : List ptx_op := [.begin, .write 2 7]

/-! ## Executions on a single item -/

/-- Run a sequence of calls and collect the return values of the commits. -/
def ptx_exec (g : ptx_graph) : List ptx_op → Option (List Bool × ptx_graph)
  | [] => some ([], g)
  | .commit node :: rest =>
    match ptx_node_commit g node with
    | none => none
    | some r =>
      match ptx_exec r.graph rest with
      | none => none
      | some (oks, g1) => some (r.ok :: oks, g1)
  | op :: rest =>
    match ptx_apply g op with
    | none => none
    | some g1 => ptx_exec g1 rest

/-- The test `write-skew-2` on the item with hash `h`. -/
def ptx_ops_write_skew_2 (h : Nat) : List ptx_op :=
  [.begin, .read 1 h, .begin, .read 2 h, .write 1 h, .commit 1, .write 2 h, .commit 2]

/-- The test `dots-2` on the item with hash `h`; the nodes are `T1`, `T2`, the
second `T2` and the second `T1` in the order of their `BEGIN`. -/
def ptx_ops_dots_2 (h : Nat) : List ptx_op :=
  [.begin, .write 1 h, .begin, .write 2 h, .commit 2, .begin, .read 3 h, .commit 3,
   .commit 1, .begin, .write 4 h, .commit 4]

/-- The set that `ptx_hashset_init` builds, with `set->m = m`. -/
def ptx_hashset.fresh (m k : Nat) : ptx_hashset :=
  { nbuckets := 4, count := 0, buckets := none, buckets0 := [0, 0, 0, 0], k := k, m := m,
    bits := none }

/-- The fresh set after one `ptx_hashset_add` of `hash`. -/
def ptx_hashset.single (m k hash : Nat) : ptx_hashset :=
  { nbuckets := 4, count := 1, buckets := none,
    buckets0 := [0, 0, 0, 0].set (ptx_hashof hash &&& 3) (ptx_sethashdib (ptx_hashof hash) 1),
    k := k, m := m, bits := none }

/-- The same set for another item and another sizing: nothing recorded stays
nothing recorded, anything else becomes the one item `hash`. -/
def ptx_hashset.recode (m k hash : Nat) (set : ptx_hashset) : ptx_hashset :=
  if set.count = 0 then ptx_hashset.fresh m k else ptx_hashset.single m k hash

def ptx_node.recode (m k hash : Nat) (n : ptx_node) : ptx_node :=
  { n with reads := n.reads.recode m k hash, writes := n.writes.recode m k hash }

/-- Both sets of the node are fresh or hold the one item `c`, with the sizing of
`test.c`. -/
def ptx_node.coded (c : Nat) (n : ptx_node) : Prop :=
  (n.reads = ptx_hashset.fresh 16777216 4 ∨ n.reads = ptx_hashset.single 16777216 4 c) ∧
  (n.writes = ptx_hashset.fresh 16777216 4 ∨ n.writes = ptx_hashset.single 16777216 4 c)

/-- The graph `g` is the graph `gc` of a reference execution (the sizing of
`test.c`, every set fresh or holding the one item `c`) with the item `hash`,
another allocator that never fails and another sizing in place of these. -/
def ptx_graph.twin (m0 m k hash c : Nat) (g gc : ptx_graph) : Prop :=
  ptx_never_fails g.malloc ∧ ptx_never_fails gc.malloc ∧ g.m = m0 ∧ g.k = k ∧
  gc.m = 9585058 ∧ gc.k = 4 ∧ g.ident = gc.ident ∧ g.autogc = gc.autogc ∧ gc.autogc ≤ 0 ∧
  g.nodes = gc.nodes.map (ptx_node.recode m k hash) ∧
  ∀ n ∈ gc.nodes, n.coded c

/-- The same call on another item. -/
def ptx_op.recode (hash : Nat) : ptx_op → ptx_op
  | .read node _ => .read node hash
  | .write node _ => .write node hash
  | op => op

/-! ## Vocabulary of the edge map -/

/-- A sequence of `ptx_edgemap_add` on one map, each entry a target pointer and
a kind; it stops at the first call that returns false. -/
def ptx_edgemap_adds (g : ptx_graph) (map : ptx_edgemap) :
    List (Nat × Nat) → Option (ptx_graph × ptx_edgemap × Bool)
  | [] => some (g, map, true)
  | x :: rest =>
    match ptx_edgemap_add g map x.1 x.2 with
    | none => none
    | some (g1, map1, false) => some (g1, map1, false)
    | some (g1, map1, true) => ptx_edgemap_adds g1 map1 rest

/-- The map of a new node: `memset` to zero, no bucket array. -/
def ptx_edgemap_empty : ptx_edgemap := { buckets := [], count := 0, nbuckets := 0 }

/-- The target and kind of every occupied bucket, in bucket order. -/
def ptx_bucket_keys (l : List ptx_edge) : List (Nat × Nat) :=
  (l.filter ptx_edge.used).map ptx_edge.key

/-- The Robin-Hood order of a bucket array: an occupied bucket at position `p`
with DIB `d` holds an edge whose home slot is `d - 1` steps before `p`, and from
one bucket to the next (cyclically) the DIB grows by at most one. -/
def ptx_robin (l : List ptx_edge) : Prop :=
  (∀ p b, l[p]? = some b → 0 < b.dib → (b.node + b.dib - 1) % l.length = p) ∧
  (∀ p b b1, l[p]? = some b → l[(p + 1) % l.length]? = some b1 → b1.dib ≤ b.dib + 1)

/-- The shape of an edge map built by `ptx_edgemap_add`: the capacity is zero or
a power of two from `2` on and is the length of the bucket array, the count is
the number of occupied buckets and at most half the capacity, the capacity is
at most four times the count (or at most `2`), the buckets are in Robin-Hood
order and no two occupied buckets hold the same target and kind. -/
def ptx_edgemap.robin (map : ptx_edgemap) : Prop :=
  map.buckets.length = map.nbuckets ∧
  (map.nbuckets = 0 ∨ ∃ j, 1 ≤ j ∧ map.nbuckets = 2 ^ j) ∧
  map.count = (map.buckets.filter ptx_edge.used).length ∧
  2 * map.count ≤ map.nbuckets ∧
  (map.nbuckets ≤ 2 ∨ map.nbuckets ≤ 4 * map.count) ∧
  ptx_robin map.buckets ∧
  (ptx_bucket_keys map.buckets).Nodup

/-! ## Executions with the collector -/

/-- An allocator whose fourth call returns null. -/
def ptx_opts_fail4 : ptx_graph_opts :=
  { malloc := [some [], some [], some [], none], m := 9585058, k := 4, autogc := -1 }

/-- The transaction `T1` writes an item, `T2` begins and reads it. -/
def ptx_ops_write_then_read : List ptx_op := [.begin, .write 1 7, .begin, .read 2 7]

/-- The same, then a collection. -/
def ptx_ops_write_then_read_gc : List ptx_op := [.begin, .write 1 7, .begin, .read 2 7, .gc]

/-- The same, then the rollback that the open transaction `T2` still has to make. -/
def ptx_ops_write_then_read_gc_rollback : List ptx_op :=
  [.begin, .write 1 7, .begin, .read 2 7, .gc, .rollback 2]

/-- The transaction `T1` writes an item, `T2` reads it, `T1` commits. -/
def ptx_ops_read_after_write : List ptx_op :=
  [.begin, .write 1 7, .begin, .read 2 7, .commit 1]

/-- The same, then a collection. -/
def ptx_ops_read_after_write_gc : List ptx_op :=
  [.begin, .write 1 7, .begin, .read 2 7, .commit 1, .gc]

/-! ## The mark phase with a record of its visits -/

/-- The function `ptx_node_gcmark` together with a record of the nodes whose
`outs` map it iterates, the latest first: the code is the same, and a node is
entered in the record at the point where the loop over its edges starts. -/
def ptx_node_gcmark_log : Nat → ptx_graph × List Nat → Nat → Option (ptx_graph × List Nat)
  | 0, _, _ => none
  | fuel + 1, (g, log), node =>
    match g.find node with
    | none => none
    | some n =>
      if n.reached then some (g, log)
      else
        (ptx_edgemap_edges n.outs).foldlM
          (fun acc edge => ptx_node_gcmark_log fuel acc edge.node)
          (g.update node (fun x => { x with reached := true }), node :: log)

/-! ## Vocabulary of the hash set -/

/-- A sequence of `ptx_hashset_add` on one set; it stops at the first call that
returns false. -/
def ptx_hashset_addall (g : ptx_graph) (set : ptx_hashset) :
    List Nat → Option (ptx_graph × ptx_hashset × Bool)
  | [] => some (g, set, true)
  | h :: rest =>
    match ptx_hashset_add g set h with
    | none => none
    | some (g1, set1, false) => some (g1, set1, false)
    | some (g1, set1, true) => ptx_hashset_addall g1 set1 rest

/-- Bit `j` of a bit array kept as bytes is set. -/
def ptx_bit_set (bits : List Nat) (j : Nat) : Prop :=
  ∃ byte, bits[j >>> 3]? = some byte ∧ (byte >>> (j &&& 7)) &&& 1 ≠ 0

/-- Every bit that is set in `bits` is set in `bits1`, an array of the same size. -/
def ptx_bits_le (bits bits1 : List Nat) : Prop :=
  bits1.length = bits.length ∧ ∀ j, ptx_bit_set bits j → ptx_bit_set bits1 j

/-- The fresh set after the adds of two items `a`, `b` with different 56-bit
hashes: `b` is in its home bucket, or in the next one with DIB `2` when `a` has
the same home. -/
def ptx_hashset.double (m k a b : Nat) : ptx_hashset :=
  { nbuckets := 4, count := 2, buckets := none,
    buckets0 :=
      ([0, 0, 0, 0].set (ptx_hashof a &&& 3) (ptx_sethashdib (ptx_hashof a) 1)).set
        (if ptx_hashof b &&& 3 = ptx_hashof a &&& 3 then ((ptx_hashof a &&& 3) + 1) &&& 3
          else ptx_hashof b &&& 3)
        (ptx_sethashdib (ptx_hashof b)
          (if ptx_hashof b &&& 3 = ptx_hashof a &&& 3 then 2 else 1)),
    k := k, m := m, bits := none }

/-- A set in bloom mode with sizing `m`, `k`: a filter of `m / 8` bytes, `m` a
power of two from `8` on. -/
def ptx_hashset.bloom (m k : Nat) (set : ptx_hashset) : Prop :=
  ∃ (bits : List Nat) (i : Nat), set.bits = some bits ∧ set.m = m ∧ set.k = k ∧ m = 2 ^ i ∧
    3 ≤ i ∧ bits.length = m / 8

/-- Every bit that `ptx_testadd` visits for `hash` is set in the filter. -/
def ptx_hashset.holds (set : ptx_hashset) (hash : Nat) : Prop :=
  ∃ bits, set.bits = some bits ∧
    ptx_testadd_loop set.m false ((set.k + 2 ^ 64 - 1) % 2 ^ 64) bits (ptx_hashof hash)
      (ptx_hashof hash &&& (set.m - 1)) = some (bits, true)

/-- The item `hash` is recorded in a set of sizing `m`, `k`: the set is the
table with one or two items, one of them with the 56-bit hash of `hash`, or it
is a bloom filter in which the bits of `hash` are set. -/
def ptx_hashset.keeps (m k : Nat) (set : ptx_hashset) (hash : Nat) : Prop :=
  (∃ a, set = ptx_hashset.single m k a ∧ ptx_hashof a = ptx_hashof hash) ∨
  (∃ a b, ptx_hashof a ≠ ptx_hashof b ∧ set = ptx_hashset.double m k a b ∧
    (ptx_hashof a = ptx_hashof hash ∨ ptx_hashof b = ptx_hashof hash)) ∨
  (ptx_hashset.bloom m k set ∧ set.holds hash)

/-- The states of a set of sizing `m`, `k` that successful adds reach. -/
def ptx_hashset.shape (m k : Nat) (set : ptx_hashset) : Prop :=
  set = ptx_hashset.fresh m k ∨ (∃ a, set = ptx_hashset.single m k a) ∨
  (∃ a b, ptx_hashof a ≠ ptx_hashof b ∧ set = ptx_hashset.double m k a b) ∨
  ptx_hashset.bloom m k set

/-! ## Vocabulary of the wrap of the 16-bit DIB -/

/-- The `p`-th ident that is `1` modulo `131072`: in a map of at most `131072`
buckets the home slot of an edge to such a node is bucket `1`. -/
def ptx_collider (p : Nat) : Nat := p * 131072 + 1

/-- The edge map that holds the `k` edges of kind `K` to the nodes
`ptx_collider 1`, ..., `ptx_collider k` in a bucket array of `cap` buckets: they
all have home slot `1`, so bucket `p` holds the edge to `ptx_collider p`, with
the DIB `p` as a `uint16_t`. -/
def ptx_colliding (K k cap : Nat) : ptx_edgemap :=
  { buckets := (List.range cap).map (fun p =>
      if 1 ≤ p ∧ p ≤ k then { dib := p % 65536, kind := K, node := ptx_collider p }
      else { dib := 0, kind := 0, node := 0 }),
    count := k, nbuckets := cap }

/-- The capacity of an edge map after `k` additions of distinct entries: zero
for no entry, otherwise the power of two from `2 * k` to below `4 * k` (or
`2`). -/
def ptx_capacity (k cap : Nat) : Prop :=
  (k = 0 ∧ cap = 0) ∨
  ∃ i, 1 ≤ i ∧ i ≤ 17 ∧ cap = 2 ^ i ∧ 2 * k ≤ cap ∧ (cap = 2 ∨ cap < 4 * k)

/-- The additions of the edges to `ptx_collider s`, ..., in order, kind `K`. -/
def ptx_collider_adds (K s r : Nat) : List (Nat × Nat) :=
  (List.range' s r).map (fun p => (ptx_collider p, K))

/-! ## Vocabulary of properties that every call keeps -/

/-- A property of graphs is stable when it is kept by the four ways in which a
call other than the collector changes a well-formed graph: a call of the
allocator, an update of nodes that leaves their idents and edge maps alone,
`ptx_node_adddep`, and `ptx_graph_begin`. -/
def ptx_stable (I : ptx_graph → Prop) : Prop :=
  (∀ g g1, ptx_wf g → I g → g.same g1 →
    (ptx_never_fails g.malloc → ptx_never_fails g1.malloc) → I g1) ∧
  (∀ g x f, ptx_wf g → I g →
    (∀ n : ptx_node, (f n).ident = n.ident ∧ (f n).outs = n.outs ∧ (f n).ins = n.ins) →
    I (g.update x f)) ∧
  (∀ g g1 a b K ok, ptx_wf g → I g → ptx_node_adddep g a b K = some (g1, ok) → I g1) ∧
  (∀ g g1 r, ptx_wf g → g.ident + 1 < 2 ^ 64 → I g → ptx_graph_begin g = some (g1, r) → I g1)

/-! ## Vocabulary of the growth of an edge map -/

/-- The map `map1` is reached from `map` by calls of `ptx_edgemap_add` that
returned true, one for each pair of the list, in order; a pair is the target
and the kind as stored, a 16-bit value. -/
def ptx_edgemap.gains : ptx_edgemap → List (Nat × Nat) → ptx_edgemap → Prop
  | map, [], map1 => map1 = map
  | map, x :: rest, map1 =>
    ∃ (g ga : ptx_graph) (mid : ptx_edgemap) (kind : Nat), kind % 65536 = x.2 ∧
      ptx_edgemap_add g map x.1 kind = some (ga, mid, true) ∧ ptx_edgemap.gains mid rest map1

/-- How `ptx_node_adddep g a b K` changes a node `n` of the live list into `n1`;
`ei` says that the addition to `b.ins` was made and returned true, `eo` the same
for the addition to `a.outs`. -/
def ptx_node.dep (a b K : Nat) (ei eo : Bool) (n n1 : ptx_node) : Prop :=
  n1.ident = n.ident ∧
  (n.ident = b ∧ ei = true →
    ∃ g ga, ptx_edgemap_add g n.ins a K = some (ga, n1.ins, true)) ∧
  (¬ (n.ident = b ∧ ei = true) → n1.ins = n.ins) ∧
  (n.ident = a ∧ eo = true →
    ∃ g ga, ptx_edgemap_add g n.outs b K = some (ga, n1.outs, true)) ∧
  (¬ (n.ident = a ∧ eo = true) → n1.outs = n.outs)

/-- The range of an edge map in which no 16-bit DIB has wrapped: at most `131072`
buckets and at most `65535` entries counted. -/
def ptx_edgemap.small (map : ptx_edgemap) : Prop :=
  map.nbuckets ≤ 131072 ∧ map.count ≤ 65535

instance (map : ptx_edgemap) : Decidable map.small := by
  unfold ptx_edgemap.small
  exact inferInstance

/-- A record of the additions behind the edge maps of a graph.  For every ident
there is the list `lo` of the pairs added to the `outs` map of that node and the
list `li` of the pairs added to its `ins` map, each addition a call of
`ptx_edgemap_add` that returned true, starting from the empty map of a new
node.  Every pair added to an `outs` map has its mirror among the pairs added to
the `ins` map of the target; under `strict`, the allocator does not fail and the
converse holds too. -/
def ptx_mirror (strict : Prop) (g : ptx_graph) : Prop :=
  ∃ lo li : Nat → List (Nat × Nat),
    (∀ n ∈ g.nodes, ptx_edgemap_empty.gains (lo n.ident) n.outs ∧
      ptx_edgemap_empty.gains (li n.ident) n.ins) ∧
    (∀ a, g.ident < a → lo a = [] ∧ li a = []) ∧
    (∀ a b K, (b, K) ∈ lo a → (a, K) ∈ li b) ∧
    (strict → ptx_never_fails g.malloc ∧ ∀ a b K, (a, K) ∈ li b → (b, K) ∈ lo a)

/-- The node `id` is in the live list and its two edge maps were reached from
those of `n` by additions. -/
def ptx_gained (id : Nat) (n : ptx_node) (g : ptx_graph) : Prop :=
  ∃ (n1 : ptx_node) (lo li : List (Nat × Nat)), g.find id = some n1 ∧
    n.outs.gains lo n1.outs ∧ n.ins.gains li n1.ins

/-- What `ptx_node_adddep g a b K` makes of a node when both additions return
true: the node `b` gets the new `ins` map and the flag `hasdeps`, the node `a`
the new `outs` map, in the order of the three stores of the function. -/
def ptx_node.linked (a b : Nat) (ins1 outs1 : ptx_edgemap) (n : ptx_node) : ptx_node :=
  (fun m : ptx_node => if m.ident == b then { m with hasdeps := true } else m)
    ((fun m : ptx_node => if m.ident == a then { m with outs := outs1 } else m)
      (if n.ident == b then { n with ins := ins1 } else n))

/-! ## A run that wraps the 16-bit DIB of an edge map

One transaction `T1` writes the item `7`.  Then, `65536` times over, `131072`
transactions begin and the last of them reads the item: the readers have the
idents `ptx_collider 1`, `ptx_collider 2`, ..., which all have the home slot
`1` in `T1.outs`.  At the end `T1` may write the item once more, which adds
the readers to `T1.ins`. -/

/-- The node that `ptx_graph_begin` makes, with ident `x`. -/
def ptx_node.fresh (m k x : Nat) : ptx_node :=
  { state := PTX_ACTIVE, ident := x, reached := false, nomem := false, hasdeps := false,
    hasreads := false, haswrites := false, outs := ptx_edgemap_empty, ins := ptx_edgemap_empty,
    reads := ptx_hashset.fresh m k, writes := ptx_hashset.fresh m k }

/-- The map with the one entry `(1, K)`, as `ptx_edgemap_add` builds it from the
empty map. -/
def ptx_edgemap.one (K : Nat) : ptx_edgemap :=
  { buckets := [{ dib := 0, kind := 0, node := 0 }, { dib := 1, kind := K, node := 1 }],
    count := 1, nbuckets := 2 }

/-- The node with ident `x` in the run: `T1` in state `st` with `j` readers in
its `outs` map and `t` of them in its `ins` map; a reader, when `x` is one of
the first `j` colliding idents; a node that has only begun otherwise. -/
def ptx_wrap_node (m k st j cap t capi x : Nat) : ptx_node :=
  if x = 1 then
    { state := st, ident := 1, reached := false, nomem := false, hasdeps := decide (0 < t),
      hasreads := false, haswrites := true, outs := ptx_colliding PTX_WR j cap,
      ins := ptx_colliding PTX_RW t capi, reads := ptx_hashset.fresh m k,
      writes := ptx_hashset.single m k 7 }
  else if x % 131072 = 1 ∧ x ≤ ptx_collider j then
    { state := PTX_ACTIVE, ident := x, reached := false, nomem := false, hasdeps := true,
      hasreads := true, haswrites := false,
      outs := if x ≤ ptx_collider t then ptx_edgemap.one PTX_RW else ptx_edgemap_empty,
      ins := ptx_edgemap.one PTX_WR, reads := ptx_hashset.single m k 7,
      writes := ptx_hashset.fresh m k }
  else ptx_node.fresh m k x

/-- A graph of the run: the live list holds the nodes `1, ..., N` in the shape
`ptx_wrap_node` gives them, the allocator does not fail, and the sets of a new
node are `ptx_hashset.fresh m k`. -/
def ptx_wrapped (m k st j cap t capi N : Nat) (g : ptx_graph) : Prop :=
  g.nodes = (List.range' 1 N).map (ptx_wrap_node m k st j cap t capi) ∧ g.ident = N ∧
  ptx_never_fails g.malloc ∧ ptx_hashset_init g.m g.k = some (ptx_hashset.fresh m k)

/-- The calls of the first `j` readers: `131072` times begin, then the last of
these transactions reads the item `7`. -/
def ptx_ops_readers : Nat → List ptx_op
  | 0 => []
  | j + 1 => ptx_ops_readers j ++
      (List.replicate 131072 ptx_op.begin ++ [ptx_op.read (ptx_collider (j + 1)) 7])

/-- The writer begins and writes the item `7`. -/
def ptx_ops_writer : List ptx_op := [ptx_op.begin, ptx_op.write 1 7]

/-- The writer, `65536` readers, and the writer once more. -/
def ptx_ops_wrap : List ptx_op :=
  ptx_ops_writer ++ (ptx_ops_readers 65536 ++ [ptx_op.write 1 7])

/-- The writer, `65535` readers, and a last transaction ready to read. -/
def ptx_ops_wrap_before : List ptx_op :=
  ptx_ops_writer ++ (ptx_ops_readers 65535 ++ List.replicate 131072 ptx_op.begin)

/-! ## Iteration over an edge map -/

theorem ptx_edge.used_iff (e : ptx_edge) : e.used = true ↔ e.dib ≠ 0 := by
  simp [ptx_edge.used]; omega

theorem ptx_iter_loop_spec (map : ptx_edgemap) (hlen : map.buckets.length = map.nbuckets) :
    ∀ (rest : List ptx_edge) (fuel pidx : Nat), map.buckets.drop pidx = rest → rest.length < fuel →
      (ptx_edgemap_iter_loop map fuel pidx = none ∧ rest.filter ptx_edge.used = []) ∨
      (∃ e post, ptx_edgemap_iter_loop map fuel pidx = some (e, map.buckets.length - post.length) ∧
        rest.filter ptx_edge.used = e :: post.filter ptx_edge.used ∧
        map.buckets.drop (map.buckets.length - post.length) = post ∧ post.length < rest.length) := by
  intro rest
  induction rest with
  | nil =>
    intro fuel pidx hdrop hfuel
    left
    have hp : map.nbuckets ≤ pidx := by
      have := List.drop_eq_nil_iff.mp hdrop
      omega
    cases fuel with
    | zero => simp at hfuel
    | succ f => simp [ptx_edgemap_iter_loop, hp]
  | cons b rest ih =>
    intro fuel pidx hdrop hfuel
    cases fuel with
    | zero => simp at hfuel
    | succ f =>
      have hlt : pidx < map.buckets.length := by
        by_contra hcon
        have : map.buckets.drop pidx = [] := List.drop_eq_nil_iff.mpr (by omega)
        rw [this] at hdrop
        cases hdrop
      have hget : map.buckets[pidx]? = some b := by
        rw [← List.head?_drop, hdrop]; rfl
      have hdrop1 : map.buckets.drop (pidx + 1) = rest := by
        have : map.buckets.drop (pidx + 1) = (map.buckets.drop pidx).drop 1 := by
          rw [List.drop_drop, Nat.add_comm]
        rw [this, hdrop]; rfl
      have hl : map.buckets.length - rest.length = pidx + 1 := by
        have := congrArg List.length hdrop1
        simp at this
        omega
      have hnot : ¬ pidx ≥ map.nbuckets := by omega
      simp only [List.length_cons] at hfuel
      by_cases hb : b.dib = 0
      · have hb1 : ¬ b.dib > 0 := by omega
        have hu : b.used = false := by simp [ptx_edge.used, hb]
        rcases ih f (pidx + 1) hdrop1 (by omega) with ⟨h1, h2⟩ | ⟨e, post, h1, h2, h3, h4⟩
        · left
          refine ⟨?_, ?_⟩
          · simp [ptx_edgemap_iter_loop, hnot, hget, hb, h1]
          · rw [List.filter_cons, hu]; simpa using h2
        · right
          refine ⟨e, post, ?_, ?_, h3, ?_⟩
          · simp [ptx_edgemap_iter_loop, hnot, hget, hb, h1]
          · rw [List.filter_cons, hu]; simpa using h2
          · simp; omega
      · right
        have hb1 : b.dib > 0 := by omega
        have hu : b.used = true := by simp [ptx_edge.used, hb1]
        refine ⟨b, rest, ?_, ?_, ?_, ?_⟩
        · simp [ptx_edgemap_iter_loop, hnot, hget, hb1, hl]
        · rw [List.filter_cons, hu]; simp
        · rw [hl]; exact hdrop1
        · simp

theorem ptx_walk_spec (map : ptx_edgemap) (hlen : map.buckets.length = map.nbuckets) :
    ∀ (n : Nat) (rest : List ptx_edge) (fuel pidx : Nat), rest.length ≤ n →
      map.buckets.drop pidx = rest → pidx ≤ map.buckets.length → rest.length < fuel →
      ptx_edgemap_walk map fuel pidx = rest.filter ptx_edge.used := by
  intro n
  induction n with
  | zero =>
    intro rest fuel pidx hn hdrop hp hfuel
    have : rest = [] := List.eq_nil_of_length_eq_zero (by omega)
    subst this
    cases fuel with
    | zero => simp at hfuel
    | succ f =>
      have hlen2 : (map.buckets.drop pidx).length = 0 := by rw [hdrop]; rfl
      simp at hlen2
      have h := ptx_iter_loop_spec map hlen [] (map.nbuckets + 1 - pidx) pidx hdrop (by simp; omega)
      simp at h
      simp [ptx_edgemap_walk, ptx_edgemap_iter, h]
  | succ n ih =>
    intro rest fuel pidx hn hdrop hp hfuel
    cases fuel with
    | zero => simp at hfuel
    | succ f =>
      have hlen2 : (map.buckets.drop pidx).length = rest.length := by rw [hdrop]
      simp at hlen2
      rcases ptx_iter_loop_spec map hlen rest (map.nbuckets + 1 - pidx) pidx hdrop (by omega) with
        ⟨h1, h2⟩ | ⟨e, post, h1, h2, h3, h4⟩
      · simp only [ptx_edgemap_walk, ptx_edgemap_iter, h1, h2]
      · have := ih post f (map.buckets.length - post.length) (by omega) h3 (by omega) (by omega)
        simp only [ptx_edgemap_walk, ptx_edgemap_iter, h1, h2, this]

theorem ptx_edgemap_edges_eq (map : ptx_edgemap) (hlen : map.buckets.length = map.nbuckets) :
    ptx_edgemap_edges map = map.buckets.filter ptx_edge.used := by
  unfold ptx_edgemap_edges
  exact ptx_walk_spec map hlen map.buckets.length map.buckets _ 0 (le_refl _) rfl (by omega) (by omega)

/-! ## Pointer access -/

theorem ptx_graph.find_update (g : ptx_graph) (node other : Nat) (f : ptx_node → ptx_node)
    (hf : ∀ n, (f n).ident = n.ident) :
    (g.update node f).find other =
      (g.find other).map (fun n => if n.ident == node then f n else n) := by
  unfold ptx_graph.update ptx_graph.find
  simp only [List.find?_map]
  congr 1
  apply congrArg (fun p => List.find? p g.nodes)
  funext n
  simp only [Function.comp]
  split <;> simp [hf]

theorem ptx_graph.find_some (g : ptx_graph) (node : Nat) (n : ptx_node)
    (h : g.find node = some n) : n ∈ g.nodes ∧ n.ident = node := by
  unfold ptx_graph.find at h
  refine ⟨List.mem_of_find?_eq_some h, ?_⟩
  have := List.find?_some h
  simpa using this

theorem ptx_graph.mem_update (g : ptx_graph) (node : Nat) (f : ptx_node → ptx_node)
    (x : ptx_node) :
    x ∈ (g.update node f).nodes ↔ ∃ n ∈ g.nodes, x = if n.ident == node then f n else n := by
  unfold ptx_graph.update
  simp only [List.mem_map]
  constructor
  · rintro ⟨n, hn, rfl⟩; exact ⟨n, hn, rfl⟩
  · rintro ⟨n, hn, rfl⟩; exact ⟨n, hn, rfl⟩

/-! ## Commit -/

theorem ptx_node_deactivate_off (g : ptx_graph) (node state : Nat) (n : ptx_node)
    (hfind : g.find node = some n) (hgc : g.autogc ≤ 0) :
    ptx_node_deactivate g node state = some (g.update node (fun x => { x with state := state })) := by
  unfold ptx_node_deactivate
  rw [hfind]
  have : ¬ (g.update node (fun x => { x with state := state })).autogc > 0 := by
    simp [ptx_graph.update]; exact hgc
  simp only [this, if_false]

theorem ptx_graph.state_update (g : ptx_graph) (node state : Nat) (n : ptx_node)
    (hfind : g.find node = some n) :
    ((g.update node (fun x => { x with state := state })).find node).map (fun x => x.state)
      = some state := by
  rw [ptx_graph.find_update g node node (fun x => { x with state := state }) (fun _ => rfl), hfind]
  have := (ptx_graph.find_some g node n hfind).2
  simp [this]

theorem ptx_node_commit_scan_spec (g : ptx_graph) :
    ∀ (edges : List ptx_edge), (∀ e ∈ edges, (g.find e.node).isSome) →
      ∃ b, ptx_node_commit_scan g edges = some b ∧
        (b = true ↔ ∃ e ∈ edges, ∃ t, g.find e.node = some t ∧
          t.state = PTX_COMMITTED ∧ t.haswrites = true)
  | [], _ => ⟨false, rfl, by simp⟩
  | e :: rest, hlive => by
    have he := hlive e (List.mem_cons_self _ _)
    obtain ⟨t, ht⟩ := Option.isSome_iff_exists.mp he
    obtain ⟨b, hb, hiff⟩ := ptx_node_commit_scan_spec g rest
      (fun x hx => hlive x (List.mem_cons_of_mem _ hx))
    by_cases hc : t.state = PTX_COMMITTED ∧ t.haswrites = true
    · refine ⟨true, ?_, ?_⟩
      · simp [ptx_node_commit_scan, ht, hc]
      · simp only [true_iff]
        exact ⟨e, List.mem_cons_self _ _, t, ht, hc.1, hc.2⟩
    · refine ⟨b, ?_, ?_⟩
      · simp only [ptx_node_commit_scan, ht, hc, if_false]
        exact hb
      · rw [hiff]
        constructor
        · rintro ⟨x, hx, t1, h1, h2, h3⟩
          exact ⟨x, List.mem_cons_of_mem _ hx, t1, h1, h2, h3⟩
        · rintro ⟨x, hx, t1, h1, h2, h3⟩
          rcases List.mem_cons.mp hx with rfl | hx
          · rw [ht] at h1
            cases h1
            exact absurd ⟨h2, h3⟩ hc
          · exact ⟨x, hx, t1, h1, h2, h3⟩

theorem ptx_node_commit_nomem (g : ptx_graph) (node : Nat) (n : ptx_node)
    (hfind : g.find node = some n) (hs : n.state = PTX_NOMEM) (hgc : g.autogc ≤ 0) :
    ptx_node_commit g node = some
      { ok := false, graph := g.update node (fun x => { x with state := PTX_ROLLEDBACK }),
        _ptx_oom := true } := by
  unfold ptx_node_commit
  rw [hfind]
  simp only []
  rw [if_pos hs, ptx_node_deactivate_off g node _ n hfind hgc]

theorem ptx_node_commit_active (g : ptx_graph) (node : Nat) (n : ptx_node) (b : Bool)
    (hfind : g.find node = some n) (hs : n.state = PTX_ACTIVE) (hgc : g.autogc ≤ 0)
    (hscan : ptx_node_commit_scan g (ptx_edgemap_edges n.outs) = some b) :
    ptx_node_commit g node = some
      { ok := !b,
        graph := g.update node
          (fun x => { x with state := if b then PTX_ROLLEDBACK else PTX_COMMITTED }),
        _ptx_oom := false } := by
  have hnm : ¬ n.state = PTX_NOMEM := by rw [hs]; decide
  unfold ptx_node_commit
  rw [hfind]
  simp only []
  rw [if_neg hnm, if_pos hs, hscan]
  cases b <;> simp only [] <;> rw [ptx_node_deactivate_off g node _ n hfind hgc] <;> rfl

/-- The commit decision on a graph with `autogc` off and an ACTIVE node whose `outs`
targets are live. -/
theorem ptx_node_commit_live_decision (g : ptx_graph) (node : Nat) (n : ptx_node)
    (hfind : g.find node = some n) (hactive : n.state = PTX_ACTIVE) (hgc : g.autogc ≤ 0)
    (hlive : ∀ e ∈ ptx_edgemap_edges n.outs, (g.find e.node).isSome) :
    ∃ r, ptx_node_commit g node = some r ∧
      (r.ok = false ↔ ∃ e ∈ ptx_edgemap_edges n.outs, ∃ t, g.find e.node = some t ∧
        t.state = PTX_COMMITTED ∧ t.haswrites = true) ∧
      (r.ok = false → (r.graph.find node).map (fun x => x.state) = some PTX_ROLLEDBACK) ∧
      (r.ok = true → (r.graph.find node).map (fun x => x.state) = some PTX_COMMITTED) := by
  obtain ⟨b, hb, hiff⟩ := ptx_node_commit_scan_spec g _ hlive
  refine ⟨_, ptx_node_commit_active g node n b hfind hactive hgc hb, ?_, ?_, ?_⟩
  · rw [← hiff]; cases b <;> simp
  · intro h
    have hb1 : b = true := by cases b <;> simp_all
    subst hb1
    exact ptx_graph.state_update g node _ n hfind
  · intro h
    have hb1 : b = false := by cases b <;> simp_all
    subst hb1
    exact ptx_graph.state_update g node _ n hfind

/-- The OOM sentinel after a commit on a graph with `autogc` off. -/
theorem ptx_node_commit_live_oom (g : ptx_graph) (node : Nat) (n : ptx_node)
    (hfind : g.find node = some n) (hgc : g.autogc ≤ 0) :
    (n.state = PTX_NOMEM →
      ∃ r, ptx_node_commit g node = some r ∧ r.ok = false ∧ ptx_oom r = true ∧
        (r.graph.find node).map (fun x => x.state) = some PTX_ROLLEDBACK) ∧
    (n.state = PTX_ACTIVE → (∀ e ∈ ptx_edgemap_edges n.outs, (g.find e.node).isSome) →
      ∃ r, ptx_node_commit g node = some r ∧ ptx_oom r = false) ∧
    (∀ r, ptx_node_commit g node = some r → r.ok = false →
      (ptx_oom r = true ↔ n.state = PTX_NOMEM)) := by
  refine ⟨?_, ?_, ?_⟩
  · intro hs
    exact ⟨_, ptx_node_commit_nomem g node n hfind hs hgc, rfl, rfl,
      ptx_graph.state_update g node _ n hfind⟩
  · intro hs hlive
    obtain ⟨b, hb, -⟩ := ptx_node_commit_scan_spec g _ hlive
    exact ⟨_, ptx_node_commit_active g node n b hfind hs hgc hb, rfl⟩
  · intro r hr hok
    by_cases hs : n.state = PTX_NOMEM
    · rw [ptx_node_commit_nomem g node n hfind hs hgc] at hr
      cases hr
      simp [ptx_oom, hs]
    · by_cases ha : n.state = PTX_ACTIVE
      · cases hscan : ptx_node_commit_scan g (ptx_edgemap_edges n.outs) with
        | none =>
          unfold ptx_node_commit at hr
          rw [hfind] at hr
          simp only [] at hr
          rw [if_neg hs, if_pos ha, hscan] at hr
          cases hr
        | some b =>
          rw [ptx_node_commit_active g node n b hfind ha hgc hscan] at hr
          cases hr
          simp [ptx_oom, hs]
      · unfold ptx_node_commit at hr
        rw [hfind] at hr
        simp only [] at hr
        rw [if_neg hs, if_neg ha] at hr
        cases hr

/-! ## Edge map: entries of a bucket array -/

/-- The entries of a bucket array: target and kind of every occupied bucket. -/
theorem ptx_edgemap_keys_eq (map : ptx_edgemap) (hlen : map.buckets.length = map.nbuckets) :
    ptx_edgemap_keys map = (map.buckets.filter ptx_edge.used).map ptx_edge.key := by
  unfold ptx_edgemap_keys
  rw [ptx_edgemap_edges_eq map hlen]

theorem ptx_list_split_at {α : Type} (l : List α) (i : Nat) (b : α) (h : l[i]? = some b) :
    l = l.take i ++ b :: l.drop (i + 1) ∧ ∀ e, l.set i e = l.take i ++ e :: l.drop (i + 1) := by
  obtain ⟨hlt, hb⟩ := List.getElem?_eq_some.mp h
  constructor
  · conv_lhs => rw [← List.take_append_drop i l]
    rw [List.drop_eq_getElem_cons hlt, hb]
  · intro e
    rw [List.set_eq_take_append_cons_drop, if_pos hlt]

/-! ## Allocator -/

theorem ptx_graph.same_refl (g : ptx_graph) : g.same g := ⟨rfl, rfl, rfl, rfl, rfl⟩

theorem ptx_graph.same_trans (g g1 g2 : ptx_graph) (h1 : g.same g1) (h2 : g1.same g2) :
    g.same g2 := by
  obtain ⟨a1, a2, a3, a4, a5⟩ := h1
  obtain ⟨b1, b2, b3, b4, b5⟩ := h2
  exact ⟨b1.trans a1, b2.trans a2, b3.trans a3, b4.trans a4, b5.trans a5⟩

theorem ptx_graph.same_release (g : ptx_graph) : g.same g.release ∧ g.release.malloc = g.malloc :=
  ⟨⟨rfl, rfl, rfl, rfl, rfl⟩, rfl⟩

theorem ptx_graph.alloc_never_fails (g : ptx_graph) (hnf : ptx_never_fails g.malloc) :
    ∃ junk g1, g.alloc = (some junk, g1) ∧ g.same g1 ∧ ptx_never_fails g1.malloc := by
  unfold ptx_graph.alloc
  cases hm : g.malloc with
  | nil =>
    refine ⟨[], _, rfl, ⟨rfl, rfl, rfl, rfl, rfl⟩, ?_⟩
    simp only [hm]
    intro x hx
    cases hx
  | cons a rest =>
    have ha : a ≠ none := hnf a (by rw [hm]; exact List.mem_cons_self _ _)
    cases a with
    | none => exact absurd rfl ha
    | some junk =>
      refine ⟨junk, _, rfl, ⟨rfl, rfl, rfl, rfl, rfl⟩, ?_⟩
      intro x hx
      exact hnf x (by rw [hm]; exact List.mem_cons_of_mem _ hx)

/-! ## Edge map: shape -/

theorem ptx_edgemap_add0_loop_shape :
    ∀ (fuel : Nat) (map : ptx_edgemap) (edge : ptx_edge) (i : Nat) (map1 : ptx_edgemap),
      ptx_edgemap_add0_loop fuel map edge i = some map1 →
      map1.nbuckets = map.nbuckets ∧ map1.buckets.length = map.buckets.length := by
  intro fuel
  induction fuel with
  | zero =>
    intro map edge i map1 h
    simp [ptx_edgemap_add0_loop] at h
  | succ f ih =>
    intro map edge i map1 h
    unfold ptx_edgemap_add0_loop at h
    cases hget : map.buckets[i]? with
    | none => rw [hget] at h; simp at h
    | some b =>
      rw [hget] at h
      simp only [] at h
      by_cases hb : b.dib = 0
      · rw [if_pos hb] at h
        cases h
        exact ⟨rfl, by simp⟩
      · rw [if_neg hb] at h
        by_cases heq : ptx_edge_equal b edge = true
        · rw [if_pos heq] at h
          cases h
          exact ⟨rfl, rfl⟩
        · rw [if_neg heq] at h
          obtain ⟨e1, e2⟩ := ih _ _ _ _ h
          by_cases hsw : b.dib < edge.dib
          · simp only [hsw, if_true] at e1 e2
            exact ⟨e1, by simpa using e2⟩
          · simp only [hsw, if_false] at e1 e2
            exact ⟨e1, e2⟩

theorem ptx_edgemap_grow_loop_shape :
    ∀ (old : List ptx_edge) (map map1 : ptx_edgemap),
      ptx_edgemap_grow_loop map old = some map1 →
      map1.nbuckets = map.nbuckets ∧ map1.buckets.length = map.buckets.length := by
  intro old
  induction old with
  | nil =>
    intro map map1 h
    simp [ptx_edgemap_grow_loop] at h
    subst h
    exact ⟨rfl, rfl⟩
  | cons b rest ih =>
    intro map map1 h
    unfold ptx_edgemap_grow_loop at h
    by_cases hb : b.dib ≠ 0
    · rw [if_pos hb] at h
      cases hadd : ptx_edgemap_add0 map b with
      | none => rw [hadd] at h; simp at h
      | some map2 =>
        rw [hadd] at h
        simp only [] at h
        obtain ⟨a1, a2⟩ := ptx_edgemap_add0_loop_shape _ _ _ _ _ hadd
        obtain ⟨e1, e2⟩ := ih map2 map1 h
        exact ⟨e1.trans a1, e2.trans a2⟩
    · rw [if_neg hb] at h
      exact ih map map1 h

/-! ## Calls that leave the live list as it is, and two runs -/

theorem ptx_graph.alloc_same (g : ptx_graph) :
    g.same g.alloc.2 ∧ (ptx_never_fails g.malloc → ptx_never_fails g.alloc.2.malloc) := by
  unfold ptx_graph.alloc
  cases hm : g.malloc with
  | nil =>
    refine ⟨⟨rfl, rfl, rfl, rfl, rfl⟩, ?_⟩
    intro _
    simp only [hm]
    intro x hx
    cases hx
  | cons a rest =>
    cases a with
    | none =>
      refine ⟨⟨rfl, rfl, rfl, rfl, rfl⟩, ?_⟩
      intro hnf x hx
      exact hnf x (List.mem_cons_of_mem _ hx)
    | some junk =>
      refine ⟨⟨rfl, rfl, rfl, rfl, rfl⟩, ?_⟩
      intro hnf x hx
      exact hnf x (List.mem_cons_of_mem _ hx)

theorem ptx_hashset_add_same (g g1 : ptx_graph) (set set1 : ptx_hashset) (hash : Nat) (ok : Bool)
    (h : ptx_hashset_add g set hash = some (g1, set1, ok)) :
    g.same g1 ∧ (ptx_never_fails g.malloc → ptx_never_fails g1.malloc) := by
  unfold ptx_hashset_add at h
  by_cases hb : set.bits.isSome = true
  · rw [if_pos hb] at h
    cases ht : ptx_testadd set hash true with
    | none => rw [ht] at h; simp at h
    | some r =>
      rw [ht] at h
      simp only [Option.some.injEq, Prod.mk.injEq] at h
      rw [← h.1]
      exact ⟨ptx_graph.same_refl g, fun x => x⟩
  · rw [if_neg hb] at h
    by_cases hc : set.count < set.nbuckets >>> 1
    · rw [if_pos hc] at h
      cases ht : ptx_add0 set hash with
      | none => rw [ht] at h; simp at h
      | some r =>
        rw [ht] at h
        simp only [Option.some.injEq, Prod.mk.injEq] at h
        rw [← h.1]
        exact ⟨ptx_graph.same_refl g, fun x => x⟩
    · rw [if_neg hc] at h
      unfold ptx_grow at h
      have ha := ptx_graph.alloc_same g
      cases hal : g.alloc with
      | mk r g2 =>
        rw [hal] at h ha
        simp only [] at ha
        by_cases hu : set.nbuckets * 2 * 8 ≥ set.m / 8
        · rw [if_pos hu] at h
          cases r with
          | none =>
            simp only [Option.some.injEq, Prod.mk.injEq] at h
            rw [← h.1]; exact ha
          | some junk =>
            simp only [] at h
            cases hup : ptx_grow_upgrade
                { set with bits := some (List.replicate (set.m / 8) 0), count := 0, nbuckets := 0,
                           buckets := none } (List.take set.nbuckets set.cur) with
            | none => rw [hup] at h; simp at h
            | some set2 =>
              rw [hup] at h
              simp only [Option.some.injEq, Prod.mk.injEq] at h
              rw [← h.1]
              split
              · exact ⟨ptx_graph.same_trans _ _ _ ha.1 (ptx_graph.same_release g2).1, ha.2⟩
              · exact ha
        · rw [if_neg hu] at h
          cases r with
          | none => simp at h
          | some junk =>
            simp only [Option.some.injEq, Prod.mk.injEq] at h
            rw [← h.1]; exact ha

theorem ptx_edgemap_keys_empty :
    ptx_edgemap_keys { buckets := [], count := 0, nbuckets := 0 } = [] := by
  decide

theorem ptx_fail5_runs : (ptx_trace ptx_opts_fail5 ptx_ops_write_read).isSome = true := by
  decide

theorem ptx_write_read_runs : (ptx_trace ptx_opts_default ptx_ops_write_read).isSome = true := by
  decide

/-! ## Well-formedness of reachable graphs: edge maps -/

theorem ptx_keys_set_sub (l : List ptx_edge) (i : Nat) (e : ptx_edge) (x : Nat × Nat)
    (hx : x ∈ ((l.set i e).filter ptx_edge.used).map ptx_edge.key) :
    x ∈ (l.filter ptx_edge.used).map ptx_edge.key ∨ x = e.key := by
  obtain ⟨y, hy, rfl⟩ := List.mem_map.mp hx
  obtain ⟨hy1, hy2⟩ := List.mem_filter.mp hy
  rcases List.mem_or_eq_of_mem_set hy1 with h | h
  · exact Or.inl (List.mem_map.mpr ⟨y, List.mem_filter.mpr ⟨h, hy2⟩, rfl⟩)
  · exact Or.inr (by rw [h])

theorem ptx_edgemap_add0_loop_sub :
    ∀ (fuel : Nat) (map : ptx_edgemap) (edge : ptx_edge) (i : Nat) (map1 : ptx_edgemap),
      ptx_edgemap_add0_loop fuel map edge i = some map1 →
      ∀ x, x ∈ (map1.buckets.filter ptx_edge.used).map ptx_edge.key →
        (x ∈ (map.buckets.filter ptx_edge.used).map ptx_edge.key ∨ x = edge.key) := by
  intro fuel
  induction fuel with
  | zero =>
    intro map edge i map1 h
    simp [ptx_edgemap_add0_loop] at h
  | succ f ih =>
    intro map edge i map1 h
    unfold ptx_edgemap_add0_loop at h
    cases hget : map.buckets[i]? with
    | none => rw [hget] at h; simp at h
    | some b =>
      rw [hget] at h
      simp only [] at h
      by_cases hb : b.dib = 0
      · rw [if_pos hb] at h
        cases h
        intro x hx
        exact ptx_keys_set_sub map.buckets i edge x hx
      · rw [if_neg hb] at h
        by_cases heq : ptx_edge_equal b edge = true
        · rw [if_pos heq] at h
          cases h
          intro x hx
          exact Or.inl hx
        · rw [if_neg heq] at h
          have hbu : b.used = true := by simp [ptx_edge.used]; omega
          have hbk : b.key ∈ (map.buckets.filter ptx_edge.used).map ptx_edge.key :=
            List.mem_map.mpr ⟨b, List.mem_filter.mpr ⟨List.getElem?_mem hget, hbu⟩, rfl⟩
          intro x hx
          by_cases hsw : b.dib < edge.dib
          · simp only [hsw, if_true] at h
            rcases ih _ _ _ _ h x hx with h1 | h1
            · exact ptx_keys_set_sub map.buckets i edge x h1
            · left
              rw [h1]
              exact hbk
          · simp only [hsw, if_false] at h
            rcases ih _ _ _ _ h x hx with h1 | h1
            · exact Or.inl h1
            · exact Or.inr h1

theorem ptx_edgemap_grow_loop_sub :
    ∀ (old : List ptx_edge) (map map1 : ptx_edgemap),
      ptx_edgemap_grow_loop map old = some map1 →
      ∀ x, x ∈ (map1.buckets.filter ptx_edge.used).map ptx_edge.key →
        (x ∈ (map.buckets.filter ptx_edge.used).map ptx_edge.key ∨
          x ∈ (old.filter ptx_edge.used).map ptx_edge.key) := by
  intro old
  induction old with
  | nil =>
    intro map map1 h
    simp [ptx_edgemap_grow_loop] at h
    subst h
    intro x hx
    exact Or.inl hx
  | cons b rest ih =>
    intro map map1 h
    unfold ptx_edgemap_grow_loop at h
    by_cases hb : b.dib ≠ 0
    · rw [if_pos hb] at h
      have hbu : b.used = true := by simp [ptx_edge.used]; omega
      cases hadd : ptx_edgemap_add0 map b with
      | none => rw [hadd] at h; simp at h
      | some map2 =>
        rw [hadd] at h
        simp only [] at h
        intro x hx
        rcases ih map2 map1 h x hx with h1 | h1
        · rcases ptx_edgemap_add0_loop_sub _ _ _ _ _ hadd x h1 with h2 | h2
          · exact Or.inl h2
          · right
            simp only [List.filter_cons, hbu, if_true, List.map_cons, List.mem_cons]
            left
            simpa [ptx_edge.key] using h2
        · right
          simp only [List.filter_cons, hbu, if_true, List.map_cons, List.mem_cons]
          exact Or.inr h1
    · rw [if_neg hb] at h
      have hbu : ¬ b.used = true := by simp [ptx_edge.used]; omega
      intro x hx
      rcases ih map map1 h x hx with h1 | h1
      · exact Or.inl h1
      · right
        simpa [List.filter_cons, hbu] using h1

theorem ptx_edgemap_grow_any (g g1 : ptx_graph) (map map1 : ptx_edgemap) (ok : Bool)
    (h : ptx_edgemap_grow g map = some (g1, map1, ok)) :
    g.same g1 ∧
    (map.buckets.length = map.nbuckets → map1.buckets.length = map1.nbuckets ∧
      ∀ x, x ∈ (map1.buckets.filter ptx_edge.used).map ptx_edge.key →
        x ∈ (map.buckets.filter ptx_edge.used).map ptx_edge.key) := by
  unfold ptx_edgemap_grow at h
  have ha := ptx_graph.alloc_same g
  cases hal : g.alloc with
  | mk res g2 =>
    rw [hal] at h ha
    simp only [] at ha
    cases res with
    | none =>
      simp only [Option.some.injEq, Prod.mk.injEq] at h
      obtain ⟨hg, hm, -⟩ := h
      subst hg hm
      exact ⟨ha.1, fun hl => ⟨hl, fun x hx => hx⟩⟩
    | some junk =>
      simp only [] at h
      cases hloop : ptx_edgemap_grow_loop
          (ptx_edgemap_zeroed (if map.nbuckets = 0 then 2 else map.nbuckets * 2))
          (List.take map.nbuckets map.buckets) with
      | none => rw [hloop] at h; simp at h
      | some map2 =>
        rw [hloop] at h
        simp only [Option.some.injEq, Prod.mk.injEq] at h
        obtain ⟨hg, hm, -⟩ := h
        subst hm
        obtain ⟨s1, s2⟩ := ptx_edgemap_grow_loop_shape _ _ _ hloop
        refine ⟨?_, ?_⟩
        · rw [← hg]
          split
          · exact ptx_graph.same_trans _ _ _ ha.1 (ptx_graph.same_release g2).1
          · exact ha.1
        · intro hl
          refine ⟨by rw [s1, s2]; simp [ptx_edgemap_zeroed], ?_⟩
          intro x hx
          have htake : List.take map.nbuckets map.buckets = map.buckets := by
            rw [← hl]; exact List.take_length _
          rcases ptx_edgemap_grow_loop_sub _ _ _ hloop x hx with h1 | h1
          · exfalso
            simp only [ptx_edgemap_zeroed, List.mem_map, List.mem_filter] at h1
            obtain ⟨e, ⟨he, hu⟩, -⟩ := h1
            have := List.eq_of_mem_replicate he
            subst this
            simp [ptx_edge.used] at hu
          · rw [htake] at h1
            exact h1

theorem ptx_edgemap_add_any (g g1 : ptx_graph) (map map1 : ptx_edgemap) (node kind : Nat)
    (ok : Bool) (h : ptx_edgemap_add g map node kind = some (g1, map1, ok)) :
    g.same g1 ∧
    (map.buckets.length = map.nbuckets → map1.buckets.length = map1.nbuckets ∧
      ∀ x ∈ ptx_edgemap_keys map1, x ∈ ptx_edgemap_keys map ∨ x.1 = node) := by
  unfold ptx_edgemap_add at h
  simp only [] at h
  have key : ∀ (g2 : ptx_graph) (map2 : ptx_edgemap) (ok2 : Bool), g.same g2 →
      (map.buckets.length = map.nbuckets → map2.buckets.length = map2.nbuckets ∧
        ∀ x, x ∈ (map2.buckets.filter ptx_edge.used).map ptx_edge.key →
          x ∈ (map.buckets.filter ptx_edge.used).map ptx_edge.key) →
      (match (some (g2, map2, ok2) : Option (ptx_graph × ptx_edgemap × Bool)) with
        | none => none
        | some (g1, map1, false) => some (g1, map1, false)
        | some (g1, map1, true) =>
          match ptx_edgemap_add0 map1 { dib := 0, kind := kind % 65536, node := node } with
          | none => none
          | some map3 => some (g1, map3, true)) = some (g1, map1, ok) →
      g.same g1 ∧
      (map.buckets.length = map.nbuckets → map1.buckets.length = map1.nbuckets ∧
        ∀ x ∈ ptx_edgemap_keys map1, x ∈ ptx_edgemap_keys map ∨ x.1 = node) := by
    intro g2 map2 ok2 hs hk h2
    cases ok2 with
    | false =>
      simp only [Option.some.injEq, Prod.mk.injEq] at h2
      obtain ⟨hg, hm, -⟩ := h2
      subst hg hm
      refine ⟨hs, fun hl => ?_⟩
      obtain ⟨k1, k2⟩ := hk hl
      refine ⟨k1, fun x hx => ?_⟩
      rw [ptx_edgemap_keys_eq map2 k1] at hx
      rw [ptx_edgemap_keys_eq map hl]
      exact Or.inl (k2 x hx)
    | true =>
      simp only [] at h2
      cases hadd : ptx_edgemap_add0 map2 { dib := 0, kind := kind % 65536, node := node } with
      | none => rw [hadd] at h2; simp at h2
      | some map3 =>
        rw [hadd] at h2
        simp only [Option.some.injEq, Prod.mk.injEq] at h2
        obtain ⟨hg, hm, -⟩ := h2
        subst hg hm
        refine ⟨hs, fun hl => ?_⟩
        obtain ⟨k1, k2⟩ := hk hl
        obtain ⟨s1, s2⟩ := ptx_edgemap_add0_loop_shape _ _ _ _ _ hadd
        have hl3 : map3.buckets.length = map3.nbuckets := by rw [s1, s2, k1]
        refine ⟨hl3, fun x hx => ?_⟩
        rw [ptx_edgemap_keys_eq map3 hl3] at hx
        rw [ptx_edgemap_keys_eq map hl]
        rcases ptx_edgemap_add0_loop_sub _ _ _ _ _ hadd x hx with h1 | h1
        · exact Or.inl (k2 x h1)
        · right
          rw [h1]
          rfl
  by_cases hc : map.count = map.nbuckets / 2
  · rw [if_pos hc] at h
    cases hgrow : ptx_edgemap_grow g map with
    | none => rw [hgrow] at h; simp at h
    | some r =>
      obtain ⟨g2, map2, ok2⟩ := r
      obtain ⟨o1, o2⟩ := ptx_edgemap_grow_any g g2 map map2 ok2 hgrow
      rw [hgrow] at h
      exact key g2 map2 ok2 o1 o2 h
  · rw [if_neg hc] at h
    exact key g map true (ptx_graph.same_refl g) (fun hl => ⟨hl, fun x hx => hx⟩) h

/-! ## Well-formedness of reachable graphs: calls other than the collector -/

theorem ptx_wf_of_same (g g1 : ptx_graph) (h : ptx_wf g) (hs : g.same g1) :
    ptx_wf g1 ∧ g1.ident = g.ident := by
  obtain ⟨h1, h2, h3, -, -⟩ := hs
  obtain ⟨w1, w2, w3, w4, w5, w6⟩ := h
  have hf : ∀ id, g1.find id = g.find id := by
    intro id; unfold ptx_graph.find; rw [h1]
  refine ⟨⟨by rw [h3]; exact w1, by rw [h1]; exact w2, by rw [h1, h2]; exact w3,
    by rw [h1]; exact w4, ?_, by rw [h1]; exact w6⟩, h2⟩
  intro n hn x hx
  rw [hf]
  rw [h1] at hn
  exact w5 n hn x hx

theorem ptx_graph.update_idents (g : ptx_graph) (node : Nat) (f : ptx_node → ptx_node)
    (hf : ∀ n, (f n).ident = n.ident) :
    (g.update node f).nodes.map (fun n => n.ident) = g.nodes.map (fun n => n.ident) := by
  unfold ptx_graph.update
  simp only [List.map_map]
  apply List.map_congr_left
  intro n _
  simp only [Function.comp]
  split
  · exact hf n
  · rfl

theorem ptx_graph.find_update_isSome (g : ptx_graph) (node other : Nat) (f : ptx_node → ptx_node)
    (hf : ∀ n, (f n).ident = n.ident) :
    ((g.update node f).find other).isSome = (g.find other).isSome := by
  rw [ptx_graph.find_update g node other f hf]
  cases g.find other <;> rfl

theorem ptx_wf_update (g : ptx_graph) (node : Nat) (f : ptx_node → ptx_node) (h : ptx_wf g)
    (hf : ∀ n, (f n).ident = n.ident ∧ (f n).reached = n.reached)
    (hout : ∀ n ∈ g.nodes, n.ident = node →
      (f n).outs.buckets.length = (f n).outs.nbuckets ∧
      ∀ x ∈ ptx_edgemap_keys (f n).outs, (g.find x.1).isSome = true) :
    ptx_wf (g.update node f) ∧ (g.update node f).ident = g.ident := by
  obtain ⟨w1, w2, w3, w4, w5, w6⟩ := h
  have hfi : ∀ n, (f n).ident = n.ident := fun n => (hf n).1
  refine ⟨⟨w1, ?_, ?_, ?_, ?_, ?_⟩, rfl⟩
  · rw [ptx_graph.update_idents g node f hfi]; exact w2
  · intro n1 hn1
    obtain ⟨n, hn, rfl⟩ := (ptx_graph.mem_update g node f n1).mp hn1
    have := w3 n hn
    split
    · rw [hfi]; exact this
    · exact this
  · intro n1 hn1
    obtain ⟨n, hn, rfl⟩ := (ptx_graph.mem_update g node f n1).mp hn1
    by_cases hc : (n.ident == node) = true
    · rw [if_pos hc]
      exact (hout n hn (by simpa using hc)).1
    · rw [if_neg hc]
      exact w4 n hn
  · intro n1 hn1 x hx
    rw [ptx_graph.find_update_isSome g node x.1 f hfi]
    obtain ⟨n, hn, rfl⟩ := (ptx_graph.mem_update g node f n1).mp hn1
    by_cases hc : (n.ident == node) = true
    · rw [if_pos hc] at hx
      exact (hout n hn (by simpa using hc)).2 x hx
    · rw [if_neg hc] at hx
      exact w5 n hn x hx
  · intro n1 hn1
    obtain ⟨n, hn, rfl⟩ := (ptx_graph.mem_update g node f n1).mp hn1
    have := w6 n hn
    split
    · rw [(hf n).2]; exact this
    · exact this

/-- An update that leaves `ident`, `reached` and `outs` alone. -/
theorem ptx_wf_update_frame (g : ptx_graph) (node : Nat) (f : ptx_node → ptx_node) (h : ptx_wf g)
    (hf : ∀ n, (f n).ident = n.ident ∧ (f n).reached = n.reached ∧ (f n).outs = n.outs) :
    ptx_wf (g.update node f) ∧ (g.update node f).ident = g.ident := by
  apply ptx_wf_update g node f h (fun n => ⟨(hf n).1, (hf n).2.1⟩)
  intro n hn _
  rw [(hf n).2.2]
  exact ⟨h.2.2.2.1 n hn, h.2.2.2.2.1 n hn⟩

theorem ptx_node_adddep_wf (g g1 : ptx_graph) (a b K : Nat) (ok : Bool) (h : ptx_wf g)
    (hrun : ptx_node_adddep g a b K = some (g1, ok)) : ptx_wf g1 ∧ g1.ident = g.ident := by
  unfold ptx_node_adddep at hrun
  cases hfb : g.find b with
  | none => rw [hfb] at hrun; simp at hrun
  | some nb =>
    rw [hfb] at hrun
    simp only [] at hrun
    cases hadd1 : ptx_edgemap_add g nb.ins a K with
    | none => rw [hadd1] at hrun; simp at hrun
    | some r1 =>
      obtain ⟨g2, ins1, ok1⟩ := r1
      obtain ⟨o1, -⟩ := ptx_edgemap_add_any g g2 nb.ins ins1 a K ok1 hadd1
      rw [hadd1] at hrun
      obtain ⟨w2, i2⟩ := ptx_wf_of_same g g2 h o1
      obtain ⟨w3, i3⟩ := ptx_wf_update_frame g2 b (fun x => { x with ins := ins1 }) w2
        (fun _ => ⟨rfl, rfl, rfl⟩)
      cases ok1 with
      | false =>
        simp only [Option.some.injEq, Prod.mk.injEq] at hrun
        rw [← hrun.1]
        exact ⟨w3, by rw [i3, i2]⟩
      | true =>
        simp only [] at hrun
        cases hfa : (g2.update b (fun x => { x with ins := ins1 })).find a with
        | none => rw [hfa] at hrun; simp at hrun
        | some na =>
          rw [hfa] at hrun
          simp only [] at hrun
          obtain ⟨hnamem, hnaid⟩ := ptx_graph.find_some _ a na hfa
          cases hadd2 : ptx_edgemap_add (g2.update b (fun x => { x with ins := ins1 }))
              na.outs b K with
          | none => rw [hadd2] at hrun; simp at hrun
          | some r2 =>
            obtain ⟨g3, outs1, ok2⟩ := r2
            obtain ⟨p1, p2⟩ := ptx_edgemap_add_any _ g3 na.outs outs1 b K ok2 hadd2
            obtain ⟨q1, q2⟩ := p2 (w3.2.2.2.1 na hnamem)
            rw [hadd2] at hrun
            obtain ⟨w4, i4⟩ := ptx_wf_of_same _ g3 w3 p1
            have hblive : (g3.find b).isSome = true := by
              have : g3.find b = (g2.update b (fun x => { x with ins := ins1 })).find b := by
                unfold ptx_graph.find; rw [p1.1]
              rw [this, ptx_graph.find_update_isSome g2 b b (fun x => { x with ins := ins1 }) (fun _ => rfl)]
              have : g2.find b = g.find b := by unfold ptx_graph.find; rw [o1.1]
              rw [this, hfb]; rfl
            have holive : ∀ x ∈ ptx_edgemap_keys outs1, (g3.find x.1).isSome = true := by
              intro x hx
              rcases q2 x hx with h1 | h1
              · have := w3.2.2.2.2.1 na hnamem x h1
                have he : g3.find x.1 = (g2.update b (fun x => { x with ins := ins1 })).find x.1 := by
                  unfold ptx_graph.find; rw [p1.1]
                rw [he]; exact this
              · rw [h1]; exact hblive
            obtain ⟨w5, i5⟩ := ptx_wf_update g3 a (fun x => { x with outs := outs1 }) w4
              (fun _ => ⟨rfl, rfl⟩) (fun n _ _ => ⟨q1, holive⟩)
            cases ok2 with
            | false =>
              simp only [Option.some.injEq, Prod.mk.injEq] at hrun
              rw [← hrun.1]
              exact ⟨w5, by rw [i5, i4, i3, i2]⟩
            | true =>
              simp only [Option.some.injEq, Prod.mk.injEq] at hrun
              rw [← hrun.1]
              obtain ⟨w6, i6⟩ := ptx_wf_update_frame _ b (fun x => { x with hasdeps := true }) w5
                (fun _ => ⟨rfl, rfl, rfl⟩)
              exact ⟨w6, by rw [i6, i5, i4, i3, i2]⟩

theorem ptx_node_read_loop_wf (node hash : Nat) :
    ∀ (others : List Nat) (g g1 : ptx_graph), ptx_wf g →
      ptx_node_read_loop node hash g others = some g1 → ptx_wf g1 ∧ g1.ident = g.ident := by
  intro others
  induction others with
  | nil =>
    intro g g1 hw h
    simp [ptx_node_read_loop] at h
    subst h
    exact ⟨hw, rfl⟩
  | cons other rest ih =>
    intro g g1 hw h
    unfold ptx_node_read_loop at h
    by_cases hne : other ≠ node
    · rw [if_pos hne] at h
      cases hfo : g.find other with
      | none => rw [hfo] at h; simp at h
      | some o =>
        rw [hfo] at h
        simp only [] at h
        cases ht : ptx_hashset_test o.writes hash with
        | none => rw [ht] at h; simp at h
        | some r =>
          rw [ht] at h
          cases r with
          | false => exact ih g g1 hw h
          | true =>
            simp only [] at h
            cases had : ptx_node_adddep g other node PTX_WR with
            | none => rw [had] at h; simp at h
            | some r2 =>
              obtain ⟨g2, ok⟩ := r2
              obtain ⟨w2, i2⟩ := ptx_node_adddep_wf g g2 other node PTX_WR ok hw had
              rw [had] at h
              cases ok with
              | false =>
                simp only [Option.some.injEq] at h
                rw [← h]
                obtain ⟨w3, i3⟩ := ptx_wf_update_frame g2 node
                  (fun x => { x with state := PTX_NOMEM }) w2 (fun _ => ⟨rfl, rfl, rfl⟩)
                exact ⟨w3, by rw [i3, i2]⟩
              | true =>
                simp only [] at h
                obtain ⟨w3, i3⟩ := ih g2 g1 w2 h
                exact ⟨w3, by rw [i3, i2]⟩
    · rw [if_neg hne] at h
      exact ih g g1 hw h

theorem ptx_node_read_wf (g g1 : ptx_graph) (node hash : Nat) (hw : ptx_wf g)
    (h : ptx_node_read g node hash = some g1) : ptx_wf g1 ∧ g1.ident = g.ident := by
  unfold ptx_node_read at h
  cases hf : g.find node with
  | none => rw [hf] at h; simp at h
  | some n =>
    rw [hf] at h
    simp only [] at h
    by_cases hnm : n.state = PTX_NOMEM
    · rw [if_pos hnm] at h
      cases h
      exact ⟨hw, rfl⟩
    · rw [if_neg hnm] at h
      by_cases hac : n.state = PTX_ACTIVE
      · rw [if_pos hac] at h
        cases hadd : ptx_hashset_add g n.reads hash with
        | none => rw [hadd] at h; simp at h
        | some r =>
          obtain ⟨g2, reads1, ok⟩ := r
          obtain ⟨hsame, -⟩ := ptx_hashset_add_same g g2 n.reads reads1 hash ok hadd
          obtain ⟨w2, i2⟩ := ptx_wf_of_same g g2 hw hsame
          rw [hadd] at h
          cases ok with
          | false =>
            simp only [Option.some.injEq] at h
            rw [← h]
            obtain ⟨w3, i3⟩ := ptx_wf_update_frame g2 node
              (fun x => { x with reads := reads1, state := PTX_NOMEM }) w2
              (fun _ => ⟨rfl, rfl, rfl⟩)
            exact ⟨w3, by rw [i3, i2]⟩
          | true =>
            simp only [] at h
            obtain ⟨w3, i3⟩ := ptx_wf_update_frame g2 node
              (fun x => { x with reads := reads1, hasreads := true }) w2
              (fun _ => ⟨rfl, rfl, rfl⟩)
            obtain ⟨w4, i4⟩ := ptx_node_read_loop_wf node hash _ _ g1 w3 h
            exact ⟨w4, by rw [i4, i3, i2]⟩
      · rw [if_neg hac] at h
        simp at h

theorem ptx_node_write_ww_wf (g g1 : ptx_graph) (node hash other : Nat) (ok : Bool)
    (hw : ptx_wf g) (h : ptx_node_write_ww node hash other g = some (g1, ok)) :
    ptx_wf g1 ∧ g1.ident = g.ident := by
  unfold ptx_node_write_ww at h
  cases hfo : g.find other with
  | none => rw [hfo] at h; simp at h
  | some o =>
    rw [hfo] at h
    simp only [] at h
    cases ht : ptx_hashset_test o.writes hash with
    | none => rw [ht] at h; simp at h
    | some r =>
      rw [ht] at h
      cases r with
      | false =>
        simp only [Option.some.injEq, Prod.mk.injEq] at h
        rw [← h.1]
        exact ⟨hw, rfl⟩
      | true =>
        simp only [] at h
        cases had : ptx_node_adddep g other node PTX_WW with
        | none => rw [had] at h; simp at h
        | some r2 =>
          obtain ⟨g2, ok2⟩ := r2
          obtain ⟨w2, i2⟩ := ptx_node_adddep_wf g g2 other node PTX_WW ok2 hw had
          rw [had] at h
          cases ok2 with
          | false =>
            simp only [Option.some.injEq, Prod.mk.injEq] at h
            rw [← h.1]
            exact ⟨w2, i2⟩
          | true =>
            simp only [] at h
            obtain ⟨w3, i3⟩ := ptx_node_adddep_wf g2 g1 node other PTX_WW ok w2 h
            exact ⟨w3, by rw [i3, i2]⟩

theorem ptx_node_write_loop_wf (node hash : Nat) :
    ∀ (others : List Nat) (g g1 : ptx_graph), ptx_wf g →
      ptx_node_write_loop node hash g others = some g1 → ptx_wf g1 ∧ g1.ident = g.ident := by
  intro others
  induction others with
  | nil =>
    intro g g1 hw h
    simp [ptx_node_write_loop] at h
    subst h
    exact ⟨hw, rfl⟩
  | cons other rest ih =>
    intro g g1 hw h
    unfold ptx_node_write_loop at h
    by_cases hne : other ≠ node
    · rw [if_pos hne] at h
      cases hfo : g.find other with
      | none => rw [hfo] at h; simp at h
      | some o =>
        rw [hfo] at h
        simp only [] at h
        cases ht : ptx_hashset_test o.reads hash with
        | none => rw [ht] at h; simp at h
        | some r =>
          rw [ht] at h
          simp only [] at h
          have hfirst : ∀ (g2 : ptx_graph) (ok : Bool),
              (if r = true then ptx_node_adddep g other node PTX_RW else some (g, true))
                = some (g2, ok) → ptx_wf g2 ∧ g2.ident = g.ident := by
            intro g2 ok he
            cases r with
            | false =>
              simp only [Bool.false_eq_true, if_false, Option.some.injEq, Prod.mk.injEq] at he
              rw [← he.1]
              exact ⟨hw, rfl⟩
            | true =>
              simp only [if_true] at he
              exact ptx_node_adddep_wf g g2 other node PTX_RW ok hw he
          cases hrw : (if r = true then ptx_node_adddep g other node PTX_RW else some (g, true)) with
          | none => rw [hrw] at h; simp at h
          | some r2 =>
            obtain ⟨g2, ok2⟩ := r2
            obtain ⟨w2, i2⟩ := hfirst g2 ok2 hrw
            rw [hrw] at h
            cases ok2 with
            | false =>
              simp only [Option.some.injEq] at h
              rw [← h]
              obtain ⟨w3, i3⟩ := ptx_wf_update_frame g2 node
                (fun x => { x with state := PTX_NOMEM }) w2 (fun _ => ⟨rfl, rfl, rfl⟩)
              exact ⟨w3, by rw [i3, i2]⟩
            | true =>
              simp only [] at h
              cases hww : ptx_node_write_ww node hash other g2 with
              | none => rw [hww] at h; simp at h
              | some r3 =>
                obtain ⟨g3, ok3⟩ := r3
                obtain ⟨w3, i3⟩ := ptx_node_write_ww_wf g2 g3 node hash other ok3 w2 hww
                rw [hww] at h
                cases ok3 with
                | false =>
                  simp only [Option.some.injEq] at h
                  rw [← h]
                  obtain ⟨w4, i4⟩ := ptx_wf_update_frame g3 node
                    (fun x => { x with state := PTX_NOMEM }) w3 (fun _ => ⟨rfl, rfl, rfl⟩)
                  exact ⟨w4, by rw [i4, i3, i2]⟩
                | true =>
                  simp only [] at h
                  obtain ⟨w4, i4⟩ := ih g3 g1 w3 h
                  exact ⟨w4, by rw [i4, i3, i2]⟩
    · rw [if_neg hne] at h
      exact ih g g1 hw h

theorem ptx_node_write_wf (g g1 : ptx_graph) (node hash : Nat) (hw : ptx_wf g)
    (h : ptx_node_write g node hash = some g1) : ptx_wf g1 ∧ g1.ident = g.ident := by
  unfold ptx_node_write at h
  cases hf : g.find node with
  | none => rw [hf] at h; simp at h
  | some n =>
    rw [hf] at h
    simp only [] at h
    by_cases hnm : n.state = PTX_NOMEM
    · rw [if_pos hnm] at h
      cases h
      exact ⟨hw, rfl⟩
    · rw [if_neg hnm] at h
      by_cases hac : n.state = PTX_ACTIVE
      · rw [if_pos hac] at h
        cases hadd : ptx_hashset_add g n.writes hash with
        | none => rw [hadd] at h; simp at h
        | some r =>
          obtain ⟨g2, writes1, ok⟩ := r
          obtain ⟨hsame, -⟩ := ptx_hashset_add_same g g2 n.writes writes1 hash ok hadd
          obtain ⟨w2, i2⟩ := ptx_wf_of_same g g2 hw hsame
          rw [hadd] at h
          cases ok with
          | false =>
            simp only [Option.some.injEq] at h
            rw [← h]
            obtain ⟨w3, i3⟩ := ptx_wf_update_frame g2 node
              (fun x => { x with writes := writes1, state := PTX_NOMEM }) w2
              (fun _ => ⟨rfl, rfl, rfl⟩)
            exact ⟨w3, by rw [i3, i2]⟩
          | true =>
            simp only [] at h
            obtain ⟨w3, i3⟩ := ptx_wf_update_frame g2 node
              (fun x => { x with writes := writes1, haswrites := true }) w2
              (fun _ => ⟨rfl, rfl, rfl⟩)
            obtain ⟨w4, i4⟩ := ptx_node_write_loop_wf node hash _ _ g1 w3 h
            exact ⟨w4, by rw [i4, i3, i2]⟩
      · rw [if_neg hac] at h
        simp at h

theorem ptx_node_deactivate_wf (g g1 : ptx_graph) (node state : Nat) (hw : ptx_wf g)
    (h : ptx_node_deactivate g node state = some g1) : ptx_wf g1 ∧ g1.ident = g.ident := by
  cases hf : g.find node with
  | none => unfold ptx_node_deactivate at h; rw [hf] at h; simp at h
  | some n =>
    rw [ptx_node_deactivate_off g node state n hf hw.1] at h
    cases h
    exact ptx_wf_update_frame g node _ hw (fun _ => ⟨rfl, rfl, rfl⟩)

theorem ptx_node_rollback_wf (g g1 : ptx_graph) (node : Nat) (hw : ptx_wf g)
    (h : ptx_node_rollback g node = some g1) : ptx_wf g1 ∧ g1.ident = g.ident := by
  unfold ptx_node_rollback at h
  cases hf : g.find node with
  | none => rw [hf] at h; simp at h
  | some n =>
    rw [hf] at h
    simp only [] at h
    split at h
    · exact ptx_node_deactivate_wf g g1 node _ hw h
    · simp at h

theorem ptx_node_commit_wf (g : ptx_graph) (node : Nat) (r : ptx_commit_result)
    (hw : ptx_wf g) (h : ptx_node_commit g node = some r) :
    ptx_wf r.graph ∧ r.graph.ident = g.ident := by
  unfold ptx_node_commit at h
  cases hf : g.find node with
  | none => rw [hf] at h; simp at h
  | some n =>
    rw [hf] at h
    simp only [] at h
    split at h
    · cases hd : ptx_node_deactivate g node PTX_ROLLEDBACK with
      | none => rw [hd] at h; simp at h
      | some g1 =>
        rw [hd] at h
        cases h
        exact ptx_node_deactivate_wf g g1 node _ hw hd
    · split at h
      · cases hscan : ptx_node_commit_scan g (ptx_edgemap_edges n.outs) with
        | none => rw [hscan] at h; simp at h
        | some b =>
          rw [hscan] at h
          cases b with
          | true =>
            simp only [] at h
            cases hd : ptx_node_deactivate g node PTX_ROLLEDBACK with
            | none => rw [hd] at h; simp at h
            | some g1 =>
              rw [hd] at h
              cases h
              exact ptx_node_deactivate_wf g g1 node _ hw hd
          | false =>
            simp only [] at h
            cases hd : ptx_node_deactivate g node PTX_COMMITTED with
            | none => rw [hd] at h; simp at h
            | some g1 =>
              rw [hd] at h
              cases h
              exact ptx_node_deactivate_wf g g1 node _ hw hd
      · simp at h

theorem ptx_graph_begin_wf (g g1 : ptx_graph) (r : Option Nat) (hw : ptx_wf g)
    (hlen : g.ident + 1 < 2 ^ 64) (h : ptx_graph_begin g = some (g1, r)) :
    ptx_wf g1 ∧ g1.ident ≤ g.ident + 1 := by
  unfold ptx_graph_begin at h
  have ha := ptx_graph.alloc_same g
  cases hal : g.alloc with
  | mk res g2 =>
    rw [hal] at h ha
    simp only [] at ha
    obtain ⟨w2, i2⟩ := ptx_wf_of_same g g2 hw ha.1
    cases res with
    | none =>
      simp only [Option.some.injEq, Prod.mk.injEq] at h
      rw [← h.1]
      exact ⟨w2, by omega⟩
    | some junk =>
      simp only [] at h
      cases hinit : ptx_hashset_init g2.m g2.k with
      | none => rw [hinit] at h; simp at h
      | some set =>
        rw [hinit] at h
        simp only [Option.some.injEq, Prod.mk.injEq] at h
        obtain ⟨hg, -⟩ := h
        have hmod : (g2.ident + 1) % 2 ^ 64 = g2.ident + 1 := by
          rw [i2]; exact Nat.mod_eq_of_lt hlen
        rw [hmod] at hg
        obtain ⟨v1, v2, v3, v4, v5, v6⟩ := w2
        have hfind : ∀ id, (g2.find id).isSome = true → (g1.find id).isSome = true := by
          intro id hid
          rw [← hg]
          unfold ptx_graph.find at hid ⊢
          simp only [List.find?_append]
          cases hx : List.find? (fun n => n.ident == id) g2.nodes with
          | none => rw [hx] at hid; simp at hid
          | some y => rfl
        refine ⟨⟨?_, ?_, ?_, ?_, ?_, ?_⟩, by rw [← hg]; simp only []; omega⟩
        · rw [← hg]; exact v1
        · rw [← hg]
          simp only [List.map_append, List.map_cons, List.map_nil]
          rw [List.pairwise_append]
          refine ⟨v2, List.pairwise_singleton _ _, ?_⟩
          intro a ha b hb
          simp only [List.mem_singleton] at hb
          obtain ⟨n, hn, rfl⟩ := List.mem_map.mp ha
          have := v3 n hn
          omega
        · intro n hn
          rw [← hg] at hn ⊢
          simp only [] at hn ⊢
          rcases List.mem_append.mp hn with h1 | h1
          · have := v3 n h1; omega
          · simp only [List.mem_singleton] at h1
            subst h1
            exact Nat.le_refl _
        · intro n hn
          rw [← hg] at hn
          rcases List.mem_append.mp hn with h1 | h1
          · exact v4 n h1
          · simp only [List.mem_singleton] at h1
            subst h1
            rfl
        · intro n hn x hx
          rw [← hg] at hn
          rcases List.mem_append.mp hn with h1 | h1
          · exact hfind x.1 (v5 n h1 x hx)
          · simp only [List.mem_singleton] at h1
            subst h1
            simp only [ptx_edgemap_keys_empty] at hx
            simp at hx
        · intro n hn
          rw [← hg] at hn
          rcases List.mem_append.mp hn with h1 | h1
          · exact v6 n h1
          · simp only [List.mem_singleton] at h1
            subst h1
            rfl

/-! ## The collector: mark phase -/

theorem ptx_find_map (g g1 : ptx_graph) (F : ptx_node → ptx_node)
    (hn : g1.nodes = g.nodes.map F) (hF : ∀ n, (F n).ident = n.ident) (id : Nat) :
    g1.find id = (g.find id).map F := by
  unfold ptx_graph.find
  rw [hn, List.find?_map]
  congr 1
  apply congrArg (fun p => List.find? p g.nodes)
  funext n
  simp only [Function.comp, hF]

theorem ptx_mark_ident (F : ptx_node → ptx_node)
    (hF : ∀ n, F n = n ∨ F n = { n with reached := true }) (n : ptx_node) :
    (F n).ident = n.ident ∧ (F n).outs = n.outs ∧ (F n).state = n.state ∧
    (n.reached = true → (F n).reached = true) := by
  rcases hF n with h | h <;> rw [h] <;> simp

theorem ptx_graph.mono_refl (g : ptx_graph) : g.mono g :=
  ⟨rfl, rfl, id, by simp, fun _ => Or.inl rfl⟩

theorem ptx_graph.mono_trans (g g1 g2 : ptx_graph) (h1 : g.mono g1) (h2 : g1.mono g2) :
    g.mono g2 := by
  obtain ⟨a1, a2, F1, a3, a4⟩ := h1
  obtain ⟨b1, b2, F2, b3, b4⟩ := h2
  refine ⟨b1.trans a1, b2.trans a2, fun n => F2 (F1 n), by rw [b3, a3, List.map_map]; rfl, ?_⟩
  intro n
  show F2 (F1 n) = n ∨ F2 (F1 n) = { n with reached := true }
  rcases a4 n with h | h <;> rcases b4 (F1 n) with k | k <;> rw [k, h] <;> simp

theorem ptx_graph.mono_find (g g1 : ptx_graph) (h : g.mono g1) (id : Nat) :
    (∀ n, g.find id = some n → ∃ n1, g1.find id = some n1 ∧ n1.outs = n.outs ∧
      n1.state = n.state ∧ n1.ident = n.ident ∧ (n.reached = true → n1.reached = true)) ∧
    (∀ n1, g1.find id = some n1 → ∃ n, g.find id = some n ∧ n1.outs = n.outs ∧
      n1.state = n.state ∧ n1.ident = n.ident ∧ (n.reached = true → n1.reached = true)) := by
  obtain ⟨-, -, F, hn, hF⟩ := h
  have hfind := ptx_find_map g g1 F hn (fun n => (ptx_mark_ident F hF n).1) id
  constructor
  · intro n hf
    rw [hf] at hfind
    obtain ⟨m1, m2, m3, m4⟩ := ptx_mark_ident F hF n
    exact ⟨F n, hfind, m2, m3, m1, m4⟩
  · intro n1 hf
    rw [hf] at hfind
    cases hg : g.find id with
    | none => rw [hg] at hfind; simp at hfind
    | some n =>
      rw [hg] at hfind
      simp only [Option.map_some', Option.some.injEq] at hfind
      obtain ⟨m1, m2, m3, m4⟩ := ptx_mark_ident F hF n
      rw [hfind]
      exact ⟨n, rfl, m2, m3, m1, m4⟩

theorem ptx_graph.marked_mono (g g1 : ptx_graph) (h : g.mono g1) (id : Nat)
    (hm : g.marked id) : g1.marked id := by
  obtain ⟨n, hf, hr⟩ := hm
  obtain ⟨n1, h1, -, -, -, h5⟩ := (ptx_graph.mono_find g g1 h id).1 n hf
  exact ⟨n1, h1, h5 hr⟩

theorem ptx_graph.closed_mono (g g1 : ptx_graph) (h : g.mono g1) (n n1 : ptx_node)
    (ho : n1.outs = n.outs) (hc : g.closed n) : g1.closed n1 := by
  intro x hx
  rw [ho] at hx
  exact ptx_graph.marked_mono g g1 h x.1 (hc x hx)

theorem ptx_graph.mono_update_reached (g : ptx_graph) (node : Nat) :
    g.mono (g.update node (fun x => { x with reached := true })) := by
  refine ⟨rfl, rfl, fun n => if n.ident == node then { n with reached := true } else n, rfl, ?_⟩
  intro n
  by_cases hc : (n.ident == node) = true
  · right; simp [hc]
  · left; simp [hc]

/-- What a call of `ptx_node_gcmark` that returns has done: it only set mark bits,
the node is marked, and every node it newly marked has all its targets marked. -/
theorem ptx_node_gcmark_spec :
    ∀ (fuel : Nat) (g : ptx_graph) (node : Nat) (g1 : ptx_graph),
      ptx_node_gcmark fuel g node = some g1 →
      g.mono g1 ∧ g1.marked node ∧
      ∀ m n1, g1.find m = some n1 → n1.reached = true → (g.marked m ∨ g1.closed n1) := by
  intro fuel
  induction fuel with
  | zero =>
    intro g node g1 h
    simp [ptx_node_gcmark] at h
  | succ f ih =>
    intro g node g1 h
    unfold ptx_node_gcmark at h
    cases hf : g.find node with
    | none => rw [hf] at h; simp at h
    | some n =>
      rw [hf] at h
      simp only [] at h
      by_cases hr : n.reached = true
      · rw [if_pos hr] at h
        cases h
        refine ⟨ptx_graph.mono_refl g, ⟨n, hf, hr⟩, ?_⟩
        intro m n1 hm hr1
        exact Or.inl ⟨n1, hm, hr1⟩
      · rw [if_neg hr] at h
        have hfold : ∀ (es : List ptx_edge) (acc g2 : ptx_graph),
            List.foldlM (fun acc edge => ptx_node_gcmark f acc edge.node) acc es = some g2 →
            acc.mono g2 ∧ (∀ e ∈ es, g2.marked e.node) ∧
            ∀ m n1, g2.find m = some n1 → n1.reached = true → (acc.marked m ∨ g2.closed n1) := by
          intro es
          induction es with
          | nil =>
            intro acc g2 h2
            simp only [List.foldlM_nil] at h2
            cases h2
            refine ⟨ptx_graph.mono_refl acc, ?_, ?_⟩
            · intro e he
              cases he
            · intro m n1 hm hr1
              exact Or.inl ⟨n1, hm, hr1⟩
          | cons e rest ihl =>
            intro acc g2 h2
            simp only [List.foldlM_cons] at h2
            cases hstep : ptx_node_gcmark f acc e.node with
            | none => rw [hstep] at h2; simp at h2
            | some acc1 =>
              rw [hstep] at h2
              simp only [Option.bind_eq_bind, Option.some_bind] at h2
              obtain ⟨s1, s2, s3⟩ := ih acc e.node acc1 hstep
              obtain ⟨t1, t2, t3⟩ := ihl acc1 g2 h2
              refine ⟨ptx_graph.mono_trans acc acc1 g2 s1 t1, ?_, ?_⟩
              · intro e1 he1
                rcases List.mem_cons.mp he1 with rfl | hmem
                · exact ptx_graph.marked_mono acc1 g2 t1 _ s2
                · exact t2 e1 hmem
              · intro m n1 hm hr1
                rcases t3 m n1 hm hr1 with hmk | hcl
                · obtain ⟨n0, hf0, hr0⟩ := hmk
                  rcases s3 m n0 hf0 hr0 with hmk0 | hcl0
                  · exact Or.inl hmk0
                  · right
                    obtain ⟨n0b, hfb, hob, -, -, -⟩ := (ptx_graph.mono_find acc1 g2 t1 m).2 n1 hm
                    rw [hf0] at hfb
                    cases hfb
                    exact ptx_graph.closed_mono acc1 g2 t1 n0 n1 hob hcl0
                · exact Or.inr hcl
        obtain ⟨t1, t2, t3⟩ := hfold _ _ g1 h
        have hm1 := ptx_graph.mono_update_reached g node
        have hmono := ptx_graph.mono_trans g _ g1 hm1 t1
        have hnid := (ptx_graph.find_some g node n hf).2
        have hmk1 : (g.update node (fun x => { x with reached := true })).marked node := by
          refine ⟨{ n with reached := true }, ?_, rfl⟩
          rw [ptx_graph.find_update g node node (fun x => { x with reached := true })
            (fun _ => rfl), hf]
          simp [hnid]
        refine ⟨hmono, ptx_graph.marked_mono _ g1 t1 node hmk1, ?_⟩
        intro m n1 hm hr1
        rcases t3 m n1 hm hr1 with hmk | hcl
        · by_cases hmn : m = node
          · right
            subst hmn
            obtain ⟨n0, hf0, ho0, -, -, -⟩ := (ptx_graph.mono_find g g1 hmono m).2 n1 hm
            rw [hf] at hf0
            cases hf0
            intro x hx
            rw [ho0] at hx
            obtain ⟨e, he, rfl⟩ := List.mem_map.mp hx
            exact t2 e he
          · left
            obtain ⟨n0, hf0, hr0⟩ := hmk
            rw [ptx_graph.find_update g node m (fun x => { x with reached := true })
              (fun _ => rfl)] at hf0
            cases hg : g.find m with
            | none => rw [hg] at hf0; simp at hf0
            | some n00 =>
              rw [hg] at hf0
              have hid := (ptx_graph.find_some g m n00 hg).2
              have hne : (n00.ident == node) = false := by simp [hid, hmn]
              simp only [Option.map_some', hne, Bool.false_eq_true, if_false,
                Option.some.injEq] at hf0
              subst hf0
              exact ⟨n00, hg, hr0⟩
        · exact Or.inr hcl

theorem ptx_graph_gc_mark_spec :
    ∀ (ids : List Nat) (g g1 : ptx_graph), ptx_graph_gc_mark g ids = some g1 →
      g.mono g1 ∧
      ∀ m n1, g1.find m = some n1 → n1.reached = true → (g.marked m ∨ g1.closed n1) := by
  intro ids
  induction ids with
  | nil =>
    intro g g1 h
    simp only [ptx_graph_gc_mark, Option.some.injEq] at h
    subst h
    exact ⟨ptx_graph.mono_refl g, fun m n1 hm hr1 => Or.inl ⟨n1, hm, hr1⟩⟩
  | cons node rest ih =>
    intro g g1 h
    unfold ptx_graph_gc_mark at h
    cases hf : g.find node with
    | none => rw [hf] at h; simp at h
    | some n =>
      rw [hf] at h
      simp only [] at h
      by_cases ha : n.state = PTX_ACTIVE
      · rw [if_pos ha] at h
        cases hmk : ptx_node_gcmark (g.nodes.length + 1) g node with
        | none => rw [hmk] at h; simp at h
        | some g2 =>
          rw [hmk] at h
          simp only [] at h
          obtain ⟨s1, -, s3⟩ := ptx_node_gcmark_spec _ g node g2 hmk
          obtain ⟨t1, t3⟩ := ih g2 g1 h
          refine ⟨ptx_graph.mono_trans g g2 g1 s1 t1, ?_⟩
          intro m n1 hm hr1
          rcases t3 m n1 hm hr1 with hmk1 | hcl
          · obtain ⟨n0, hf0, hr0⟩ := hmk1
            rcases s3 m n0 hf0 hr0 with hmk0 | hcl0
            · exact Or.inl hmk0
            · right
              obtain ⟨n0b, hfb, hob, -, -, -⟩ := (ptx_graph.mono_find g2 g1 t1 m).2 n1 hm
              rw [hf0] at hfb
              cases hfb
              exact ptx_graph.closed_mono g2 g1 t1 n0 n1 hob hcl0
          · exact Or.inr hcl
      · rw [if_neg ha] at h
        exact ih g g1 h

/-! ## The collector: sweep phase -/

theorem ptx_hashset_free_same (g : ptx_graph) (set : ptx_hashset) :
    g.same (ptx_hashset_free g set) := by
  unfold ptx_hashset_free ptx_graph.release
  simp only []
  split <;> split <;> exact ⟨rfl, rfl, rfl, rfl, rfl⟩

theorem ptx_edgemap_free_same (g : ptx_graph) (map : ptx_edgemap) :
    g.same (ptx_edgemap_free g map) := by
  unfold ptx_edgemap_free ptx_graph.release
  split <;> exact ⟨rfl, rfl, rfl, rfl, rfl⟩

theorem ptx_node_free_spec (g g1 : ptx_graph) (node : Nat) (h : ptx_node_free g node = some g1) :
    g1.nodes = g.nodes.filter (fun x => x.ident != node) ∧ g1.ident = g.ident ∧
    g1.autogc = g.autogc := by
  unfold ptx_node_free at h
  cases hf : g.find node with
  | none => rw [hf] at h; simp at h
  | some n =>
    rw [hf] at h
    simp only [Option.some.injEq] at h
    subst h
    have s1 := ptx_hashset_free_same { g with nodes := g.nodes.filter (fun x => x.ident != node) }
      n.reads
    have s2 := ptx_hashset_free_same _ n.writes |> ptx_graph.same_trans _ _ _ s1
    have s3 := ptx_edgemap_free_same _ n.ins |> ptx_graph.same_trans _ _ _ s2
    have s4 := ptx_edgemap_free_same _ n.outs |> ptx_graph.same_trans _ _ _ s3
    have s5 := ptx_graph.same_trans _ _ _ s4 (ptx_graph.same_release _).1
    exact ⟨s5.1, s5.2.1, s5.2.2.1⟩

theorem ptx_idents_split (pre rest : List ptx_node) (n0 : ptx_node)
    (hp : ((pre ++ n0 :: rest).map (fun n => n.ident)).Pairwise (fun a b => a < b)) :
    (∀ n ∈ pre, n.ident ≠ n0.ident) ∧ (∀ n ∈ rest, n.ident ≠ n0.ident) := by
  simp only [List.map_append, List.map_cons, List.pairwise_append, List.pairwise_cons,
    List.mem_map, List.mem_cons] at hp
  obtain ⟨-, ⟨h2, -⟩, h3⟩ := hp
  constructor
  · intro n hn
    have := h3 n.ident ⟨n, hn, rfl⟩ n0.ident (Or.inl rfl)
    omega
  · intro n hn
    have := h2 n.ident ⟨n, hn, rfl⟩
    omega

theorem ptx_find_split (pre rest : List ptx_node) (n0 : ptx_node)
    (hpre : ∀ n ∈ pre, n.ident ≠ n0.ident) :
    List.find? (fun n => n.ident == n0.ident) (pre ++ n0 :: rest) = some n0 := by
  rw [List.find?_append]
  have : List.find? (fun n => n.ident == n0.ident) pre = none := by
    rw [List.find?_eq_none]
    intro n hn
    simpa using hpre n hn
  rw [this]
  simp

theorem ptx_map_other (l : List ptx_node) (id : Nat) (f : ptx_node → ptx_node)
    (h : ∀ n ∈ l, n.ident ≠ id) :
    l.map (fun n => if n.ident == id then f n else n) = l := by
  conv_rhs => rw [← List.map_id l]
  apply List.map_congr_left
  intro n hn
  have : (n.ident == id) = false := by simpa using h n hn
  simp [this]

theorem ptx_filter_other (l : List ptx_node) (id : Nat) (h : ∀ n ∈ l, n.ident ≠ id) :
    l.filter (fun n => n.ident != id) = l := by
  rw [List.filter_eq_self]
  intro n hn
  simpa using h n hn

/-- The sweep loop over the idents of a suffix of the live list removes the
unmarked nodes of the suffix and clears the mark of the others. -/
theorem ptx_graph_gc_sweep_spec :
    ∀ (rest pre : List ptx_node) (g g1 : ptx_graph), g.nodes = pre ++ rest →
      ((pre ++ rest).map (fun n => n.ident)).Pairwise (fun a b => a < b) →
      ptx_graph_gc_sweep g (rest.map (fun n => n.ident)) = some g1 →
      g1.nodes = pre ++ (rest.filter (fun n => n.reached)).map
        (fun n : ptx_node => { n with reached := false }) ∧
      g1.ident = g.ident ∧ g1.autogc = g.autogc := by
  intro rest
  induction rest with
  | nil =>
    intro pre g g1 hn _ h
    simp only [List.map_nil, ptx_graph_gc_sweep, Option.some.injEq] at h
    subst h
    simp [hn]
  | cons n0 rest ih =>
    intro pre g g1 hn hp h
    obtain ⟨hpre, hrest⟩ := ptx_idents_split pre rest n0 hp
    have hfind : g.find n0.ident = some n0 := by
      unfold ptx_graph.find
      rw [hn]
      exact ptx_find_split pre rest n0 hpre
    simp only [List.map_cons] at h
    unfold ptx_graph_gc_sweep at h
    rw [hfind] at h
    simp only [] at h
    by_cases hr : n0.reached = true
    · have hnr : ¬ (!n0.reached) = true := by simp [hr]
      rw [if_neg hnr] at h
      have hn1 : (g.update n0.ident (fun x => { x with reached := false })).nodes
          = (pre ++ [{ n0 with reached := false }]) ++ rest := by
        unfold ptx_graph.update
        simp only [hn, List.map_append, List.map_cons]
        rw [ptx_map_other pre n0.ident _ hpre, ptx_map_other rest n0.ident _ hrest]
        simp
      have hp1 : (((pre ++ [{ n0 with reached := false }]) ++ rest).map
          (fun n : ptx_node => n.ident)).Pairwise (fun a b => a < b) := by
        simpa using hp
      obtain ⟨e1, e2, e3⟩ := ih _ _ g1 hn1 hp1 h
      refine ⟨?_, e2, e3⟩
      rw [e1]
      simp [List.filter_cons, hr]
    · have hnr : (!n0.reached) = true := by simp at hr; simp [hr]
      rw [if_pos hnr] at h
      cases hfree : ptx_node_free g n0.ident with
      | none => rw [hfree] at h; simp at h
      | some g2 =>
        rw [hfree] at h
        simp only [] at h
        obtain ⟨f1, f2, f3⟩ := ptx_node_free_spec g g2 n0.ident hfree
        have hn1 : g2.nodes = pre ++ rest := by
          rw [f1, hn, List.filter_append, List.filter_cons]
          rw [ptx_filter_other pre n0.ident hpre, ptx_filter_other rest n0.ident hrest]
          simp
        have hp1 : ((pre ++ rest).map (fun n => n.ident)).Pairwise (fun a b => a < b) := by
          refine List.Pairwise.sublist ?_ hp
          apply List.Sublist.map
          exact List.Sublist.append_left (List.sublist_cons_self n0 rest) pre
        obtain ⟨e1, e2, e3⟩ := ih pre g2 g1 hn1 hp1 h
        refine ⟨?_, e2.trans f2, e3.trans f3⟩
        rw [e1]
        simp [List.filter_cons, hr]

/-- What `ptx_graph_gc` does to a well-formed graph: the live list becomes the
marked nodes of the mark phase, with their marks cleared. -/
theorem ptx_graph_gc_spec (g g1 : ptx_graph) (hw : ptx_wf g) (h : ptx_graph_gc g = some g1) :
    ∃ gm, ptx_graph_gc_mark g (g.nodes.map (fun n => n.ident)) = some gm ∧
      g1.nodes = (gm.nodes.filter (fun n => n.reached)).map
        (fun n : ptx_node => { n with reached := false }) ∧
      g1.ident = g.ident ∧ g1.autogc = g.autogc := by
  unfold ptx_graph_gc at h
  cases hm : ptx_graph_gc_mark g (g.nodes.map (fun n => n.ident)) with
  | none => rw [hm] at h; simp at h
  | some gm =>
    rw [hm] at h
    simp only [] at h
    obtain ⟨m1, -⟩ := ptx_graph_gc_mark_spec _ g gm hm
    obtain ⟨i1, i2, F, hn, hF⟩ := m1
    have hid : gm.nodes.map (fun n => n.ident) = g.nodes.map (fun n => n.ident) := by
      rw [hn, List.map_map]
      apply List.map_congr_left
      intro n _
      exact (ptx_mark_ident F hF n).1
    have hp : ((([] : List ptx_node) ++ gm.nodes).map (fun n => n.ident)).Pairwise
        (fun a b => a < b) := by
      simp only [List.nil_append]
      rw [hid]; exact hw.2.1
    obtain ⟨e1, e2, e3⟩ := ptx_graph_gc_sweep_spec gm.nodes [] gm g1 (by simp) hp h
    exact ⟨gm, rfl, by simpa using e1, e2.trans i1, e3.trans i2⟩

theorem ptx_graph_gc_wf (g g1 : ptx_graph) (hw : ptx_wf g) (h : ptx_graph_gc g = some g1) :
    ptx_wf g1 ∧ g1.ident = g.ident := by
  obtain ⟨gm, hm, hn1, hi1, ha1⟩ := ptx_graph_gc_spec g g1 hw h
  obtain ⟨hmono, hclosed⟩ := ptx_graph_gc_mark_spec _ g gm hm
  obtain ⟨w1, w2, w3, w4, w5, w6⟩ := hw
  obtain ⟨i1, i2, F, hn, hF⟩ := hmono
  have hid : gm.nodes.map (fun n => n.ident) = g.nodes.map (fun n => n.ident) := by
    rw [hn, List.map_map]
    apply List.map_congr_left
    intro n _
    exact (ptx_mark_ident F hF n).1
  have hgm : ∀ n1 ∈ gm.nodes, ∃ n ∈ g.nodes, n1.ident = n.ident ∧ n1.outs = n.outs := by
    intro n1 hn1m
    rw [hn] at hn1m
    obtain ⟨n, hnm, rfl⟩ := List.mem_map.mp hn1m
    obtain ⟨m1, m2, -, -⟩ := ptx_mark_ident F hF n
    exact ⟨n, hnm, m1, m2⟩
  have hmem : ∀ n2 ∈ g1.nodes, ∃ n1 ∈ gm.nodes, n1.reached = true ∧
      n2 = { n1 with reached := false } := by
    intro n2 hn2
    rw [hn1] at hn2
    obtain ⟨n1, hn1m, rfl⟩ := List.mem_map.mp hn2
    obtain ⟨q1, q2⟩ := List.mem_filter.mp hn1m
    exact ⟨n1, q1, q2, rfl⟩
  have hnomark : ∀ m, ¬ g.marked m := by
    rintro m ⟨n, hf, hr⟩
    have := w6 n (ptx_graph.find_some g m n hf).1
    rw [this] at hr
    cases hr
  have hgmfind : ∀ n1 ∈ gm.nodes, gm.find n1.ident = some n1 := by
    intro n1 hn1m
    obtain ⟨pre, rest, hsplit⟩ := List.append_of_mem hn1m
    have hp : ((pre ++ n1 :: rest).map (fun n => n.ident)).Pairwise (fun a b => a < b) := by
      rw [← hsplit, hid]; exact w2
    unfold ptx_graph.find
    rw [hsplit]
    exact ptx_find_split pre rest n1 (ptx_idents_split pre rest n1 hp).1
  refine ⟨⟨by rw [ha1]; exact w1, ?_, ?_, ?_, ?_, ?_⟩, hi1⟩
  · have hsub : g1.nodes.map (fun n => n.ident) =
        (gm.nodes.filter (fun n => n.reached)).map (fun n => n.ident) := by
      rw [hn1, List.map_map]
      rfl
    rw [hsub]
    refine List.Pairwise.sublist ?_ w2
    rw [← hid]
    exact List.Sublist.map _ (List.filter_sublist _)
  · intro n2 hn2
    obtain ⟨n1, hn1m, -, rfl⟩ := hmem n2 hn2
    obtain ⟨n, hnm, e1, -⟩ := hgm n1 hn1m
    rw [hi1]
    simp only []
    rw [e1]
    exact w3 n hnm
  · intro n2 hn2
    obtain ⟨n1, hn1m, -, rfl⟩ := hmem n2 hn2
    obtain ⟨n, hnm, -, e2⟩ := hgm n1 hn1m
    simp only []
    rw [e2]
    exact w4 n hnm
  · intro n2 hn2 x hx
    obtain ⟨n1, hn1m, hr1, rfl⟩ := hmem n2 hn2
    simp only [] at hx
    rcases hclosed n1.ident n1 (hgmfind n1 hn1m) hr1 with hmk | hcl
    · exact absurd hmk (hnomark _)
    · obtain ⟨t, hft, hrt⟩ := hcl x hx
      obtain ⟨htm, hti⟩ := ptx_graph.find_some gm x.1 t hft
      unfold ptx_graph.find
      rw [List.find?_isSome]
      refine ⟨{ t with reached := false }, ?_, by simpa using hti⟩
      rw [hn1]
      exact List.mem_map_of_mem _ (List.mem_filter.mpr ⟨htm, hrt⟩)
  · intro n2 hn2
    obtain ⟨n1, -, -, rfl⟩ := hmem n2 hn2
    rfl

/-! ## Every reachable graph is well-formed -/

theorem ptx_graph_new_wf (opts : ptx_graph_opts) (g : ptx_graph)
    (h : ptx_graph_new opts = some g) : ptx_wf g ∧ g.ident = 0 := by
  unfold ptx_graph_new at h
  have ha := ptx_graph.alloc_same (ptx_graph_zeroed opts)
  cases hal : (ptx_graph_zeroed opts).alloc with
  | mk res g2 =>
    rw [hal] at h ha
    cases res with
    | none => simp at h
    | some junk =>
      simp only [Option.some.injEq] at h
      subst h
      simp only [] at ha
      obtain ⟨⟨hn, hid, hgc, -, -⟩, -⟩ := ha
      have hn0 : g2.nodes = [] := by rw [hn]; rfl
      refine ⟨⟨?_, ?_, ?_, ?_, ?_, ?_⟩, by rw [hid]; rfl⟩
      · rw [hgc]; exact Int.le_refl 0
      · rw [hn0]; exact List.Pairwise.nil
      · intro n hmem; rw [hn0] at hmem; cases hmem
      · intro n hmem; rw [hn0] at hmem; cases hmem
      · intro n hmem; rw [hn0] at hmem; cases hmem
      · intro n hmem; rw [hn0] at hmem; cases hmem

theorem ptx_apply_wf (g g1 : ptx_graph) (op : ptx_op) (hw : ptx_wf g)
    (hlen : g.ident + 1 < 2 ^ 64) (h : ptx_apply g op = some g1) :
    ptx_wf g1 ∧ g1.ident ≤ g.ident + 1 := by
  cases op with
  | begin =>
    simp only [ptx_apply, Option.map_eq_some'] at h
    obtain ⟨⟨g2, r⟩, hb, rfl⟩ := h
    exact ptx_graph_begin_wf g g2 r hw hlen hb
  | read node hash =>
    have := ptx_node_read_wf g g1 node _ hw h
    exact ⟨this.1, by rw [this.2]; omega⟩
  | write node hash =>
    have := ptx_node_write_wf g g1 node _ hw h
    exact ⟨this.1, by rw [this.2]; omega⟩
  | commit node =>
    simp only [ptx_apply, Option.map_eq_some'] at h
    obtain ⟨r, hc, rfl⟩ := h
    have := ptx_node_commit_wf g node r hw hc
    exact ⟨this.1, by rw [this.2]; omega⟩
  | rollback node =>
    have := ptx_node_rollback_wf g g1 node hw h
    exact ⟨this.1, by rw [this.2]; omega⟩
  | gc =>
    have := ptx_graph_gc_wf g g1 hw h
    exact ⟨this.1, by rw [this.2]; omega⟩

theorem ptx_run_wf :
    ∀ (ops : List ptx_op) (g g1 : ptx_graph), ptx_wf g → g.ident + ops.length < 2 ^ 64 →
      ptx_run g ops = some g1 → ptx_wf g1 := by
  intro ops
  induction ops with
  | nil =>
    intro g g1 hw _ h
    simp only [ptx_run, Option.some.injEq] at h
    subst h
    exact hw
  | cons op rest ih =>
    intro g g1 hw hlen h
    unfold ptx_run at h
    simp only [List.length_cons] at hlen
    cases hap : ptx_apply g op with
    | none => rw [hap] at h; simp at h
    | some g2 =>
      rw [hap] at h
      simp only [] at h
      obtain ⟨w2, i2⟩ := ptx_apply_wf g g2 op hw (by omega) hap
      exact ih g2 g1 w2 (by omega) h

/-- Every graph reached from `ptx_graph_new` by fewer than `2^64` calls of the
interface, the collector included and whatever the allocator does, is well-formed. -/
theorem ptx_trace_wf (opts : ptx_graph_opts) (ops : List ptx_op) (g : ptx_graph)
    (hlen : ops.length < 2 ^ 64) (hrun : ptx_trace opts ops = some g) : ptx_wf g := by
  unfold ptx_trace at hrun
  cases hnew : ptx_graph_new opts with
  | none => rw [hnew] at hrun; simp at hrun
  | some g0 =>
    rw [hnew] at hrun
    simp only [] at hrun
    obtain ⟨hw, hi⟩ := ptx_graph_new_wf opts g0 hnew
    exact ptx_run_wf ops g0 g hw (by rw [hi]; simpa using hlen) hrun

theorem ptx_wf_live (g : ptx_graph) (hw : ptx_wf g) (n : ptx_node) (hn : n ∈ g.nodes) :
    ∀ e ∈ ptx_edgemap_edges n.outs, (g.find e.node).isSome = true := by
  intro e he
  exact hw.2.2.2.2.1 n hn e.key (List.mem_map_of_mem ptx_edge.key he)

/-- C1. Commit decision: in every state reached from `ptx_graph_new` by fewer than
`2^64` calls (begin, read, write, commit, rollback, gc; any allocator) and for every
node in state ACTIVE, `ptx_node_commit` returns; it returns false exactly when some
edge of the node's `outs` targets a node that is COMMITTED with `haswrites` set,
whatever the kind of the edge; the node is left ROLLEDBACK when the result is false
and COMMITTED when it is true. -/
theorem ptx_node_commit_decision (opts : ptx_graph_opts) (ops : List ptx_op) (g : ptx_graph)
    (node : Nat) (n : ptx_node) (hlen : ops.length < 2 ^ 64)
    (hrun : ptx_trace opts ops = some g) (hfind : g.find node = some n)
    (hactive : n.state = PTX_ACTIVE) :
    ∃ r, ptx_node_commit g node = some r ∧
      (r.ok = false ↔ ∃ e ∈ ptx_edgemap_edges n.outs, ∃ t, g.find e.node = some t ∧
        t.state = PTX_COMMITTED ∧ t.haswrites = true) ∧
      (r.ok = false → (r.graph.find node).map (fun x => x.state) = some PTX_ROLLEDBACK) ∧
      (r.ok = true → (r.graph.find node).map (fun x => x.state) = some PTX_COMMITTED) := by
  have hw := ptx_trace_wf opts ops g hlen hrun
  exact ptx_node_commit_live_decision g node n hfind hactive hw.1
    (ptx_wf_live g hw n (ptx_graph.find_some g node n hfind).1)

/-- C9. OOM sentinel: in every state reached from `ptx_graph_new` by fewer than
`2^64` calls, `ptx_node_commit` on a NOMEM node returns false, leaves the node
ROLLEDBACK and sets the sentinel; on an ACTIVE node it returns with the sentinel
cleared, whether it succeeds or is rejected; and after any commit that returned
false, `ptx_oom` is true exactly when the node was NOMEM. -/
theorem ptx_node_commit_oom (opts : ptx_graph_opts) (ops : List ptx_op) (g : ptx_graph)
    (node : Nat) (n : ptx_node) (hlen : ops.length < 2 ^ 64)
    (hrun : ptx_trace opts ops = some g) (hfind : g.find node = some n) :
    (n.state = PTX_NOMEM →
      ∃ r, ptx_node_commit g node = some r ∧ r.ok = false ∧ ptx_oom r = true ∧
        (r.graph.find node).map (fun x => x.state) = some PTX_ROLLEDBACK) ∧
    (n.state = PTX_ACTIVE → ∃ r, ptx_node_commit g node = some r ∧ ptx_oom r = false) ∧
    (∀ r, ptx_node_commit g node = some r → r.ok = false →
      (ptx_oom r = true ↔ n.state = PTX_NOMEM)) := by
  have hw := ptx_trace_wf opts ops g hlen hrun
  obtain ⟨h1, h2, h3⟩ := ptx_node_commit_live_oom g node n hfind hw.1
  exact ⟨h1, fun hs => h2 hs (ptx_wf_live g hw n (ptx_graph.find_some g node n hfind).1), h3⟩

theorem ptx_example_ww_reached :
    ptx_trace ptx_opts_default ptx_ops_write_write = some ptx_example_ww := by
  decide

/-- The commit decision at `T2` of the test `write-write`, after `T1` has committed:
the commit is rejected. -/
theorem ptx_node_commit_decision_witness :
    (ptx_ops_write_write.length < 2 ^ 64 ∧
      ptx_trace ptx_opts_default ptx_ops_write_write = some ptx_example_ww ∧
      ptx_example_ww.find 2 = some ptx_example_T2 ∧ ptx_example_T2.state = PTX_ACTIVE) ∧
    ∃ r, ptx_node_commit ptx_example_ww 2 = some r ∧
      (r.ok = false ↔ ∃ e ∈ ptx_edgemap_edges ptx_example_T2.outs, ∃ t,
        ptx_example_ww.find e.node = some t ∧ t.state = PTX_COMMITTED ∧ t.haswrites = true) ∧
      (r.ok = false → (r.graph.find 2).map (fun x => x.state) = some PTX_ROLLEDBACK) ∧
      (r.ok = true → (r.graph.find 2).map (fun x => x.state) = some PTX_COMMITTED) :=
  ⟨⟨by decide, by decide, by decide, by decide⟩,
    ptx_node_commit_decision ptx_opts_default ptx_ops_write_write ptx_example_ww 2 ptx_example_T2
      (by decide) (by decide) (by decide) (by decide)⟩

theorem ptx_read3_runs : (ptx_trace ptx_opts_default ptx_ops_read3).isSome = true := by
  decide

theorem ptx_read3_finds :
    (((ptx_trace ptx_opts_default ptx_ops_read3).get ptx_read3_runs).find 1).isSome = true := by
  decide

/-- The sentinel after the commit of a node that the third read left NOMEM. -/
theorem ptx_node_commit_oom_witness :
    (ptx_ops_read3.length < 2 ^ 64 ∧
      ((((ptx_trace ptx_opts_default ptx_ops_read3).get ptx_read3_runs).find 1).get
        ptx_read3_finds).state = PTX_NOMEM) ∧
    ∃ r, ptx_node_commit ((ptx_trace ptx_opts_default ptx_ops_read3).get ptx_read3_runs) 1
        = some r ∧ r.ok = false ∧ ptx_oom r = true ∧
      (r.graph.find 1).map (fun x => x.state) = some PTX_ROLLEDBACK :=
  ⟨⟨by decide, by decide⟩,
    (ptx_node_commit_oom ptx_opts_default ptx_ops_read3
      ((ptx_trace ptx_opts_default ptx_ops_read3).get ptx_read3_runs) 1
      ((((ptx_trace ptx_opts_default ptx_ops_read3).get ptx_read3_runs).find 1).get
        ptx_read3_finds)
      (by decide) (by simp) (by simp)).1 (by decide)⟩

/-! ## Evaluations -/

/-- C2. With the allocator of `test.c`, which never fails, and the default bloom
sizing, the third distinct hash read by a transaction leaves it NOMEM: `ptx_grow`
takes its second branch, the allocation succeeds and the function returns false. -/
theorem ptx_node_read_third_hash_nomem :
    ptx_never_fails ptx_opts_default.malloc ∧
    (ptx_trace ptx_opts_default ptx_ops_read2).map ptx_states = some [PTX_ACTIVE] ∧
    (ptx_trace ptx_opts_default ptx_ops_read3).map ptx_states
      = some [PTX_NOMEM] := by
  refine ⟨?_, ?_, ?_⟩ <;> decide

/-- C3. On a set sized for `n = 16`, `p = 0.01`, the third `ptx_hashset_add` upgrades
the table to a bloom filter and returns true, yet `ptx_hashset_test` of the hash
just added is false, while the two hashes added before still test true. -/
theorem ptx_hashset_add_upgrade_loses_hash :
    (ptx_hashset_trace ptx_opts_small [1, 2, 3]).map
      (fun r => (r.2, r.1.bits.isSome, ptx_hashset_test r.1 3, ptx_hashset_test r.1 1,
        ptx_hashset_test r.1 2))
      = some (true, true, some false, some true, some true) := by
  decide

/-- C4. With the small bloom sizing and an allocator that never fails, `A` writes
`1`, `2`, `3`, then `B` writes `3`; both nodes are ACTIVE after their writes and
both commits return true. -/
theorem ptx_write_write_both_commit :
    ptx_never_fails ptx_opts_small.malloc ∧
    (ptx_trace ptx_opts_small ptx_ops_lost_write).map
      ptx_states = some [PTX_ACTIVE, PTX_ACTIVE] ∧
    ((ptx_trace ptx_opts_small ptx_ops_lost_write).bind
      (fun g => ptx_commits g [1, 2])).map (fun r => (r.1, ptx_states r.2))
      = some ([true, true], [PTX_COMMITTED, PTX_COMMITTED]) := by
  refine ⟨?_, ?_, ?_⟩ <;> decide

/-- C5. With the small bloom sizing and no failed allocation, after the third
`ptx_node_write` of a transaction the node is ACTIVE with `haswrites` set, but its
write set does not contain the hash just written. -/
theorem ptx_node_write_upgrade_loses_hash :
    (ptx_trace ptx_opts_small ptx_ops_write3).map
      (fun g => g.nodes.map (fun n => (n.state, n.haswrites, ptx_hashset_test n.writes 3)))
      = some [(PTX_ACTIVE, true, some false)] := by
  decide

/-- C6. With the small bloom sizing and no failed allocation, after the third
`ptx_node_read` of a transaction the node is ACTIVE with `hasreads` set, but its
read set does not contain the hash just read. -/
theorem ptx_node_read_upgrade_loses_hash :
    (ptx_trace ptx_opts_small ptx_ops_read3).map
      (fun g => g.nodes.map (fun n => (n.state, n.hasreads, ptx_hashset_test n.reads 3)))
      = some [(PTX_ACTIVE, true, some false)] := by
  decide

/-- C7. Two transactions begin and neither reads or writes anything; then `T2`
writes the hash `0`.  The write records the edges `T1 -> T2` of kinds RW and WW
and `T2 -> T1` of kind WW, and sets `hasdeps` on both nodes. -/
theorem ptx_node_write_zero_hash_adds_edges :
    (ptx_trace ptx_opts_default ptx_ops_begin2).map
      (fun g => g.nodes.map (fun n => ptx_hashset_empty n.reads && ptx_hashset_empty n.writes))
      = some [true, true] ∧
    (ptx_trace ptx_opts_default ptx_ops_begin2).map
      (fun g => g.nodes.map (fun n => (ptx_edgemap_keys n.outs, ptx_edgemap_keys n.ins, n.hasdeps)))
      = some [([], [], false), ([], [], false)] ∧
    (ptx_trace ptx_opts_default ptx_ops_write_zero).map
      (fun g => g.nodes.map (fun n => (ptx_edgemap_keys n.outs, ptx_edgemap_keys n.ins, n.hasdeps)))
      = some [([(2, PTX_RW), (2, PTX_WW)], [(2, PTX_WW)], true),
              ([(1, PTX_WW)], [(1, PTX_RW), (1, PTX_WW)], true)] := by
  refine ⟨?_, ?_, ?_⟩ <;> decide

/-- C8. On a freshly initialised set, which is empty and in table mode,
`ptx_hashset_test` of the hash `0` returns true. -/
theorem ptx_hashset_test_zero_on_empty :
    (ptx_hashset_init 9585058 4).map
      (fun set => (ptx_hashset_empty set, set.bits.isNone, ptx_hashset_test set 0))
      = some (true, true, some true) := by
  decide

/-! ## Hashes, latched nodes and the automatic collector -/

theorem ptx_hashof_mod (x : Nat) : ptx_hashof x = x % 2 ^ 56 := by
  unfold ptx_hashof
  rw [Nat.shiftLeft_eq, Nat.shiftRight_eq_div_pow]
  omega

/-- C15. `ptx_graph_new` computes the threshold from `opts.autogc` but does not
store it: with `opts.autogc = 1` the new graph has `autogc = 0`, and after
`begin; commit` no collection has run: the committed node, which no active
node reaches, is still in the live list. -/
theorem ptx_graph_new_drops_autogc :
    ptx_opts_autogc1.autogc = 1 ∧
    (ptx_graph_new ptx_opts_autogc1).map (fun g => g.autogc) = some 0 ∧
    (ptx_trace ptx_opts_autogc1 ptx_ops_begin_commit).map
      (fun g => (g.autogc, g.gccounter, g.nodes.map (fun n => (n.ident, n.state))))
      = some (0, 0, [(1, PTX_COMMITTED)]) := by
  decide

/-- C17. Only the low 56 bits of a hash matter: for every set, in table or in
bloom mode, two hashes that agree modulo `2^56` get the same answer from
`ptx_hashset_test`, and `ptx_hashset_add` returns the same result and leaves the
same set and the same allocator state for both. -/
theorem ptx_hashset_low56 (g : ptx_graph) (set : ptx_hashset) (h1 h2 : Nat)
    (h : h1 % 2 ^ 56 = h2 % 2 ^ 56) :
    ptx_hashset_test set h1 = ptx_hashset_test set h2 ∧
    ptx_hashset_add g set h1 = ptx_hashset_add g set h2 := by
  have e : ptx_hashof h1 = ptx_hashof h2 := by rw [ptx_hashof_mod, ptx_hashof_mod, h]
  unfold ptx_hashset_test ptx_hashset_add ptx_testadd ptx_add0
  rw [e]
  exact ⟨rfl, rfl⟩

theorem ptx_hashset_low56_witness :
    (5 % 2 ^ 56 = (5 + 2 ^ 56) % 2 ^ 56) ∧
    ptx_hashset_test ptx_example_set5 5 = ptx_hashset_test ptx_example_set5 (5 + 2 ^ 56) ∧
    ptx_hashset_add ptx_example_ww ptx_example_set5 5
      = ptx_hashset_add ptx_example_ww ptx_example_set5 (5 + 2 ^ 56) :=
  ⟨by decide, ptx_hashset_low56 ptx_example_ww ptx_example_set5 5 (5 + 2 ^ 56) (by decide)⟩

/-- C18. `NOMEM` latches reads and writes off: on a node in state `NOMEM`,
`ptx_node_read` and `ptx_node_write` return with the whole graph unchanged, for
every hash. -/
theorem ptx_node_nomem_latched (g : ptx_graph) (node hash : Nat) (n : ptx_node)
    (hfind : g.find node = some n) (hs : n.state = PTX_NOMEM) :
    ptx_node_read g node hash = some g ∧ ptx_node_write g node hash = some g := by
  constructor
  · simp [ptx_node_read, hfind, hs]
  · simp [ptx_node_write, hfind, hs]

/-- The node that the third read left NOMEM ignores a further read and a
further write. -/
theorem ptx_node_nomem_latched_witness :
    (((((ptx_trace ptx_opts_default ptx_ops_read3).get ptx_read3_runs).find 1).get
        ptx_read3_finds).state = PTX_NOMEM) ∧
    ptx_node_read ((ptx_trace ptx_opts_default ptx_ops_read3).get ptx_read3_runs) 1 7
      = some ((ptx_trace ptx_opts_default ptx_ops_read3).get ptx_read3_runs) ∧
    ptx_node_write ((ptx_trace ptx_opts_default ptx_ops_read3).get ptx_read3_runs) 1 7
      = some ((ptx_trace ptx_opts_default ptx_ops_read3).get ptx_read3_runs) :=
  ⟨by decide,
    ptx_node_nomem_latched ((ptx_trace ptx_opts_default ptx_ops_read3).get ptx_read3_runs) 1 7
      ((((ptx_trace ptx_opts_default ptx_ops_read3).get ptx_read3_runs).find 1).get
        ptx_read3_finds)
      (by simp) (by decide)⟩

/-! ## The collector: termination and exactness of the mark phase -/

theorem ptx_graph.marks_refl (g : ptx_graph) : g.marks g :=
  ⟨id, by simp, fun _ => Or.inl rfl⟩

theorem ptx_graph.marks_trans (g g1 g2 : ptx_graph) (h1 : g.marks g1) (h2 : g1.marks g2) :
    g.marks g2 := by
  obtain ⟨F1, e1, hF1⟩ := h1
  obtain ⟨F2, e2, hF2⟩ := h2
  refine ⟨F2 ∘ F1, ?_, ?_⟩
  · rw [e2, e1]
    simp
  · intro n
    rcases hF1 n with q1 | q1 <;> rcases hF2 (F1 n) with q2 | q2
    · left; simp only [Function.comp]; rw [q2, q1]
    · right; simp only [Function.comp]; rw [q2, q1]
    · right; simp only [Function.comp]; rw [q2, q1]
    · right; simp only [Function.comp]; rw [q2, q1]

theorem ptx_graph.marks_mono (g g1 : ptx_graph) (h : g.marks g1) : g.mono g1 := by
  obtain ⟨F, e, hF⟩ := h
  subst e
  exact ⟨rfl, rfl, F, rfl, hF⟩

theorem ptx_graph.marks_update_reached (g : ptx_graph) (node : Nat) :
    g.marks (g.update node (fun x => { x with reached := true })) := by
  refine ⟨fun n => if n.ident == node then { n with reached := true } else n, rfl, ?_⟩
  intro n
  by_cases hc : (n.ident == node) = true
  · right; simp [hc]
  · left; simp [hc]

theorem ptx_graph.marks_unmarked (g g1 : ptx_graph) (h : g.marks g1) :
    g1.unmarked ≤ g.unmarked := by
  obtain ⟨F, e, hF⟩ := h
  subst e
  unfold ptx_graph.unmarked
  simp only [List.countP_map]
  apply List.countP_mono_left
  intro n _ hn
  rcases hF n with q | q
  · simpa [Function.comp, q] using hn
  · simp [Function.comp, q] at hn

theorem ptx_countP_lt {α : Type} (p : α → Bool) (G : α → α)
    (hG : ∀ x, p (G x) = true → p x = true) :
    ∀ (l : List α) (n : α), n ∈ l → p n = true → p (G n) = false →
      (l.map G).countP p < l.countP p := by
  intro l
  induction l with
  | nil => intro n hn; cases hn
  | cons a rest ih =>
    intro n hn h1 h2
    have hle : (rest.map G).countP p ≤ rest.countP p := by
      rw [List.countP_map]
      apply List.countP_mono_left
      intro x _ hx
      exact hG x hx
    rw [List.map_cons, List.countP_cons, List.countP_cons]
    rcases List.mem_cons.mp hn with rfl | hmem
    · rw [h1, h2]
      simp only [if_true, Bool.false_eq_true, if_false]
      omega
    · have := ih n hmem h1 h2
      by_cases hc : p (G a) = true
      · rw [hc, hG a hc]
        omega
      · have hc1 : p (G a) = false := by simpa using hc
        rw [hc1]
        simp only [Bool.false_eq_true, if_false]
        split <;> omega

theorem ptx_graph.unmarked_update (g : ptx_graph) (node : Nat) (n : ptx_node)
    (hf : g.find node = some n) (hr : n.reached = false) :
    (g.update node (fun x => { x with reached := true })).unmarked < g.unmarked := by
  obtain ⟨hm, hid⟩ := ptx_graph.find_some g node n hf
  refine ptx_countP_lt (fun x : ptx_node => !x.reached)
    (fun x => if x.ident == node then { x with reached := true } else x) ?_ g.nodes n hm ?_ ?_
  · intro x hx
    by_cases hc : (x.ident == node) = true
    · simp [hc] at hx
    · simpa [hc] using hx
  · simp [hr]
  · simp [hid]

/-- The mark phase terminates: with more fuel than unmarked nodes, a call of
`ptx_node_gcmark` on a live node of a graph whose `outs` edges target live nodes
returns, and it only sets mark bits. -/
theorem ptx_node_gcmark_total :
    ∀ (fuel : Nat) (g0 g : ptx_graph) (node : Nat),
      g0.mono g → g.unmarked < fuel → (g0.find node).isSome = true →
      (∀ a n, g0.find a = some n → ∀ e ∈ ptx_edgemap_edges n.outs,
        (g0.find e.node).isSome = true) →
      ∃ g1, ptx_node_gcmark fuel g node = some g1 ∧ g.marks g1 := by
  intro fuel
  induction fuel with
  | zero =>
    intro g0 g node _ hu
    omega
  | succ f ih =>
    intro g0 g node hmono hu hlive hclos
    obtain ⟨n0, hf0⟩ := Option.isSome_iff_exists.mp hlive
    obtain ⟨n, hf, houts, -, -, -⟩ := (ptx_graph.mono_find g0 g hmono node).1 n0 hf0
    unfold ptx_node_gcmark
    rw [hf]
    simp only []
    by_cases hr : n.reached = true
    · rw [if_pos hr]
      exact ⟨g, rfl, ptx_graph.marks_refl g⟩
    · rw [if_neg hr]
      have hm1 := ptx_graph.marks_update_reached g node
      have hu1 := ptx_graph.unmarked_update g node n hf (by simpa using hr)
      have hfold : ∀ (es : List ptx_edge) (acc : ptx_graph),
          (∀ e ∈ es, e ∈ ptx_edgemap_edges n.outs) →
          (g.update node (fun x => { x with reached := true })).marks acc →
          ∃ g2, List.foldlM (fun acc edge => ptx_node_gcmark f acc edge.node) acc es = some g2 ∧
            acc.marks g2 := by
        intro es
        induction es with
        | nil =>
          intro acc _ _
          exact ⟨acc, rfl, ptx_graph.marks_refl acc⟩
        | cons e rest ihl =>
          intro acc hes hacc
          have hgacc := ptx_graph.marks_trans g _ acc hm1 hacc
          have hu2 := ptx_graph.marks_unmarked _ acc hacc
          have he := hes e (List.mem_cons_self _ _)
          rw [houts] at he
          obtain ⟨acc1, hstep, hmk1⟩ := ih g0 acc e.node
            (ptx_graph.mono_trans g0 g acc hmono (ptx_graph.marks_mono g acc hgacc))
            (by omega) (hclos node n0 hf0 e he) hclos
          obtain ⟨g2, hrest, hmk2⟩ := ihl acc1
            (fun e1 h1 => hes e1 (List.mem_cons_of_mem _ h1))
            (ptx_graph.marks_trans _ acc acc1 hacc hmk1)
          refine ⟨g2, ?_, ptx_graph.marks_trans acc acc1 g2 hmk1 hmk2⟩
          simp only [List.foldlM_cons, hstep, Option.bind_eq_bind, Option.some_bind]
          exact hrest
      obtain ⟨g2, hrun, hmk⟩ := hfold (ptx_edgemap_edges n.outs) _ (fun _ h => h)
        (ptx_graph.marks_refl _)
      exact ⟨g2, hrun, ptx_graph.marks_trans g _ g2 hm1 hmk⟩

/-- The mark phase marks reachable nodes only: when `P` holds of the start node
and of every marked node, and follows `outs` edges, it holds of every node
that is marked afterwards. -/
theorem ptx_node_gcmark_sound (P : Nat → Prop) (g0 : ptx_graph)
    (hclos : ∀ a n, g0.find a = some n → P a → ∀ e ∈ ptx_edgemap_edges n.outs, P e.node) :
    ∀ (fuel : Nat) (g : ptx_graph) (node : Nat) (g1 : ptx_graph), g0.mono g →
      ptx_node_gcmark fuel g node = some g1 → P node →
      (∀ m n, g.find m = some n → n.reached = true → P m) →
      ∀ m n1, g1.find m = some n1 → n1.reached = true → P m := by
  intro fuel
  induction fuel with
  | zero =>
    intro g node g1 _ h
    simp [ptx_node_gcmark] at h
  | succ f ih =>
    intro g node g1 hmono h hP hinv
    unfold ptx_node_gcmark at h
    cases hf : g.find node with
    | none => rw [hf] at h; simp at h
    | some n =>
      rw [hf] at h
      simp only [] at h
      by_cases hr : n.reached = true
      · rw [if_pos hr] at h
        cases h
        exact hinv
      · rw [if_neg hr] at h
        obtain ⟨n0, hf0, houts, -, -, -⟩ := (ptx_graph.mono_find g0 g hmono node).2 n hf
        have hfold : ∀ (es : List ptx_edge) (acc g2 : ptx_graph),
            (∀ e ∈ es, P e.node) → g0.mono acc →
            (∀ m n, acc.find m = some n → n.reached = true → P m) →
            List.foldlM (fun acc edge => ptx_node_gcmark f acc edge.node) acc es = some g2 →
            ∀ m n1, g2.find m = some n1 → n1.reached = true → P m := by
          intro es
          induction es with
          | nil =>
            intro acc g2 _ _ hacc h2
            simp only [List.foldlM_nil] at h2
            cases h2
            exact hacc
          | cons e rest ihl =>
            intro acc g2 hes hm hacc h2
            simp only [List.foldlM_cons] at h2
            cases hstep : ptx_node_gcmark f acc e.node with
            | none => rw [hstep] at h2; simp at h2
            | some acc1 =>
              rw [hstep] at h2
              simp only [Option.bind_eq_bind, Option.some_bind] at h2
              have s1 := (ptx_node_gcmark_spec f acc e.node acc1 hstep).1
              exact ihl acc1 g2 (fun e1 h1 => hes e1 (List.mem_cons_of_mem _ h1))
                (ptx_graph.mono_trans g0 acc acc1 hm s1)
                (ih acc e.node acc1 hm hstep (hes e (List.mem_cons_self _ _)) hacc) h2
        refine hfold (ptx_edgemap_edges n.outs) _ g1 ?_
          (ptx_graph.mono_trans g0 g _ hmono (ptx_graph.mono_update_reached g node)) ?_ h
        · intro e he
          rw [houts] at he
          exact hclos node n0 hf0 hP e he
        · intro m n1 hm hr1
          rw [ptx_graph.find_update g node m (fun x => { x with reached := true })
            (fun _ => rfl)] at hm
          cases hg : g.find m with
          | none => rw [hg] at hm; simp at hm
          | some n00 =>
            rw [hg] at hm
            have hid := (ptx_graph.find_some g m n00 hg).2
            by_cases hmn : m = node
            · rw [hmn]; exact hP
            · have hne : (n00.ident == node) = false := by simp [hid, hmn]
              simp only [Option.map_some', hne, Bool.false_eq_true, if_false,
                Option.some.injEq] at hm
              subst hm
              exact hinv m n00 hg hr1

/-- The mark loop of `ptx_graph_gc` returns; it only sets mark bits, every
active node of the list is marked afterwards, and a property that holds of the
active nodes and follows `outs` edges holds of every marked node. -/
theorem ptx_graph_gc_mark_exact (P : Nat → Prop) (g0 : ptx_graph)
    (hlive : ∀ a n, g0.find a = some n → ∀ e ∈ ptx_edgemap_edges n.outs,
      (g0.find e.node).isSome = true)
    (hclos : ∀ a n, g0.find a = some n → P a → ∀ e ∈ ptx_edgemap_edges n.outs, P e.node)
    (hroot : ∀ a n, g0.find a = some n → n.state = PTX_ACTIVE → P a) :
    ∀ (ids : List Nat) (g : ptx_graph), g0.marks g →
      (∀ id ∈ ids, (g0.find id).isSome = true) →
      (∀ m n, g.find m = some n → n.reached = true → P m) →
      ∃ g1, ptx_graph_gc_mark g ids = some g1 ∧ g.marks g1 ∧
        (∀ m n1, g1.find m = some n1 → n1.reached = true → P m) ∧
        (∀ id ∈ ids, ∀ n, g0.find id = some n → n.state = PTX_ACTIVE → g1.marked id) := by
  intro ids
  induction ids with
  | nil =>
    intro g _ _ hinv
    exact ⟨g, rfl, ptx_graph.marks_refl g, hinv, fun id hid => by cases hid⟩
  | cons node rest ih =>
    intro g hmk hids hinv
    have hmono := ptx_graph.marks_mono g0 g hmk
    obtain ⟨n0, hf0⟩ := Option.isSome_iff_exists.mp (hids node (List.mem_cons_self _ _))
    obtain ⟨n, hf, -, hst, -, -⟩ := (ptx_graph.mono_find g0 g hmono node).1 n0 hf0
    unfold ptx_graph_gc_mark
    rw [hf]
    simp only []
    by_cases ha : n.state = PTX_ACTIVE
    · rw [if_pos ha]
      have hu : g.unmarked < g.nodes.length + 1 := by
        have := List.countP_le_length (fun n : ptx_node => !n.reached) (l := g.nodes)
        unfold ptx_graph.unmarked
        omega
      obtain ⟨g2, hrun, hmk2⟩ := ptx_node_gcmark_total _ g0 g node hmono hu
        (hids node (List.mem_cons_self _ _)) hlive
      rw [hrun]
      simp only []
      have hPn : P node := hroot node n0 hf0 (by rw [← hst]; exact ha)
      have hinv2 := ptx_node_gcmark_sound P g0 hclos _ g node g2 hmono hrun hPn hinv
      have hmarked := (ptx_node_gcmark_spec _ g node g2 hrun).2.1
      obtain ⟨g1, hrest, hmk1, hinv1, hroots⟩ := ih g2 (ptx_graph.marks_trans g0 g g2 hmk hmk2)
        (fun id h1 => hids id (List.mem_cons_of_mem _ h1)) hinv2
      refine ⟨g1, hrest, ptx_graph.marks_trans g g2 g1 hmk2 hmk1, hinv1, ?_⟩
      intro id hid nn hfn han
      rcases List.mem_cons.mp hid with rfl | hmem
      · exact ptx_graph.marked_mono g2 g1 (ptx_graph.marks_mono g2 g1 hmk1) _ hmarked
      · exact hroots id hmem nn hfn han
    · rw [if_neg ha]
      obtain ⟨g1, hrest, hmk1, hinv1, hroots⟩ := ih g hmk
        (fun id h1 => hids id (List.mem_cons_of_mem _ h1)) hinv
      refine ⟨g1, hrest, hmk1, hinv1, ?_⟩
      intro id hid nn hfn han
      rcases List.mem_cons.mp hid with rfl | hmem
      · rw [hf0] at hfn
        cases hfn
        rw [hst] at ha
        exact absurd han ha
      · exact hroots id hmem nn hfn han

/-! ## The collector: the sweep phase returns -/

theorem ptx_hashset_free_nallocs (g : ptx_graph) (set : ptx_hashset) :
    (ptx_hashset_free g set).nallocs = g.nallocs - set.blocks := by
  unfold ptx_hashset_free ptx_graph.release ptx_hashset.blocks
  simp only []
  split <;> split <;> simp
  omega

theorem ptx_edgemap_free_nallocs (g : ptx_graph) (map : ptx_edgemap) :
    (ptx_edgemap_free g map).nallocs = g.nallocs - map.blocks := by
  unfold ptx_edgemap_free ptx_graph.release ptx_edgemap.blocks
  by_cases h : map.nbuckets ≠ 0
  · rw [if_pos h, if_pos h]
  · rw [if_neg h, if_neg h]
    simp

/-- The function `ptx_node_free` on a live node returns: the node leaves the live
list and its blocks are released. -/
theorem ptx_node_free_total (g : ptx_graph) (node : Nat) (n : ptx_node)
    (hf : g.find node = some n) :
    ∃ g1, ptx_node_free g node = some g1 ∧
      g1.nodes = g.nodes.filter (fun x => x.ident != node) ∧ g1.ident = g.ident ∧
      g1.autogc = g.autogc ∧ g1.nallocs = g.nallocs - n.blocks := by
  have hfree : ∃ g1, ptx_node_free g node = some g1 := by
    unfold ptx_node_free
    rw [hf]
    exact ⟨_, rfl⟩
  obtain ⟨g1, hg1⟩ := hfree
  obtain ⟨s1, s2, s3⟩ := ptx_node_free_spec g g1 node hg1
  refine ⟨g1, hg1, s1, s2, s3, ?_⟩
  unfold ptx_node_free at hg1
  rw [hf] at hg1
  simp only [Option.some.injEq] at hg1
  subst hg1
  show (ptx_edgemap_free _ n.outs).nallocs - 1 = _
  rw [ptx_edgemap_free_nallocs, ptx_edgemap_free_nallocs, ptx_hashset_free_nallocs,
    ptx_hashset_free_nallocs]
  unfold ptx_node.blocks
  simp only []
  omega

theorem ptx_idents_split_nodup (pre rest : List ptx_node) (n0 : ptx_node)
    (hp : ((pre ++ n0 :: rest).map (fun n => n.ident)).Nodup) :
    (∀ n ∈ pre, n.ident ≠ n0.ident) ∧ (∀ n ∈ rest, n.ident ≠ n0.ident) := by
  unfold List.Nodup at hp
  simp only [List.map_append, List.map_cons, List.pairwise_append, List.pairwise_cons,
    List.mem_map, List.mem_cons] at hp
  obtain ⟨-, ⟨h2, -⟩, h3⟩ := hp
  constructor
  · intro n hn
    exact h3 n.ident ⟨n, hn, rfl⟩ n0.ident (Or.inl rfl)
  · intro n hn
    exact fun e => h2 n.ident ⟨n, hn, rfl⟩ e.symm

/-- The sweep loop over the idents of a suffix of the live list returns: it
removes the unmarked nodes of the suffix, releasing their blocks, and clears the
mark of the others. -/
theorem ptx_graph_gc_sweep_total :
    ∀ (rest pre : List ptx_node) (g : ptx_graph), g.nodes = pre ++ rest →
      ((pre ++ rest).map (fun n => n.ident)).Nodup →
      ∃ g1, ptx_graph_gc_sweep g (rest.map (fun n => n.ident)) = some g1 ∧
        g1.nodes = pre ++ (rest.filter (fun n => n.reached)).map
          (fun n : ptx_node => { n with reached := false }) ∧
        g1.ident = g.ident ∧ g1.autogc = g.autogc ∧
        g1.nallocs - g1.blocks = g.nallocs - g.blocks := by
  intro rest
  induction rest with
  | nil =>
    intro pre g hn _
    refine ⟨g, rfl, by simp [hn], rfl, rfl, rfl⟩
  | cons n0 rest ih =>
    intro pre g hn hp
    obtain ⟨hpre, hrest⟩ := ptx_idents_split_nodup pre rest n0 hp
    have hfind : g.find n0.ident = some n0 := by
      unfold ptx_graph.find
      rw [hn]
      exact ptx_find_split pre rest n0 hpre
    simp only [List.map_cons]
    unfold ptx_graph_gc_sweep
    rw [hfind]
    simp only []
    by_cases hr : n0.reached = true
    · have hnr : ¬ (!n0.reached) = true := by simp [hr]
      rw [if_neg hnr]
      have hn1 : (g.update n0.ident (fun x => { x with reached := false })).nodes
          = (pre ++ [{ n0 with reached := false }]) ++ rest := by
        unfold ptx_graph.update
        simp only [hn, List.map_append, List.map_cons]
        rw [ptx_map_other pre n0.ident _ hpre, ptx_map_other rest n0.ident _ hrest]
        simp
      have hp1 : (((pre ++ [{ n0 with reached := false }]) ++ rest).map
          (fun n : ptx_node => n.ident)).Nodup := by
        simpa using hp
      obtain ⟨g1, hrun, e1, e2, e3, e4⟩ := ih _ _ hn1 hp1
      refine ⟨g1, hrun, ?_, e2, e3, ?_⟩
      · rw [e1]
        simp [List.filter_cons, hr]
      · rw [e4]
        have hb : (g.update n0.ident (fun x => { x with reached := false })).blocks = g.blocks := by
          unfold ptx_graph.blocks
          rw [hn1, hn]
          simp [ptx_node.blocks]
        rw [hb]
        rfl
    · have hnr : (!n0.reached) = true := by simp at hr; simp [hr]
      rw [if_pos hnr]
      obtain ⟨g2, hfree, f1, f2, f3, f4⟩ := ptx_node_free_total g n0.ident n0 hfind
      rw [hfree]
      simp only []
      have hn1 : g2.nodes = pre ++ rest := by
        rw [f1, hn, List.filter_append, List.filter_cons]
        rw [ptx_filter_other pre n0.ident hpre, ptx_filter_other rest n0.ident hrest]
        simp
      have hp1 : ((pre ++ rest).map (fun n => n.ident)).Nodup := by
        refine List.Nodup.sublist ?_ hp
        apply List.Sublist.map
        exact List.Sublist.append_left (List.sublist_cons_self n0 rest) pre
      obtain ⟨g1, hrun, e1, e2, e3, e4⟩ := ih pre g2 hn1 hp1
      refine ⟨g1, hrun, ?_, e2.trans f2, e3.trans f3, ?_⟩
      · rw [e1]
        simp [List.filter_cons, hr]
      · rw [e4, f4]
        have hb : g.blocks = g2.blocks + n0.blocks := by
          unfold ptx_graph.blocks
          rw [hn1, hn]
          simp
          omega
        rw [hb]
        omega

theorem ptx_find_of_nodup (g : ptx_graph) (hids : (g.nodes.map (fun n => n.ident)).Nodup)
    (n : ptx_node) (hn : n ∈ g.nodes) : g.find n.ident = some n := by
  obtain ⟨pre, rest, hsplit⟩ := List.append_of_mem hn
  unfold ptx_graph.find
  rw [hsplit] at hids ⊢
  exact ptx_find_split pre rest n (ptx_idents_split_nodup pre rest n hids).1

theorem ptx_filter_marked (F : ptx_node → ptx_node)
    (hF : ∀ n, F n = n ∨ F n = { n with reached := true }) (l : List ptx_node)
    (hl : ∀ n ∈ l, n.reached = false) :
    ((l.map F).filter (fun n => n.reached)).map (fun n : ptx_node => { n with reached := false })
      = l.filter (fun n => (F n).reached) := by
  rw [List.filter_map, List.map_map]
  conv_rhs => rw [← List.map_id (l.filter (fun n => (F n).reached))]
  apply List.map_congr_left
  intro n hn
  obtain ⟨hm, -⟩ := List.mem_filter.mp hn
  have hr := hl n hm
  simp only [Function.comp, id]
  rcases hF n with q | q
  · rw [q]
    cases n
    simp only [] at hr
    subst hr
    rfl
  · rw [q]
    cases n
    simp only [] at hr
    subst hr
    rfl

/-- What `ptx_graph_gc` does on a graph whose nodes have distinct idents, whose
mark bits are all clear and whose `outs` edges all target live nodes: it
returns, the live list afterwards is the old one filtered, the nodes kept are
exactly the reachable ones, and the blocks of the removed nodes are released. -/
theorem ptx_graph_gc_filter (g : ptx_graph)
    (hids : (g.nodes.map (fun n => n.ident)).Nodup)
    (hmarks : ∀ n ∈ g.nodes, n.reached = false)
    (hlive : ∀ n ∈ g.nodes, ∀ e ∈ ptx_edgemap_edges n.outs, (g.find e.node).isSome = true) :
    ∃ g1 keep, ptx_graph_gc g = some g1 ∧ g1.nodes = g.nodes.filter keep ∧
      (∀ n ∈ g.nodes, keep n = true ↔ g.reaches n.ident) ∧
      g1.ident = g.ident ∧ g1.autogc = g.autogc ∧
      g1.nallocs - g1.blocks = g.nallocs - g.blocks := by
  have hlive1 : ∀ a n, g.find a = some n → ∀ e ∈ ptx_edgemap_edges n.outs,
      (g.find e.node).isSome = true :=
    fun a n hf => hlive n (ptx_graph.find_some g a n hf).1
  have hclos : ∀ a n, g.find a = some n → g.reaches a → ∀ e ∈ ptx_edgemap_edges n.outs,
      g.reaches e.node := by
    intro a n hf hr e he
    obtain ⟨hm, hid⟩ := ptx_graph.find_some g a n hf
    subst hid
    exact ptx_graph.reaches.step n e hm hr he
  have hroot : ∀ a n, g.find a = some n → n.state = PTX_ACTIVE → g.reaches a := by
    intro a n hf ha
    obtain ⟨hm, hid⟩ := ptx_graph.find_some g a n hf
    subst hid
    exact ptx_graph.reaches.root n hm ha
  have hnomark : ∀ m, ¬ g.marked m := by
    rintro m ⟨n, hf, hr⟩
    have := hmarks n (ptx_graph.find_some g m n hf).1
    rw [this] at hr
    cases hr
  obtain ⟨gm, hrun, hmk, hsound, hroots⟩ := ptx_graph_gc_mark_exact g.reaches g hlive1 hclos hroot
    (g.nodes.map (fun n => n.ident)) g (ptx_graph.marks_refl g)
    (by
      intro id hid
      obtain ⟨n, hn, rfl⟩ := List.mem_map.mp hid
      rw [ptx_find_of_nodup g hids n hn]
      rfl)
    (fun m n hf hr => absurd ⟨n, hf, hr⟩ (hnomark m))
  have hclosed := (ptx_graph_gc_mark_spec _ g gm hrun).2
  have hmono := ptx_graph.marks_mono g gm hmk
  obtain ⟨F, hgm, hF⟩ := hmk
  have hgmn : gm.nodes = g.nodes.map F := by rw [hgm]
  have hid : gm.nodes.map (fun n => n.ident) = g.nodes.map (fun n => n.ident) := by
    rw [hgmn, List.map_map]
    apply List.map_congr_left
    intro n _
    exact (ptx_mark_ident F hF n).1
  obtain ⟨g1, hsweep, e1, e2, e3, e4⟩ := ptx_graph_gc_sweep_total gm.nodes [] gm (by simp)
    (by simpa [hid] using hids)
  have hblocks : gm.blocks = g.blocks := by
    unfold ptx_graph.blocks
    rw [hgmn, List.map_map]
    apply congrArg
    apply List.map_congr_left
    intro n _
    simp only [Function.comp]
    rcases hF n with q | q
    · rw [q]
    · rw [q]; rfl
  have hfindgm : ∀ n ∈ g.nodes, gm.find n.ident = some (F n) := by
    intro n hn
    rw [ptx_find_map g gm F hgmn (fun n => (ptx_mark_ident F hF n).1) n.ident,
      ptx_find_of_nodup g hids n hn]
    rfl
  have hmarked : ∀ id, g.reaches id → gm.marked id := by
    intro id hr
    induction hr with
    | root n hn ha =>
      exact hroots n.ident (List.mem_map_of_mem _ hn) n (ptx_find_of_nodup g hids n hn) ha
    | step a e hm _ he ih =>
      obtain ⟨a1, hfa1, hra1⟩ := ih
      rw [hfindgm a hm] at hfa1
      cases hfa1
      rcases hclosed a.ident (F a) (hfindgm a hm) hra1 with hmk0 | hcl
      · exact absurd hmk0 (hnomark _)
      · have hx : e.key ∈ ptx_edgemap_keys (F a).outs := by
          rw [(ptx_mark_ident F hF a).2.1]
          exact List.mem_map_of_mem _ he
        exact hcl e.key hx
  have hnodes : g1.nodes = g.nodes.filter (fun n => (F n).reached) := by
    rw [e1, hgmn]
    simp only [List.nil_append]
    exact ptx_filter_marked F hF g.nodes hmarks
  refine ⟨g1, fun n => (F n).reached, ?_, hnodes, ?_, ?_, ?_, ?_⟩
  · unfold ptx_graph_gc
    rw [hrun]
    exact hsweep
  · intro n hn
    constructor
    · intro hk
      exact hsound n.ident (F n) (hfindgm n hn) hk
    · intro hr
      obtain ⟨n1, hf1, hr1⟩ := hmarked n.ident hr
      rw [hfindgm n hn] at hf1
      cases hf1
      exact hr1
  · rw [e2, hgm]
  · rw [e3, hgm]
  · rw [e4, hblocks, hgm]

/-! ## Allocation balance: sets and maps -/

theorem ptx_graph.alloc_nallocs (g : ptx_graph) :
    g.alloc.2.nallocs = g.nallocs + (if g.alloc.1.isSome then 1 else 0) := by
  unfold ptx_graph.alloc
  cases hm : g.malloc with
  | nil => simp
  | cons a rest => cases a <;> simp

theorem ptx_hashset.store_blocks (set : ptx_hashset) (i v : Nat) :
    (set.store i v).bits = set.bits ∧ (set.store i v).buckets.isSome = set.buckets.isSome := by
  unfold ptx_hashset.store
  cases set.buckets <;> simp

/-- The case analysis on an optional block, which `ptx_hashset.cur` and
`ptx_testadd` share, at a block that is present. -/
theorem ptx_match_bits {β : Type} (o : Option (List Nat)) (x : List Nat) (a : Unit → β)
    (B : List Nat → β) (v : β) (h : ptx_hashset.cur.match_1 (fun _ => β) o a B = v)
    (ho : o = some x) : B x = v := by
  subst ho
  exact h

theorem ptx_testadd_blocks (set set1 : ptx_hashset) (hash : Nat) (add r : Bool)
    (h : ptx_testadd set hash add = some (set1, r)) :
    set1.buckets = set.buckets ∧ set1.bits.isSome = true ∧ set.bits.isSome = true := by
  cases hb : set.bits with
  | none =>
    have : ptx_testadd set hash add = none := by
      unfold ptx_testadd
      rw [hb]
    rw [this] at h
    cases h
  | some bits =>
    unfold ptx_testadd at h
    have h1 := ptx_match_bits set.bits bits _ _ _ h hb
    obtain ⟨res, hres⟩ : ∃ res, ptx_testadd_loop set.m add ((set.k + 2 ^ 64 - 1) % 2 ^ 64) bits
        (ptx_hashof hash) (ptx_hashof hash &&& (set.m - 1)) = res := ⟨_, rfl⟩
    rw [hres] at h1
    cases res with
    | none => simp at h1
    | some q =>
      simp only [Option.some.injEq, Prod.mk.injEq] at h1
      rw [← h1.1]
      exact ⟨rfl, rfl, rfl⟩

theorem ptx_add0_loop_blocks :
    ∀ (fuel : Nat) (set : ptx_hashset) (hash dib i : Nat) (set1 : ptx_hashset),
      ptx_add0_loop fuel set hash dib i = some set1 →
      set1.bits = set.bits ∧ set1.buckets.isSome = set.buckets.isSome := by
  intro fuel
  induction fuel with
  | zero =>
    intro set hash dib i set1 h
    simp [ptx_add0_loop] at h
  | succ f ih =>
    intro set hash dib i set1 h
    unfold ptx_add0_loop at h
    cases hc : set.cur[i]? with
    | none => rw [hc] at h; simp at h
    | some b =>
      rw [hc] at h
      simp only [] at h
      by_cases hd : ptx_dibof b = 0
      · rw [if_pos hd] at h
        simp only [Option.some.injEq] at h
        rw [← h]
        exact ptx_hashset.store_blocks set i _
      · rw [if_neg hd] at h
        by_cases hlt : ptx_dibof b < dib
        · simp only [hlt, if_true] at h
          have hs1 := ptx_hashset.store_blocks set i (ptx_sethashdib hash dib)
          cases hc1 : (set.store i (ptx_sethashdib hash dib)).cur[i]? with
          | none => rw [hc1] at h; simp at h
          | some b1 =>
            rw [hc1] at h
            simp only [] at h
            by_cases he : ptx_hashof b1 = ptx_hashof b
            · rw [if_pos he] at h
              simp only [Option.some.injEq] at h
              rw [← h]
              exact hs1
            · rw [if_neg he] at h
              obtain ⟨q1, q2⟩ := ih _ _ _ _ _ h
              exact ⟨q1.trans hs1.1, q2.trans hs1.2⟩
        · simp only [hlt, if_false] at h
          rw [hc] at h
          simp only [] at h
          by_cases he : ptx_hashof b = hash
          · rw [if_pos he] at h
            simp only [Option.some.injEq] at h
            rw [← h]
            exact ⟨rfl, rfl⟩
          · rw [if_neg he] at h
            exact ih _ _ _ _ _ h

theorem ptx_grow_upgrade_blocks :
    ∀ (l : List Nat) (set set1 : ptx_hashset), ptx_grow_upgrade set l = some set1 →
      set.bits.isSome = true → set1.buckets = set.buckets ∧ set1.bits.isSome = true := by
  intro l
  induction l with
  | nil =>
    intro set set1 h hb
    simp only [ptx_grow_upgrade, Option.some.injEq] at h
    subst h
    exact ⟨rfl, hb⟩
  | cons b rest ih =>
    intro set set1 h hb
    unfold ptx_grow_upgrade at h
    by_cases hd : ptx_dibof b ≠ 0
    · rw [if_pos hd] at h
      cases ht : ptx_testadd set b true with
      | none => rw [ht] at h; simp at h
      | some r =>
        obtain ⟨set2, r2⟩ := r
        rw [ht] at h
        simp only [] at h
        obtain ⟨t1, t2, -⟩ := ptx_testadd_blocks set set2 b true r2 ht
        obtain ⟨q1, q2⟩ := ih set2 set1 h t2
        exact ⟨q1.trans t1, q2⟩
    · rw [if_neg hd] at h
      exact ih set set1 h hb

/-- A call of `ptx_hashset_add` on a set whose table is the inline array keeps
the balance: the allocation count changes by the blocks the set gained, and a
call that returns true leaves the table in the inline array. -/
theorem ptx_hashset_add_blocks (g g1 : ptx_graph) (set set1 : ptx_hashset) (hash : Nat)
    (ok : Bool) (hb : set.buckets = none)
    (h : ptx_hashset_add g set hash = some (g1, set1, ok)) :
    g1.nallocs = g.nallocs + (set1.blocks - set.blocks) ∧ (ok = true → set1.buckets = none) := by
  unfold ptx_hashset_add at h
  by_cases hbits : set.bits.isSome = true
  · rw [if_pos hbits] at h
    cases ht : ptx_testadd set hash true with
    | none => rw [ht] at h; simp at h
    | some r =>
      obtain ⟨set2, r2⟩ := r
      rw [ht] at h
      simp only [Option.some.injEq, Prod.mk.injEq] at h
      obtain ⟨hg, hs, -⟩ := h
      subst hg hs
      obtain ⟨t1, t2, t3⟩ := ptx_testadd_blocks set set2 hash true r2 ht
      refine ⟨?_, fun _ => t1.trans hb⟩
      unfold ptx_hashset.blocks
      rw [t1, t2, t3]
      simp
  · rw [if_neg hbits] at h
    by_cases hc : set.count < set.nbuckets >>> 1
    · rw [if_pos hc] at h
      cases ht : ptx_add0 set hash with
      | none => rw [ht] at h; simp at h
      | some set2 =>
        rw [ht] at h
        simp only [Option.some.injEq, Prod.mk.injEq] at h
        obtain ⟨hg, hs, -⟩ := h
        subst hg hs
        obtain ⟨t1, t2⟩ := ptx_add0_loop_blocks _ _ _ _ _ _ ht
        have hnone : set2.buckets = none := by
          rw [hb] at t2
          simpa using t2
        refine ⟨?_, fun _ => hnone⟩
        unfold ptx_hashset.blocks
        rw [t1, t2]
        simp
    · rw [if_neg hc] at h
      unfold ptx_grow at h
      have ha := ptx_graph.alloc_nallocs g
      cases hal : g.alloc with
      | mk r g2 =>
        rw [hal] at h ha
        simp only [] at ha
        by_cases hu : set.nbuckets * 2 * 8 ≥ set.m / 8
        · rw [if_pos hu] at h
          cases r with
          | none =>
            simp only [Option.some.injEq, Prod.mk.injEq] at h
            obtain ⟨hg, hs, hok⟩ := h
            subst hg hs
            refine ⟨?_, fun ho => by rw [← hok] at ho; cases ho⟩
            have hbn : set.bits = none := by simpa using hbits
            simp only [Option.isSome_none, Bool.false_eq_true, if_false] at ha
            unfold ptx_hashset.blocks
            simp only [hbn]
            rw [ha]
            simp
          | some junk =>
            simp only [] at h
            cases hup : ptx_grow_upgrade
                { set with bits := some (List.replicate (set.m / 8) 0), count := 0, nbuckets := 0,
                           buckets := none } (List.take set.nbuckets set.cur) with
            | none => rw [hup] at h; simp at h
            | some set2 =>
              rw [hup] at h
              simp only [Option.some.injEq, Prod.mk.injEq] at h
              obtain ⟨hg, hs, -⟩ := h
              subst hs
              obtain ⟨q1, q2⟩ := ptx_grow_upgrade_blocks _ _ _ hup rfl
              simp only [] at q1
              have hbn : set.bits = none := by simpa using hbits
              refine ⟨?_, fun _ => q1⟩
              rw [← hg]
              simp only [hb, Option.isSome_none, Bool.false_eq_true, if_false]
              simp only [Option.isSome_some, if_true] at ha
              unfold ptx_hashset.blocks
              rw [q1, q2, hb, hbn, ha]
              simp
        · rw [if_neg hu] at h
          cases r with
          | none => simp at h
          | some junk =>
            simp only [Option.some.injEq, Prod.mk.injEq] at h
            obtain ⟨hg, hs, hok⟩ := h
            subst hg hs
            refine ⟨?_, fun ho => by rw [← hok] at ho; cases ho⟩
            simp only [Option.isSome_some, if_true] at ha
            unfold ptx_hashset.blocks
            simp only [hb]
            rw [ha]
            simp

theorem ptx_edgemap_grow_blocks (g g1 : ptx_graph) (map map1 : ptx_edgemap) (ok : Bool)
    (h : ptx_edgemap_grow g map = some (g1, map1, ok)) :
    g1.nallocs = g.nallocs + (map1.blocks - map.blocks) := by
  unfold ptx_edgemap_grow at h
  have ha := ptx_graph.alloc_nallocs g
  cases hal : g.alloc with
  | mk res g2 =>
    rw [hal] at h ha
    simp only [] at ha
    cases res with
    | none =>
      simp only [Option.some.injEq, Prod.mk.injEq] at h
      obtain ⟨hg, hm, -⟩ := h
      subst hg hm
      rw [ha]
      simp
    | some junk =>
      simp only [] at h
      cases hloop : ptx_edgemap_grow_loop
          (ptx_edgemap_zeroed (if map.nbuckets = 0 then 2 else map.nbuckets * 2))
          (List.take map.nbuckets map.buckets) with
      | none => rw [hloop] at h; simp at h
      | some map2 =>
        rw [hloop] at h
        simp only [Option.some.injEq, Prod.mk.injEq] at h
        obtain ⟨hg, hm, -⟩ := h
        subst hm
        obtain ⟨s1, -⟩ := ptx_edgemap_grow_loop_shape _ _ _ hloop
        simp only [Option.isSome_some, if_true] at ha
        have hnb : map2.nbuckets ≠ 0 := by
          rw [s1]
          unfold ptx_edgemap_zeroed
          simp only []
          split <;> omega
        rw [← hg]
        unfold ptx_edgemap.blocks
        rw [if_pos hnb]
        by_cases h0 : map.nbuckets ≠ 0
        · rw [if_pos h0, if_pos h0]
          unfold ptx_graph.release
          simp only []
          rw [ha]
          omega
        · rw [if_neg h0, if_neg h0, ha]
          omega

/-- A call of `ptx_edgemap_add` keeps the balance: the allocation count changes
by the blocks the map gained. -/
theorem ptx_edgemap_add_blocks (g g1 : ptx_graph) (map map1 : ptx_edgemap) (node kind : Nat)
    (ok : Bool) (h : ptx_edgemap_add g map node kind = some (g1, map1, ok)) :
    g1.nallocs = g.nallocs + (map1.blocks - map.blocks) := by
  unfold ptx_edgemap_add at h
  simp only [] at h
  have key : ∀ (g2 : ptx_graph) (map2 : ptx_edgemap) (ok2 : Bool),
      g2.nallocs = g.nallocs + (map2.blocks - map.blocks) →
      (match (some (g2, map2, ok2) : Option (ptx_graph × ptx_edgemap × Bool)) with
        | none => none
        | some (g1, map1, false) => some (g1, map1, false)
        | some (g1, map1, true) =>
          match ptx_edgemap_add0 map1 { dib := 0, kind := kind % 65536, node := node } with
          | none => none
          | some map3 => some (g1, map3, true)) = some (g1, map1, ok) →
      g1.nallocs = g.nallocs + (map1.blocks - map.blocks) := by
    intro g2 map2 ok2 hk h2
    cases ok2 with
    | false =>
      simp only [Option.some.injEq, Prod.mk.injEq] at h2
      obtain ⟨hg, hm, -⟩ := h2
      subst hg hm
      exact hk
    | true =>
      simp only [] at h2
      cases hadd : ptx_edgemap_add0 map2 { dib := 0, kind := kind % 65536, node := node } with
      | none => rw [hadd] at h2; simp at h2
      | some map3 =>
        rw [hadd] at h2
        simp only [Option.some.injEq, Prod.mk.injEq] at h2
        obtain ⟨hg, hm, -⟩ := h2
        subst hg hm
        obtain ⟨s1, -⟩ := ptx_edgemap_add0_loop_shape _ _ _ _ _ hadd
        have : map3.blocks = map2.blocks := by
          unfold ptx_edgemap.blocks
          rw [s1]
        rw [this]
        exact hk
  by_cases hc : map.count = map.nbuckets / 2
  · rw [if_pos hc] at h
    cases hgrow : ptx_edgemap_grow g map with
    | none => rw [hgrow] at h; simp at h
    | some r =>
      obtain ⟨g2, map2, ok2⟩ := r
      rw [hgrow] at h
      exact key g2 map2 ok2 (ptx_edgemap_grow_blocks g g2 map map2 ok2 hgrow) h
  · rw [if_neg hc] at h
    exact key g map true (by omega) h

/-! ## Allocation balance and frames: the calls on a node -/

theorem ptx_framed_refl (node : Nat) (g : ptx_graph) : ptx_framed node g g :=
  ⟨rfl, id, by simp, fun _ => ⟨rfl, fun _ => ⟨rfl, rfl, rfl, rfl, rfl⟩⟩⟩

theorem ptx_framed_trans (node : Nat) (g g1 g2 : ptx_graph) (h1 : ptx_framed node g g1)
    (h2 : ptx_framed node g1 g2) : ptx_framed node g g2 := by
  obtain ⟨i1, F1, n1, p1⟩ := h1
  obtain ⟨i2, F2, n2, p2⟩ := h2
  refine ⟨i2.trans i1, fun n => F2 (F1 n), by rw [n2, n1, List.map_map]; rfl, ?_⟩
  intro n
  obtain ⟨a1, a2⟩ := p1 n
  obtain ⟨b1, b2⟩ := p2 (F1 n)
  refine ⟨b1.trans a1, fun hne => ?_⟩
  obtain ⟨c1, c2, c3, c4, c5⟩ := a2 hne
  obtain ⟨d1, d2, d3, d4, d5⟩ := b2 (by rw [a1]; exact hne)
  exact ⟨d1.trans c1, d2.trans c2, d3.trans c3, d4.trans c4, d5.trans c5⟩

theorem ptx_framed_update (node : Nat) (g g1 : ptx_graph) (x : Nat) (f : ptx_node → ptx_node)
    (hs : g.same g1) (hid : ∀ y, (f y).ident = y.ident)
    (hfz : x = node ∨ ∀ y : ptx_node, y.frozen (f y)) : ptx_framed node g (g1.update x f) := by
  refine ⟨hs.2.1, fun n => if n.ident == x then f n else n, by unfold ptx_graph.update; rw [hs.1],
    ?_⟩
  intro n
  by_cases hc : (n.ident == x) = true
  · simp only [hc, if_true]
    refine ⟨hid n, fun hne => ?_⟩
    rcases hfz with rfl | hfz
    · exact absurd (by simpa using hc) hne
    · exact hfz n
  · simp only [hc]
    exact ⟨rfl, fun _ => ⟨rfl, rfl, rfl, rfl, rfl⟩⟩

theorem ptx_kept_of_same (g g1 : ptx_graph) (h : ptx_kept g) (hs : g.same g1) : ptx_kept g1 := by
  unfold ptx_kept
  rw [hs.1]
  exact h

theorem ptx_find_of_same (g g1 : ptx_graph) (hs : g.same g1) (x : Nat) : g1.find x = g.find x := by
  unfold ptx_graph.find
  rw [hs.1]

/-- A store through a node pointer after a call that moved the allocation count
by `d`: the balance holds again when the node gained `d` blocks. -/
theorem ptx_balanced_step (g g1 : ptx_graph) (x : Nat) (n : ptx_node) (f : ptx_node → ptx_node)
    (d : Int) (h : ptx_balanced g) (hs : g.same g1) (hn : g1.nallocs = g.nallocs + d)
    (hf : g.find x = some n) (hid : ∀ y, (f y).ident = y.ident)
    (hb : (f n).blocks = n.blocks + d)
    (hA : (f n).state = PTX_ACTIVE → (f n).reads.buckets = none ∧ (f n).writes.buckets = none) :
    ptx_balanced (g1.update x f) := by
  obtain ⟨⟨k1, k2, k3⟩, hbal⟩ := h
  obtain ⟨hmem, hnid⟩ := ptx_graph.find_some g x n hf
  obtain ⟨pre, rest, hsplit⟩ := List.append_of_mem hmem
  rw [hsplit] at k1 k2 k3
  obtain ⟨hpre, hrest⟩ := ptx_idents_split_nodup pre rest n k1
  have hnodes : (g1.update x f).nodes = pre ++ f n :: rest := by
    unfold ptx_graph.update
    simp only [hs.1, hsplit, List.map_append, List.map_cons]
    rw [← hnid, ptx_map_other pre n.ident _ hpre, ptx_map_other rest n.ident _ hrest]
    simp
  refine ⟨⟨?_, ?_, ?_⟩, ?_⟩
  · rw [hnodes]
    simpa [hid n] using k1
  · intro y hy
    rw [hnodes] at hy
    rcases List.mem_append.mp hy with h1 | h1
    · exact k2 y (List.mem_append_left _ h1)
    · rcases List.mem_cons.mp h1 with rfl | h2
      · rw [hid n]
        exact k2 n (List.mem_append_right _ (List.mem_cons_self _ _))
      · exact k2 y (List.mem_append_right _ (List.mem_cons_of_mem _ h2))
  · intro y hy
    rw [hnodes] at hy
    rcases List.mem_append.mp hy with h1 | h1
    · exact k3 y (List.mem_append_left _ h1)
    · rcases List.mem_cons.mp h1 with rfl | h2
      · exact hA
      · exact k3 y (List.mem_append_right _ (List.mem_cons_of_mem _ h2))
  · show g1.nallocs = 1 + (g1.update x f).blocks
    unfold ptx_graph.blocks at hbal ⊢
    rw [hnodes, hn, hbal, hsplit]
    simp only [List.map_append, List.map_cons, List.sum_append, List.sum_cons]
    rw [hb]
    omega

/-- A store through a node pointer that changes neither the blocks of a node
nor the tables of an active node keeps the balance. -/
theorem ptx_balanced_frame (g : ptx_graph) (x : Nat) (f : ptx_node → ptx_node)
    (h : ptx_balanced g)
    (hf : ∀ y, (f y).ident = y.ident ∧ (f y).blocks = y.blocks ∧
      ((f y).state = PTX_ACTIVE → y.state = PTX_ACTIVE ∧
        (f y).reads.buckets = y.reads.buckets ∧ (f y).writes.buckets = y.writes.buckets)) :
    ptx_balanced (g.update x f) := by
  obtain ⟨⟨k1, k2, k3⟩, hbal⟩ := h
  refine ⟨⟨?_, ?_, ?_⟩, ?_⟩
  · rw [ptx_graph.update_idents g x f (fun y => (hf y).1)]
    exact k1
  · intro y hy
    obtain ⟨n, hn, rfl⟩ := (ptx_graph.mem_update g x f y).mp hy
    split
    · rw [(hf n).1]; exact k2 n hn
    · exact k2 n hn
  · intro y hy
    obtain ⟨n, hn, rfl⟩ := (ptx_graph.mem_update g x f y).mp hy
    split
    · intro hs
      obtain ⟨q1, q2, q3⟩ := (hf n).2.2 hs
      rw [q2, q3]
      exact k3 n hn q1
    · exact k3 n hn
  · show g.nallocs = 1 + (g.update x f).blocks
    rw [hbal]
    congr 1
    unfold ptx_graph.blocks ptx_graph.update
    simp only [List.map_map]
    apply congrArg
    apply List.map_congr_left
    intro n _
    simp only [Function.comp]
    split
    · exact ((hf n).2.1).symm
    · rfl

/-! ## Allocation balance and frames: dependencies, reads and writes -/

theorem ptx_nomem_ne_active : PTX_NOMEM ≠ PTX_ACTIVE := by decide

theorem ptx_node_adddep_chain (node : Nat) (g g1 : ptx_graph) (a b K : Nat) (ok : Bool)
    (h : ptx_balanced g) (hrun : ptx_node_adddep g a b K = some (g1, ok)) :
    ptx_balanced g1 ∧ ptx_framed node g g1 := by
  unfold ptx_node_adddep at hrun
  cases hfb : g.find b with
  | none => rw [hfb] at hrun; simp at hrun
  | some nb =>
    rw [hfb] at hrun
    simp only [] at hrun
    obtain ⟨hnbm, -⟩ := ptx_graph.find_some g b nb hfb
    cases hadd1 : ptx_edgemap_add g nb.ins a K with
    | none => rw [hadd1] at hrun; simp at hrun
    | some r1 =>
      obtain ⟨g2, ins1, ok1⟩ := r1
      obtain ⟨o1, -⟩ := ptx_edgemap_add_any g g2 nb.ins ins1 a K ok1 hadd1
      have hn1 := ptx_edgemap_add_blocks g g2 nb.ins ins1 a K ok1 hadd1
      rw [hadd1] at hrun
      have b3 := ptx_balanced_step g g2 b nb (fun x => { x with ins := ins1 }) _ h o1 hn1 hfb
        (fun _ => rfl) (by unfold ptx_node.blocks; simp only []; omega)
        (fun hs => h.1.2.2 nb hnbm hs)
      have f3 := ptx_framed_update node g g2 b (fun x => { x with ins := ins1 }) o1 (fun _ => rfl)
        (Or.inr (fun _ => ⟨rfl, rfl, rfl, rfl, rfl⟩))
      cases ok1 with
      | false =>
        simp only [Option.some.injEq, Prod.mk.injEq] at hrun
        rw [← hrun.1]
        exact ⟨b3, f3⟩
      | true =>
        simp only [] at hrun
        cases hfa : (g2.update b (fun x => { x with ins := ins1 })).find a with
        | none => rw [hfa] at hrun; simp at hrun
        | some na =>
          rw [hfa] at hrun
          simp only [] at hrun
          obtain ⟨hnam, -⟩ := ptx_graph.find_some _ a na hfa
          cases hadd2 : ptx_edgemap_add (g2.update b (fun x => { x with ins := ins1 }))
              na.outs b K with
          | none => rw [hadd2] at hrun; simp at hrun
          | some r2 =>
            obtain ⟨g3, outs1, ok2⟩ := r2
            obtain ⟨p1, -⟩ := ptx_edgemap_add_any _ g3 na.outs outs1 b K ok2 hadd2
            have hn2 := ptx_edgemap_add_blocks _ g3 na.outs outs1 b K ok2 hadd2
            rw [hadd2] at hrun
            have b5 := ptx_balanced_step _ g3 a na (fun x => { x with outs := outs1 }) _ b3 p1 hn2
              hfa (fun _ => rfl) (by unfold ptx_node.blocks; simp only []; omega)
              (fun hs => b3.1.2.2 na hnam hs)
            have f5 := ptx_framed_trans node g _ _ f3
              (ptx_framed_update node _ g3 a (fun x => { x with outs := outs1 }) p1 (fun _ => rfl)
                (Or.inr (fun _ => ⟨rfl, rfl, rfl, rfl, rfl⟩)))
            cases ok2 with
            | false =>
              simp only [Option.some.injEq, Prod.mk.injEq] at hrun
              rw [← hrun.1]
              exact ⟨b5, f5⟩
            | true =>
              simp only [Option.some.injEq, Prod.mk.injEq] at hrun
              rw [← hrun.1]
              exact ⟨ptx_balanced_frame _ b (fun x => { x with hasdeps := true }) b5
                  (fun _ => ⟨rfl, rfl, fun hs => ⟨hs, rfl, rfl⟩⟩),
                ptx_framed_trans node g _ _ f5
                  (ptx_framed_update node _ _ b (fun x => { x with hasdeps := true })
                    (ptx_graph.same_refl _) (fun _ => rfl)
                    (Or.inr (fun _ => ⟨rfl, rfl, rfl, rfl, rfl⟩)))⟩

theorem ptx_nomem_chain (node : Nat) (g : ptx_graph) (h : ptx_balanced g) :
    ptx_balanced (g.update node (fun x => { x with state := PTX_NOMEM })) ∧
    ptx_framed node g (g.update node (fun x => { x with state := PTX_NOMEM })) :=
  ⟨ptx_balanced_frame g node (fun x => { x with state := PTX_NOMEM }) h
      (fun _ => ⟨rfl, rfl, fun hs => absurd hs ptx_nomem_ne_active⟩),
    ptx_framed_update node g g node (fun x => { x with state := PTX_NOMEM })
      (ptx_graph.same_refl g) (fun _ => rfl) (Or.inl rfl)⟩

theorem ptx_node_read_loop_chain (node hash : Nat) :
    ∀ (others : List Nat) (g g1 : ptx_graph), ptx_balanced g →
      ptx_node_read_loop node hash g others = some g1 →
      ptx_balanced g1 ∧ ptx_framed node g g1 := by
  intro others
  induction others with
  | nil =>
    intro g g1 hb h
    simp [ptx_node_read_loop] at h
    subst h
    exact ⟨hb, ptx_framed_refl node g⟩
  | cons other rest ih =>
    intro g g1 hb h
    unfold ptx_node_read_loop at h
    by_cases hne : other ≠ node
    · rw [if_pos hne] at h
      cases hfo : g.find other with
      | none => rw [hfo] at h; simp at h
      | some o =>
        rw [hfo] at h
        simp only [] at h
        cases ht : ptx_hashset_test o.writes hash with
        | none => rw [ht] at h; simp at h
        | some r =>
          rw [ht] at h
          cases r with
          | false => exact ih g g1 hb h
          | true =>
            simp only [] at h
            cases had : ptx_node_adddep g other node PTX_WR with
            | none => rw [had] at h; simp at h
            | some r2 =>
              obtain ⟨g2, ok⟩ := r2
              obtain ⟨b2, f2⟩ := ptx_node_adddep_chain node g g2 other node PTX_WR ok hb had
              rw [had] at h
              cases ok with
              | false =>
                simp only [Option.some.injEq] at h
                rw [← h]
                obtain ⟨b3, f3⟩ := ptx_nomem_chain node g2 b2
                exact ⟨b3, ptx_framed_trans node g g2 _ f2 f3⟩
              | true =>
                simp only [] at h
                obtain ⟨b3, f3⟩ := ih g2 g1 b2 h
                exact ⟨b3, ptx_framed_trans node g g2 g1 f2 f3⟩
    · rw [if_neg hne] at h
      exact ih g g1 hb h

theorem ptx_node_read_chain (g g1 : ptx_graph) (node hash : Nat) (hb : ptx_balanced g)
    (h : ptx_node_read g node hash = some g1) : ptx_balanced g1 ∧ ptx_framed node g g1 := by
  unfold ptx_node_read at h
  cases hf : g.find node with
  | none => rw [hf] at h; simp at h
  | some n =>
    rw [hf] at h
    simp only [] at h
    obtain ⟨hnm, -⟩ := ptx_graph.find_some g node n hf
    by_cases hno : n.state = PTX_NOMEM
    · rw [if_pos hno] at h
      cases h
      exact ⟨hb, ptx_framed_refl node g⟩
    · rw [if_neg hno] at h
      by_cases hac : n.state = PTX_ACTIVE
      · rw [if_pos hac] at h
        obtain ⟨hr0, hw0⟩ := hb.1.2.2 n hnm hac
        cases hadd : ptx_hashset_add g n.reads hash with
        | none => rw [hadd] at h; simp at h
        | some r =>
          obtain ⟨g2, reads1, ok⟩ := r
          obtain ⟨hsame, -⟩ := ptx_hashset_add_same g g2 n.reads reads1 hash ok hadd
          obtain ⟨hn2, hok⟩ := ptx_hashset_add_blocks g g2 n.reads reads1 hash ok hr0 hadd
          rw [hadd] at h
          cases ok with
          | false =>
            simp only [Option.some.injEq] at h
            rw [← h]
            exact ⟨ptx_balanced_step g g2 node n
                (fun x => { x with reads := reads1, state := PTX_NOMEM }) _ hb hsame hn2 hf
                (fun _ => rfl) (by unfold ptx_node.blocks; simp only []; omega)
                (fun hs => absurd hs ptx_nomem_ne_active),
              ptx_framed_update node g g2 node _ hsame (fun _ => rfl) (Or.inl rfl)⟩
          | true =>
            simp only [] at h
            have b3 := ptx_balanced_step g g2 node n
              (fun x => { x with reads := reads1, hasreads := true }) _ hb hsame hn2 hf
              (fun _ => rfl) (by unfold ptx_node.blocks; simp only []; omega)
              (fun _ => ⟨hok rfl, hw0⟩)
            have f3 := ptx_framed_update node g g2 node
              (fun x => { x with reads := reads1, hasreads := true }) hsame (fun _ => rfl)
              (Or.inl rfl)
            obtain ⟨b4, f4⟩ := ptx_node_read_loop_chain node hash _ _ g1 b3 h
            exact ⟨b4, ptx_framed_trans node g _ g1 f3 f4⟩
      · rw [if_neg hac] at h
        simp at h

theorem ptx_node_write_ww_chain (g g1 : ptx_graph) (node hash other : Nat) (ok : Bool)
    (hb : ptx_balanced g) (h : ptx_node_write_ww node hash other g = some (g1, ok)) :
    ptx_balanced g1 ∧ ptx_framed node g g1 := by
  unfold ptx_node_write_ww at h
  cases hfo : g.find other with
  | none => rw [hfo] at h; simp at h
  | some o =>
    rw [hfo] at h
    simp only [] at h
    cases ht : ptx_hashset_test o.writes hash with
    | none => rw [ht] at h; simp at h
    | some r =>
      rw [ht] at h
      cases r with
      | false =>
        simp only [Option.some.injEq, Prod.mk.injEq] at h
        rw [← h.1]
        exact ⟨hb, ptx_framed_refl node g⟩
      | true =>
        simp only [] at h
        cases had : ptx_node_adddep g other node PTX_WW with
        | none => rw [had] at h; simp at h
        | some r2 =>
          obtain ⟨g2, ok2⟩ := r2
          obtain ⟨b2, f2⟩ := ptx_node_adddep_chain node g g2 other node PTX_WW ok2 hb had
          rw [had] at h
          cases ok2 with
          | false =>
            simp only [Option.some.injEq, Prod.mk.injEq] at h
            rw [← h.1]
            exact ⟨b2, f2⟩
          | true =>
            simp only [] at h
            obtain ⟨b3, f3⟩ := ptx_node_adddep_chain node g2 g1 node other PTX_WW ok b2 h
            exact ⟨b3, ptx_framed_trans node g g2 g1 f2 f3⟩

/-! ## Allocation balance and frames: writes, commit and rollback -/

theorem ptx_node_write_loop_chain (node hash : Nat) :
    ∀ (others : List Nat) (g g1 : ptx_graph), ptx_balanced g →
      ptx_node_write_loop node hash g others = some g1 →
      ptx_balanced g1 ∧ ptx_framed node g g1 := by
  intro others
  induction others with
  | nil =>
    intro g g1 hb h
    simp [ptx_node_write_loop] at h
    subst h
    exact ⟨hb, ptx_framed_refl node g⟩
  | cons other rest ih =>
    intro g g1 hb h
    unfold ptx_node_write_loop at h
    by_cases hne : other ≠ node
    · rw [if_pos hne] at h
      cases hfo : g.find other with
      | none => rw [hfo] at h; simp at h
      | some o =>
        rw [hfo] at h
        simp only [] at h
        cases ht : ptx_hashset_test o.reads hash with
        | none => rw [ht] at h; simp at h
        | some r =>
          rw [ht] at h
          simp only [] at h
          have hfirst : ∀ (g2 : ptx_graph) (ok : Bool),
              (if r = true then ptx_node_adddep g other node PTX_RW else some (g, true))
                = some (g2, ok) → ptx_balanced g2 ∧ ptx_framed node g g2 := by
            intro g2 ok he
            cases r with
            | false =>
              simp only [Bool.false_eq_true, if_false, Option.some.injEq, Prod.mk.injEq] at he
              rw [← he.1]
              exact ⟨hb, ptx_framed_refl node g⟩
            | true =>
              simp only [if_true] at he
              exact ptx_node_adddep_chain node g g2 other node PTX_RW ok hb he
          cases hrw : (if r = true then ptx_node_adddep g other node PTX_RW else some (g, true)) with
          | none => rw [hrw] at h; simp at h
          | some r2 =>
            obtain ⟨g2, ok2⟩ := r2
            obtain ⟨b2, f2⟩ := hfirst g2 ok2 hrw
            rw [hrw] at h
            cases ok2 with
            | false =>
              simp only [Option.some.injEq] at h
              rw [← h]
              obtain ⟨b3, f3⟩ := ptx_nomem_chain node g2 b2
              exact ⟨b3, ptx_framed_trans node g g2 _ f2 f3⟩
            | true =>
              simp only [] at h
              cases hww : ptx_node_write_ww node hash other g2 with
              | none => rw [hww] at h; simp at h
              | some r3 =>
                obtain ⟨g3, ok3⟩ := r3
                obtain ⟨b3, f3⟩ := ptx_node_write_ww_chain g2 g3 node hash other ok3 b2 hww
                have f03 := ptx_framed_trans node g g2 g3 f2 f3
                rw [hww] at h
                cases ok3 with
                | false =>
                  simp only [Option.some.injEq] at h
                  rw [← h]
                  obtain ⟨b4, f4⟩ := ptx_nomem_chain node g3 b3
                  exact ⟨b4, ptx_framed_trans node g g3 _ f03 f4⟩
                | true =>
                  simp only [] at h
                  obtain ⟨b4, f4⟩ := ih g3 g1 b3 h
                  exact ⟨b4, ptx_framed_trans node g g3 g1 f03 f4⟩
    · rw [if_neg hne] at h
      exact ih g g1 hb h

theorem ptx_node_write_chain (g g1 : ptx_graph) (node hash : Nat) (hb : ptx_balanced g)
    (h : ptx_node_write g node hash = some g1) : ptx_balanced g1 ∧ ptx_framed node g g1 := by
  unfold ptx_node_write at h
  cases hf : g.find node with
  | none => rw [hf] at h; simp at h
  | some n =>
    rw [hf] at h
    simp only [] at h
    obtain ⟨hnm, -⟩ := ptx_graph.find_some g node n hf
    by_cases hno : n.state = PTX_NOMEM
    · rw [if_pos hno] at h
      cases h
      exact ⟨hb, ptx_framed_refl node g⟩
    · rw [if_neg hno] at h
      by_cases hac : n.state = PTX_ACTIVE
      · rw [if_pos hac] at h
        obtain ⟨hr0, hw0⟩ := hb.1.2.2 n hnm hac
        cases hadd : ptx_hashset_add g n.writes hash with
        | none => rw [hadd] at h; simp at h
        | some r =>
          obtain ⟨g2, writes1, ok⟩ := r
          obtain ⟨hsame, -⟩ := ptx_hashset_add_same g g2 n.writes writes1 hash ok hadd
          obtain ⟨hn2, hok⟩ := ptx_hashset_add_blocks g g2 n.writes writes1 hash ok hw0 hadd
          rw [hadd] at h
          cases ok with
          | false =>
            simp only [Option.some.injEq] at h
            rw [← h]
            exact ⟨ptx_balanced_step g g2 node n
                (fun x => { x with writes := writes1, state := PTX_NOMEM }) _ hb hsame hn2 hf
                (fun _ => rfl) (by unfold ptx_node.blocks; simp only []; omega)
                (fun hs => absurd hs ptx_nomem_ne_active),
              ptx_framed_update node g g2 node _ hsame (fun _ => rfl) (Or.inl rfl)⟩
          | true =>
            simp only [] at h
            have b3 := ptx_balanced_step g g2 node n
              (fun x => { x with writes := writes1, haswrites := true }) _ hb hsame hn2 hf
              (fun _ => rfl) (by unfold ptx_node.blocks; simp only []; omega)
              (fun _ => ⟨hr0, hok rfl⟩)
            have f3 := ptx_framed_update node g g2 node
              (fun x => { x with writes := writes1, haswrites := true }) hsame (fun _ => rfl)
              (Or.inl rfl)
            obtain ⟨b4, f4⟩ := ptx_node_write_loop_chain node hash _ _ g1 b3 h
            exact ⟨b4, ptx_framed_trans node g _ g1 f3 f4⟩
      · rw [if_neg hac] at h
        simp at h

theorem ptx_node_deactivate_chain (g g1 : ptx_graph) (node state : Nat) (hb : ptx_balanced g)
    (hgc : g.autogc ≤ 0) (hst : state ≠ PTX_ACTIVE)
    (h : ptx_node_deactivate g node state = some g1) :
    ptx_balanced g1 ∧ ptx_framed node g g1 := by
  cases hf : g.find node with
  | none => unfold ptx_node_deactivate at h; rw [hf] at h; simp at h
  | some n =>
    rw [ptx_node_deactivate_off g node state n hf hgc] at h
    cases h
    exact ⟨ptx_balanced_frame g node (fun x => { x with state := state }) hb
        (fun _ => ⟨rfl, rfl, fun hs => absurd hs hst⟩),
      ptx_framed_update node g g node (fun x => { x with state := state })
        (ptx_graph.same_refl g) (fun _ => rfl) (Or.inl rfl)⟩

theorem ptx_rolledback_ne_active : PTX_ROLLEDBACK ≠ PTX_ACTIVE := by decide

theorem ptx_committed_ne_active : PTX_COMMITTED ≠ PTX_ACTIVE := by decide

theorem ptx_node_rollback_chain (g g1 : ptx_graph) (node : Nat) (hb : ptx_balanced g)
    (hgc : g.autogc ≤ 0) (h : ptx_node_rollback g node = some g1) :
    ptx_balanced g1 ∧ ptx_framed node g g1 := by
  unfold ptx_node_rollback at h
  cases hf : g.find node with
  | none => rw [hf] at h; simp at h
  | some n =>
    rw [hf] at h
    simp only [] at h
    split at h
    · exact ptx_node_deactivate_chain g g1 node _ hb hgc ptx_rolledback_ne_active h
    · simp at h

theorem ptx_node_commit_chain (g : ptx_graph) (node : Nat) (r : ptx_commit_result)
    (hb : ptx_balanced g) (hgc : g.autogc ≤ 0) (h : ptx_node_commit g node = some r) :
    ptx_balanced r.graph ∧ ptx_framed node g r.graph := by
  unfold ptx_node_commit at h
  cases hf : g.find node with
  | none => rw [hf] at h; simp at h
  | some n =>
    rw [hf] at h
    simp only [] at h
    split at h
    · cases hd : ptx_node_deactivate g node PTX_ROLLEDBACK with
      | none => rw [hd] at h; simp at h
      | some g1 =>
        rw [hd] at h
        cases h
        exact ptx_node_deactivate_chain g g1 node _ hb hgc ptx_rolledback_ne_active hd
    · split at h
      · cases hscan : ptx_node_commit_scan g (ptx_edgemap_edges n.outs) with
        | none => rw [hscan] at h; simp at h
        | some b =>
          rw [hscan] at h
          cases b with
          | true =>
            simp only [] at h
            cases hd : ptx_node_deactivate g node PTX_ROLLEDBACK with
            | none => rw [hd] at h; simp at h
            | some g1 =>
              rw [hd] at h
              cases h
              exact ptx_node_deactivate_chain g g1 node _ hb hgc ptx_rolledback_ne_active hd
          | false =>
            simp only [] at h
            cases hd : ptx_node_deactivate g node PTX_COMMITTED with
            | none => rw [hd] at h; simp at h
            | some g1 =>
              rw [hd] at h
              cases h
              exact ptx_node_deactivate_chain g g1 node _ hb hgc ptx_committed_ne_active hd
      · simp at h

/-- A call on a node that returns found the node in state ACTIVE or NOMEM. -/
theorem ptx_apply_open (g g1 : ptx_graph) (op : ptx_op) (node : Nat)
    (hop : (∃ h, op = ptx_op.read node h) ∨ (∃ h, op = ptx_op.write node h) ∨
      op = ptx_op.commit node ∨ op = ptx_op.rollback node)
    (h : ptx_apply g op = some g1) :
    ∃ n, g.find node = some n ∧ (n.state = PTX_ACTIVE ∨ n.state = PTX_NOMEM) := by
  have key : ∀ n, g.find node = some n → (¬ n.state = PTX_NOMEM → ¬ n.state = PTX_ACTIVE → False) →
      ∃ n, g.find node = some n ∧ (n.state = PTX_ACTIVE ∨ n.state = PTX_NOMEM) := by
    intro n hf hc
    refine ⟨n, hf, ?_⟩
    by_cases h1 : n.state = PTX_NOMEM
    · exact Or.inr h1
    · by_cases h2 : n.state = PTX_ACTIVE
      · exact Or.inl h2
      · exact absurd (hc h1 h2) id
  rcases hop with ⟨hh, rfl⟩ | ⟨hh, rfl⟩ | rfl | rfl
  · simp only [ptx_apply] at h
    unfold ptx_node_read at h
    cases hf : g.find node with
    | none => rw [hf] at h; simp at h
    | some n =>
      rw [hf] at h
      rw [← hf]
      refine key n hf (fun h1 h2 => ?_)
      simp [h1, h2] at h
  · simp only [ptx_apply] at h
    unfold ptx_node_write at h
    cases hf : g.find node with
    | none => rw [hf] at h; simp at h
    | some n =>
      rw [hf] at h
      rw [← hf]
      refine key n hf (fun h1 h2 => ?_)
      simp [h1, h2] at h
  · simp only [ptx_apply] at h
    unfold ptx_node_commit at h
    cases hf : g.find node with
    | none => rw [hf] at h; simp at h
    | some n =>
      rw [hf] at h
      rw [← hf]
      refine key n hf (fun h1 h2 => ?_)
      simp [h1, h2] at h
  · simp only [ptx_apply] at h
    unfold ptx_node_rollback at h
    cases hf : g.find node with
    | none => rw [hf] at h; simp at h
    | some n =>
      rw [hf] at h
      rw [← hf]
      refine key n hf (fun h1 h2 => ?_)
      simp [h1, h2] at h

/-! ## Every reachable graph is balanced -/

theorem ptx_graph.holds_refl (g : ptx_graph) : g.holds g :=
  ⟨Nat.le_refl _, fun _ n1 hf _ => ⟨n1, hf, fun _ => ⟨rfl, rfl, rfl, rfl, rfl⟩⟩⟩

theorem ptx_graph.holds_trans (g g1 g2 : ptx_graph) (h1 : g.holds g1) (h2 : g1.holds g2) :
    g.holds g2 := by
  obtain ⟨i1, p1⟩ := h1
  obtain ⟨i2, p2⟩ := h2
  refine ⟨Nat.le_trans i1 i2, ?_⟩
  intro x n2 hf2 hx
  obtain ⟨n1, hf1, q1⟩ := p2 x n2 hf2 (Nat.le_trans hx i1)
  obtain ⟨n, hf, q⟩ := p1 x n1 hf1 hx
  refine ⟨n, hf, fun hd => ?_⟩
  obtain ⟨c1, c2, c3, c4, c5⟩ := q hd
  obtain ⟨d1, d2, d3, d4, d5⟩ := q1 (by rw [c1]; exact hd)
  exact ⟨d1.trans c1, d2.trans c2, d3.trans c3, d4.trans c4, d5.trans c5⟩

theorem ptx_framed_holds (node : Nat) (g g1 : ptx_graph) (hf : ptx_framed node g g1)
    (hopen : ∃ n, g.find node = some n ∧ (n.state = PTX_ACTIVE ∨ n.state = PTX_NOMEM)) :
    g.holds g1 := by
  obtain ⟨hi, F, hn, hF⟩ := hf
  refine ⟨by omega, ?_⟩
  intro x n1 hf1 _
  rw [ptx_find_map g g1 F hn (fun n => (hF n).1) x] at hf1
  cases hg : g.find x with
  | none => rw [hg] at hf1; simp at hf1
  | some n =>
    rw [hg] at hf1
    simp only [Option.map_some', Option.some.injEq] at hf1
    subst hf1
    refine ⟨n, rfl, fun hd => ?_⟩
    have hid := (ptx_graph.find_some g x n hg).2
    apply (hF n).2
    intro hxn
    obtain ⟨m, hm, hs⟩ := hopen
    rw [← hxn, hid, hg] at hm
    cases hm
    rcases hd with hd | hd <;> rcases hs with hs | hs <;> rw [hs] at hd <;> revert hd <;> decide

theorem ptx_hashset_init_fresh (m k : Nat) (set : ptx_hashset)
    (h : ptx_hashset_init m k = some set) :
    set.buckets = none ∧ set.bits = none ∧ set.count = 0 ∧ set.nbuckets = 4 ∧ set.k = k := by
  unfold ptx_hashset_init at h
  cases hm : ptx_hashset_init_m m 65 2 with
  | none => rw [hm] at h; simp at h
  | some setm =>
    rw [hm] at h
    simp only [Option.some.injEq] at h
    subst h
    exact ⟨rfl, rfl, rfl, rfl, rfl⟩

theorem ptx_graph_begin_chain (g g1 : ptx_graph) (r : Option Nat) (hw : ptx_wf g)
    (hb : ptx_balanced g) (hlen : g.ident + 1 < 2 ^ 64)
    (h : ptx_graph_begin g = some (g1, r)) : ptx_balanced g1 ∧ g.holds g1 := by
  unfold ptx_graph_begin at h
  have ha := ptx_graph.alloc_same g
  have hna := ptx_graph.alloc_nallocs g
  cases hal : g.alloc with
  | mk res g2 =>
    rw [hal] at h ha hna
    simp only [] at ha hna
    obtain ⟨hk, hbal⟩ := hb
    have hk2 := ptx_kept_of_same g g2 hk ha.1
    have hblocks : g2.blocks = g.blocks := by
      unfold ptx_graph.blocks
      rw [ha.1.1]
    cases res with
    | none =>
      simp only [Option.some.injEq, Prod.mk.injEq] at h
      rw [← h.1]
      refine ⟨⟨hk2, ?_⟩, by rw [ha.1.2.1], ?_⟩
      · rw [hna, hblocks, hbal]
        simp
      · intro x n1 hf1 _
        rw [ptx_find_of_same g g2 ha.1 x] at hf1
        exact ⟨n1, hf1, fun _ => ⟨rfl, rfl, rfl, rfl, rfl⟩⟩
    | some junk =>
      simp only [] at h
      cases hinit : ptx_hashset_init g2.m g2.k with
      | none => rw [hinit] at h; simp at h
      | some set =>
        rw [hinit] at h
        simp only [Option.some.injEq, Prod.mk.injEq] at h
        obtain ⟨hg, -⟩ := h
        have hmod : (g2.ident + 1) % 2 ^ 64 = g.ident + 1 := by
          rw [ha.1.2.1]; exact Nat.mod_eq_of_lt hlen
        rw [hmod] at hg
        obtain ⟨s1, s2, -, -, -⟩ := ptx_hashset_init_fresh _ _ set hinit
        obtain ⟨k1, k2, k3⟩ := hk2
        have hle : ∀ n ∈ g2.nodes, n.ident ≤ g.ident := by
          intro n hn
          rw [ha.1.1] at hn
          exact hw.2.2.1 n hn
        simp only [Option.isSome_some, if_true] at hna
        rw [← hg]
        refine ⟨⟨⟨?_, ?_, ?_⟩, ?_⟩, by simp only []; omega, ?_⟩
        · simp only [List.map_append, List.map_cons, List.map_nil]
          rw [List.nodup_append]
          refine ⟨k1, List.nodup_singleton _, ?_⟩
          intro a ha1 hb1
          simp only [List.mem_singleton] at hb1
          obtain ⟨n, hn, rfl⟩ := List.mem_map.mp ha1
          have := hle n hn
          omega
        · intro n hn
          simp only [] at hn
          rcases List.mem_append.mp hn with h1 | h1
          · exact k2 n h1
          · simp only [List.mem_singleton] at h1
            subst h1
            simp only []
            omega
        · intro n hn
          simp only [] at hn
          rcases List.mem_append.mp hn with h1 | h1
          · exact k3 n h1
          · simp only [List.mem_singleton] at h1
            subst h1
            intro _
            exact ⟨s1, s1⟩
        · show g2.nallocs = 1 + _
          have hnew : ∀ nn : ptx_node, nn.reads = set → nn.writes = set → nn.outs.nbuckets = 0 →
              nn.ins.nbuckets = 0 → nn.blocks = 1 := by
            intro nn e1 e2 e3 e4
            unfold ptx_node.blocks ptx_hashset.blocks ptx_edgemap.blocks
            rw [e1, e2, e3, e4, s1, s2]
            simp
          unfold ptx_graph.blocks at hbal hblocks ⊢
          simp only [List.map_append, List.map_cons, List.map_nil, List.sum_append, List.sum_cons,
            List.sum_nil]
          rw [hnew _ rfl rfl rfl rfl, hna, hblocks, hbal]
          omega
        · intro x n1 hf1 hx
          unfold ptx_graph.find at hf1
          simp only [List.find?_append] at hf1
          cases hx2 : List.find? (fun n => n.ident == x) g2.nodes with
          | none =>
            rw [hx2] at hf1
            simp only [Option.or, List.find?_cons, List.find?_nil] at hf1
            split at hf1
            · rename_i heq
              simp only [beq_iff_eq] at heq
              omega
            · cases hf1
          | some y =>
            rw [hx2] at hf1
            simp only [Option.or, Option.some.injEq] at hf1
            subst hf1
            refine ⟨y, ?_, fun _ => ⟨rfl, rfl, rfl, rfl, rfl⟩⟩
            unfold ptx_graph.find
            rw [← ha.1.1]
            exact hx2

theorem ptx_graph_gc_chain (g g1 : ptx_graph) (hw : ptx_wf g) (hb : ptx_balanced g)
    (h : ptx_graph_gc g = some g1) : ptx_balanced g1 ∧ g.holds g1 := by
  obtain ⟨⟨k1, k2, k3⟩, hbal⟩ := hb
  obtain ⟨g2, keep, hrun, hnodes, -, hid, -, hex⟩ := ptx_graph_gc_filter g k1 hw.2.2.2.2.2
    (fun n hn => ptx_wf_live g hw n hn)
  rw [hrun] at h
  simp only [Option.some.injEq] at h
  subst h
  have hsub : ∀ n ∈ g2.nodes, n ∈ g.nodes := by
    intro n hn
    rw [hnodes] at hn
    exact (List.mem_filter.mp hn).1
  refine ⟨⟨⟨?_, ?_, ?_⟩, ?_⟩, by omega, ?_⟩
  · rw [hnodes]
    exact List.Nodup.sublist (List.Sublist.map _ (List.filter_sublist _)) k1
  · intro n hn
    exact k2 n (hsub n hn)
  · intro n hn
    exact k3 n (hsub n hn)
  · omega
  · intro x n1 hf1 _
    obtain ⟨hm, hxi⟩ := ptx_graph.find_some g2 x n1 hf1
    refine ⟨n1, ?_, fun _ => ⟨rfl, rfl, rfl, rfl, rfl⟩⟩
    rw [← hxi]
    exact ptx_find_of_nodup g k1 n1 (hsub n1 hm)

theorem ptx_apply_chain (g g1 : ptx_graph) (op : ptx_op) (hw : ptx_wf g) (hb : ptx_balanced g)
    (hlen : g.ident + 1 < 2 ^ 64) (h : ptx_apply g op = some g1) :
    ptx_balanced g1 ∧ g.holds g1 := by
  cases op with
  | begin =>
    simp only [ptx_apply, Option.map_eq_some'] at h
    obtain ⟨⟨g2, r⟩, hbg, rfl⟩ := h
    exact ptx_graph_begin_chain g g2 r hw hb hlen hbg
  | read node hash =>
    have hopen := ptx_apply_open g g1 _ node (Or.inl ⟨hash, rfl⟩) h
    obtain ⟨b1, f1⟩ := ptx_node_read_chain g g1 node _ hb h
    exact ⟨b1, ptx_framed_holds node g g1 f1 hopen⟩
  | write node hash =>
    have hopen := ptx_apply_open g g1 _ node (Or.inr (Or.inl ⟨hash, rfl⟩)) h
    obtain ⟨b1, f1⟩ := ptx_node_write_chain g g1 node _ hb h
    exact ⟨b1, ptx_framed_holds node g g1 f1 hopen⟩
  | commit node =>
    have hopen := ptx_apply_open g g1 _ node (Or.inr (Or.inr (Or.inl rfl))) h
    simp only [ptx_apply, Option.map_eq_some'] at h
    obtain ⟨r, hc, rfl⟩ := h
    obtain ⟨b1, f1⟩ := ptx_node_commit_chain g node r hb hw.1 hc
    exact ⟨b1, ptx_framed_holds node g _ f1 hopen⟩
  | rollback node =>
    have hopen := ptx_apply_open g g1 _ node (Or.inr (Or.inr (Or.inr rfl))) h
    obtain ⟨b1, f1⟩ := ptx_node_rollback_chain g g1 node hb hw.1 h
    exact ⟨b1, ptx_framed_holds node g g1 f1 hopen⟩
  | gc => exact ptx_graph_gc_chain g g1 hw hb h

theorem ptx_run_chain :
    ∀ (ops : List ptx_op) (g g1 : ptx_graph), ptx_wf g → ptx_balanced g →
      g.ident + ops.length < 2 ^ 64 → ptx_run g ops = some g1 →
      ptx_balanced g1 ∧ g.holds g1 ∧ g1.ident ≤ g.ident + ops.length := by
  intro ops
  induction ops with
  | nil =>
    intro g g1 _ hb _ h
    simp only [ptx_run, Option.some.injEq] at h
    subst h
    exact ⟨hb, ptx_graph.holds_refl g, by simp⟩
  | cons op rest ih =>
    intro g g1 hw hb hlen h
    unfold ptx_run at h
    simp only [List.length_cons] at hlen ⊢
    cases hap : ptx_apply g op with
    | none => rw [hap] at h; simp at h
    | some g2 =>
      rw [hap] at h
      simp only [] at h
      obtain ⟨w2, i2⟩ := ptx_apply_wf g g2 op hw (by omega) hap
      obtain ⟨b2, h2⟩ := ptx_apply_chain g g2 op hw hb (by omega) hap
      obtain ⟨b3, h3, i3⟩ := ih g2 g1 w2 b2 (by omega) h
      exact ⟨b3, ptx_graph.holds_trans g g2 g1 h2 h3, by omega⟩

theorem ptx_graph_new_balanced (opts : ptx_graph_opts) (g : ptx_graph)
    (h : ptx_graph_new opts = some g) : ptx_balanced g ∧ g.nodes = [] ∧ g.nallocs = 1 := by
  unfold ptx_graph_new at h
  have ha := ptx_graph.alloc_same (ptx_graph_zeroed opts)
  have hna := ptx_graph.alloc_nallocs (ptx_graph_zeroed opts)
  cases hal : (ptx_graph_zeroed opts).alloc with
  | mk res g2 =>
    rw [hal] at h ha hna
    cases res with
    | none => simp at h
    | some junk =>
      simp only [Option.some.injEq] at h
      subst h
      simp only [Option.isSome_some, if_true] at ha hna
      have hn0 : g2.nodes = [] := by rw [ha.1.1]; rfl
      have hn1 : g2.nallocs = 1 := by rw [hna]; rfl
      refine ⟨⟨⟨?_, ?_, ?_⟩, ?_⟩, hn0, hn1⟩
      · rw [hn0]; exact List.nodup_nil
      · intro n hn; rw [hn0] at hn; cases hn
      · intro n hn; rw [hn0] at hn; cases hn
      · unfold ptx_graph.blocks
        rw [hn0, hn1]
        rfl

/-- Every graph reached from `ptx_graph_new` by fewer than `2^64` calls is
balanced; the ident counter is at most the number of calls. -/
theorem ptx_trace_balanced (opts : ptx_graph_opts) (ops : List ptx_op) (g : ptx_graph)
    (hlen : ops.length < 2 ^ 64) (hrun : ptx_trace opts ops = some g) :
    ptx_balanced g ∧ g.ident ≤ ops.length := by
  unfold ptx_trace at hrun
  cases hnew : ptx_graph_new opts with
  | none => rw [hnew] at hrun; simp at hrun
  | some g0 =>
    rw [hnew] at hrun
    simp only [] at hrun
    obtain ⟨hw, hi⟩ := ptx_graph_new_wf opts g0 hnew
    obtain ⟨hb, -, -⟩ := ptx_graph_new_balanced opts g0 hnew
    obtain ⟨b1, -, i1⟩ := ptx_run_chain ops g0 g hw hb (by rw [hi]; simpa using hlen) hrun
    exact ⟨b1, by rw [hi] at i1; simpa using i1⟩

/-! ## Idents, frozen nodes and leaks -/

theorem ptx_hashset_init_m_total (m : Nat) (hm : m ≤ 2 ^ 63) :
    ∀ (fuel j : Nat), 1 ≤ j → j ≤ 63 → 63 - j < fuel →
      ∃ r, ptx_hashset_init_m m fuel (2 ^ j) = some r := by
  intro fuel
  induction fuel with
  | zero => intro j _ _ h; omega
  | succ f ih =>
    intro j h1 h2 h3
    unfold ptx_hashset_init_m
    by_cases hlt : 2 ^ j < m
    · rw [if_pos hlt]
      have hj : j < 63 := by
        by_contra hc
        have : j = 63 := by omega
        subst this
        omega
      have hpow : (2 ^ j * 2) % 2 ^ 64 = 2 ^ (j + 1) := by
        rw [← Nat.pow_succ]
        apply Nat.mod_eq_of_lt
        exact Nat.pow_lt_pow_right (by decide) (by omega)
      rw [hpow]
      exact ih (j + 1) (by omega) (by omega) (by omega)
    · rw [if_neg hlt]
      exact ⟨_, rfl⟩

/-- The sizing loop of `ptx_hashset_init` ends when the bit count is at most
`2^63`; above that `set->m` wraps to zero and the loop does not end. -/
theorem ptx_hashset_init_total (m k : Nat) (hm : m ≤ 2 ^ 63) :
    ∃ set, ptx_hashset_init m k = some set := by
  obtain ⟨r, hr⟩ := ptx_hashset_init_m_total m hm 65 1 (by omega) (by omega) (by omega)
  unfold ptx_hashset_init
  have h2 : (2 : Nat) ^ 1 = 2 := rfl
  rw [h2] at hr
  rw [hr]
  exact ⟨_, rfl⟩

theorem ptx_edgemap_edges_empty :
    ptx_edgemap_edges { buckets := [], count := 0, nbuckets := 0 } = [] := by
  decide

/-- What `ptx_graph_begin` returns when its allocation succeeds and the sizing
loop ends: a new node at the tail of the live list. -/
theorem ptx_graph_begin_spec (g ga : ptx_graph) (junk : List Nat)
    (hal : g.alloc = (some junk, ga)) (hm : g.m ≤ 2 ^ 63) (hid : g.ident + 1 < 2 ^ 64) :
    ∃ g1 n, ptx_graph_begin g = some (g1, some (g.ident + 1)) ∧ g1.ident = g.ident + 1 ∧
      g1.nodes = g.nodes ++ [n] ∧ n.ident = g.ident + 1 ∧ n.state = PTX_ACTIVE ∧
      ptx_hashset_empty n.reads = true ∧ ptx_hashset_empty n.writes = true ∧
      ptx_edgemap_count n.outs = 0 ∧ ptx_edgemap_count n.ins = 0 ∧
      ptx_edgemap_edges n.outs = [] ∧ ptx_edgemap_edges n.ins = [] ∧
      n.reached = false ∧ n.nomem = false ∧ n.hasdeps = false ∧ n.hasreads = false ∧
      n.haswrites = false := by
  have ha := (ptx_graph.alloc_same g).1
  rw [hal] at ha
  simp only [] at ha
  obtain ⟨hn, hi, -, hmm, hk⟩ := ha
  obtain ⟨set, hset⟩ := ptx_hashset_init_total ga.m ga.k (by rw [hmm]; exact hm)
  obtain ⟨-, s2, s3, -, -⟩ := ptx_hashset_init_fresh _ _ set hset
  have hmod : (ga.ident + 1) % 2 ^ 64 = g.ident + 1 := by
    rw [hi]; exact Nat.mod_eq_of_lt hid
  have hempty : ptx_hashset_empty set = true := by
    unfold ptx_hashset_empty
    rw [s2, s3]
    rfl
  unfold ptx_graph_begin
  rw [hal]
  simp only []
  rw [hset]
  simp only [hmod]
  let e : ptx_edgemap := { buckets := [], count := 0, nbuckets := 0 }
  let n : ptx_node :=
    { state := PTX_ACTIVE, ident := g.ident + 1, reached := false, nomem := false,
      hasdeps := false, hasreads := false, haswrites := false,
      outs := e, ins := e, reads := set, writes := set }
  refine ⟨_, n, rfl, rfl, by rw [hn], rfl, rfl, hempty, hempty, rfl, rfl,
    ptx_edgemap_edges_empty, ptx_edgemap_edges_empty, rfl, rfl, rfl, rfl, rfl⟩

theorem ptx_reaches_none (g : ptx_graph) (h : ∀ n ∈ g.nodes, n.state ≠ PTX_ACTIVE) (x : Nat) :
    ¬ g.reaches x := by
  intro hr
  induction hr with
  | root n hn ha => exact h n hn ha
  | step a e _ _ _ ih => exact ih

/-- Once a node is COMMITTED or ROLLEDBACK, no later call changes its state, its
read set, its write set or the flags `hasreads` and `haswrites`, the collector
included, for as long as the node is in the live list. -/
theorem ptx_deactivated_keeps (opts : ptx_graph_opts) (ops1 ops2 : List ptx_op)
    (g g1 : ptx_graph) (x : Nat) (n n1 : ptx_node)
    (hlen : ops1.length + ops2.length < 2 ^ 64)
    (h1 : ptx_trace opts ops1 = some g) (h2 : ptx_run g ops2 = some g1)
    (hf : g.find x = some n) (hd : n.state = PTX_COMMITTED ∨ n.state = PTX_ROLLEDBACK)
    (hf1 : g1.find x = some n1) :
    n1.state = n.state ∧ n1.reads = n.reads ∧ n1.writes = n.writes ∧
    n1.hasreads = n.hasreads ∧ n1.haswrites = n.haswrites := by
  have hw := ptx_trace_wf opts ops1 g (by omega) h1
  obtain ⟨hb, hi⟩ := ptx_trace_balanced opts ops1 g (by omega) h1
  obtain ⟨-, hh, -⟩ := ptx_run_chain ops2 g g1 hw hb (by omega) h2
  obtain ⟨hm, hxi⟩ := ptx_graph.find_some g x n hf
  have hx : x ≤ g.ident := by
    rw [← hxi]
    exact hw.2.2.1 n hm
  obtain ⟨n0, hf0, hfz⟩ := hh.2 x n1 hf1 hx
  rw [hf] at hf0
  cases hf0
  exact hfz hd

/-- C12. GC retains exactly the reachable nodes.  On a graph whose nodes have
distinct idents, whose mark bits are all clear and whose `outs` edges all target
live nodes, `ptx_graph_gc` returns, and the live list afterwards is the old
live list filtered: the nodes kept are exactly those that were ACTIVE or
reachable from an ACTIVE node along `outs` edges, in their old order and
unchanged, with all mark bits clear. -/
theorem ptx_graph_gc_exact (g : ptx_graph)
    (hids : (g.nodes.map (fun n => n.ident)).Nodup)
    (hmarks : ∀ n ∈ g.nodes, n.reached = false)
    (hlive : ∀ n ∈ g.nodes, ∀ e ∈ ptx_edgemap_edges n.outs, (g.find e.node).isSome = true) :
    ∃ g1 keep, ptx_graph_gc g = some g1 ∧ g1.nodes = g.nodes.filter keep ∧
      (∀ n ∈ g.nodes, keep n = true ↔ g.reaches n.ident) ∧
      (∀ n ∈ g1.nodes, n.reached = false) := by
  obtain ⟨g1, keep, h1, h2, h3, -⟩ := ptx_graph_gc_filter g hids hmarks hlive
  refine ⟨g1, keep, h1, h2, h3, ?_⟩
  intro n hn
  rw [h2] at hn
  exact hmarks n (List.mem_filter.mp hn).1

/-- C13. Zero leak once every transaction is finished: in a graph reached from
`ptx_graph_new` by fewer than `2^64` calls in which no node is ACTIVE or NOMEM,
`ptx_graph_gc` returns with an empty live list, and the allocation count is
back to its value right after `ptx_graph_new`. -/
theorem ptx_graph_gc_zero_leak (opts : ptx_graph_opts) (ops : List ptx_op) (g : ptx_graph)
    (hlen : ops.length < 2 ^ 64) (hrun : ptx_trace opts ops = some g)
    (hdone : ∀ n ∈ g.nodes, n.state ≠ PTX_ACTIVE ∧ n.state ≠ PTX_NOMEM) :
    ∃ g0 g1, ptx_graph_new opts = some g0 ∧ ptx_graph_gc g = some g1 ∧ g1.nodes = [] ∧
      g1.nallocs = g0.nallocs := by
  have hw := ptx_trace_wf opts ops g hlen hrun
  obtain ⟨⟨⟨k1, -, -⟩, hbal⟩, -⟩ := ptx_trace_balanced opts ops g hlen hrun
  obtain ⟨g1, keep, hgc, hnodes, hkeep, -, -, hex⟩ := ptx_graph_gc_filter g k1 hw.2.2.2.2.2
    (fun n hn => ptx_wf_live g hw n hn)
  have hnil : g1.nodes = [] := by
    rw [hnodes, List.filter_eq_nil_iff]
    intro n hn hk
    exact ptx_reaches_none g (fun m hm => (hdone m hm).1) n.ident ((hkeep n hn).mp hk)
  unfold ptx_trace at hrun
  cases hnew : ptx_graph_new opts with
  | none => rw [hnew] at hrun; simp at hrun
  | some g0 =>
    obtain ⟨-, -, h0⟩ := ptx_graph_new_balanced opts g0 hnew
    refine ⟨g0, g1, rfl, hgc, hnil, ?_⟩
    have hb1 : g1.blocks = 0 := by
      unfold ptx_graph.blocks
      rw [hnil]
      rfl
    rw [h0]
    omega

/-- C16. Idents.  In every graph reached from `ptx_graph_new` by fewer than
`2^64` calls the idents of the live list increase strictly along the list, are
pairwise distinct and are positive.  On such a graph a call of
`ptx_graph_begin` whose allocation succeeds (with a bit count of at most `2^63`,
so that the sizing loop ends, and a counter that does not wrap) returns a node
whose ident is the counter plus one, which becomes the new counter; the node is
ACTIVE, has empty sets, no edges and all flags false, and is appended at the
tail of the live list. -/
theorem ptx_graph_begin_idents (opts : ptx_graph_opts) (ops : List ptx_op) (g : ptx_graph)
    (hlen : ops.length < 2 ^ 64) (hrun : ptx_trace opts ops = some g) :
    ((g.nodes.map (fun n => n.ident)).Pairwise (fun a b => a < b) ∧
      (g.nodes.map (fun n => n.ident)).Nodup ∧ (∀ n ∈ g.nodes, 0 < n.ident)) ∧
    (∀ junk ga, g.alloc = (some junk, ga) → g.m ≤ 2 ^ 63 → g.ident + 1 < 2 ^ 64 →
      ∃ g1 n, ptx_graph_begin g = some (g1, some (g.ident + 1)) ∧ g1.ident = g.ident + 1 ∧
        g1.nodes = g.nodes ++ [n] ∧ n.ident = g.ident + 1 ∧ n.state = PTX_ACTIVE ∧
        ptx_hashset_empty n.reads = true ∧ ptx_hashset_empty n.writes = true ∧
        ptx_edgemap_count n.outs = 0 ∧ ptx_edgemap_count n.ins = 0 ∧
        ptx_edgemap_edges n.outs = [] ∧ ptx_edgemap_edges n.ins = [] ∧
        n.reached = false ∧ n.nomem = false ∧ n.hasdeps = false ∧ n.hasreads = false ∧
        n.haswrites = false) := by
  have hw := ptx_trace_wf opts ops g hlen hrun
  obtain ⟨⟨⟨k1, k2, -⟩, -⟩, -⟩ := ptx_trace_balanced opts ops g hlen hrun
  exact ⟨⟨hw.2.1, k1, k2⟩, fun junk ga hal hm hid => ptx_graph_begin_spec g ga junk hal hm hid⟩

theorem ptx_write_commit_runs :
    (ptx_trace ptx_opts_default ptx_ops_write_commit).isSome = true := by
  decide

theorem ptx_write_commit_write_runs :
    (ptx_run ((ptx_trace ptx_opts_default ptx_ops_write_commit).get ptx_write_commit_runs)
      ptx_ops_begin_write).isSome = true := by
  decide

theorem ptx_write_commit_finds :
    (((ptx_trace ptx_opts_default ptx_ops_write_commit).get ptx_write_commit_runs).find 1).isSome
      = true := by
  decide

theorem ptx_write_commit_write_finds :
    (((ptx_run ((ptx_trace ptx_opts_default ptx_ops_write_commit).get ptx_write_commit_runs)
      ptx_ops_begin_write).get ptx_write_commit_write_runs).find 1).isSome = true := by
  decide

theorem ptx_graph_gc_exact_witness :
    ((ptx_example_ww.nodes.map (fun n => n.ident)).Nodup ∧
      (∀ n ∈ ptx_example_ww.nodes, n.reached = false) ∧
      (∀ n ∈ ptx_example_ww.nodes, ∀ e ∈ ptx_edgemap_edges n.outs,
        (ptx_example_ww.find e.node).isSome = true)) ∧
    ∃ g1 keep, ptx_graph_gc ptx_example_ww = some g1 ∧
      g1.nodes = ptx_example_ww.nodes.filter keep ∧
      (∀ n ∈ ptx_example_ww.nodes, keep n = true ↔ ptx_example_ww.reaches n.ident) ∧
      (∀ n ∈ g1.nodes, n.reached = false) :=
  ⟨⟨by decide, by decide, by decide⟩,
    ptx_graph_gc_exact ptx_example_ww (by decide) (by decide) (by decide)⟩

theorem ptx_graph_gc_zero_leak_witness :
    (ptx_ops_write_commit.length < 2 ^ 64 ∧
      ∀ n ∈ ((ptx_trace ptx_opts_default ptx_ops_write_commit).get ptx_write_commit_runs).nodes,
        n.state ≠ PTX_ACTIVE ∧ n.state ≠ PTX_NOMEM) ∧
    ∃ g0 g1, ptx_graph_new ptx_opts_default = some g0 ∧
      ptx_graph_gc ((ptx_trace ptx_opts_default ptx_ops_write_commit).get ptx_write_commit_runs)
        = some g1 ∧ g1.nodes = [] ∧ g1.nallocs = g0.nallocs :=
  ⟨⟨by decide, by decide⟩,
    ptx_graph_gc_zero_leak ptx_opts_default ptx_ops_write_commit _ (by decide)
      (Option.some_get ptx_write_commit_runs).symm (by decide)⟩

theorem ptx_graph_begin_idents_witness :
    (ptx_ops_write_read.length < 2 ^ 64 ∧
      ∃ junk ga,
        ((ptx_trace ptx_opts_default ptx_ops_write_read).get ptx_write_read_runs).alloc
          = (some junk, ga) ∧
        ((ptx_trace ptx_opts_default ptx_ops_write_read).get ptx_write_read_runs).m ≤ 2 ^ 63 ∧
        ((ptx_trace ptx_opts_default ptx_ops_write_read).get ptx_write_read_runs).ident + 1
          < 2 ^ 64) ∧
    ((((ptx_trace ptx_opts_default ptx_ops_write_read).get ptx_write_read_runs).nodes.map
        (fun n => n.ident)).Pairwise (fun a b => a < b) ∧
      (((ptx_trace ptx_opts_default ptx_ops_write_read).get ptx_write_read_runs).nodes.map
        (fun n => n.ident)).Nodup ∧
      (∀ n ∈ ((ptx_trace ptx_opts_default ptx_ops_write_read).get ptx_write_read_runs).nodes,
        0 < n.ident)) :=
  ⟨⟨by decide, _, _, rfl, by decide, by decide⟩,
    (ptx_graph_begin_idents ptx_opts_default ptx_ops_write_read _ (by decide)
      (Option.some_get ptx_write_read_runs).symm).1⟩

/-! ## A set that holds at most one item -/

theorem ptx_sethashdib_one (x : Nat) :
    ptx_hashof (ptx_sethashdib (ptx_hashof x) 1) = ptx_hashof x ∧
    ptx_dibof (ptx_sethashdib (ptx_hashof x) 1) = 1 := by
  have hlt : ptx_hashof x < 2 ^ 56 := by
    rw [ptx_hashof_mod]
    exact Nat.mod_lt _ (by decide)
  have hv : ptx_sethashdib (ptx_hashof x) 1 = 2 ^ 56 + ptx_hashof x := by
    unfold ptx_sethashdib
    rw [ptx_hashof_mod (ptx_hashof x), Nat.mod_eq_of_lt hlt]
    have h1 : (1 % 256) <<< 56 = 2 ^ 56 * 1 := by decide
    rw [h1, Nat.lor_comm, ← Nat.mul_add_lt_is_or hlt 1, Nat.mul_one]
  rw [hv]
  constructor
  · rw [ptx_hashof_mod]
    omega
  · unfold ptx_dibof
    rw [Nat.shiftRight_eq_div_pow]
    omega

theorem ptx_hashof_idem (x : Nat) : ptx_hashof (ptx_hashof x) = ptx_hashof x := by
  rw [ptx_hashof_mod, ptx_hashof_mod]
  exact Nat.mod_mod _ _

theorem ptx_slot_lt (x : Nat) : x &&& (4 - 1) < 4 := by
  have h := Nat.and_pow_two_sub_one_eq_mod x 2
  have h4 : (2 : Nat) ^ 2 = 4 := rfl
  rw [h4] at h
  rw [h]
  exact Nat.mod_lt _ (by decide)

theorem ptx_slot_get (i v : Nat) (hi : i < 4) :
    ([0, 0, 0, 0].set i v)[i]? = some v ∧ ([0, 0, 0, 0] : List Nat)[i]? = some 0 ∧
    ([0, 0, 0, 0].set i v).getD i 0 = v ∧ ([0, 0, 0, 0] : List Nat).getD i 0 = 0 := by
  interval_cases i <;> exact ⟨rfl, rfl, rfl, rfl⟩

theorem ptx_hashset_init_is_fresh (m0 k : Nat) (hm : m0 ≤ 2 ^ 63) :
    ∃ m, ptx_hashset_init m0 k = some (ptx_hashset.fresh m k) := by
  obtain ⟨set, hset⟩ := ptx_hashset_init_total m0 k hm
  refine ⟨set.m, ?_⟩
  rw [hset]
  unfold ptx_hashset_init at hset
  cases hi : ptx_hashset_init_m m0 65 2 with
  | none => rw [hi] at hset; simp at hset
  | some r =>
    rw [hi] at hset
    simp only [Option.some.injEq] at hset
    subst hset
    rfl

theorem ptx_hashset_add_fresh (g : ptx_graph) (m k hash : Nat) :
    ptx_hashset_add g (ptx_hashset.fresh m k) hash
      = some (g, ptx_hashset.single m k hash, true) := by
  have hi := ptx_slot_lt (ptx_hashof hash)
  obtain ⟨-, h0, -, -⟩ := ptx_slot_get (ptx_hashof hash &&& (4 - 1)) 0 hi
  have hfuel : 256 * 4 = 1023 + 1 := rfl
  unfold ptx_hashset_add ptx_add0
  simp only [ptx_hashset.fresh, Option.isSome_none, Bool.false_eq_true, if_false]
  rw [if_pos (by decide), hfuel]
  unfold ptx_add0_loop
  simp only [ptx_hashset.cur]
  rw [h0]
  simp only []
  have hd : ptx_dibof 0 = 0 := by decide
  rw [if_pos hd]
  rfl

theorem ptx_hashset_add_single (g : ptx_graph) (m k hash x : Nat)
    (hx : ptx_hashof x = ptx_hashof hash) :
    ptx_hashset_add g (ptx_hashset.single m k hash) x
      = some (g, ptx_hashset.single m k hash, true) := by
  have hi := ptx_slot_lt (ptx_hashof hash)
  obtain ⟨h1, -, -, -⟩ := ptx_slot_get (ptx_hashof hash &&& (4 - 1))
    (ptx_sethashdib (ptx_hashof hash) 1) hi
  obtain ⟨e1, e2⟩ := ptx_sethashdib_one hash
  have hfuel : 256 * 4 = 1023 + 1 := rfl
  unfold ptx_hashset_add ptx_add0
  simp only [ptx_hashset.single, Option.isSome_none, Bool.false_eq_true, if_false]
  rw [if_pos (by decide), hfuel, hx]
  unfold ptx_add0_loop
  simp only [ptx_hashset.cur]
  rw [h1]
  simp only []
  rw [e2, if_neg (by decide), if_neg (by decide), if_neg (by decide), if_neg (by decide)]
  simp only [ptx_hashset.cur]
  rw [h1]
  simp only []
  rw [e1, if_pos rfl]

theorem ptx_hashset_test_single (m k hash x : Nat) (hx : ptx_hashof x = ptx_hashof hash) :
    ptx_hashset_test (ptx_hashset.single m k hash) x = some true := by
  have hi := ptx_slot_lt (ptx_hashof hash)
  obtain ⟨-, -, h1, -⟩ := ptx_slot_get (ptx_hashof hash &&& (4 - 1))
    (ptx_sethashdib (ptx_hashof hash) 1) hi
  obtain ⟨e1, -⟩ := ptx_sethashdib_one hash
  have hfuel : 256 * 4 = 1023 + 1 := rfl
  unfold ptx_hashset_test
  simp only [ptx_hashset.single, Option.isSome_none, Bool.false_eq_true, if_false]
  rw [hfuel, hx]
  unfold ptx_hashset_test_loop
  simp only [ptx_hashset.cur]
  rw [h1, e1, if_pos rfl]

theorem ptx_hashset_test_fresh (m k x : Nat) :
    ptx_hashset_test (ptx_hashset.fresh m k) x = some (decide (ptx_hashof x = 0)) := by
  have hi := ptx_slot_lt (ptx_hashof x)
  obtain ⟨-, -, -, h0⟩ := ptx_slot_get (ptx_hashof x &&& (4 - 1)) 0 hi
  have hfuel : 256 * 4 = 1023 + 1 := rfl
  have hh : ptx_hashof 0 = 0 := by decide
  have hd : ptx_dibof 0 = 0 := by decide
  unfold ptx_hashset_test
  simp only [ptx_hashset.fresh, Option.isSome_none, Bool.false_eq_true, if_false]
  rw [hfuel]
  unfold ptx_hashset_test_loop
  simp only [ptx_hashset.cur]
  rw [h0, hh, hd]
  by_cases hz : ptx_hashof x = 0
  · rw [hz, if_pos rfl]
    rfl
  · have hz1 : ¬ (0 = ptx_hashof x) := fun e => hz e.symm
    rw [if_neg hz1, if_pos (by decide)]
    simp [hz]

/-! ## Executions that differ in the item, the allocator and the sizing -/

theorem ptx_twin_find (m0 m k hash c : Nat) (g gc : ptx_graph)
    (t : g.twin m0 m k hash c gc) (x : Nat) :
    g.find x = (gc.find x).map (ptx_node.recode m k hash) := by
  unfold ptx_graph.find
  rw [t.2.2.2.2.2.2.2.2.2.1, List.find?_map]
  rfl

theorem ptx_twin_of_same (m0 m k hash c : Nat) (g gc g1 gc1 : ptx_graph)
    (t : g.twin m0 m k hash c gc) (s : g.same g1) (n : ptx_never_fails g1.malloc)
    (sc : gc.same gc1) (nc : ptx_never_fails gc1.malloc) : g1.twin m0 m k hash c gc1 := by
  obtain ⟨-, -, tm, tk, tcm, tck, tid, tag, tle, tn, ts⟩ := t
  obtain ⟨s1, s2, s3, s4, s5⟩ := s
  obtain ⟨c1, c2, c3, c4, c5⟩ := sc
  refine ⟨n, nc, ?_, ?_, ?_, ?_, ?_, ?_, ?_, ?_, ?_⟩
  · rw [s4, tm]
  · rw [s5, tk]
  · rw [c4, tcm]
  · rw [c5, tck]
  · rw [s2, c2, tid]
  · rw [s3, c3, tag]
  · rw [c3]; exact tle
  · rw [s1, c1, tn]
  · rw [c1]; exact ts

theorem ptx_twin_update (m0 m k hash c : Nat) (g gc : ptx_graph)
    (t : g.twin m0 m k hash c gc) (x : Nat) (f fc : ptx_node → ptx_node)
    (hf : ∀ n, ptx_node.recode m k hash (fc n) = f (ptx_node.recode m k hash n))
    (hc : ∀ n, n.coded c → (fc n).coded c) :
    (g.update x f).twin m0 m k hash c (gc.update x fc) := by
  obtain ⟨tnf, tnc, tm, tk, tcm, tck, tid, tag, tle, tn, ts⟩ := t
  refine ⟨tnf, tnc, tm, tk, tcm, tck, tid, tag, tle, ?_, ?_⟩
  · unfold ptx_graph.update
    simp only []
    rw [tn, List.map_map, List.map_map]
    apply List.map_congr_left
    intro n _
    simp only [Function.comp]
    have hid : (ptx_node.recode m k hash n).ident = n.ident := rfl
    rw [hid]
    by_cases hx : (n.ident == x) = true
    · rw [if_pos hx, if_pos hx, hf]
    · rw [if_neg hx, if_neg hx]
  · intro n hn
    unfold ptx_graph.update at hn
    simp only [List.mem_map] at hn
    obtain ⟨n0, hn0, rfl⟩ := hn
    by_cases hx : (n0.ident == x) = true
    · rw [if_pos hx]
      exact hc n0 (ts n0 hn0)
    · rw [if_neg hx]
      exact ts n0 hn0

/-- An update that leaves the two sets alone. -/
theorem ptx_twin_update_frame (m0 m k hash c : Nat) (g gc : ptx_graph)
    (t : g.twin m0 m k hash c gc) (x : Nat) (f : ptx_node → ptx_node)
    (hr : ∀ n, (f n).reads = n.reads ∧ (f n).writes = n.writes)
    (hf : ∀ n, ptx_node.recode m k hash (f n) = f (ptx_node.recode m k hash n)) :
    (g.update x f).twin m0 m k hash c (gc.update x f) := by
  refine ptx_twin_update m0 m k hash c g gc t x f f hf ?_
  intro n hn
  unfold ptx_node.coded
  rw [(hr n).1, (hr n).2]
  exact hn

theorem ptx_never_fails_release (g : ptx_graph) (h : ptx_never_fails g.malloc) :
    ptx_never_fails g.release.malloc := h

theorem ptx_twin_release_if (m0 m k hash c : Nat) (g gc : ptx_graph) (b : Prop) [Decidable b]
    (t : g.twin m0 m k hash c gc) :
    (if b then g.release else g).twin m0 m k hash c (if b then gc.release else gc) := by
  by_cases hb : b
  · rw [if_pos hb, if_pos hb]
    exact ptx_twin_of_same m0 m k hash c g gc _ _ t (ptx_graph.same_release g).1
      (ptx_never_fails_release g t.1) (ptx_graph.same_release gc).1
      (ptx_never_fails_release gc t.2.1)
  · rw [if_neg hb, if_neg hb]
    exact t

theorem ptx_edgemap_grow_twin (m0 m k hash c : Nat) (g gc gc1 : ptx_graph)
    (map map1 : ptx_edgemap) (ok : Bool) (t : g.twin m0 m k hash c gc)
    (h : ptx_edgemap_grow gc map = some (gc1, map1, ok)) :
    ∃ g1, ptx_edgemap_grow g map = some (g1, map1, ok) ∧ g1.twin m0 m k hash c gc1 := by
  obtain ⟨junk, ga, ha, sa, na⟩ := ptx_graph.alloc_never_fails g t.1
  obtain ⟨junkc, gca, hca, sca, nca⟩ := ptx_graph.alloc_never_fails gc t.2.1
  have ta := ptx_twin_of_same m0 m k hash c g gc ga gca t sa na sca nca
  unfold ptx_edgemap_grow at h ⊢
  rw [hca] at h
  rw [ha]
  simp only [] at h ⊢
  cases hl : ptx_edgemap_grow_loop
      (ptx_edgemap_zeroed (if map.nbuckets = 0 then 2 else map.nbuckets * 2))
      (map.buckets.take map.nbuckets) with
  | none => rw [hl] at h; simp at h
  | some map2 =>
    rw [hl] at h
    simp only [Option.some.injEq, Prod.mk.injEq] at h
    obtain ⟨h1, h2, h3⟩ := h
    subst h1 h2 h3
    exact ⟨_, rfl, ptx_twin_release_if m0 m k hash c ga gca _ ta⟩

theorem ptx_edgemap_add_twin (m0 m k hash c : Nat) (g gc gc1 : ptx_graph)
    (map map1 : ptx_edgemap) (x kind : Nat) (ok : Bool) (t : g.twin m0 m k hash c gc)
    (h : ptx_edgemap_add gc map x kind = some (gc1, map1, ok)) :
    ∃ g1, ptx_edgemap_add g map x kind = some (g1, map1, ok) ∧ g1.twin m0 m k hash c gc1 := by
  unfold ptx_edgemap_add at h ⊢
  by_cases hc : map.count = map.nbuckets / 2
  · simp only [if_pos hc] at h ⊢
    cases hg : ptx_edgemap_grow gc map with
    | none => rw [hg] at h; simp at h
    | some r =>
      obtain ⟨gc2, map2, ok2⟩ := r
      obtain ⟨g2, hg2, t2⟩ := ptx_edgemap_grow_twin m0 m k hash c g gc gc2 map map2 ok2 t hg
      rw [hg] at h
      rw [hg2]
      cases ok2 with
      | false =>
        simp only [Option.some.injEq, Prod.mk.injEq] at h
        obtain ⟨h1, h2, h3⟩ := h
        subst h1 h2 h3
        exact ⟨g2, rfl, t2⟩
      | true =>
        simp only [] at h ⊢
        cases ha : ptx_edgemap_add0 map2 { dib := 0, kind := kind % 65536, node := x } with
        | none => rw [ha] at h; simp at h
        | some map3 =>
          rw [ha] at h
          simp only [Option.some.injEq, Prod.mk.injEq] at h
          obtain ⟨h1, h2, h3⟩ := h
          subst h1 h2 h3
          exact ⟨g2, rfl, t2⟩
  · simp only [if_neg hc] at h ⊢
    cases ha : ptx_edgemap_add0 map { dib := 0, kind := kind % 65536, node := x } with
    | none => rw [ha] at h; simp at h
    | some map3 =>
      rw [ha] at h
      simp only [Option.some.injEq, Prod.mk.injEq] at h
      obtain ⟨h1, h2, h3⟩ := h
      subst h1 h2 h3
      exact ⟨g, rfl, t⟩

theorem ptx_node_adddep_twin (m0 m k hash c : Nat) (g gc gc1 : ptx_graph) (a b K : Nat)
    (ok : Bool) (t : g.twin m0 m k hash c gc)
    (h : ptx_node_adddep gc a b K = some (gc1, ok)) :
    ∃ g1, ptx_node_adddep g a b K = some (g1, ok) ∧ g1.twin m0 m k hash c gc1 := by
  unfold ptx_node_adddep at h ⊢
  rw [ptx_twin_find m0 m k hash c g gc t b]
  cases hfb : gc.find b with
  | none => rw [hfb] at h; simp at h
  | some nb =>
    rw [hfb] at h
    simp only [Option.map] at h ⊢
    have hins : (ptx_node.recode m k hash nb).ins = nb.ins := rfl
    rw [hins]
    cases hadd1 : ptx_edgemap_add gc nb.ins a K with
    | none => rw [hadd1] at h; simp at h
    | some r1 =>
      obtain ⟨gc2, ins1, ok1⟩ := r1
      obtain ⟨g2, hg2, t2⟩ := ptx_edgemap_add_twin m0 m k hash c g gc gc2 nb.ins ins1 a K ok1 t hadd1
      rw [hadd1] at h
      rw [hg2]
      have t3 := ptx_twin_update_frame m0 m k hash c g2 gc2 t2 b (fun x => { x with ins := ins1 })
        (fun _ => ⟨rfl, rfl⟩) (fun _ => rfl)
      cases ok1 with
      | false =>
        simp only [Option.some.injEq, Prod.mk.injEq] at h
        obtain ⟨h1, h2⟩ := h
        subst h1 h2
        exact ⟨_, rfl, t3⟩
      | true =>
        simp only [] at h ⊢
        rw [ptx_twin_find m0 m k hash c _ _ t3 a]
        cases hfa : (gc2.update b (fun x => { x with ins := ins1 })).find a with
        | none => rw [hfa] at h; simp at h
        | some na =>
          rw [hfa] at h
          simp only [Option.map] at h ⊢
          have houts : (ptx_node.recode m k hash na).outs = na.outs := rfl
          rw [houts]
          cases hadd2 : ptx_edgemap_add (gc2.update b (fun x => { x with ins := ins1 }))
              na.outs b K with
          | none => rw [hadd2] at h; simp at h
          | some r2 =>
            obtain ⟨gc3, outs1, ok2⟩ := r2
            obtain ⟨g3, hg3, t4⟩ := ptx_edgemap_add_twin m0 m k hash c _ _ gc3 na.outs outs1 b K
              ok2 t3 hadd2
            rw [hadd2] at h
            rw [hg3]
            have t5 := ptx_twin_update_frame m0 m k hash c g3 gc3 t4 a
              (fun x => { x with outs := outs1 }) (fun _ => ⟨rfl, rfl⟩) (fun _ => rfl)
            cases ok2 with
            | false =>
              simp only [Option.some.injEq, Prod.mk.injEq] at h
              obtain ⟨h1, h2⟩ := h
              subst h1 h2
              exact ⟨_, rfl, t5⟩
            | true =>
              simp only [Option.some.injEq, Prod.mk.injEq] at h
              obtain ⟨h1, h2⟩ := h
              subst h1 h2
              simp only []
              exact ⟨_, rfl, ptx_twin_update_frame m0 m k hash c _ _ t5 b
                (fun x => { x with hasdeps := true }) (fun _ => ⟨rfl, rfl⟩) (fun _ => rfl)⟩

/-! ## Reads, writes and commits on another item -/

theorem ptx_recode_fresh (m k hash : Nat) :
    (ptx_hashset.fresh 16777216 4).recode m k hash = ptx_hashset.fresh m k := rfl

theorem ptx_recode_single (m k hash c : Nat) :
    (ptx_hashset.single 16777216 4 c).recode m k hash = ptx_hashset.single m k hash := rfl

theorem ptx_recode_test (m k hash c x xc : Nat) (hx : ptx_hashof x = ptx_hashof hash)
    (hxc : ptx_hashof xc = ptx_hashof c) (hz : ptx_hashof hash = 0 ↔ ptx_hashof c = 0)
    (set : ptx_hashset)
    (hs : set = ptx_hashset.fresh 16777216 4 ∨ set = ptx_hashset.single 16777216 4 c) :
    ptx_hashset_test (set.recode m k hash) x = ptx_hashset_test set xc := by
  rcases hs with hs | hs
  · rw [hs, ptx_recode_fresh, ptx_hashset_test_fresh, ptx_hashset_test_fresh, hx, hxc]
    congr 1
    exact decide_eq_decide.mpr hz
  · rw [hs, ptx_recode_single, ptx_hashset_test_single m k hash x hx,
      ptx_hashset_test_single 16777216 4 c xc hxc]

theorem ptx_recode_add (m k hash c x xc : Nat) (hx : ptx_hashof x = ptx_hashof hash)
    (hxc : ptx_hashof xc = ptx_hashof c) (g gc : ptx_graph) (set : ptx_hashset)
    (hs : set = ptx_hashset.fresh 16777216 4 ∨ set = ptx_hashset.single 16777216 4 c) :
    ptx_hashset_add gc set xc = some (gc, ptx_hashset.single 16777216 4 c, true) ∧
    ptx_hashset_add g (set.recode m k hash) x = some (g, ptx_hashset.single m k hash, true) := by
  have e1 : ptx_hashset.single 16777216 4 xc = ptx_hashset.single 16777216 4 c := by
    unfold ptx_hashset.single
    rw [hxc]
  have e2 : ptx_hashset.single m k x = ptx_hashset.single m k hash := by
    unfold ptx_hashset.single
    rw [hx]
  rcases hs with hs | hs
  · rw [hs, ptx_recode_fresh, ptx_hashset_add_fresh, ptx_hashset_add_fresh, e1, e2]
    exact ⟨rfl, rfl⟩
  · rw [hs, ptx_recode_single, ptx_hashset_add_single gc 16777216 4 c xc hxc,
      ptx_hashset_add_single g m k hash x hx]
    exact ⟨rfl, rfl⟩

theorem ptx_twin_idents (m0 m k hash c : Nat) (g gc : ptx_graph)
    (t : g.twin m0 m k hash c gc) :
    g.nodes.map (fun n => n.ident) = gc.nodes.map (fun n => n.ident) := by
  rw [t.2.2.2.2.2.2.2.2.2.1, List.map_map]
  rfl

theorem ptx_twin_coded (m0 m k hash c : Nat) (g gc : ptx_graph)
    (t : g.twin m0 m k hash c gc) (x : Nat) (n : ptx_node) (hf : gc.find x = some n) :
    n.coded c :=
  t.2.2.2.2.2.2.2.2.2.2 n (ptx_graph.find_some gc x n hf).1

theorem ptx_twin_nomem (m0 m k hash c : Nat) (g gc : ptx_graph)
    (t : g.twin m0 m k hash c gc) (node : Nat) :
    (g.update node (fun x => { x with state := PTX_NOMEM })).twin m0 m k hash c
      (gc.update node (fun x => { x with state := PTX_NOMEM })) :=
  ptx_twin_update_frame m0 m k hash c g gc t node _ (fun _ => ⟨rfl, rfl⟩) (fun _ => rfl)

theorem ptx_node_read_loop_twin (m0 m k hash c x xc node : Nat)
    (hx : ptx_hashof x = ptx_hashof hash) (hxc : ptx_hashof xc = ptx_hashof c)
    (hz : ptx_hashof hash = 0 ↔ ptx_hashof c = 0) :
    ∀ (others : List Nat) (g gc gc1 : ptx_graph), g.twin m0 m k hash c gc →
      ptx_node_read_loop node xc gc others = some gc1 →
      ∃ g1, ptx_node_read_loop node x g others = some g1 ∧ g1.twin m0 m k hash c gc1 := by
  intro others
  induction others with
  | nil =>
    intro g gc gc1 t h
    simp [ptx_node_read_loop] at h
    subst h
    exact ⟨g, rfl, t⟩
  | cons other rest ih =>
    intro g gc gc1 t h
    unfold ptx_node_read_loop at h ⊢
    by_cases hne : other ≠ node
    · rw [if_pos hne] at h ⊢
      rw [ptx_twin_find m0 m k hash c g gc t other]
      cases hfo : gc.find other with
      | none => rw [hfo] at h; simp at h
      | some o =>
        rw [hfo] at h
        simp only [Option.map] at h ⊢
        have hw : (ptx_node.recode m k hash o).writes = o.writes.recode m k hash := rfl
        rw [hw, ptx_recode_test m k hash c x xc hx hxc hz o.writes
          (ptx_twin_coded m0 m k hash c g gc t other o hfo).2]
        cases ht : ptx_hashset_test o.writes xc with
        | none => rw [ht] at h; simp at h
        | some r =>
          rw [ht] at h
          cases r with
          | false => exact ih g gc gc1 t h
          | true =>
            simp only [] at h ⊢
            cases had : ptx_node_adddep gc other node PTX_WR with
            | none => rw [had] at h; simp at h
            | some r2 =>
              obtain ⟨gc2, ok⟩ := r2
              obtain ⟨g2, hg2, t2⟩ := ptx_node_adddep_twin m0 m k hash c g gc gc2 other node
                PTX_WR ok t had
              rw [had] at h
              rw [hg2]
              cases ok with
              | false =>
                simp only [Option.some.injEq] at h
                subst h
                exact ⟨_, rfl, ptx_twin_nomem m0 m k hash c g2 gc2 t2 node⟩
              | true =>
                simp only [] at h ⊢
                exact ih g2 gc2 gc1 t2 h
    · rw [if_neg hne] at h ⊢
      exact ih g gc gc1 t h

theorem ptx_node_read_twin (m0 m k hash c x xc node : Nat)
    (hx : ptx_hashof x = ptx_hashof hash) (hxc : ptx_hashof xc = ptx_hashof c)
    (hz : ptx_hashof hash = 0 ↔ ptx_hashof c = 0) (g gc gc1 : ptx_graph)
    (t : g.twin m0 m k hash c gc) (h : ptx_node_read gc node xc = some gc1) :
    ∃ g1, ptx_node_read g node x = some g1 ∧ g1.twin m0 m k hash c gc1 := by
  unfold ptx_node_read at h ⊢
  rw [ptx_twin_find m0 m k hash c g gc t node]
  cases hf : gc.find node with
  | none => rw [hf] at h; simp at h
  | some n =>
    rw [hf] at h
    simp only [Option.map] at h ⊢
    have hst : (ptx_node.recode m k hash n).state = n.state := rfl
    have hr : (ptx_node.recode m k hash n).reads = n.reads.recode m k hash := rfl
    rw [hst, hr]
    by_cases hno : n.state = PTX_NOMEM
    · rw [if_pos hno] at h ⊢
      simp only [Option.some.injEq] at h
      subst h
      exact ⟨g, rfl, t⟩
    · rw [if_neg hno] at h ⊢
      by_cases hac : n.state = PTX_ACTIVE
      · rw [if_pos hac] at h ⊢
        obtain ⟨a1, a2⟩ := ptx_recode_add m k hash c x xc hx hxc g gc n.reads
          (ptx_twin_coded m0 m k hash c g gc t node n hf).1
        rw [a1] at h
        rw [a2]
        simp only [] at h ⊢
        rw [ptx_twin_idents m0 m k hash c g gc t]
        refine ptx_node_read_loop_twin m0 m k hash c x xc node hx hxc hz _ _ _ gc1 ?_ h
        refine ptx_twin_update m0 m k hash c g gc t node _ _ (fun _ => rfl) ?_
        intro y hy
        exact ⟨Or.inr rfl, hy.2⟩
      · rw [if_neg hac] at h
        simp at h

theorem ptx_node_write_ww_twin (m0 m k hash c x xc node other : Nat)
    (hx : ptx_hashof x = ptx_hashof hash) (hxc : ptx_hashof xc = ptx_hashof c)
    (hz : ptx_hashof hash = 0 ↔ ptx_hashof c = 0) (g gc gc1 : ptx_graph) (ok : Bool)
    (t : g.twin m0 m k hash c gc) (h : ptx_node_write_ww node xc other gc = some (gc1, ok)) :
    ∃ g1, ptx_node_write_ww node x other g = some (g1, ok) ∧ g1.twin m0 m k hash c gc1 := by
  unfold ptx_node_write_ww at h ⊢
  rw [ptx_twin_find m0 m k hash c g gc t other]
  cases hfo : gc.find other with
  | none => rw [hfo] at h; simp at h
  | some o =>
    rw [hfo] at h
    simp only [Option.map] at h ⊢
    have hw : (ptx_node.recode m k hash o).writes = o.writes.recode m k hash := rfl
    rw [hw, ptx_recode_test m k hash c x xc hx hxc hz o.writes
      (ptx_twin_coded m0 m k hash c g gc t other o hfo).2]
    cases ht : ptx_hashset_test o.writes xc with
    | none => rw [ht] at h; simp at h
    | some r =>
      rw [ht] at h
      cases r with
      | false =>
        simp only [Option.some.injEq, Prod.mk.injEq] at h
        obtain ⟨h1, h2⟩ := h
        subst h1 h2
        exact ⟨g, rfl, t⟩
      | true =>
        simp only [] at h ⊢
        cases had : ptx_node_adddep gc other node PTX_WW with
        | none => rw [had] at h; simp at h
        | some r2 =>
          obtain ⟨gc2, ok2⟩ := r2
          obtain ⟨g2, hg2, t2⟩ := ptx_node_adddep_twin m0 m k hash c g gc gc2 other node
            PTX_WW ok2 t had
          rw [had] at h
          rw [hg2]
          cases ok2 with
          | false =>
            simp only [Option.some.injEq, Prod.mk.injEq] at h
            obtain ⟨h1, h2⟩ := h
            subst h1 h2
            exact ⟨g2, rfl, t2⟩
          | true =>
            simp only [] at h ⊢
            exact ptx_node_adddep_twin m0 m k hash c g2 gc2 gc1 node other PTX_WW ok t2 h

theorem ptx_node_write_loop_twin (m0 m k hash c x xc node : Nat)
    (hx : ptx_hashof x = ptx_hashof hash) (hxc : ptx_hashof xc = ptx_hashof c)
    (hz : ptx_hashof hash = 0 ↔ ptx_hashof c = 0) :
    ∀ (others : List Nat) (g gc gc1 : ptx_graph), g.twin m0 m k hash c gc →
      ptx_node_write_loop node xc gc others = some gc1 →
      ∃ g1, ptx_node_write_loop node x g others = some g1 ∧ g1.twin m0 m k hash c gc1 := by
  intro others
  induction others with
  | nil =>
    intro g gc gc1 t h
    simp [ptx_node_write_loop] at h
    subst h
    exact ⟨g, rfl, t⟩
  | cons other rest ih =>
    intro g gc gc1 t h
    unfold ptx_node_write_loop at h ⊢
    by_cases hne : other ≠ node
    · rw [if_pos hne] at h ⊢
      rw [ptx_twin_find m0 m k hash c g gc t other]
      cases hfo : gc.find other with
      | none => rw [hfo] at h; simp at h
      | some o =>
        rw [hfo] at h
        simp only [Option.map] at h ⊢
        have hw : (ptx_node.recode m k hash o).reads = o.reads.recode m k hash := rfl
        rw [hw, ptx_recode_test m k hash c x xc hx hxc hz o.reads
          (ptx_twin_coded m0 m k hash c g gc t other o hfo).1]
        cases ht : ptx_hashset_test o.reads xc with
        | none => rw [ht] at h; simp at h
        | some r =>
          rw [ht] at h
          simp only [] at h ⊢
          have key : ∀ gc2 ok2, (if r = true then ptx_node_adddep gc other node PTX_RW
                else some (gc, true)) = some (gc2, ok2) →
              ∃ g2, (if r = true then ptx_node_adddep g other node PTX_RW
                else some (g, true)) = some (g2, ok2) ∧ g2.twin m0 m k hash c gc2 := by
            intro gc2 ok2 hh
            cases r with
            | false =>
              simp only [Bool.false_eq_true, if_false, Option.some.injEq, Prod.mk.injEq] at hh ⊢
              obtain ⟨h1, h2⟩ := hh
              subst h1 h2
              exact ⟨g, ⟨rfl, rfl⟩, t⟩
            | true =>
              simp only [if_true] at hh ⊢
              exact ptx_node_adddep_twin m0 m k hash c g gc gc2 other node PTX_RW ok2 t hh
          cases had : (if r = true then ptx_node_adddep gc other node PTX_RW
              else some (gc, true)) with
          | none => rw [had] at h; simp at h
          | some r2 =>
            obtain ⟨gc2, ok2⟩ := r2
            obtain ⟨g2, hg2, t2⟩ := key gc2 ok2 had
            rw [had] at h
            rw [hg2]
            cases ok2 with
            | false =>
              simp only [Option.some.injEq] at h
              subst h
              exact ⟨_, rfl, ptx_twin_nomem m0 m k hash c g2 gc2 t2 node⟩
            | true =>
              simp only [] at h ⊢
              cases hww : ptx_node_write_ww node xc other gc2 with
              | none => rw [hww] at h; simp at h
              | some r3 =>
                obtain ⟨gc3, ok3⟩ := r3
                obtain ⟨g3, hg3, t3⟩ := ptx_node_write_ww_twin m0 m k hash c x xc node other
                  hx hxc hz g2 gc2 gc3 ok3 t2 hww
                rw [hww] at h
                rw [hg3]
                cases ok3 with
                | false =>
                  simp only [Option.some.injEq] at h
                  subst h
                  exact ⟨_, rfl, ptx_twin_nomem m0 m k hash c g3 gc3 t3 node⟩
                | true =>
                  simp only [] at h ⊢
                  exact ih g3 gc3 gc1 t3 h
    · rw [if_neg hne] at h ⊢
      exact ih g gc gc1 t h

theorem ptx_node_write_twin (m0 m k hash c x xc node : Nat)
    (hx : ptx_hashof x = ptx_hashof hash) (hxc : ptx_hashof xc = ptx_hashof c)
    (hz : ptx_hashof hash = 0 ↔ ptx_hashof c = 0) (g gc gc1 : ptx_graph)
    (t : g.twin m0 m k hash c gc) (h : ptx_node_write gc node xc = some gc1) :
    ∃ g1, ptx_node_write g node x = some g1 ∧ g1.twin m0 m k hash c gc1 := by
  unfold ptx_node_write at h ⊢
  rw [ptx_twin_find m0 m k hash c g gc t node]
  cases hf : gc.find node with
  | none => rw [hf] at h; simp at h
  | some n =>
    rw [hf] at h
    simp only [Option.map] at h ⊢
    have hst : (ptx_node.recode m k hash n).state = n.state := rfl
    have hr : (ptx_node.recode m k hash n).writes = n.writes.recode m k hash := rfl
    rw [hst, hr]
    by_cases hno : n.state = PTX_NOMEM
    · rw [if_pos hno] at h ⊢
      simp only [Option.some.injEq] at h
      subst h
      exact ⟨g, rfl, t⟩
    · rw [if_neg hno] at h ⊢
      by_cases hac : n.state = PTX_ACTIVE
      · rw [if_pos hac] at h ⊢
        obtain ⟨a1, a2⟩ := ptx_recode_add m k hash c x xc hx hxc g gc n.writes
          (ptx_twin_coded m0 m k hash c g gc t node n hf).2
        rw [a1] at h
        rw [a2]
        simp only [] at h ⊢
        rw [ptx_twin_idents m0 m k hash c g gc t]
        refine ptx_node_write_loop_twin m0 m k hash c x xc node hx hxc hz _ _ _ gc1 ?_ h
        refine ptx_twin_update m0 m k hash c g gc t node _ _ (fun _ => rfl) ?_
        intro y hy
        exact ⟨hy.1, Or.inr rfl⟩
      · rw [if_neg hac] at h
        simp at h

theorem ptx_node_commit_scan_twin (m0 m k hash c : Nat) (g gc : ptx_graph)
    (t : g.twin m0 m k hash c gc) :
    ∀ edges : List ptx_edge, ptx_node_commit_scan g edges = ptx_node_commit_scan gc edges := by
  intro edges
  induction edges with
  | nil => rfl
  | cons e rest ih =>
    unfold ptx_node_commit_scan
    rw [ptx_twin_find m0 m k hash c g gc t e.node]
    cases hf : gc.find e.node with
    | none => rfl
    | some n =>
      simp only [Option.map]
      have h1 : (ptx_node.recode m k hash n).state = n.state := rfl
      have h2 : (ptx_node.recode m k hash n).haswrites = n.haswrites := rfl
      rw [h1, h2, ih]

theorem ptx_node_deactivate_twin (m0 m k hash c : Nat) (g gc gc1 : ptx_graph) (node state : Nat)
    (t : g.twin m0 m k hash c gc) (h : ptx_node_deactivate gc node state = some gc1) :
    ∃ g1, ptx_node_deactivate g node state = some g1 ∧ g1.twin m0 m k hash c gc1 := by
  cases hf : gc.find node with
  | none =>
    unfold ptx_node_deactivate at h
    rw [hf] at h
    simp at h
  | some n =>
    have hg : g.find node = some (ptx_node.recode m k hash n) := by
      rw [ptx_twin_find m0 m k hash c g gc t node, hf]
      rfl
    have hle : g.autogc ≤ 0 := by
      rw [t.2.2.2.2.2.2.2.1]
      exact t.2.2.2.2.2.2.2.2.1
    rw [ptx_node_deactivate_off gc node state n hf t.2.2.2.2.2.2.2.2.1] at h
    rw [ptx_node_deactivate_off g node state _ hg hle]
    simp only [Option.some.injEq] at h
    subst h
    exact ⟨_, rfl, ptx_twin_update_frame m0 m k hash c g gc t node _ (fun _ => ⟨rfl, rfl⟩)
      (fun _ => rfl)⟩

theorem ptx_node_commit_twin (m0 m k hash c : Nat) (g gc : ptx_graph) (node : Nat)
    (rc : ptx_commit_result) (t : g.twin m0 m k hash c gc)
    (h : ptx_node_commit gc node = some rc) :
    ∃ r, ptx_node_commit g node = some r ∧ r.ok = rc.ok ∧ r.graph.twin m0 m k hash c rc.graph := by
  unfold ptx_node_commit at h ⊢
  rw [ptx_twin_find m0 m k hash c g gc t node]
  cases hf : gc.find node with
  | none => rw [hf] at h; simp at h
  | some n =>
    rw [hf] at h
    simp only [Option.map] at h ⊢
    have hst : (ptx_node.recode m k hash n).state = n.state := rfl
    have ho : (ptx_node.recode m k hash n).outs = n.outs := rfl
    rw [hst, ho, ptx_node_commit_scan_twin m0 m k hash c g gc t]
    by_cases hno : n.state = PTX_NOMEM
    · rw [if_pos hno] at h ⊢
      cases hd : ptx_node_deactivate gc node PTX_ROLLEDBACK with
      | none => rw [hd] at h; simp at h
      | some gc1 =>
        obtain ⟨g1, hg1, t1⟩ := ptx_node_deactivate_twin m0 m k hash c g gc gc1 node _ t hd
        rw [hd] at h
        rw [hg1]
        simp only [Option.some.injEq] at h
        subst h
        exact ⟨_, rfl, rfl, t1⟩
    · rw [if_neg hno] at h ⊢
      by_cases hac : n.state = PTX_ACTIVE
      · rw [if_pos hac] at h ⊢
        cases hs : ptx_node_commit_scan gc (ptx_edgemap_edges n.outs) with
        | none => rw [hs] at h; simp at h
        | some ab =>
          rw [hs] at h
          cases ab with
          | true =>
            simp only [] at h ⊢
            cases hd : ptx_node_deactivate gc node PTX_ROLLEDBACK with
            | none => rw [hd] at h; simp at h
            | some gc1 =>
              obtain ⟨g1, hg1, t1⟩ := ptx_node_deactivate_twin m0 m k hash c g gc gc1 node _ t hd
              rw [hd] at h
              rw [hg1]
              simp only [Option.some.injEq] at h
              subst h
              exact ⟨_, rfl, rfl, t1⟩
          | false =>
            simp only [] at h ⊢
            cases hd : ptx_node_deactivate gc node PTX_COMMITTED with
            | none => rw [hd] at h; simp at h
            | some gc1 =>
              obtain ⟨g1, hg1, t1⟩ := ptx_node_deactivate_twin m0 m k hash c g gc gc1 node _ t hd
              rw [hd] at h
              rw [hg1]
              simp only [Option.some.injEq] at h
              subst h
              exact ⟨_, rfl, rfl, t1⟩
      · rw [if_neg hac] at h
        simp at h

theorem ptx_node_rollback_twin (m0 m k hash c : Nat) (g gc gc1 : ptx_graph) (node : Nat)
    (t : g.twin m0 m k hash c gc) (h : ptx_node_rollback gc node = some gc1) :
    ∃ g1, ptx_node_rollback g node = some g1 ∧ g1.twin m0 m k hash c gc1 := by
  unfold ptx_node_rollback at h ⊢
  rw [ptx_twin_find m0 m k hash c g gc t node]
  cases hf : gc.find node with
  | none => rw [hf] at h; simp at h
  | some n =>
    rw [hf] at h
    simp only [Option.map] at h ⊢
    have hst : (ptx_node.recode m k hash n).state = n.state := rfl
    rw [hst]
    by_cases hs : n.state = PTX_ACTIVE ∨ n.state = PTX_NOMEM
    · rw [if_pos hs] at h ⊢
      exact ptx_node_deactivate_twin m0 m k hash c g gc gc1 node _ t h
    · rw [if_neg hs] at h
      simp at h

/-! ## The single-item tests for every item -/

theorem ptx_hashof_word (x : Nat) : ptx_hashof (x % 2 ^ 64) = ptx_hashof x := by
  rw [ptx_hashof_mod, ptx_hashof_mod]
  exact Nat.mod_mod_of_dvd x (by decide)

theorem ptx_graph_begin_twin (m0 m k hash c : Nat)
    (hinit : ptx_hashset_init m0 k = some (ptx_hashset.fresh m k))
    (g gc gc1 : ptx_graph) (r : Option Nat) (t : g.twin m0 m k hash c gc)
    (h : ptx_graph_begin gc = some (gc1, r)) :
    ∃ g1, ptx_graph_begin g = some (g1, r) ∧ g1.twin m0 m k hash c gc1 := by
  obtain ⟨junk, ga, ha, sa, na⟩ := ptx_graph.alloc_never_fails g t.1
  obtain ⟨junkc, gca, hca, sca, nca⟩ := ptx_graph.alloc_never_fails gc t.2.1
  obtain ⟨-, -, tm, tk, tcm, tck, tid, tag, tle, tn, ts⟩ :=
    ptx_twin_of_same m0 m k hash c g gc ga gca t sa na sca nca
  have e1 : ptx_hashset_init gca.m gca.k = some (ptx_hashset.fresh 16777216 4) := by
    rw [tcm, tck]
    decide
  have e2 : ptx_hashset_init ga.m ga.k = some (ptx_hashset.fresh m k) := by
    rw [tm, tk]
    exact hinit
  unfold ptx_graph_begin at h ⊢
  rw [hca] at h
  rw [ha]
  simp only [] at h ⊢
  rw [e1] at h
  rw [e2]
  simp only [Option.some.injEq, Prod.mk.injEq] at h ⊢
  obtain ⟨h1, h2⟩ := h
  subst h1 h2
  rw [tid]
  refine ⟨_, ⟨rfl, rfl⟩, na, nca, tm, tk, tcm, tck, rfl, tag, tle, ?_, ?_⟩
  · simp only []
    rw [List.map_append, ← tn]
    rfl
  · intro n hn
    simp only [List.mem_append, List.mem_singleton] at hn
    rcases hn with hn | hn
    · exact ts n hn
    · rw [hn]
      exact ⟨Or.inl rfl, Or.inl rfl⟩

theorem ptx_apply_twin (m0 m k hash c : Nat)
    (hinit : ptx_hashset_init m0 k = some (ptx_hashset.fresh m k))
    (hz : ptx_hashof hash = 0 ↔ ptx_hashof c = 0) (op : ptx_op) (hop : op ≠ ptx_op.gc)
    (g gc gc1 : ptx_graph) (t : g.twin m0 m k hash c gc)
    (h : ptx_apply gc (op.recode c) = some gc1) :
    ∃ g1, ptx_apply g (op.recode hash) = some g1 ∧ g1.twin m0 m k hash c gc1 := by
  cases op with
  | begin =>
    simp only [ptx_op.recode, ptx_apply] at h ⊢
    cases hb : ptx_graph_begin gc with
    | none => rw [hb] at h; simp at h
    | some r =>
      obtain ⟨gc2, rr⟩ := r
      obtain ⟨g2, hg2, t2⟩ := ptx_graph_begin_twin m0 m k hash c hinit g gc gc2 rr t hb
      rw [hb] at h
      rw [hg2]
      simp only [Option.map, Option.some.injEq] at h ⊢
      subst h
      exact ⟨g2, rfl, t2⟩
  | read node y =>
    simp only [ptx_op.recode, ptx_apply] at h ⊢
    exact ptx_node_read_twin m0 m k hash c _ _ node (ptx_hashof_word hash) (ptx_hashof_word c)
      hz g gc gc1 t h
  | write node y =>
    simp only [ptx_op.recode, ptx_apply] at h ⊢
    exact ptx_node_write_twin m0 m k hash c _ _ node (ptx_hashof_word hash) (ptx_hashof_word c)
      hz g gc gc1 t h
  | commit node =>
    simp only [ptx_op.recode, ptx_apply] at h ⊢
    cases hc : ptx_node_commit gc node with
    | none => rw [hc] at h; simp at h
    | some rc =>
      obtain ⟨r, hr, -, t2⟩ := ptx_node_commit_twin m0 m k hash c g gc node rc t hc
      rw [hc] at h
      rw [hr]
      simp only [Option.map, Option.some.injEq] at h ⊢
      subst h
      exact ⟨_, rfl, t2⟩
  | rollback node =>
    simp only [ptx_op.recode, ptx_apply] at h ⊢
    exact ptx_node_rollback_twin m0 m k hash c g gc gc1 node t h
  | gc => exact absurd rfl hop

theorem ptx_exec_step (g : ptx_graph) (op : ptx_op) (rest : List ptx_op)
    (hop : ∀ node, op ≠ ptx_op.commit node) :
    ptx_exec g (op :: rest)
      = match ptx_apply g op with
        | none => none
        | some g1 => ptx_exec g1 rest := by
  cases op with
  | commit node => exact absurd rfl (hop node)
  | begin => rfl
  | read node y => rfl
  | write node y => rfl
  | rollback node => rfl
  | gc => rfl

theorem ptx_exec_commit (g : ptx_graph) (node : Nat) (rest : List ptx_op) :
    ptx_exec g (ptx_op.commit node :: rest)
      = match ptx_node_commit g node with
        | none => none
        | some r =>
          match ptx_exec r.graph rest with
          | none => none
          | some (oks, g1) => some (r.ok :: oks, g1) := rfl

theorem ptx_exec_twin (m0 m k hash c : Nat)
    (hinit : ptx_hashset_init m0 k = some (ptx_hashset.fresh m k))
    (hz : ptx_hashof hash = 0 ↔ ptx_hashof c = 0) :
    ∀ (ops : List ptx_op), ptx_op.gc ∉ ops → ∀ (g gc gc1 : ptx_graph) (oks : List Bool),
      g.twin m0 m k hash c gc →
      ptx_exec gc (ops.map (ptx_op.recode c)) = some (oks, gc1) →
      ∃ g1, ptx_exec g (ops.map (ptx_op.recode hash)) = some (oks, g1) ∧
        g1.twin m0 m k hash c gc1 := by
  intro ops
  induction ops with
  | nil =>
    intro _ g gc gc1 oks t h
    simp only [List.map_nil, ptx_exec, Option.some.injEq, Prod.mk.injEq] at h ⊢
    obtain ⟨h1, h2⟩ := h
    subst h1 h2
    exact ⟨g, ⟨rfl, rfl⟩, t⟩
  | cons op rest ih =>
    intro hgc g gc gc1 oks t h
    have hgc1 : ptx_op.gc ∉ rest := fun hh => hgc (List.mem_cons_of_mem _ hh)
    have hop : op ≠ ptx_op.gc := fun hh => hgc (by rw [hh]; exact List.mem_cons_self _ _)
    rw [List.map_cons] at h ⊢
    by_cases hcm : ∃ node, op = ptx_op.commit node
    · obtain ⟨node, rfl⟩ := hcm
      have e : ∀ x, (ptx_op.commit node).recode x = ptx_op.commit node := fun _ => rfl
      rw [e, ptx_exec_commit] at h ⊢
      cases hc : ptx_node_commit gc node with
      | none => rw [hc] at h; simp at h
      | some rc =>
        obtain ⟨r, hr, hok, t2⟩ := ptx_node_commit_twin m0 m k hash c g gc node rc t hc
        rw [hc] at h
        rw [hr]
        simp only [] at h ⊢
        cases hrest : ptx_exec rc.graph (rest.map (ptx_op.recode c)) with
        | none => rw [hrest] at h; simp at h
        | some p =>
          obtain ⟨oks1, gc2⟩ := p
          obtain ⟨g2, hg2, t3⟩ := ih hgc1 r.graph rc.graph gc2 oks1 t2 hrest
          rw [hrest] at h
          rw [hg2]
          simp only [Option.some.injEq, Prod.mk.injEq] at h ⊢
          obtain ⟨h1, h2⟩ := h
          subst h1 h2
          exact ⟨g2, ⟨by rw [hok], rfl⟩, t3⟩
    · have hnc : ∀ x node, op.recode x ≠ ptx_op.commit node := by
        intro x node hh
        apply hcm
        cases op with
        | commit n => exact ⟨n, rfl⟩
        | begin => cases hh
        | read n y => cases hh
        | write n y => cases hh
        | rollback n => cases hh
        | gc => cases hh
      rw [ptx_exec_step _ _ _ (hnc c)] at h
      rw [ptx_exec_step _ _ _ (hnc hash)]
      cases ha : ptx_apply gc (op.recode c) with
      | none => rw [ha] at h; simp at h
      | some gc2 =>
        obtain ⟨g2, hg2, t2⟩ := ptx_apply_twin m0 m k hash c hinit hz op hop g gc gc2 t ha
        rw [ha] at h
        rw [hg2]
        simp only [] at h ⊢
        exact ih hgc1 g2 gc2 gc1 oks t2 h

theorem ptx_graph_new_twin (opts : ptx_graph_opts) (m hash c : Nat)
    (hnf : ptx_never_fails opts.malloc) :
    ∃ g0 gc0, ptx_graph_new opts = some g0 ∧ ptx_graph_new ptx_opts_default = some gc0 ∧
      g0.twin opts.m m opts.k hash c gc0 := by
  obtain ⟨junk, g1, ha, ⟨s1, s2, s3, s4, s5⟩, n1⟩ :=
    ptx_graph.alloc_never_fails (ptx_graph_zeroed opts) hnf
  refine ⟨g1, _, ?_, rfl, n1, ?_, s4, s5, rfl, rfl, ?_, ?_, ?_, ?_, ?_⟩
  · unfold ptx_graph_new
    rw [ha]
  · intro x hx
    cases hx
  · rw [s2]; rfl
  · rw [s3]; rfl
  · decide
  · rw [s1]; rfl
  · intro n hn
    cases hn

/-- The outcome of a script on one item does not depend on the item, on the
never-failing allocator or on the bloom sizing: what the reference execution
(the options of `test.c`, item `c`) returns from its commits and leaves as
states, every other execution does, provided the two items agree on whether
their 56-bit hash is zero. -/
theorem ptx_exec_every_hash (opts : ptx_graph_opts) (hash c : Nat)
    (hnf : ptx_never_fails opts.malloc) (hm : opts.m ≤ 2 ^ 63)
    (hz : ptx_hashof hash = 0 ↔ ptx_hashof c = 0) (ops : List ptx_op) (hgc : ptx_op.gc ∉ ops)
    (oks : List Bool) (l : List (Nat × Nat))
    (href : ((ptx_graph_new ptx_opts_default).bind
        (fun g => ptx_exec g (ops.map (ptx_op.recode c)))).map
        (fun r => (r.1, r.2.nodes.map (fun n => (n.ident, n.state)))) = some (oks, l)) :
    ∃ g0 g, ptx_graph_new opts = some g0 ∧
      ptx_exec g0 (ops.map (ptx_op.recode hash)) = some (oks, g) ∧
      g.nodes.map (fun n => (n.ident, n.state)) = l := by
  obtain ⟨m, hinit⟩ := ptx_hashset_init_is_fresh opts.m opts.k hm
  obtain ⟨g0, gc0, hg0, hgc0, t0⟩ := ptx_graph_new_twin opts m hash c hnf
  rw [hgc0] at href
  simp only [Option.some_bind] at href
  cases he : ptx_exec gc0 (ops.map (ptx_op.recode c)) with
  | none => rw [he] at href; simp at href
  | some p =>
    obtain ⟨oks1, gc1⟩ := p
    rw [he] at href
    simp only [Option.map, Option.some.injEq, Prod.mk.injEq] at href
    obtain ⟨h1, h2⟩ := href
    subst h1
    obtain ⟨g1, hg1, t1⟩ := ptx_exec_twin opts.m m opts.k hash c hinit hz ops hgc g0 gc0 gc1 oks1
      t0 he
    refine ⟨g0, g1, hg0, hg1, ?_⟩
    rw [← h2, t1.2.2.2.2.2.2.2.2.2.1, List.map_map]
    rfl

theorem ptx_write_skew_2_reference :
    (((ptx_graph_new ptx_opts_default).bind
        (fun g => ptx_exec g ((ptx_ops_write_skew_2 0).map (ptx_op.recode 1)))).map
        (fun r => (r.1, r.2.nodes.map (fun n => (n.ident, n.state))))
      = some ([true, false], [(1, PTX_COMMITTED), (2, PTX_ROLLEDBACK)])) ∧
    (((ptx_graph_new ptx_opts_default).bind
        (fun g => ptx_exec g ((ptx_ops_write_skew_2 0).map (ptx_op.recode 0)))).map
        (fun r => (r.1, r.2.nodes.map (fun n => (n.ident, n.state))))
      = some ([true, false], [(1, PTX_COMMITTED), (2, PTX_ROLLEDBACK)])) := by
  constructor <;> decide

theorem ptx_dots_2_reference :
    (((ptx_graph_new ptx_opts_default).bind
        (fun g => ptx_exec g ((ptx_ops_dots_2 0).map (ptx_op.recode 1)))).map
        (fun r => (r.1, r.2.nodes.map (fun n => (n.ident, n.state))))
      = some ([true, true, false, false],
          [(1, PTX_ROLLEDBACK), (2, PTX_COMMITTED), (3, PTX_COMMITTED), (4, PTX_ROLLEDBACK)])) ∧
    (((ptx_graph_new ptx_opts_default).bind
        (fun g => ptx_exec g ((ptx_ops_dots_2 0).map (ptx_op.recode 0)))).map
        (fun r => (r.1, r.2.nodes.map (fun n => (n.ident, n.state))))
      = some ([true, true, false, false],
          [(1, PTX_ROLLEDBACK), (2, PTX_COMMITTED), (3, PTX_COMMITTED), (4, PTX_ROLLEDBACK)])) := by
  constructor <;> decide

theorem ptx_hashof_one : ptx_hashof 1 ≠ 0 := by decide

theorem ptx_hashof_zero : ptx_hashof 0 = 0 := by decide

/-- C19. Write skew (test `write-skew-2`) for every hash: for every hash `h`, on
a new graph whose allocator never fails (and whose bloom bit count is at most
`2^63`), the script `begin T1; read(T1,h); begin T2; read(T2,h); write(T1,h);
commit(T1); write(T2,h); commit(T2)` runs to its end, `commit(T1)` returns true
and `commit(T2)` returns false, and afterwards the live list is `T1, T2` with
states COMMITTED, ROLLEDBACK. -/
theorem ptx_write_skew_2_every_hash (opts : ptx_graph_opts) (h : Nat)
    (hnf : ptx_never_fails opts.malloc) (hm : opts.m ≤ 2 ^ 63) :
    ∃ g0 g, ptx_graph_new opts = some g0 ∧
      ptx_exec g0 (ptx_ops_write_skew_2 h) = some ([true, false], g) ∧
      g.nodes.map (fun n => (n.ident, n.state)) = [(1, PTX_COMMITTED), (2, PTX_ROLLEDBACK)] := by
  by_cases hz : ptx_hashof h = 0
  · exact ptx_exec_every_hash opts h 0 hnf hm ⟨fun _ => ptx_hashof_zero, fun _ => hz⟩
      (ptx_ops_write_skew_2 0) (by decide) _ _ ptx_write_skew_2_reference.2
  · exact ptx_exec_every_hash opts h 1 hnf hm
      ⟨fun e => absurd e hz, fun e => absurd e ptx_hashof_one⟩
      (ptx_ops_write_skew_2 0) (by decide) _ _ ptx_write_skew_2_reference.1

theorem ptx_write_skew_2_every_hash_witness :
    (ptx_never_fails ptx_opts_default.malloc ∧ ptx_opts_default.m ≤ 2 ^ 63) ∧
    ∃ g0 g, ptx_graph_new ptx_opts_default = some g0 ∧
      ptx_exec g0 (ptx_ops_write_skew_2 11400714819323198485) = some ([true, false], g) ∧
      g.nodes.map (fun n => (n.ident, n.state)) = [(1, PTX_COMMITTED), (2, PTX_ROLLEDBACK)] :=
  ⟨⟨by decide, by decide⟩,
    ptx_write_skew_2_every_hash ptx_opts_default 11400714819323198485 (by decide) (by decide)⟩

/-- C20. Late writer against a lingering committed writer (test `dots-2`) for
every hash: for every hash `h`, on a new graph whose allocator never fails (and
whose bloom bit count is at most `2^63`), with no collection, the script `T1`
writes `h`; `T2` begins, writes `h`, commits; the second `T2` begins, reads `h`,
commits; `T1` commits; the second `T1` begins, writes `h`, commits runs to its
end, the four commits return true, true, false, false in that order, and all
four nodes are in the live list afterwards, in the order of their begin, with
states ROLLEDBACK, COMMITTED, COMMITTED, ROLLEDBACK. -/
theorem ptx_dots_2_every_hash (opts : ptx_graph_opts) (h : Nat)
    (hnf : ptx_never_fails opts.malloc) (hm : opts.m ≤ 2 ^ 63) :
    ∃ g0 g, ptx_graph_new opts = some g0 ∧
      ptx_exec g0 (ptx_ops_dots_2 h) = some ([true, true, false, false], g) ∧
      g.nodes.map (fun n => (n.ident, n.state))
        = [(1, PTX_ROLLEDBACK), (2, PTX_COMMITTED), (3, PTX_COMMITTED), (4, PTX_ROLLEDBACK)] := by
  by_cases hz : ptx_hashof h = 0
  · exact ptx_exec_every_hash opts h 0 hnf hm ⟨fun _ => ptx_hashof_zero, fun _ => hz⟩
      (ptx_ops_dots_2 0) (by decide) _ _ ptx_dots_2_reference.2
  · exact ptx_exec_every_hash opts h 1 hnf hm
      ⟨fun e => absurd e hz, fun e => absurd e ptx_hashof_one⟩
      (ptx_ops_dots_2 0) (by decide) _ _ ptx_dots_2_reference.1

theorem ptx_dots_2_every_hash_witness :
    (ptx_never_fails ptx_opts_default.malloc ∧ ptx_opts_default.m ≤ 2 ^ 63) ∧
    ∃ g0 g, ptx_graph_new ptx_opts_default = some g0 ∧
      ptx_exec g0 (ptx_ops_dots_2 11400714819323198485) = some ([true, true, false, false], g) ∧
      g.nodes.map (fun n => (n.ident, n.state))
        = [(1, PTX_ROLLEDBACK), (2, PTX_COMMITTED), (3, PTX_COMMITTED), (4, PTX_ROLLEDBACK)] :=
  ⟨⟨by decide, by decide⟩,
    ptx_dots_2_every_hash ptx_opts_default 11400714819323198485 (by decide) (by decide)⟩

/-! ## Robin-Hood order of the edge map: arithmetic of the probe -/

theorem ptx_succ_mod_inj (N p i : Nat) (hp : p < N) (hi : i < N)
    (h : (p + 1) % N = (i + 1) % N) : p = i := by
  by_cases h1 : p + 1 < N
  · rw [Nat.mod_eq_of_lt h1] at h
    by_cases h2 : i + 1 < N
    · rw [Nat.mod_eq_of_lt h2] at h
      omega
    · have e : i + 1 = N := by omega
      rw [e, Nat.mod_self] at h
      omega
  · have e : p + 1 = N := by omega
    rw [e, Nat.mod_self] at h
    by_cases h2 : i + 1 < N
    · rw [Nat.mod_eq_of_lt h2] at h
      omega
    · omega

theorem ptx_add_mod_ne (N i t : Nat) (ht : 0 < t) (htn : t < N) (hi : i < N) :
    (i + t) % N ≠ i := by
  by_cases h1 : i + t < N
  · rw [Nat.mod_eq_of_lt h1]
    omega
  · have e : i + t = (i + t - N) + N := by omega
    rw [e, Nat.add_mod_right, Nat.mod_eq_of_lt (by omega)]
    omega

theorem ptx_succ_mod_ne (N i : Nat) (hN : 2 ≤ N) (hi : i < N) : (i + 1) % N ≠ i :=
  ptx_add_mod_ne N i 1 (by omega) (by omega) hi

theorem ptx_succ_add_mod (N i t : Nat) : ((i + 1) % N + t) % N = (i + (t + 1)) % N := by
  rw [Nat.mod_add_mod]
  congr 1
  omega

theorem ptx_mod_reach (N i q : Nat) (hi : i < N) (hq : q < N) :
    ∃ t, t < N ∧ (i + t) % N = q := by
  by_cases h : i ≤ q
  · refine ⟨q - i, by omega, ?_⟩
    have e : i + (q - i) = q := by omega
    rw [e, Nat.mod_eq_of_lt hq]
  · refine ⟨q + N - i, by omega, ?_⟩
    have e : i + (q + N - i) = q + N := by omega
    rw [e, Nat.add_mod_right, Nat.mod_eq_of_lt hq]

theorem ptx_home_step (N x c i : Nat) (hc : 0 < c) (h : (x + c - 1) % N = i) :
    (x + (c + 1) - 1) % N = (i + 1) % N := by
  have e : x + (c + 1) - 1 = (x + c - 1) + 1 := by omega
  rw [e, ← h, Nat.mod_add_mod]

theorem ptx_and_mask (x j : Nat) : x &&& (2 ^ j - 1) = x % 2 ^ j :=
  Nat.and_pow_two_sub_one_eq_mod x j

theorem ptx_get_set (l : List ptx_edge) (i j : Nat) (e : ptx_edge) (hi : i < l.length) :
    (l.set i e)[j]? = if i = j then some e else l[j]? := by
  rw [List.getElem?_set]
  by_cases h : i = j
  · rw [if_pos h, if_pos h, if_pos hi]
  · rw [if_neg h, if_neg h]

/-! ## Robin-Hood order: bounds on the DIB -/

theorem ptx_robin_chain (l : List ptx_edge) (h : ptx_robin l) (hN : 0 < l.length) :
    ∀ (r i : Nat) (bi b : ptx_edge), l[i]? = some bi → l[(i + r) % l.length]? = some b →
      b.dib ≤ bi.dib + r := by
  intro r
  induction r with
  | zero =>
    intro i bi b h1 h2
    have hi : i < l.length := (List.getElem?_eq_some.mp h1).1
    rw [Nat.add_zero, Nat.mod_eq_of_lt hi, h1] at h2
    cases h2
    omega
  | succ r ih =>
    intro i bi b h1 h2
    have hm : (i + r) % l.length < l.length := Nat.mod_lt _ hN
    obtain ⟨mid, hmid⟩ : ∃ mid, l[(i + r) % l.length]? = some mid :=
      ⟨l[(i + r) % l.length], List.getElem?_eq_getElem hm⟩
    have h3 := ih i bi mid h1 hmid
    have e : ((i + r) % l.length + 1) % l.length = (i + (r + 1)) % l.length := by
      rw [Nat.mod_add_mod]
      rfl
    rw [← e] at h2
    have h4 := h.2 _ mid b hmid h2
    omega

/-- With one free bucket every DIB is below the capacity. -/
theorem ptx_robin_bound (l : List ptx_edge) (h : ptx_robin l) (q : Nat) (b0 : ptx_edge)
    (hq : l[q]? = some b0) (h0 : b0.dib = 0) (p : Nat) (b : ptx_edge) (hp : l[p]? = some b) :
    b.dib < l.length := by
  have hql : q < l.length := (List.getElem?_eq_some.mp hq).1
  have hpl : p < l.length := (List.getElem?_eq_some.mp hp).1
  obtain ⟨t, ht, e⟩ := ptx_mod_reach l.length q p hql hpl
  rw [← e] at hp
  have := ptx_robin_chain l h (by omega) t q b0 b hq hp
  omega

/-- A run of `t` occupied buckets that starts at bucket `i` (cyclically): the
array has at least `t` occupied buckets. -/
theorem ptx_used_run (l : List ptx_edge) (i t : Nat) (ht : t ≤ l.length)
    (h : ∀ s, s < t → ∃ b, l[(i + s) % l.length]? = some b ∧ b.dib ≠ 0) :
    t ≤ (l.filter ptx_edge.used).length := by
  have hall : ∀ a ∈ (l.rotate i).take t, ptx_edge.used a = true := by
    intro a ha
    obtain ⟨s, hs, rfl⟩ := List.mem_take_iff_getElem.mp ha
    have hs1 : s < t := lt_of_lt_of_le hs (min_le_left _ _)
    rw [List.getElem_rotate]
    obtain ⟨b, hb, hd⟩ := h s hs1
    rw [Nat.add_comm] at hb
    obtain ⟨hlt, hbe⟩ := List.getElem?_eq_some.mp hb
    rw [hbe]
    exact (ptx_edge.used_iff b).mpr hd
  have h1 : ((l.rotate i).take t).filter ptx_edge.used = (l.rotate i).take t :=
    List.filter_eq_self.mpr hall
  have h2 : (((l.rotate i).take t).filter ptx_edge.used).length
      ≤ ((l.rotate i).filter ptx_edge.used).length :=
    (List.Sublist.filter _ (List.take_sublist t _)).length_le
  have h3 : ((l.rotate i).filter ptx_edge.used).length = (l.filter ptx_edge.used).length :=
    (List.Perm.filter _ (List.rotate_perm l i)).length_eq
  rw [h1, List.length_take, List.length_rotate, Nat.min_eq_left ht] at h2
  omega

/-- With one free bucket every DIB is at most the number of occupied buckets:
the buckets from the home slot of an edge to the edge are all occupied. -/
theorem ptx_robin_count (l : List ptx_edge) (h : ptx_robin l) (q : Nat) (b0 : ptx_edge)
    (hq : l[q]? = some b0) (h0 : b0.dib = 0) (p : Nat) (b : ptx_edge) (hp : l[p]? = some b) :
    b.dib ≤ (l.filter ptx_edge.used).length := by
  have hlt := ptx_robin_bound l h q b0 hq h0 p b hp
  have hpl : p < l.length := (List.getElem?_eq_some.mp hp).1
  have hN : 0 < l.length := by omega
  apply ptx_used_run l (p + l.length + 1 - b.dib) b.dib (by omega)
  intro s hs
  have hm : (p + l.length + 1 - b.dib + s) % l.length < l.length := Nat.mod_lt _ hN
  obtain ⟨c, hc⟩ : ∃ c, l[(p + l.length + 1 - b.dib + s) % l.length]? = some c :=
    ⟨_, List.getElem?_eq_getElem hm⟩
  refine ⟨c, hc, ?_⟩
  have hreach : ((p + l.length + 1 - b.dib + s) % l.length + (b.dib - 1 - s)) % l.length
      = p := by
    rw [Nat.mod_add_mod]
    have e : p + l.length + 1 - b.dib + s + (b.dib - 1 - s) = p + l.length := by omega
    rw [e, Nat.add_mod_right, Nat.mod_eq_of_lt hpl]
  have hp2 : l[((p + l.length + 1 - b.dib + s) % l.length + (b.dib - 1 - s)) % l.length]?
      = some b := by
    rw [hreach]
    exact hp
  have := ptx_robin_chain l h hN (b.dib - 1 - s) _ c b hc hp2
  omega

theorem ptx_free_bucket (l : List ptx_edge) (h : (l.filter ptx_edge.used).length < l.length) :
    ∃ (q : Nat) (b0 : ptx_edge), l[q]? = some b0 ∧ b0.dib = 0 := by
  have h1 : ∃ x ∈ l, ¬ (ptx_edge.used x = true) := by
    by_contra hc
    push_neg at hc
    have : l.filter ptx_edge.used = l := List.filter_eq_self.mpr hc
    rw [this] at h
    omega
  obtain ⟨x, hx, hu⟩ := h1
  obtain ⟨q, hq⟩ := List.getElem?_of_mem hx
  refine ⟨q, x, hq, ?_⟩
  by_contra hd
  exact hu ((ptx_edge.used_iff x).mpr hd)

theorem ptx_bucket_key_mem (l : List ptx_edge) (x : Nat × Nat) (h : x ∈ ptx_bucket_keys l) :
    ∃ (p : Nat) (b : ptx_edge), l[p]? = some b ∧ 0 < b.dib ∧ b.key = x := by
  unfold ptx_bucket_keys at h
  rw [List.mem_map] at h
  obtain ⟨b, hb, hk⟩ := h
  rw [List.mem_filter] at hb
  obtain ⟨p, hp⟩ := List.getElem?_of_mem hb.1
  have := (ptx_edge.used_iff b).mp hb.2
  exact ⟨p, b, hp, by omega, hk⟩

theorem ptx_bucket_key_of_get (l : List ptx_edge) (p : Nat) (b : ptx_edge) (h : l[p]? = some b)
    (hd : b.dib ≠ 0) : b.key ∈ ptx_bucket_keys l := by
  unfold ptx_bucket_keys
  rw [List.mem_map]
  refine ⟨b, ?_, rfl⟩
  rw [List.mem_filter]
  exact ⟨List.getElem?_mem h, (ptx_edge.used_iff b).mpr hd⟩

theorem ptx_edge_equal_iff (a b : ptx_edge) : ptx_edge_equal a b = true ↔ a.key = b.key := by
  unfold ptx_edge_equal ptx_edge.key
  simp

/-! ## Adding an entry that is in the map -/

theorem ptx_edgemap_add0_loop_found :
    ∀ (fuel : Nat) (map : ptx_edgemap) (edge : ptx_edge) (i j p : Nat) (b : ptx_edge),
      map.buckets.length = map.nbuckets → map.nbuckets = 2 ^ j → ptx_robin map.buckets →
      map.buckets[p]? = some b → b.key = edge.key → b.dib < 65536 → edge.dib ≤ b.dib →
      0 < edge.dib → i < map.nbuckets → (i + (b.dib - edge.dib)) % map.nbuckets = p →
      b.dib - edge.dib < fuel →
      ptx_edgemap_add0_loop fuel map edge i = some map := by
  intro fuel
  induction fuel with
  | zero => intro _ _ _ _ _ _ _ _ _ _ _ _ _ _ _ _ hf; omega
  | succ fuel ih =>
    intro map edge i j p b hlen hpow hrob hp hkey hb hle hpos hi hpos2 hf
    have hN : 0 < map.buckets.length := by omega
    obtain ⟨bi, hbi⟩ : ∃ bi, map.buckets[i]? = some bi :=
      ⟨map.buckets[i], List.getElem?_eq_getElem (by omega)⟩
    have hp2 := hp
    rw [← hpos2, ← hlen] at hp2
    have hch := ptx_robin_chain map.buckets hrob hN (b.dib - edge.dib) i bi b hbi hp2
    unfold ptx_edgemap_add0_loop
    rw [hbi]
    simp only []
    rw [if_neg (by omega)]
    by_cases heq : ptx_edge_equal bi edge = true
    · rw [if_pos heq]
    · rw [if_neg heq, if_neg (by omega), if_neg (by omega)]
      have hr : b.dib - edge.dib ≠ 0 := by
        intro h0
        rw [h0, Nat.add_zero, Nat.mod_eq_of_lt hi] at hpos2
        have hp3 := hp
        rw [← hpos2, hbi] at hp3
        have hbb : bi = b := Option.some.inj hp3
        rw [hbb] at heq
        exact heq ((ptx_edge_equal_iff b edge).mpr hkey)
      have hmod : (edge.dib + 1) % 65536 = edge.dib + 1 := Nat.mod_eq_of_lt (by omega)
      rw [hmod, hpow, ptx_and_mask, ← hpow]
      refine ih map { edge with dib := edge.dib + 1 } ((i + 1) % map.nbuckets) j p b hlen hpow hrob hp
        hkey hb ?_ ?_ (Nat.mod_lt _ (by omega)) ?_ ?_
      · simp only []; omega
      · simp only []; omega
      · simp only []
        rw [ptx_succ_add_mod, ← hpos2]
        congr 2
        omega
      · simp only []; omega

/-! ## Adding an entry that is not in the map -/

theorem ptx_robin_set (l : List ptx_edge) (i : Nat) (e : ptx_edge) (hN : 2 ≤ l.length)
    (hi : i < l.length) (h : ptx_robin l)
    (hhome : (e.node + e.dib - 1) % l.length = i)
    (hprev : ∀ p b, l[p]? = some b → (p + 1) % l.length = i → e.dib ≤ b.dib + 1)
    (hnext : ∀ b1, l[(i + 1) % l.length]? = some b1 → b1.dib ≤ e.dib + 1) :
    ptx_robin (l.set i e) := by
  unfold ptx_robin
  rw [List.length_set]
  constructor
  · intro p b hp hpos
    rw [ptx_get_set l i p e hi] at hp
    by_cases hip : i = p
    · rw [if_pos hip] at hp
      cases hp
      rw [← hip]
      exact hhome
    · rw [if_neg hip] at hp
      exact h.1 p b hp hpos
  · intro p b b1 hp hp1
    rw [ptx_get_set l i p e hi] at hp
    rw [ptx_get_set l i _ e hi] at hp1
    by_cases hip : i = p
    · rw [if_pos hip] at hp
      cases hp
      have hne : i ≠ (p + 1) % l.length := by
        rw [← hip]
        exact fun hh => ptx_succ_mod_ne l.length i hN hi hh.symm
      rw [if_neg hne, ← hip] at hp1
      exact hnext b1 hp1
    · rw [if_neg hip] at hp
      by_cases hip1 : i = (p + 1) % l.length
      · rw [if_pos hip1] at hp1
        cases hp1
        exact hprev p b hp hip1.symm
      · rw [if_neg hip1] at hp1
        exact h.2 p b b1 hp hp1

theorem ptx_keys_set_free (l : List ptx_edge) (i : Nat) (bi e : ptx_edge) (h : l[i]? = some bi)
    (hb : bi.dib = 0) (he : e.dib ≠ 0) :
    (ptx_bucket_keys (l.set i e)).Perm (e.key :: ptx_bucket_keys l) := by
  obtain ⟨h1, h2⟩ := ptx_list_split_at l i bi h
  have hbu : ptx_edge.used bi = false := by
    cases hu : ptx_edge.used bi with
    | false => rfl
    | true => exact absurd hb ((ptx_edge.used_iff bi).mp hu)
  have heu : ptx_edge.used e = true := (ptx_edge.used_iff e).mpr he
  unfold ptx_bucket_keys
  rw [h2 e]
  conv_rhs => rw [h1]
  simp only [List.filter_append, List.filter_cons, hbu, heu, if_true, Bool.false_eq_true,
    if_false, List.map_append, List.map_cons]
  exact List.perm_middle

theorem ptx_keys_set_swap (l : List ptx_edge) (i : Nat) (bi e : ptx_edge) (h : l[i]? = some bi)
    (hb : bi.dib ≠ 0) (he : e.dib ≠ 0) :
    (bi.key :: ptx_bucket_keys (l.set i e)).Perm (e.key :: ptx_bucket_keys l) := by
  obtain ⟨h1, h2⟩ := ptx_list_split_at l i bi h
  have hbu : ptx_edge.used bi = true := (ptx_edge.used_iff bi).mpr hb
  have heu : ptx_edge.used e = true := (ptx_edge.used_iff e).mpr he
  unfold ptx_bucket_keys
  rw [h2 e]
  conv_rhs => rw [h1]
  simp only [List.filter_append, List.filter_cons, hbu, heu, if_true, List.map_append,
    List.map_cons]
  refine List.Perm.trans (List.Perm.cons _ List.perm_middle) ?_
  refine List.Perm.trans (List.Perm.swap _ _ _) ?_
  exact List.Perm.cons _ List.perm_middle.symm

theorem ptx_two_le_pow (j : Nat) (hj : 1 ≤ j) : 2 ≤ 2 ^ j := by
  calc 2 = 2 ^ 1 := rfl
    _ ≤ 2 ^ j := Nat.pow_le_pow_right (by decide) hj

theorem ptx_edgemap_add0_loop_insert :
    ∀ (fuel : Nat) (map : ptx_edgemap) (e : ptx_edge) (i j : Nat),
      map.buckets.length = map.nbuckets → 1 ≤ j → map.nbuckets = 2 ^ j →
      (map.buckets.filter ptx_edge.used).length < 65535 → ptx_robin map.buckets →
      i < map.nbuckets → 0 < e.dib →
      e.dib ≤ map.nbuckets → (e.node + e.dib - 1) % map.nbuckets = i →
      (∀ p b, map.buckets[p]? = some b → (p + 1) % map.nbuckets = i → e.dib ≤ b.dib + 1) →
      (e.key :: ptx_bucket_keys map.buckets).Nodup →
      (∃ (t : Nat) (b0 : ptx_edge), t < fuel ∧ t < map.nbuckets ∧
        map.buckets[(i + t) % map.nbuckets]? = some b0 ∧ b0.dib = 0) →
      ∃ map1, ptx_edgemap_add0_loop fuel map e i = some map1 ∧
        map1.nbuckets = map.nbuckets ∧ map1.buckets.length = map.nbuckets ∧
        map1.count = map.count + 1 ∧ ptx_robin map1.buckets ∧
        (ptx_bucket_keys map1.buckets).Perm (e.key :: ptx_bucket_keys map.buckets) := by
  intro fuel
  induction fuel with
  | zero =>
    intro _ _ _ _ _ _ _ _ _ _ _ _ _ _ _ hf
    obtain ⟨t, _, ht, _⟩ := hf
    omega
  | succ fuel ih =>
    intro map e i j hlen hj hpow hsm hrob hi hpos hle hhome hprev hnd hfree
    obtain ⟨t, b0, ht, htN, hb0, hd0⟩ := hfree
    have hN2 : 2 ≤ map.nbuckets := by rw [hpow]; exact ptx_two_le_pow j hj
    have hil : i < map.buckets.length := by omega
    obtain ⟨bi, hbi⟩ : ∃ bi, map.buckets[i]? = some bi :=
      ⟨map.buckets[i], List.getElem?_eq_getElem hil⟩
    have hnext : ∀ b1, map.buckets[(i + 1) % map.buckets.length]? = some b1 →
        b1.dib ≤ bi.dib + 1 := fun b1 h1 => hrob.2 i bi b1 hbi h1
    have hhome1 : (e.node + e.dib - 1) % map.buckets.length = i := by rw [hlen]; exact hhome
    have hprev1 : ∀ p b, map.buckets[p]? = some b → (p + 1) % map.buckets.length = i →
        e.dib ≤ b.dib + 1 := by rw [hlen]; exact hprev
    have hrset : ptx_robin (map.buckets.set i e) ∨ e.dib ≤ bi.dib := by
      by_cases hc : e.dib ≤ bi.dib
      · exact Or.inr hc
      · refine Or.inl (ptx_robin_set map.buckets i e (by omega) hil hrob hhome1 hprev1 ?_)
        intro b1 h1
        have := hnext b1 h1
        omega
    unfold ptx_edgemap_add0_loop
    rw [hbi]
    simp only []
    by_cases hz : bi.dib = 0
    · rw [if_pos hz]
      refine ⟨_, rfl, rfl, ?_, rfl, ?_, ?_⟩
      · simp only [List.length_set]
        exact hlen
      · rcases hrset with h1 | h1
        · exact h1
        · omega
      · exact ptx_keys_set_free map.buckets i bi e hbi hz (by omega)
    · rw [if_neg hz]
      have hneq : ¬ (ptx_edge_equal bi e = true) := by
        intro heq
        have hk := (ptx_edge_equal_iff bi e).mp heq
        have hm := ptx_bucket_key_of_get map.buckets i bi hbi hz
        rw [hk] at hm
        exact (List.nodup_cons.mp hnd).1 hm
      rw [if_neg hneq]
      have ht0 : t ≠ 0 := by
        intro h0
        rw [h0, Nat.add_zero, Nat.mod_eq_of_lt hi, hbi] at hb0
        cases hb0
        exact hz hd0
      have hbound : bi.dib < map.buckets.length := by
        rw [← hlen] at hb0
        exact ptx_robin_bound map.buckets hrob _ b0 hb0 hd0 i bi hbi
      have hcount : bi.dib ≤ (map.buckets.filter ptx_edge.used).length := by
        rw [← hlen] at hb0
        exact ptx_robin_count map.buckets hrob _ b0 hb0 hd0 i bi hbi
      have hidx : ((i + 1) % map.nbuckets + (t - 1)) % map.nbuckets = (i + t) % map.nbuckets := by
        rw [ptx_succ_add_mod]
        congr 2
        omega
      have hi1 : (i + 1) % map.nbuckets < map.nbuckets := Nat.mod_lt _ (by omega)
      rw [hpow, ptx_and_mask, ← hpow]
      by_cases hsw : bi.dib < e.dib
      · simp only [if_pos hsw]
        have hmod : (bi.dib + 1) % 65536 = bi.dib + 1 := Nat.mod_eq_of_lt (by omega)
        rw [hmod]
        have hrs : ptx_robin (map.buckets.set i e) := by
          rcases hrset with h1 | h1
          · exact h1
          · omega
        have hlen2 : (map.buckets.set i e).length = map.nbuckets := by
          rw [List.length_set]; exact hlen
        have hsm2 : ((map.buckets.set i e).filter ptx_edge.used).length < 65535 := by
          have hp := (ptx_keys_set_swap map.buckets i bi e hbi hz (by omega)).length_eq
          simp only [List.length_cons, ptx_bucket_keys, List.length_map] at hp
          omega
        obtain ⟨map1, r1, r2, r3, r4, r5, r6⟩ := ih { map with buckets := map.buckets.set i e }
          { bi with dib := bi.dib + 1 } ((i + 1) % map.nbuckets) j hlen2 hj hpow hsm2 hrs hi1
          (by simp only []; omega) (by simp only []; omega)
          (ptx_home_step map.nbuckets bi.node bi.dib i (by omega)
            (by rw [← hlen]; exact hrob.1 i bi hbi (by omega)))
          (by
            intro p b hp hp1
            simp only [] at hp hp1 ⊢
            have hpl : p < map.nbuckets := by
              have := (List.getElem?_eq_some.mp hp).1
              omega
            have hpi : p = i := ptx_succ_mod_inj map.nbuckets p i hpl hi hp1
            rw [hpi, ptx_get_set map.buckets i i e hil, if_pos rfl] at hp
            cases hp
            omega)
          (by
            simp only []
            exact (List.Perm.nodup_iff
              (ptx_keys_set_swap map.buckets i bi e hbi hz (by omega))).mpr hnd)
          ⟨t - 1, b0, by omega, by show t - 1 < map.nbuckets; omega, by
            simp only []
            rw [hidx, ptx_get_set map.buckets i _ e hil,
              if_neg (fun hh => ptx_add_mod_ne map.nbuckets i t (by omega) htN hi hh.symm)]
            exact hb0, hd0⟩
        refine ⟨map1, r1, r2, r3, r4, r5, ?_⟩
        exact List.Perm.trans r6 (ptx_keys_set_swap map.buckets i bi e hbi hz (by omega))
      · simp only [if_neg hsw]
        have hmod : (e.dib + 1) % 65536 = e.dib + 1 := Nat.mod_eq_of_lt (by omega)
        rw [hmod]
        obtain ⟨map1, r1, r2, r3, r4, r5, r6⟩ := ih map { e with dib := e.dib + 1 }
          ((i + 1) % map.nbuckets) j hlen hj hpow hsm hrob hi1
          (by simp only []; omega) (by simp only []; omega)
          (ptx_home_step map.nbuckets e.node e.dib i hpos hhome)
          (by
            intro p b hp hp1
            simp only [] at hp hp1 ⊢
            have hpl : p < map.nbuckets := by
              have := (List.getElem?_eq_some.mp hp).1
              omega
            have hpi : p = i := ptx_succ_mod_inj map.nbuckets p i hpl hi hp1
            rw [hpi, hbi] at hp
            cases hp
            omega)
          hnd
          ⟨t - 1, b0, by omega, by omega, by rw [hidx]; exact hb0, hd0⟩
        exact ⟨map1, r1, r2, r3, r4, r5, r6⟩

/-! ## `ptx_edgemap_add0`, growth and `ptx_edgemap_add` on a map in Robin-Hood order -/

theorem ptx_edgemap_add0_found (map : ptx_edgemap) (edge : ptx_edge) (j : Nat)
    (hlen : map.buckets.length = map.nbuckets) (hj : 1 ≤ j) (hpow : map.nbuckets = 2 ^ j)
    (hsm : (map.buckets.filter ptx_edge.used).length < 65536) (hrob : ptx_robin map.buckets)
    (hcnt : (map.buckets.filter ptx_edge.used).length < map.nbuckets)
    (hmem : edge.key ∈ ptx_bucket_keys map.buckets) :
    ptx_edgemap_add0 map edge = some map := by
  obtain ⟨p, b, hp, hpos, hkey⟩ := ptx_bucket_key_mem map.buckets edge.key hmem
  obtain ⟨q, b0, hq, h0⟩ := ptx_free_bucket map.buckets (by omega)
  have hb := ptx_robin_bound map.buckets hrob q b0 hq h0 p b hp
  have hb2 := ptx_robin_count map.buckets hrob q b0 hq h0 p b hp
  have hN2 : 2 ≤ map.nbuckets := by rw [hpow]; exact ptx_two_le_pow j hj
  have hnode : b.node = edge.node := by
    have := congrArg Prod.fst hkey
    exact this
  have hhome := hrob.1 p b hp hpos
  unfold ptx_edgemap_add0
  rw [hpow, ptx_and_mask, ← hpow]
  refine ptx_edgemap_add0_loop_found map.nbuckets map { edge with dib := 1 }
    (edge.node % map.nbuckets) j p b hlen hpow hrob hp hkey (by omega) (by simp only []; omega)
    (by simp only []; omega) (Nat.mod_lt _ (by omega)) ?_ (by simp only []; omega)
  simp only []
  rw [Nat.mod_add_mod, ← hhome, hlen, hnode]
  congr 1
  omega

theorem ptx_edgemap_add0_insert (map : ptx_edgemap) (edge : ptx_edge) (j : Nat)
    (hlen : map.buckets.length = map.nbuckets) (hj : 1 ≤ j) (hpow : map.nbuckets = 2 ^ j)
    (hsm : (map.buckets.filter ptx_edge.used).length < 65535) (hrob : ptx_robin map.buckets)
    (hcnt : (map.buckets.filter ptx_edge.used).length < map.nbuckets)
    (hnd : (edge.key :: ptx_bucket_keys map.buckets).Nodup) :
    ∃ map1, ptx_edgemap_add0 map edge = some map1 ∧ map1.nbuckets = map.nbuckets ∧
      map1.buckets.length = map.nbuckets ∧ map1.count = map.count + 1 ∧
      ptx_robin map1.buckets ∧
      (ptx_bucket_keys map1.buckets).Perm (edge.key :: ptx_bucket_keys map.buckets) := by
  obtain ⟨q, b0, hq, h0⟩ := ptx_free_bucket map.buckets (by omega)
  have hN2 : 2 ≤ map.nbuckets := by rw [hpow]; exact ptx_two_le_pow j hj
  have hi : edge.node % map.nbuckets < map.nbuckets := Nat.mod_lt _ (by omega)
  have hql : q < map.nbuckets := by
    have := (List.getElem?_eq_some.mp hq).1
    omega
  obtain ⟨t, ht, e⟩ := ptx_mod_reach map.nbuckets _ q hi hql
  unfold ptx_edgemap_add0
  rw [hpow, ptx_and_mask, ← hpow]
  exact ptx_edgemap_add0_loop_insert map.nbuckets map { edge with dib := 1 }
    (edge.node % map.nbuckets) j hlen hj hpow hsm hrob hi (by simp only []; omega)
    (by simp only []; omega) (by simp only [Nat.add_sub_cancel])
    (by intro p b _ _; simp only []; omega) hnd
    ⟨t, b0, ht, ht, by rw [e]; exact hq, h0⟩

theorem ptx_edgemap_zeroed_robin (n : Nat) :
    (ptx_edgemap_zeroed n).buckets.length = n ∧ ptx_robin (ptx_edgemap_zeroed n).buckets ∧
    (ptx_edgemap_zeroed n).buckets.filter ptx_edge.used = [] ∧
    ptx_bucket_keys (ptx_edgemap_zeroed n).buckets = [] := by
  have hz : ∀ (p : Nat) (b : ptx_edge), (ptx_edgemap_zeroed n).buckets[p]? = some b →
      b.dib = 0 := by
    intro p b hp
    have hm := List.getElem?_mem hp
    unfold ptx_edgemap_zeroed at hm
    rw [List.eq_of_mem_replicate hm]
  have hf : (ptx_edgemap_zeroed n).buckets.filter ptx_edge.used = [] := by
    rw [List.filter_eq_nil_iff]
    intro a ha hu
    obtain ⟨p, hp⟩ := List.getElem?_of_mem ha
    exact (ptx_edge.used_iff a).mp hu (hz p a hp)
  refine ⟨by simp [ptx_edgemap_zeroed], ⟨?_, ?_⟩, hf, ?_⟩
  · intro p b hp hpos
    have := hz p b hp
    omega
  · intro p b b1 _ hp1
    have := hz _ b1 hp1
    omega
  · unfold ptx_bucket_keys
    rw [hf]
    rfl

theorem ptx_bucket_keys_cons (b : ptx_edge) (rest : List ptx_edge) :
    ptx_bucket_keys (b :: rest)
      = if b.dib ≠ 0 then b.key :: ptx_bucket_keys rest else ptx_bucket_keys rest := by
  unfold ptx_bucket_keys
  by_cases hb : b.dib ≠ 0
  · rw [if_pos hb, List.filter_cons, if_pos ((ptx_edge.used_iff b).mpr hb), List.map_cons]
  · rw [if_neg hb, List.filter_cons, if_neg (fun hu => hb ((ptx_edge.used_iff b).mp hu))]

theorem ptx_bucket_keys_length (l : List ptx_edge) :
    (ptx_bucket_keys l).length = (l.filter ptx_edge.used).length := by
  unfold ptx_bucket_keys
  exact List.length_map _ _

theorem ptx_edgemap_grow_loop_robin :
    ∀ (rest : List ptx_edge) (map : ptx_edgemap) (j : Nat),
      map.buckets.length = map.nbuckets → 1 ≤ j → map.nbuckets = 2 ^ j →
      map.count + (ptx_bucket_keys rest).length < 65536 → ptx_robin map.buckets →
      map.count = (map.buckets.filter ptx_edge.used).length →
      (ptx_bucket_keys rest ++ ptx_bucket_keys map.buckets).Nodup →
      map.count + (ptx_bucket_keys rest).length < map.nbuckets →
      ∃ map1, ptx_edgemap_grow_loop map rest = some map1 ∧ map1.nbuckets = map.nbuckets ∧
        map1.buckets.length = map.nbuckets ∧ ptx_robin map1.buckets ∧
        map1.count = (map1.buckets.filter ptx_edge.used).length ∧
        map1.count = map.count + (ptx_bucket_keys rest).length ∧
        (ptx_bucket_keys map1.buckets).Perm (ptx_bucket_keys rest ++ ptx_bucket_keys map.buckets) := by
  intro rest
  induction rest with
  | nil =>
    intro map j hlen _ _ _ hrob hcnt _ _
    exact ⟨map, rfl, rfl, hlen, hrob, hcnt, rfl, List.Perm.refl _⟩
  | cons b rest ih =>
    intro map j hlen hj hpow hsm hrob hcnt hnd hbound
    unfold ptx_edgemap_grow_loop
    rw [ptx_bucket_keys_cons] at hnd hbound hsm ⊢
    by_cases hb : b.dib ≠ 0
    · rw [if_pos hb] at hnd hbound hsm ⊢
      rw [if_pos hb]
      simp only [List.cons_append, List.length_cons] at hnd hbound hsm ⊢
      have hnd1 : (b.key :: ptx_bucket_keys map.buckets).Nodup := by
        rw [List.nodup_cons] at hnd ⊢
        exact ⟨fun hm => hnd.1 (List.mem_append_right _ hm), (List.nodup_append.mp hnd.2).2.1⟩
      obtain ⟨map1, a1, a2, a3, a4, a5, a6⟩ := ptx_edgemap_add0_insert map b j hlen hj hpow
        (by omega) hrob (by omega) hnd1
      rw [a1]
      simp only []
      have hused1 : (map1.buckets.filter ptx_edge.used).length
          = (map.buckets.filter ptx_edge.used).length + 1 := by
        rw [← ptx_bucket_keys_length, ← ptx_bucket_keys_length, a6.length_eq, List.length_cons]
      have hperm1 : (ptx_bucket_keys rest ++ ptx_bucket_keys map1.buckets).Perm
          (b.key :: (ptx_bucket_keys rest ++ ptx_bucket_keys map.buckets)) :=
        List.Perm.trans (List.Perm.append_left _ a6) List.perm_middle
      obtain ⟨map2, c1, c2, c3, c4, c5, c6, c7⟩ := ih map1 j (by rw [a3, a2]) hj (by rw [a2, hpow])
        (by rw [a4]; omega) a5 (by rw [a4, hused1, hcnt])
        ((List.Perm.nodup_iff hperm1).mpr hnd) (by rw [a4, a2]; omega)
      refine ⟨map2, c1, by rw [c2, a2], by rw [c3, a2], c4, c5, by rw [c6, a4]; omega, ?_⟩
      exact List.Perm.trans c7 hperm1
    · rw [if_neg hb] at hnd hbound hsm ⊢
      rw [if_neg hb]
      exact ih map j hlen hj hpow hsm hrob hcnt hnd hbound

theorem ptx_pow_half (j : Nat) (hj : 1 ≤ j) : 2 ^ j = 2 * (2 ^ j / 2) := by
  obtain ⟨i, rfl⟩ : ∃ i, j = i + 1 := ⟨j - 1, by omega⟩
  rw [Nat.pow_succ]
  omega

theorem ptx_edgemap_grow_robin (g : ptx_graph) (map : ptx_edgemap)
    (hnf : ptx_never_fails g.malloc) (hr : map.robin) (hsm : map.count < 65536) :
    ∃ g1 map1 j, ptx_edgemap_grow g map = some (g1, map1, true) ∧
      ptx_never_fails g1.malloc ∧ 1 ≤ j ∧ map1.nbuckets = 2 ^ j ∧
      map1.nbuckets = (if map.nbuckets = 0 then 2 else map.nbuckets * 2) ∧
      map1.buckets.length = map1.nbuckets ∧ ptx_robin map1.buckets ∧
      map1.count = (map1.buckets.filter ptx_edge.used).length ∧ map1.count = map.count ∧
      (ptx_bucket_keys map1.buckets).Perm (ptx_bucket_keys map.buckets) := by
  obtain ⟨hlen, hpow, hcnt, hhalf, -, hrob, hnd⟩ := hr
  obtain ⟨junk, ga, ha, sa, na⟩ := ptx_graph.alloc_never_fails g hnf
  obtain ⟨z1, z2, z3, z4⟩ :=
    ptx_edgemap_zeroed_robin (if map.nbuckets = 0 then 2 else map.nbuckets * 2)
  have hzn : (ptx_edgemap_zeroed (if map.nbuckets = 0 then 2 else map.nbuckets * 2)).nbuckets
      = (if map.nbuckets = 0 then 2 else map.nbuckets * 2) := rfl
  have hzc : (ptx_edgemap_zeroed (if map.nbuckets = 0 then 2 else map.nbuckets * 2)).count = 0 :=
    rfl
  obtain ⟨j1, hj1, hp1⟩ : ∃ j1, 1 ≤ j1 ∧
      (if map.nbuckets = 0 then 2 else map.nbuckets * 2) = 2 ^ j1 := by
    rcases hpow with h0 | ⟨j, hj, hp⟩
    · exact ⟨1, le_refl _, by rw [if_pos h0]; rfl⟩
    · refine ⟨j + 1, by omega, ?_⟩
      have : map.nbuckets ≠ 0 := by
        have := ptx_two_le_pow j hj
        omega
      rw [if_neg this, hp, Nat.pow_succ]
  have htake : map.buckets.take map.nbuckets = map.buckets := by
    rw [← hlen]
    exact List.take_length _
  have hklen := ptx_bucket_keys_length map.buckets
  obtain ⟨map1, c1, c2, c3, c4, c5, c6, c7⟩ := ptx_edgemap_grow_loop_robin map.buckets
    (ptx_edgemap_zeroed (if map.nbuckets = 0 then 2 else map.nbuckets * 2)) j1
    (by rw [z1, hzn]) hj1 (by rw [hzn, hp1])
    (by rw [hzc, hklen, ← hcnt]; omega) z2 (by rw [hzc, z3]; rfl)
    (by rw [z4, List.append_nil]; exact hnd)
    (by rw [hzc, hzn, hklen, ← hcnt]; split <;> omega)
  unfold ptx_edgemap_grow
  rw [ha]
  simp only []
  rw [htake, c1]
  simp only []
  refine ⟨_, map1, j1, rfl, ?_, hj1, by rw [c2, hzn, hp1], c2.trans hzn,
    by rw [c3, c2], c4, c5, by rw [c6, hzc, hklen, ← hcnt]; omega, ?_⟩
  · by_cases h0 : map.nbuckets ≠ 0
    · rw [if_pos h0]
      exact ptx_never_fails_release ga na
    · rw [if_neg h0]
      exact na
  · rw [z4, List.append_nil] at c7
    exact c7

/-- One `ptx_edgemap_add` on a map in Robin-Hood shape with fewer than `65535`
entries, when no allocation fails: it returns true, the shape is kept, and the
entry is found and nothing changes, or it is new and the count grows by one. -/
theorem ptx_edgemap_add_robin (g : ptx_graph) (map : ptx_edgemap) (node kind : Nat)
    (hnf : ptx_never_fails g.malloc) (hr : map.robin) (hsm : map.count < 65535) :
    ∃ g1 map1, ptx_edgemap_add g map node kind = some (g1, map1, true) ∧
      ptx_never_fails g1.malloc ∧ map1.robin ∧
      ((node, kind % 65536) ∈ ptx_bucket_keys map.buckets →
        (ptx_bucket_keys map1.buckets).Perm (ptx_bucket_keys map.buckets) ∧
        map1.count = map.count) ∧
      ((node, kind % 65536) ∉ ptx_bucket_keys map.buckets →
        (ptx_bucket_keys map1.buckets).Perm ((node, kind % 65536) :: ptx_bucket_keys map.buckets) ∧
        map1.count = map.count + 1) := by
  -- the map after the growth test
  have key : ∃ g1 map0 j, (if map.count = map.nbuckets / 2 then ptx_edgemap_grow g map
        else some (g, map, true)) = some (g1, map0, true) ∧
      ptx_never_fails g1.malloc ∧ 1 ≤ j ∧ map0.nbuckets = 2 ^ j ∧ map0.count < 65535 ∧
      map0.buckets.length = map0.nbuckets ∧ ptx_robin map0.buckets ∧
      map0.count = (map0.buckets.filter ptx_edge.used).length ∧ map0.count = map.count ∧
      (ptx_bucket_keys map0.buckets).Perm (ptx_bucket_keys map.buckets) ∧
      2 * (map.count + 1) ≤ map0.nbuckets ∧
      (map0.nbuckets ≤ 2 ∨ map0.nbuckets ≤ 4 * map.count) := by
    have hr0 := hr
    obtain ⟨hlen, hpow, hcnt, hhalf, hquad, hrob, hnd⟩ := hr
    have hev : map.nbuckets = 2 * (map.nbuckets / 2) := by
      rcases hpow with h0 | ⟨j, hj, hp⟩
      · rw [h0]
      · rw [hp]
        exact ptx_pow_half j hj
    by_cases hc : map.count = map.nbuckets / 2
    · rw [if_pos hc]
      obtain ⟨g1, map1, j, r1, r2, r3, r4, r5, r6, r7, r8, r9, r10⟩ :=
        ptx_edgemap_grow_robin g map hnf hr0 (by omega)
      refine ⟨g1, map1, j, r1, r2, r3, r4, ?_, r6, r7, r8, r9, r10, ?_, ?_⟩
      · omega
      · rw [r5]; split <;> omega
      · rw [r5]; split <;> omega
    · rw [if_neg hc]
      rcases hpow with h0 | ⟨j, hj, hp⟩
      · exfalso
        apply hc
        rw [h0] at hhalf ⊢
        omega
      · refine ⟨g, map, j, rfl, hnf, hj, hp, hsm, hlen, hrob, hcnt, rfl, List.Perm.refl _,
          by omega, hquad⟩
  obtain ⟨g1, map0, j, k1, k2, k3, k4, k5, k6, k7, k8, k9, k10, k11, k12⟩ := key
  have hnd0 : (ptx_bucket_keys map0.buckets).Nodup := (List.Perm.nodup_iff k10).mpr hr.2.2.2.2.2.2
  have hekey : ptx_edge.key { dib := 0, kind := kind % 65536, node := node }
      = (node, kind % 65536) := rfl
  unfold ptx_edgemap_add
  simp only []
  rw [k1]
  simp only []
  by_cases hm : (node, kind % 65536) ∈ ptx_bucket_keys map.buckets
  · have hm0 : ptx_edge.key { dib := 0, kind := kind % 65536, node := node }
        ∈ ptx_bucket_keys map0.buckets := by
      rw [hekey]
      exact (List.Perm.mem_iff k10).mpr hm
    rw [ptx_edgemap_add0_found map0 _ j k6 k3 k4 (by omega) k7 (by omega) hm0]
    simp only []
    refine ⟨g1, map0, rfl, k2, ⟨k6, Or.inr ⟨j, k3, k4⟩, k8, by omega, ?_, k7, hnd0⟩,
      fun _ => ⟨k10, k9⟩, fun h => absurd hm h⟩
    rw [k9]
    exact k12
  · have hnd1 : (ptx_edge.key { dib := 0, kind := kind % 65536, node := node }
        :: ptx_bucket_keys map0.buckets).Nodup := by
      rw [hekey, List.nodup_cons]
      exact ⟨fun h => hm ((List.Perm.mem_iff k10).mp h), hnd0⟩
    obtain ⟨map1, a1, a2, a3, a4, a5, a6⟩ := ptx_edgemap_add0_insert map0 _ j k6 k3 k4
      (by omega) k7 (by omega) hnd1
    rw [a1]
    simp only []
    have hused1 : (map1.buckets.filter ptx_edge.used).length
        = (map0.buckets.filter ptx_edge.used).length + 1 := by
      rw [← ptx_bucket_keys_length, ← ptx_bucket_keys_length, a6.length_eq, List.length_cons]
    refine ⟨g1, map1, rfl, k2, ⟨by rw [a3, a2], Or.inr ⟨j, k3, by rw [a2, k4]⟩,
        by rw [a4, hused1, k8], by rw [a4, a2]; omega, by rw [a4, a2]; omega, a5,
        (List.Perm.nodup_iff a6).mpr hnd1⟩,
      fun h => absurd h hm, fun _ => ⟨?_, by rw [a4, k9]⟩⟩
    rw [hekey] at a6
    exact List.Perm.trans a6 (List.Perm.cons _ k10)

/-- The probe loop of `ptx_edgemap_add0` ends when a free bucket lies ahead,
whatever the DIB counters do. -/
theorem ptx_edgemap_add0_loop_total :
    ∀ (fuel : Nat) (map : ptx_edgemap) (e : ptx_edge) (i j : Nat),
      map.buckets.length = map.nbuckets → map.nbuckets = 2 ^ j → i < map.nbuckets →
      (∃ (t : Nat) (b0 : ptx_edge), t < fuel ∧ t < map.nbuckets ∧
        map.buckets[(i + t) % map.nbuckets]? = some b0 ∧ b0.dib = 0) →
      (ptx_edgemap_add0_loop fuel map e i).isSome = true := by
  intro fuel
  induction fuel with
  | zero =>
    intro _ _ _ _ _ _ _ hf
    obtain ⟨t, _, ht, _⟩ := hf
    omega
  | succ fuel ih =>
    intro map e i j hlen hpow hi hfree
    obtain ⟨t, b0, ht, htN, hb0, hd0⟩ := hfree
    have hil : i < map.buckets.length := by omega
    obtain ⟨bi, hbi⟩ : ∃ bi, map.buckets[i]? = some bi :=
      ⟨map.buckets[i], List.getElem?_eq_getElem hil⟩
    unfold ptx_edgemap_add0_loop
    rw [hbi]
    simp only []
    by_cases hz : bi.dib = 0
    · rw [if_pos hz]
      rfl
    · rw [if_neg hz]
      by_cases heq : ptx_edge_equal bi e = true
      · rw [if_pos heq]
        rfl
      · rw [if_neg heq]
        have ht0 : t ≠ 0 := by
          intro h0
          rw [h0, Nat.add_zero, Nat.mod_eq_of_lt hi, hbi] at hb0
          cases hb0
          exact hz hd0
        have hidx : ((i + 1) % map.nbuckets + (t - 1)) % map.nbuckets
            = (i + t) % map.nbuckets := by
          rw [ptx_succ_add_mod]
          congr 2
          omega
        have hi1 : (i + 1) % map.nbuckets < map.nbuckets := Nat.mod_lt _ (by omega)
        rw [hpow, ptx_and_mask, ← hpow]
        by_cases hsw : bi.dib < e.dib
        · simp only [if_pos hsw]
          refine ih { map with buckets := map.buckets.set i e } _ ((i + 1) % map.nbuckets) j
            (by rw [List.length_set]; exact hlen) hpow hi1
            ⟨t - 1, b0, by omega, by show t - 1 < map.nbuckets; omega, ?_, hd0⟩
          simp only []
          rw [hidx, ptx_get_set map.buckets i _ e hil,
            if_neg (fun hh => ptx_add_mod_ne map.nbuckets i t (by omega) htN hi hh.symm)]
          exact hb0
        · simp only [if_neg hsw]
          exact ih map _ ((i + 1) % map.nbuckets) j hlen hpow hi1
            ⟨t - 1, b0, by omega, by omega, by rw [hidx]; exact hb0, hd0⟩

/-- A call of `ptx_edgemap_add0` returns on a map with a free bucket. -/
theorem ptx_edgemap_add0_total (map : ptx_edgemap) (edge : ptx_edge) (j : Nat)
    (hlen : map.buckets.length = map.nbuckets) (hj : 1 ≤ j) (hpow : map.nbuckets = 2 ^ j)
    (hcnt : (map.buckets.filter ptx_edge.used).length < map.nbuckets) :
    (ptx_edgemap_add0 map edge).isSome = true := by
  obtain ⟨q, b0, hq, h0⟩ := ptx_free_bucket map.buckets (by omega)
  have hN2 : 2 ≤ map.nbuckets := by rw [hpow]; exact ptx_two_le_pow j hj
  have hi : edge.node % map.nbuckets < map.nbuckets := Nat.mod_lt _ (by omega)
  have hql : q < map.nbuckets := by
    have := (List.getElem?_eq_some.mp hq).1
    omega
  obtain ⟨t, ht, e⟩ := ptx_mod_reach map.nbuckets _ q hi hql
  unfold ptx_edgemap_add0
  rw [hpow, ptx_and_mask, ← hpow]
  exact ptx_edgemap_add0_loop_total map.nbuckets map _ (edge.node % map.nbuckets) j hlen hpow hi
    ⟨t, b0, ht, ht, by rw [e]; exact hq, h0⟩

/-! ## The empty map and the entries of a map in Robin-Hood order -/

theorem ptx_edgemap_empty_robin : ptx_edgemap_empty.robin := by
  refine ⟨rfl, Or.inl rfl, rfl, by decide, Or.inl (by decide), ⟨?_, ?_⟩, List.nodup_nil⟩
  · intro p b hp
    simp [ptx_edgemap_empty] at hp
  · intro p b b1 hp
    simp [ptx_edgemap_empty] at hp

theorem ptx_robin_keys (map : ptx_edgemap) (hr : map.robin) :
    ptx_edgemap_keys map = ptx_bucket_keys map.buckets ∧
    ptx_edgemap_count map = (ptx_edgemap_keys map).length ∧ (ptx_edgemap_keys map).Nodup := by
  have h1 : ptx_edgemap_keys map = ptx_bucket_keys map.buckets := ptx_edgemap_keys_eq map hr.1
  refine ⟨h1, ?_, ?_⟩
  · rw [h1, ptx_bucket_keys_length]
    exact hr.2.2.1
  · rw [h1]
    exact hr.2.2.2.2.2.2

/-! ## The collector and open transactions -/

/-- C25. GC reclaims an open transaction in state NOMEM.  With an allocator
whose fourth call fails, `T1` writes an item and `T2` reads it: the edge map of
`T2` cannot grow and `T2` becomes NOMEM, still waiting for its commit or
rollback.  `ptx_graph_gc` marks from ACTIVE nodes only: it keeps `T1` and frees
`T2`, and the rollback of `T2` that the caller still has to make goes through a
dangling pointer. -/
theorem ptx_graph_gc_frees_nomem :
    (ptx_trace ptx_opts_fail4 ptx_ops_write_then_read).map
        (fun g => g.nodes.map (fun n => (n.ident, n.state)))
      = some [(1, PTX_ACTIVE), (2, PTX_NOMEM)] ∧
    (ptx_trace ptx_opts_fail4 ptx_ops_write_then_read_gc).map
        (fun g => g.nodes.map (fun n => (n.ident, n.state)))
      = some [(1, PTX_ACTIVE)] ∧
    ptx_trace ptx_opts_fail4 ptx_ops_write_then_read_gc_rollback = none := by
  refine ⟨?_, ?_, ?_⟩ <;> decide

/-- C26. An `ins` entry dangles after GC.  `T1` writes an item, `T2` reads it
(edge `T1 -> T2`, recorded in `T1.outs` and in `T2.ins`) and `T1` commits.  The
collector keeps the ACTIVE node `T2`, whose `outs` is empty, and frees `T1`:
afterwards `T2` is in the live list, its `ins` map still holds the entry
`(T1, WR)`, and `T1` is not in the live list. -/
theorem ptx_graph_gc_leaves_dangling_ins :
    (ptx_trace ptx_opts_default ptx_ops_read_after_write).map
        (fun g => g.nodes.map (fun n => (n.ident, n.state)))
      = some [(1, PTX_COMMITTED), (2, PTX_ACTIVE)] ∧
    (ptx_trace ptx_opts_default ptx_ops_read_after_write_gc).map
        (fun g => g.nodes.map (fun n => (n.ident, n.state)))
      = some [(2, PTX_ACTIVE)] ∧
    (ptx_trace ptx_opts_default ptx_ops_read_after_write_gc).map
        (fun g => g.nodes.map (fun n => ptx_edgemap_keys n.ins))
      = some [[(1, PTX_WR)]] ∧
    (ptx_trace ptx_opts_default ptx_ops_read_after_write_gc).map
        (fun g => g.nodes.map (fun n => ptx_edgemap_keys n.outs))
      = some [[]] ∧
    (ptx_trace ptx_opts_default ptx_ops_read_after_write_gc).map
        (fun g => (g.find 1).isSome)
      = some false := by
  refine ⟨?_, ?_, ?_, ?_, ?_⟩ <;> decide

/-! ## Commit of a transaction that wrote nothing -/

theorem ptx_node_commit_scan_update (g : ptx_graph) (N s : Nat) (nN : ptx_node)
    (hfN : g.find N = some nN) (hN : nN.state = PTX_ACTIVE) (hw : nN.haswrites = false) :
    ∀ edges : List ptx_edge,
      ptx_node_commit_scan (g.update N (fun x => { x with state := s })) edges
        = ptx_node_commit_scan g edges := by
  intro edges
  induction edges with
  | nil => rfl
  | cons e rest ih =>
    unfold ptx_node_commit_scan
    rw [ptx_graph.find_update g N e.node (fun x => { x with state := s }) (fun _ => rfl)]
    cases hf : g.find e.node with
    | none => rfl
    | some t =>
      simp only [Option.map]
      by_cases hid : (t.ident == N) = true
      · rw [if_pos hid]
        have h1 : t.ident = N := by simpa using hid
        have h2 := (ptx_graph.find_some g e.node t hf).2
        rw [← h2, h1, hfN] at hf
        have h3 : nN = t := Option.some.inj hf
        subst h3
        have hc : PTX_ACTIVE ≠ PTX_COMMITTED := by decide
        rw [if_neg (by simp only []; rw [hw]; simp), if_neg (by rw [hN, hw]; simp), ih]
      · rw [if_neg hid, ih]

/-- C21. A read-only commit cannot roll back a partner.  In every graph reached
from `ptx_graph_new` by fewer than `2^64` calls (any allocator, GC included),
for an ACTIVE node `N` with `haswrites` false and another ACTIVE node `M`: the
commit of `N` returns, the commit of `M` returns, and the commit of `M` made
right after the commit of `N` returns the same value, with the same OOM flag,
as the commit of `M` made in the state itself. -/
theorem ptx_readonly_commit_keeps_partner (opts : ptx_graph_opts) (ops : List ptx_op)
    (g : ptx_graph) (hlen : ops.length < 2 ^ 64) (hrun : ptx_trace opts ops = some g)
    (N M : Nat) (nN nM : ptx_node) (hfN : g.find N = some nN) (hfM : g.find M = some nM)
    (hNM : N ≠ M) (hN : nN.state = PTX_ACTIVE) (hM : nM.state = PTX_ACTIVE)
    (hw : nN.haswrites = false) :
    ∃ rN rM rM1, ptx_node_commit g N = some rN ∧ ptx_node_commit g M = some rM ∧
      ptx_node_commit rN.graph M = some rM1 ∧ rM1.ok = rM.ok ∧ ptx_oom rM1 = ptx_oom rM := by
  have hwf := ptx_trace_wf opts ops g hlen hrun
  have hgc : g.autogc ≤ 0 := hwf.1
  obtain ⟨bN, hbN, -⟩ := ptx_node_commit_scan_spec g (ptx_edgemap_edges nN.outs)
    (ptx_wf_live g hwf nN (ptx_graph.find_some g N nN hfN).1)
  obtain ⟨bM, hbM, -⟩ := ptx_node_commit_scan_spec g (ptx_edgemap_edges nM.outs)
    (ptx_wf_live g hwf nM (ptx_graph.find_some g M nM hfM).1)
  have cN := ptx_node_commit_active g N nN bN hfN hN hgc hbN
  have cM := ptx_node_commit_active g M nM bM hfM hM hgc hbM
  have hfM1 : (g.update N (fun x =>
      { x with state := if bN then PTX_ROLLEDBACK else PTX_COMMITTED })).find M = some nM := by
    rw [ptx_graph.find_update g N M
      (fun x => { x with state := if bN then PTX_ROLLEDBACK else PTX_COMMITTED })
      (fun _ => rfl), hfM]
    simp only [Option.map]
    have hid := (ptx_graph.find_some g M nM hfM).2
    have hne : ¬ ((nM.ident == N) = true) := by
      rw [hid]
      simpa using fun h => hNM h.symm
    rw [if_neg hne]
  have hbM1 := ptx_node_commit_scan_update g N
    (if bN then PTX_ROLLEDBACK else PTX_COMMITTED) nN hfN hN hw (ptx_edgemap_edges nM.outs)
  rw [hbM] at hbM1
  have cM1 := ptx_node_commit_active _ M nM bM hfM1 hM hgc hbM1
  exact ⟨_, _, _, cN, cM, cM1, rfl, rfl⟩

theorem ptx_write_read_finds :
    (((ptx_trace ptx_opts_default ptx_ops_write_read).get ptx_write_read_runs).find 2).isSome = true ∧
    (((ptx_trace ptx_opts_default ptx_ops_write_read).get ptx_write_read_runs).find 1).isSome = true := by
  constructor <;> decide

theorem ptx_readonly_commit_keeps_partner_witness :
    ∃ g nN nM, ptx_trace ptx_opts_default ptx_ops_write_read = some g ∧
      g.find 2 = some nN ∧ g.find 1 = some nM ∧ nN.state = PTX_ACTIVE ∧
      nM.state = PTX_ACTIVE ∧ nN.haswrites = false ∧
      ∃ rN rM rM1, ptx_node_commit g 2 = some rN ∧ ptx_node_commit g 1 = some rM ∧
        ptx_node_commit rN.graph 1 = some rM1 ∧ rM1.ok = rM.ok ∧ ptx_oom rM1 = ptx_oom rM := by
  have h1 := (Option.some_get ptx_write_read_runs).symm
  have h2 := (Option.some_get ptx_write_read_finds.1).symm
  have h3 := (Option.some_get ptx_write_read_finds.2).symm
  have h4 : (Option.get _ ptx_write_read_finds.1).state = PTX_ACTIVE := by decide
  have h5 : (Option.get _ ptx_write_read_finds.2).state = PTX_ACTIVE := by decide
  have h6 : (Option.get _ ptx_write_read_finds.1).haswrites = false := by decide
  exact ⟨_, _, _, h1, h2, h3, h4, h5, h6,
    ptx_readonly_commit_keeps_partner ptx_opts_default ptx_ops_write_read _ (by decide) h1 2 1
      _ _ h2 h3 (by decide) h4 h5 h6⟩

/-! ## The capacity of an edge map, with any allocator -/

theorem ptx_edgemap_grow_alloc (g ga : ptx_graph) (junk : List Nat) (map : ptx_edgemap)
    (ha : g.alloc = (some junk, ga)) (hr : map.robin) (hsm : map.count < 65536) :
    ∃ g1 map1 j, ptx_edgemap_grow g map = some (g1, map1, true) ∧
      1 ≤ j ∧ map1.nbuckets = 2 ^ j ∧
      map1.nbuckets = (if map.nbuckets = 0 then 2 else map.nbuckets * 2) ∧
      map1.buckets.length = map1.nbuckets ∧ ptx_robin map1.buckets ∧
      map1.count = (map1.buckets.filter ptx_edge.used).length ∧ map1.count = map.count ∧
      (ptx_bucket_keys map1.buckets).Perm (ptx_bucket_keys map.buckets) := by
  obtain ⟨g1, map1, j, r1, -, r3, r4, r5, r6, r7, r8, r9, r10⟩ :=
    ptx_edgemap_grow_robin { g with malloc := [] } map (fun x hx => by cases hx) hr hsm
  refine ⟨if map.nbuckets ≠ 0 then ga.release else ga, map1, j, ?_, r3, r4, r5, r6, r7, r8, r9,
    r10⟩
  unfold ptx_edgemap_grow at r1 ⊢
  rw [ha]
  have hc : ({ g with malloc := [] } : ptx_graph).alloc
      = (some [], { g with malloc := [], nallocs := g.nallocs + 1 }) := rfl
  rw [hc] at r1
  simp only [] at r1 ⊢
  cases hl : ptx_edgemap_grow_loop
      (ptx_edgemap_zeroed (if map.nbuckets = 0 then 2 else map.nbuckets * 2))
      (map.buckets.take map.nbuckets) with
  | none => rw [hl] at r1; simp at r1
  | some map2 =>
    rw [hl] at r1
    simp only [Option.some.injEq, Prod.mk.injEq] at r1
    rw [r1.2.1]

/-- One `ptx_edgemap_add` on a map in Robin-Hood shape with fewer than `65535`
entries, whatever the allocator does: the call returns; when it returns false
the map is as before; the shape is kept. -/
theorem ptx_edgemap_add_total (g : ptx_graph) (map : ptx_edgemap) (node kind : Nat)
    (hr : map.robin) (hsm : map.count < 65535) :
    ∃ g1 map1 ok, ptx_edgemap_add g map node kind = some (g1, map1, ok) ∧ map1.robin ∧
      map1.count ≤ map.count + 1 ∧ (ok = false → map1 = map) := by
  by_cases hfail : map.count = map.nbuckets / 2 ∧ g.alloc.1 = none
  · obtain ⟨hc, hal⟩ := hfail
    refine ⟨g.alloc.2, map, false, ?_, hr, by omega, fun _ => rfl⟩
    have hal2 : g.alloc = (none, g.alloc.2) := by
      rw [← hal]
    unfold ptx_edgemap_add
    simp only []
    rw [if_pos hc]
    unfold ptx_edgemap_grow
    rw [hal2]
  · obtain ⟨g1, map1, a1, -, a3, a4, a5⟩ := ptx_edgemap_add_robin { g with malloc := [] } map
      node kind (fun x hx => by cases hx) hr hsm
    have hcount : map1.count ≤ map.count + 1 := by
      by_cases hm : (node, kind % 65536) ∈ ptx_bucket_keys map.buckets
      · have := (a4 hm).2
        omega
      · have := (a5 hm).2
        omega
    by_cases hc : map.count = map.nbuckets / 2
    · have hal : ∃ junk, g.alloc = (some junk, g.alloc.2) := by
        cases h : g.alloc.1 with
        | none => exact absurd ⟨hc, h⟩ hfail
        | some junk => exact ⟨junk, by rw [← h]⟩
      obtain ⟨junk, ha⟩ := hal
      have hquad : map.count < 65536 := by omega
      obtain ⟨g2, map2, j, r1, -⟩ := ptx_edgemap_grow_alloc g g.alloc.2 junk map ha hr hquad
      obtain ⟨g3, map3, j3, s1, -⟩ := ptx_edgemap_grow_robin { g with malloc := [] } map
        (fun x hx => by cases hx) hr hquad
      have hsame : map3 = map2 := by
        unfold ptx_edgemap_grow at r1 s1
        rw [ha] at r1
        have hc2 : ({ g with malloc := [] } : ptx_graph).alloc
            = (some [], { g with malloc := [], nallocs := g.nallocs + 1 }) := rfl
        rw [hc2] at s1
        simp only [] at r1 s1
        cases hl : ptx_edgemap_grow_loop
            (ptx_edgemap_zeroed (if map.nbuckets = 0 then 2 else map.nbuckets * 2))
            (map.buckets.take map.nbuckets) with
        | none => rw [hl] at r1; simp at r1
        | some map4 =>
          rw [hl] at r1 s1
          simp only [Option.some.injEq, Prod.mk.injEq] at r1 s1
          rw [← r1.2.1, ← s1.2.1]
      subst hsame
      refine ⟨g2, map1, true, ?_, a3, hcount, fun h => by cases h⟩
      unfold ptx_edgemap_add at a1 ⊢
      simp only [] at a1 ⊢
      rw [if_pos hc] at a1 ⊢
      rw [s1] at a1
      rw [r1]
      simp only [] at a1 ⊢
      cases h0 : ptx_edgemap_add0 map3 { dib := 0, kind := kind % 65536, node := node } with
      | none => rw [h0] at a1; simp at a1
      | some map5 =>
        rw [h0] at a1
        simp only [Option.some.injEq, Prod.mk.injEq] at a1
        rw [a1.2.1]
    · refine ⟨g, map1, true, ?_, a3, hcount, fun h => by cases h⟩
      unfold ptx_edgemap_add at a1 ⊢
      simp only [] at a1 ⊢
      rw [if_neg hc] at a1 ⊢
      simp only [] at a1 ⊢
      cases h0 : ptx_edgemap_add0 map { dib := 0, kind := kind % 65536, node := node } with
      | none => rw [h0] at a1; simp at a1
      | some map5 =>
        rw [h0] at a1
        simp only [Option.some.injEq, Prod.mk.injEq] at a1
        rw [a1.2.1]

/-- A call of `ptx_edgemap_add` on a map in Robin-Hood shape with at most
`65535` entries returns, whatever the allocator does: the probe loop ends on the
insertion and on every re-insertion of the growth. -/
theorem ptx_edgemap_add_returns (g : ptx_graph) (map : ptx_edgemap) (node kind : Nat)
    (hr : map.robin) (hsm : map.count < 65536) :
    (ptx_edgemap_add g map node kind).isSome = true := by
  by_cases hlt : map.count < 65535
  · obtain ⟨g1, map1, ok, a1, -⟩ := ptx_edgemap_add_total g map node kind hr hlt
    rw [a1]
    rfl
  · obtain ⟨hlen, hpow, hcnt, hhalf, hquad, -, -⟩ := hr
    have hc : map.count = 65535 := by omega
    rcases hpow with h0 | ⟨j, hj, hp⟩
    · omega
    · have hne : ¬ map.count = map.nbuckets / 2 := by
        intro he
        have h2 := ptx_pow_half j hj
        have h3 : (2 : Nat) ^ j = 131070 := by omega
        have hj17 : j < 17 := by
          by_contra hge
          have : (2 : Nat) ^ 17 ≤ 2 ^ j := Nat.pow_le_pow_right (by decide) (by omega)
          omega
        have : (2 : Nat) ^ j ≤ 2 ^ 16 := Nat.pow_le_pow_right (by decide) (by omega)
        omega
      have h2 := ptx_pow_half j hj
      have hfree : (map.buckets.filter ptx_edge.used).length < map.nbuckets := by
        rw [← hcnt]
        omega
      have ht := ptx_edgemap_add0_total map { dib := 0, kind := kind % 65536, node := node } j
        hlen hj hp hfree
      unfold ptx_edgemap_add
      simp only []
      rw [if_neg hne]
      simp only []
      cases h0 : ptx_edgemap_add0 map { dib := 0, kind := kind % 65536, node := node } with
      | none => rw [h0] at ht; cases ht
      | some map1 => rfl

/-- Without its record, `ptx_node_gcmark_log` is `ptx_node_gcmark`. -/
theorem ptx_node_gcmark_log_erase :
    ∀ (fuel : Nat) (g : ptx_graph) (log : List Nat) (node : Nat),
      (ptx_node_gcmark_log fuel (g, log) node).map (fun r => r.1)
        = ptx_node_gcmark fuel g node := by
  intro fuel
  induction fuel with
  | zero =>
    intro g log node
    rfl
  | succ f ih =>
    intro g log node
    unfold ptx_node_gcmark_log ptx_node_gcmark
    cases hf : g.find node with
    | none => rfl
    | some n =>
      simp only []
      by_cases hr : n.reached = true
      · rw [if_pos hr, if_pos hr]
        rfl
      · rw [if_neg hr, if_neg hr]
        have hfold : ∀ (es : List ptx_edge) (acc : ptx_graph) (lg : List Nat),
            (List.foldlM (fun acc edge => ptx_node_gcmark_log f acc edge.node) (acc, lg) es).map
                (fun r => r.1)
              = List.foldlM (fun acc edge => ptx_node_gcmark f acc edge.node) acc es := by
          intro es
          induction es with
          | nil =>
            intro acc lg
            rfl
          | cons e rest ihl =>
            intro acc lg
            simp only [List.foldlM_cons, Option.bind_eq_bind]
            have h1 := ih acc lg e.node
            cases hs : ptx_node_gcmark_log f (acc, lg) e.node with
            | none =>
              rw [hs] at h1
              rw [← h1]
              rfl
            | some r =>
              obtain ⟨a1, l1⟩ := r
              rw [hs] at h1
              rw [← h1]
              simp only [Option.some_bind, Option.map_some']
              exact ihl a1 l1
        exact hfold _ _ _

theorem ptx_node_gcmark_log_total :
    ∀ (fuel : Nat) (g0 g : ptx_graph) (log : List Nat) (node : Nat),
      g0.mono g → g.unmarked < fuel → (g0.find node).isSome = true →
      (∀ a n, g0.find a = some n → ∀ e ∈ ptx_edgemap_edges n.outs,
        (g0.find e.node).isSome = true) →
      log.Nodup → (∀ x ∈ log, g.marked x) →
      ∃ g1 log1, ptx_node_gcmark_log fuel (g, log) node = some (g1, log1) ∧ g.marks g1 ∧
        log1.Nodup ∧ (∀ x ∈ log1, g1.marked x) ∧ (∀ x ∈ log, x ∈ log1) ∧
        (∀ x ∈ log1, x ∈ log ∨ ¬ g.marked x) := by
  intro fuel
  induction fuel with
  | zero =>
    intro g0 g log node _ hu
    omega
  | succ f ih =>
    intro g0 g log node hmono hu hlive hclos hnd hlog
    obtain ⟨n0, hf0⟩ := Option.isSome_iff_exists.mp hlive
    obtain ⟨n, hf, houts, -, -, -⟩ := (ptx_graph.mono_find g0 g hmono node).1 n0 hf0
    unfold ptx_node_gcmark_log
    rw [hf]
    simp only []
    by_cases hr : n.reached = true
    · rw [if_pos hr]
      exact ⟨g, log, rfl, ptx_graph.marks_refl g, hnd, hlog, fun _ h => h, fun _ h => Or.inl h⟩
    · rw [if_neg hr]
      have hm1 := ptx_graph.marks_update_reached g node
      have hu1 := ptx_graph.unmarked_update g node n hf (by simpa using hr)
      have hnew : ¬ g.marked node := by
        rintro ⟨n1, h1, h2⟩
        rw [hf] at h1
        cases h1
        exact hr h2
      have hnotin : node ∉ log := fun hm => hnew (hlog node hm)
      have hmarked1 : (g.update node (fun x => { x with reached := true })).marked node := by
        refine ⟨{ n with reached := true }, ?_, rfl⟩
        rw [ptx_graph.find_update g node node (fun x => { x with reached := true })
          (fun _ => rfl), hf]
        have hid := (ptx_graph.find_some g node n hf).2
        simp [hid]
      have hfold : ∀ (es : List ptx_edge) (acc : ptx_graph) (lg : List Nat),
          (∀ e ∈ es, e ∈ ptx_edgemap_edges n.outs) →
          (g.update node (fun x => { x with reached := true })).marks acc →
          lg.Nodup → (∀ x ∈ lg, acc.marked x) → (∀ x ∈ lg, x ∈ node :: log ∨ ¬ g.marked x) →
          ∃ g2 lg2, List.foldlM (fun acc edge => ptx_node_gcmark_log f acc edge.node) (acc, lg) es
              = some (g2, lg2) ∧ acc.marks g2 ∧ lg2.Nodup ∧ (∀ x ∈ lg2, g2.marked x) ∧
            (∀ x ∈ lg, x ∈ lg2) ∧ (∀ x ∈ lg2, x ∈ node :: log ∨ ¬ g.marked x) := by
        intro es
        induction es with
        | nil =>
          intro acc lg _ _ h3 h4 h5
          exact ⟨acc, lg, rfl, ptx_graph.marks_refl acc, h3, h4, fun _ h => h, h5⟩
        | cons e rest ihl =>
          intro acc lg hes hacc h3 h4 h5
          have hgacc := ptx_graph.marks_trans g _ acc hm1 hacc
          have hu2 := ptx_graph.marks_unmarked _ acc hacc
          have he := hes e (List.mem_cons_self _ _)
          rw [houts] at he
          obtain ⟨acc1, lg1, hstep, hmk1, n1, n2, n3, n4⟩ := ih g0 acc lg e.node
            (ptx_graph.mono_trans g0 g acc hmono (ptx_graph.marks_mono g acc hgacc))
            (by omega) (hclos node n0 hf0 e he) hclos h3 h4
          have h5a : ∀ x ∈ lg1, x ∈ node :: log ∨ ¬ g.marked x := by
            intro x hx
            rcases n4 x hx with h | h
            · exact h5 x h
            · exact Or.inr (fun hg =>
                h (ptx_graph.marked_mono g acc (ptx_graph.marks_mono g acc hgacc) x hg))
          obtain ⟨g2, lg2, hrest, hmk2, m1, m2, m3, m4⟩ := ihl acc1 lg1
            (fun e1 h1 => hes e1 (List.mem_cons_of_mem _ h1))
            (ptx_graph.marks_trans _ acc acc1 hacc hmk1) n1 n2 h5a
          refine ⟨g2, lg2, ?_, ptx_graph.marks_trans acc acc1 g2 hmk1 hmk2, m1, m2,
            fun x hx => m3 x (n3 x hx), m4⟩
          simp only [List.foldlM_cons, hstep, Option.bind_eq_bind, Option.some_bind]
          exact hrest
      obtain ⟨g2, lg2, hrun, hmk, k1, k2, k3, k4⟩ := hfold (ptx_edgemap_edges n.outs) _
        (node :: log) (fun _ h => h) (ptx_graph.marks_refl _)
        (List.nodup_cons.mpr ⟨hnotin, hnd⟩)
        (by
          intro x hx
          rcases List.mem_cons.mp hx with h | h
          · rw [h]; exact hmarked1
          · exact ptx_graph.marked_mono g _ (ptx_graph.marks_mono g _ hm1) x (hlog x h))
        (fun x hx => Or.inl hx)
      refine ⟨g2, lg2, hrun, ptx_graph.marks_trans g _ g2 hm1 hmk, k1, k2,
        fun x hx => k3 x (List.mem_cons_of_mem _ hx), ?_⟩
      intro x hx
      rcases k4 x hx with h | h
      · rcases List.mem_cons.mp h with h1 | h1
        · rw [h1]; exact Or.inr hnew
        · exact Or.inl h1
      · exact Or.inr h

theorem ptx_graph.unmarked_le (g : ptx_graph) : g.unmarked ≤ g.nodes.length := by
  unfold ptx_graph.unmarked
  exact List.countP_le_length _

/-- C23. The mark phase terminates on cyclic graphs.  On every graph whose
`outs` edges all target nodes of the live list, cyclic or not, with any mark
bits set, `ptx_node_gcmark` started from any node of the live list returns
(with the recursion depth that `ptx_graph_gc` has at most, one more than the
number of nodes, and with every larger one); it only sets mark bits; and it
iterates the `outs` map of each node at most once: the record of the nodes
whose edges were iterated has no repetition, holds only nodes that were
unmarked at the start, and every node in it is marked at the end. -/
theorem ptx_node_gcmark_terminates (g : ptx_graph) (node fuel : Nat)
    (hnode : (g.find node).isSome = true)
    (hlive : ∀ a n, g.find a = some n → ∀ e ∈ ptx_edgemap_edges n.outs,
      (g.find e.node).isSome = true)
    (hfuel : g.nodes.length < fuel) :
    ∃ g1 log, ptx_node_gcmark fuel g node = some g1 ∧
      ptx_node_gcmark_log fuel (g, []) node = some (g1, log) ∧ g.marks g1 ∧ log.Nodup ∧
      (∀ x ∈ log, ¬ g.marked x) ∧ (∀ x ∈ log, g1.marked x) := by
  obtain ⟨g1, log, h1, h2, h3, h4, -, h6⟩ := ptx_node_gcmark_log_total fuel g g [] node
    (ptx_graph.mono_refl g) (by have := ptx_graph.unmarked_le g; omega) hnode hlive
    List.nodup_nil (fun x hx => by cases hx)
  refine ⟨g1, log, ?_, h1, h2, h3, ?_, h4⟩
  · rw [← ptx_node_gcmark_log_erase fuel g [] node, h1]
    rfl
  · intro x hx
    rcases h6 x hx with h | h
    · cases h
    · exact h

theorem ptx_node_gcmark_terminates_witness :
    ((ptx_example_ww.find 2).isSome = true ∧
      (∀ a n, ptx_example_ww.find a = some n → ∀ e ∈ ptx_edgemap_edges n.outs,
        (ptx_example_ww.find e.node).isSome = true) ∧
      ptx_example_ww.nodes.length < 3) ∧
    ∃ g1 log, ptx_node_gcmark 3 ptx_example_ww 2 = some g1 ∧
      ptx_node_gcmark_log 3 (ptx_example_ww, []) 2 = some (g1, log) ∧
      ptx_example_ww.marks g1 ∧ log.Nodup ∧
      (∀ x ∈ log, ¬ ptx_example_ww.marked x) ∧ (∀ x ∈ log, g1.marked x) := by
  have hlive : ∀ a n, ptx_example_ww.find a = some n → ∀ e ∈ ptx_edgemap_edges n.outs,
      (ptx_example_ww.find e.node).isSome = true := by
    intro a n hf
    have hm := (ptx_graph.find_some ptx_example_ww a n hf).1
    have hall : ∀ n ∈ ptx_example_ww.nodes, ∀ e ∈ ptx_edgemap_edges n.outs,
        (ptx_example_ww.find e.node).isSome = true := by decide
    exact hall n hm
  exact ⟨⟨by decide, hlive, by decide⟩,
    ptx_node_gcmark_terminates ptx_example_ww 2 3 (by decide) hlive (by decide)⟩

/-! ## The bloom filter: bits -/

theorem ptx_bit_test (x s : Nat) : ((x >>> s) &&& 1 ≠ 0) ↔ x.testBit s = true := by
  unfold Nat.testBit
  rw [Nat.and_comm]
  simp

theorem ptx_byte_or (byte t s : Nat) (hs : s < 8) (h : byte.testBit s = true ∨ t = s) :
    ((byte ||| (1 <<< t)) % 256).testBit s = true := by
  have e : (256 : Nat) = 2 ^ 8 := rfl
  rw [e, Nat.testBit_mod_two_pow, Nat.testBit_or, Nat.one_shiftLeft, Nat.testBit_two_pow]
  rcases h with h | h
  · simp [hs, h]
  · simp [hs, h]

theorem ptx_and7_lt (j : Nat) : j &&& 7 < 8 := by
  have h : j &&& 7 = j % 8 := ptx_and_mask j 3
  rw [h]
  exact Nat.mod_lt _ (by decide)

theorem ptx_bit_inbounds (m i j : Nat) (hm : m = 2 ^ i) (hi : 3 ≤ i) (hj : j < m) :
    j >>> 3 < m / 8 := by
  rw [Nat.shiftRight_eq_div_pow]
  have hd : 2 ^ 3 ∣ m := by
    rw [hm]
    exact Nat.pow_dvd_pow 2 hi
  exact Nat.div_lt_div_of_lt_of_dvd hd hj

theorem ptx_mask_lt (m i x : Nat) (hm : m = 2 ^ i) : x &&& (m - 1) < m := by
  rw [hm, ptx_and_mask]
  exact Nat.mod_lt _ (Nat.pos_pow_of_pos i (by decide))

theorem ptx_bits_le_refl (bits : List Nat) : ptx_bits_le bits bits := ⟨rfl, fun _ h => h⟩

theorem ptx_bits_le_trans (a b c : List Nat) (h1 : ptx_bits_le a b) (h2 : ptx_bits_le b c) :
    ptx_bits_le a c :=
  ⟨h2.1.trans h1.1, fun j h => h2.2 j (h1.2 j h)⟩

theorem ptx_testadd_bit_test (bits : List Nat) (j : Nat) (h : ptx_bit_set bits j) :
    ptx_testadd_bit false bits j = some (bits, true) := by
  obtain ⟨byte, hb, hs⟩ := h
  unfold ptx_testadd_bit
  rw [hb]
  simp only [Bool.false_eq_true, if_false]
  rw [if_neg hs]

theorem ptx_testadd_bit_test_inv (bits b1 : List Nat) (j : Nat)
    (h : ptx_testadd_bit false bits j = some (b1, true)) : b1 = bits ∧ ptx_bit_set bits j := by
  unfold ptx_testadd_bit at h
  cases hb : bits[j >>> 3]? with
  | none => rw [hb] at h; simp at h
  | some byte =>
    rw [hb] at h
    simp only [Bool.false_eq_true, if_false] at h
    by_cases hs : (byte >>> (j &&& 7)) &&& 1 = 0
    · rw [if_pos hs] at h
      simp at h
    · rw [if_neg hs] at h
      simp only [Option.some.injEq, Prod.mk.injEq, and_true] at h
      exact ⟨h.symm, byte, hb, hs⟩

theorem ptx_testadd_bit_add (bits : List Nat) (j byte : Nat) (hb : bits[j >>> 3]? = some byte) :
    ptx_testadd_bit true bits j
      = some (bits.set (j >>> 3) ((byte ||| (1 <<< (j &&& 7))) % 256), true) ∧
    ptx_bits_le bits (bits.set (j >>> 3) ((byte ||| (1 <<< (j &&& 7))) % 256)) ∧
    ptx_bit_set (bits.set (j >>> 3) ((byte ||| (1 <<< (j &&& 7))) % 256)) j := by
  have hlt : j >>> 3 < bits.length := (List.getElem?_eq_some.mp hb).1
  refine ⟨?_, ⟨List.length_set _ _ _, ?_⟩, ?_⟩
  · unfold ptx_testadd_bit
    rw [hb]
    simp
  · intro j1 ⟨b1, h1, h2⟩
    by_cases hq : j >>> 3 = j1 >>> 3
    · rw [← hq, hb] at h1
      cases h1
      refine ⟨(byte ||| (1 <<< (j &&& 7))) % 256, ?_, ?_⟩
      · rw [List.getElem?_set, if_pos hq, if_pos hlt]
      · rw [ptx_bit_test] at h2 ⊢
        exact ptx_byte_or _ _ _ (ptx_and7_lt j1) (Or.inl h2)
    · refine ⟨b1, ?_, h2⟩
      rw [List.getElem?_set, if_neg hq]
      exact h1
  · refine ⟨(byte ||| (1 <<< (j &&& 7))) % 256, ?_, ?_⟩
    · rw [List.getElem?_set, if_pos rfl, if_pos hlt]
    · rw [ptx_bit_test]
      exact ptx_byte_or _ _ _ (ptx_and7_lt j) (Or.inr rfl)

/-! ## The bloom filter: the loop of `ptx_testadd` -/

/-- In add mode the loop returns true, only sets bits, and a test of the same
hash on the result finds every bit set. -/
theorem ptx_testadd_loop_add (m i : Nat) (hm : m = 2 ^ i) (hi : 3 ≤ i) :
    ∀ (rem : Nat) (bits : List Nat) (hash j : Nat), bits.length = m / 8 → j < m →
      ∃ bits1, ptx_testadd_loop m true rem bits hash j = some (bits1, true) ∧
        ptx_bits_le bits bits1 ∧
        ptx_testadd_loop m false rem bits1 hash j = some (bits1, true) := by
  intro rem
  induction rem with
  | zero =>
    intro bits hash j hlen hj
    have hin : j >>> 3 < bits.length := by
      rw [hlen]
      exact ptx_bit_inbounds m i j hm hi hj
    obtain ⟨a1, a2, a3⟩ := ptx_testadd_bit_add bits j _ (List.getElem?_eq_getElem hin)
    refine ⟨_, ?_, a2, ?_⟩
    · unfold ptx_testadd_loop
      exact a1
    · unfold ptx_testadd_loop
      exact ptx_testadd_bit_test _ j a3
  | succ rem ih =>
    intro bits hash j hlen hj
    have hin : j >>> 3 < bits.length := by
      rw [hlen]
      exact ptx_bit_inbounds m i j hm hi hj
    obtain ⟨a1, a2, a3⟩ := ptx_testadd_bit_add bits j _ (List.getElem?_eq_getElem hin)
    obtain ⟨bits1, b1, b2, b3⟩ := ih _ (ptx_mix hash) (ptx_mix hash &&& (m - 1))
      (by rw [a2.1, hlen]) (ptx_mask_lt m i _ hm)
    refine ⟨bits1, ?_, ptx_bits_le_trans _ _ _ a2 b2, ?_⟩
    · unfold ptx_testadd_loop
      rw [a1]
      exact b1
    · unfold ptx_testadd_loop
      rw [ptx_testadd_bit_test bits1 j (b2.2 j a3)]
      exact b3

/-- A test that finds every bit set still does after more bits are set. -/
theorem ptx_testadd_loop_mono (m : Nat) :
    ∀ (rem : Nat) (bits bits1 : List Nat) (hash j : Nat), ptx_bits_le bits bits1 →
      ptx_testadd_loop m false rem bits hash j = some (bits, true) →
      ptx_testadd_loop m false rem bits1 hash j = some (bits1, true) := by
  intro rem
  induction rem with
  | zero =>
    intro bits bits1 hash j hle h
    unfold ptx_testadd_loop at h ⊢
    exact ptx_testadd_bit_test bits1 j (hle.2 j (ptx_testadd_bit_test_inv bits bits j h).2)
  | succ rem ih =>
    intro bits bits1 hash j hle h
    unfold ptx_testadd_loop at h ⊢
    cases hb : ptx_testadd_bit false bits j with
    | none => rw [hb] at h; simp at h
    | some r =>
      obtain ⟨b2, ok⟩ := r
      rw [hb] at h
      cases ok with
      | false => simp at h
      | true =>
        simp only [] at h
        obtain ⟨e, hs⟩ := ptx_testadd_bit_test_inv bits b2 j hb
        subst e
        rw [ptx_testadd_bit_test bits1 j (hle.2 j hs)]
        exact ih b2 bits1 _ _ hle h

/-! ## The bloom filter: `ptx_testadd` on a set -/

/-- The function `ptx_testadd` on a set whose filter is allocated. -/
theorem ptx_testadd_eq (set : ptx_hashset) (hash : Nat) (add : Bool) (bits : List Nat)
    (hb : set.bits = some bits) :
    ptx_testadd set hash add
      = (ptx_testadd_loop set.m add ((set.k + 2 ^ 64 - 1) % 2 ^ 64) bits (ptx_hashof hash)
          (ptx_hashof hash &&& (set.m - 1))).map
        (fun p => ({ set with bits := some p.1 }, p.2)) := by
  obtain ⟨v, hv⟩ : ∃ v, ptx_testadd set hash add = v := ⟨_, rfl⟩
  rw [hv]
  unfold ptx_testadd at hv
  have h1 := ptx_match_bits set.bits bits _ _ _ hv hb
  obtain ⟨res, hres⟩ : ∃ res, ptx_testadd_loop set.m add ((set.k + 2 ^ 64 - 1) % 2 ^ 64) bits
      (ptx_hashof hash) (ptx_hashof hash &&& (set.m - 1)) = res := ⟨_, rfl⟩
  rw [hres] at h1 ⊢
  rw [← h1]
  cases res with
  | none => rfl
  | some q => rfl

theorem ptx_hashset.holds_congr (set : ptx_hashset) (a h : Nat)
    (he : ptx_hashof a = ptx_hashof h) (ha : set.holds a) : set.holds h := by
  unfold ptx_hashset.holds at ha ⊢
  rw [← he]
  exact ha

theorem ptx_bloom_add (m k : Nat) (set : ptx_hashset) (x : Nat) (hb : set.bloom m k) :
    ∃ set1, ptx_testadd set x true = some (set1, true) ∧ set1.bloom m k ∧ set1.holds x ∧
      (∀ h, set.holds h → set1.holds h) := by
  obtain ⟨bits, i, h1, h2, h3, h4, h5, h6⟩ := hb
  have hm : set.m = 2 ^ i := by rw [h2]; exact h4
  obtain ⟨bits1, l1, l2, l3⟩ := ptx_testadd_loop_add set.m i hm h5
    ((set.k + 2 ^ 64 - 1) % 2 ^ 64) bits (ptx_hashof x) (ptx_hashof x &&& (set.m - 1))
    (by rw [h6, h2]) (ptx_mask_lt set.m i _ hm)
  rw [ptx_testadd_eq set x true bits h1, l1]
  refine ⟨{ set with bits := some bits1 }, rfl, ⟨bits1, i, rfl, h2, h3, h4, h5, l2.1.trans h6⟩,
    ⟨bits1, rfl, l3⟩, ?_⟩
  intro h ⟨b0, e0, t0⟩
  rw [h1] at e0
  cases e0
  exact ⟨bits1, rfl, ptx_testadd_loop_mono set.m _ bits bits1 _ _ l2 t0⟩

theorem ptx_hashset_add_bloom (g : ptx_graph) (m k : Nat) (set : ptx_hashset) (x : Nat)
    (hb : set.bloom m k) :
    ∃ set1, ptx_hashset_add g set x = some (g, set1, true) ∧ set1.bloom m k ∧ set1.holds x ∧
      (∀ h, set.holds h → set1.holds h) := by
  obtain ⟨set1, a1, a2, a3, a4⟩ := ptx_bloom_add m k set x hb
  obtain ⟨bits, i, h1, -⟩ := hb
  refine ⟨set1, ?_, a2, a3, a4⟩
  unfold ptx_hashset_add
  rw [if_pos (by rw [h1]; rfl), a1]

theorem ptx_hashset_test_holds (set : ptx_hashset) (h : Nat) (hh : set.holds h) :
    ptx_hashset_test set h = some true := by
  obtain ⟨bits, e, t⟩ := hh
  unfold ptx_hashset_test
  rw [if_pos (by rw [e]; rfl), ptx_testadd_eq set h false bits e, t]
  rfl

theorem ptx_grow_upgrade_holds (m k : Nat) :
    ∀ (l : List Nat) (set : ptx_hashset), set.bloom m k →
      ∃ set2, ptx_grow_upgrade set l = some set2 ∧ set2.bloom m k ∧
        (∀ h, set.holds h → set2.holds h) ∧ (∀ b ∈ l, ptx_dibof b ≠ 0 → set2.holds b) := by
  intro l
  induction l with
  | nil =>
    intro set hb
    exact ⟨set, rfl, hb, fun _ h => h, fun b hb => by cases hb⟩
  | cons b rest ih =>
    intro set hb
    unfold ptx_grow_upgrade
    by_cases hd : ptx_dibof b ≠ 0
    · rw [if_pos hd]
      obtain ⟨set1, a1, a2, a3, a4⟩ := ptx_bloom_add m k set b hb
      rw [a1]
      simp only []
      obtain ⟨set2, b1, b2, b3, b4⟩ := ih set1 a2
      refine ⟨set2, b1, b2, fun h hh => b3 h (a4 h hh), ?_⟩
      intro c hc hdc
      rcases List.mem_cons.mp hc with e | e
      · rw [e]
        exact b3 b a3
      · exact b4 c e hdc
    · rw [if_neg hd]
      obtain ⟨set2, b1, b2, b3, b4⟩ := ih set hb
      refine ⟨set2, b1, b2, b3, ?_⟩
      intro c hc hdc
      rcases List.mem_cons.mp hc with e | e
      · rw [e] at hdc
        exact absurd hdc hd
      · exact b4 c e hdc

/-- Once a set is in bloom mode, `ptx_hashset_add` leaves it in bloom mode. -/
theorem ptx_hashset_add_stays_bloom (g g1 : ptx_graph) (set set1 : ptx_hashset) (x : Nat)
    (ok : Bool) (hb : set.bits.isSome = true)
    (h : ptx_hashset_add g set x = some (g1, set1, ok)) :
    set1.bits.isSome = true ∧ ok = true := by
  unfold ptx_hashset_add at h
  rw [if_pos hb] at h
  cases ht : ptx_testadd set x true with
  | none => rw [ht] at h; simp at h
  | some r =>
    obtain ⟨s2, r2⟩ := r
    rw [ht] at h
    simp only [Option.some.injEq, Prod.mk.injEq] at h
    obtain ⟨-, e2, e3⟩ := h
    subst e2
    exact ⟨(ptx_testadd_blocks set s2 x true r2 ht).2.1, e3.symm⟩

theorem ptx_hashset_addall_stays_bloom :
    ∀ (l : List Nat) (g g1 : ptx_graph) (set set1 : ptx_hashset) (ok : Bool),
      set.bits.isSome = true → ptx_hashset_addall g set l = some (g1, set1, ok) →
      set1.bits.isSome = true := by
  intro l
  induction l with
  | nil =>
    intro g g1 set set1 ok hb h
    simp only [ptx_hashset_addall, Option.some.injEq, Prod.mk.injEq] at h
    rw [← h.2.1]
    exact hb
  | cons x rest ih =>
    intro g g1 set set1 ok hb h
    unfold ptx_hashset_addall at h
    cases ha : ptx_hashset_add g set x with
    | none => rw [ha] at h; simp at h
    | some r =>
      obtain ⟨g2, s2, ok2⟩ := r
      obtain ⟨k1, k2⟩ := ptx_hashset_add_stays_bloom g g2 set s2 x ok2 hb ha
      rw [ha] at h
      subst k2
      simp only [] at h
      exact ih g2 g1 s2 set1 ok k1 h

/-! ## The table of a hash set with one or two items -/

theorem ptx_sethashdib_spec (x d : Nat) (hd : d < 256) :
    ptx_hashof (ptx_sethashdib (ptx_hashof x) d) = ptx_hashof x ∧
    ptx_dibof (ptx_sethashdib (ptx_hashof x) d) = d := by
  have hlt : ptx_hashof x < 2 ^ 56 := by
    rw [ptx_hashof_mod]
    exact Nat.mod_lt _ (by decide)
  have hv : ptx_sethashdib (ptx_hashof x) d = 2 ^ 56 * d + ptx_hashof x := by
    unfold ptx_sethashdib
    rw [ptx_hashof_mod (ptx_hashof x), Nat.mod_eq_of_lt hlt, Nat.mod_eq_of_lt hd,
      Nat.shiftLeft_eq, Nat.mul_comm, Nat.lor_comm, ← Nat.mul_add_lt_is_or hlt d]
  rw [hv]
  constructor
  · rw [ptx_hashof_mod, Nat.mul_add_mod, Nat.mod_eq_of_lt hlt]
  · unfold ptx_dibof
    rw [Nat.shiftRight_eq_div_pow]
    omega

theorem ptx_slot4 (i p v : Nat) (hi : i < 4) (hp : p < 4) :
    ([0, 0, 0, 0].set i v)[p]? = some (if i = p then v else 0) := by
  rw [List.getElem?_set]
  by_cases h : i = p
  · rw [if_pos h, if_pos h, if_pos (by simpa using hi)]
  · rw [if_neg h, if_neg h]
    interval_cases p <;> rfl

theorem ptx_slot4_set (i j p v w : Nat) (hi : i < 4) (hj : j < 4) (hp : p < 4) :
    (([0, 0, 0, 0].set i v).set j w)[p]? = some (if j = p then w else if i = p then v else 0) := by
  rw [List.getElem?_set]
  by_cases h : j = p
  · rw [if_pos h, if_pos h, if_pos (by simpa using hj)]
  · rw [if_neg h, if_neg h]
    exact ptx_slot4 i p v hi hp

theorem ptx_getD_of_get (l : List Nat) (i v : Nat) (h : l[i]? = some v) : l.getD i 0 = v := by
  rw [List.getD_eq_getElem?_getD, h]
  rfl

theorem ptx_next_slot (i : Nat) (hi : i < 4) : (i + 1) &&& (4 - 1) < 4 ∧ (i + 1) &&& (4 - 1) ≠ i := by
  have h : (i + 1) &&& (4 - 1) = (i + 1) % 4 := ptx_and_mask (i + 1) 2
  rw [h]
  exact ⟨Nat.mod_lt _ (by decide), ptx_succ_mod_ne 4 i (by decide) hi⟩

/-! ### One round of the loops -/

theorem ptx_add0_loop_free (f : Nat) (set : ptx_hashset) (hash dib i b : Nat)
    (hb : set.cur[i]? = some b) (hd : ptx_dibof b = 0) :
    ptx_add0_loop (f + 1) set hash dib i
      = some { set.store i (ptx_sethashdib hash dib) with count := set.count + 1 } := by
  unfold ptx_add0_loop
  rw [hb]
  simp only []
  rw [if_pos hd]

theorem ptx_add0_loop_pass (f : Nat) (set : ptx_hashset) (hash dib i b : Nat)
    (hb : set.cur[i]? = some b) (hd : ptx_dibof b ≠ 0) (hlt : ¬ ptx_dibof b < dib)
    (hne : ptx_hashof b ≠ hash) :
    ptx_add0_loop (f + 1) set hash dib i
      = ptx_add0_loop f set hash ((dib + 1) % 256) ((i + 1) &&& (set.nbuckets - 1)) := by
  conv_lhs => unfold ptx_add0_loop
  rw [hb]
  simp only []
  rw [if_neg hd]
  simp only [if_neg hlt]
  rw [hb]
  simp only []
  rw [if_neg hne]

theorem ptx_add0_loop_found (f : Nat) (set : ptx_hashset) (hash dib i b : Nat)
    (hb : set.cur[i]? = some b) (hd : ptx_dibof b ≠ 0) (hlt : ¬ ptx_dibof b < dib)
    (he : ptx_hashof b = hash) :
    ptx_add0_loop (f + 1) set hash dib i = some set := by
  unfold ptx_add0_loop
  rw [hb]
  simp only []
  rw [if_neg hd]
  simp only [if_neg hlt]
  rw [hb]
  simp only []
  rw [if_pos he]

theorem ptx_test_loop_found (f : Nat) (set : ptx_hashset) (hash dib i b : Nat)
    (hb : set.cur[i]? = some b) (he : ptx_hashof b = hash) :
    ptx_hashset_test_loop set hash (f + 1) dib i = some true := by
  unfold ptx_hashset_test_loop
  simp only []
  rw [ptx_getD_of_get _ _ _ hb, if_pos he]

theorem ptx_test_loop_pass (f : Nat) (set : ptx_hashset) (hash dib i b : Nat)
    (hb : set.cur[i]? = some b) (hne : ptx_hashof b ≠ hash) (hlt : ¬ ptx_dibof b < dib) :
    ptx_hashset_test_loop set hash (f + 1) dib i
      = ptx_hashset_test_loop set hash f ((dib + 1) % 256) ((i + 1) &&& (set.nbuckets - 1)) := by
  conv_lhs => unfold ptx_hashset_test_loop
  simp only []
  rw [ptx_getD_of_get _ _ _ hb, if_neg hne, if_neg hlt]

/-! ### From one item to two -/

theorem ptx_hashset_add_single_other (g : ptx_graph) (m k a x : Nat)
    (hne : ptx_hashof a ≠ ptx_hashof x) :
    ptx_hashset_add g (ptx_hashset.single m k a) x
      = some (g, ptx_hashset.double m k a x, true) := by
  have hia := ptx_slot_lt (ptx_hashof a)
  have hix := ptx_slot_lt (ptx_hashof x)
  obtain ⟨sa1, sa2⟩ := ptx_sethashdib_spec a 1 (by decide)
  have hfuel : 256 * (ptx_hashset.single m k a).nbuckets = 1023 + 1 := rfl
  have hfuel2 : (1023 : Nat) = 1022 + 1 := rfl
  have hcur : (ptx_hashset.single m k a).cur
      = [0, 0, 0, 0].set (ptx_hashof a &&& (4 - 1)) (ptx_sethashdib (ptx_hashof a) 1) := rfl
  have hd0 : ptx_dibof 0 = 0 := by decide
  have hadd : ptx_add0 (ptx_hashset.single m k a) x = some (ptx_hashset.double m k a x) := by
    unfold ptx_add0
    rw [hfuel]
    by_cases hc : ptx_hashof x &&& (4 - 1) = ptx_hashof a &&& (4 - 1)
    · have hc1 : (ptx_hashset.single m k a).nbuckets - 1 = 4 - 1 := rfl
      rw [hc1, hc]
      obtain ⟨n1, n2⟩ := ptx_next_slot _ hia
      rw [ptx_add0_loop_pass 1023 _ _ 1 _ (ptx_sethashdib (ptx_hashof a) 1)
        (by rw [hcur, ptx_slot4 _ _ _ hia hia, if_pos rfl]) (by rw [sa2]; decide)
        (by rw [sa2]; decide) (by rw [sa1]; exact hne), hfuel2, hc1]
      rw [ptx_add0_loop_free 1022 _ _ _ _ 0
        (by rw [hcur, ptx_slot4 _ _ _ hia n1, if_neg (fun h => n2 h.symm)]) hd0]
      unfold ptx_hashset.double
      rw [if_pos hc, if_pos hc]
      simp only [ptx_hashset.single, ptx_hashset.store]
    · have hc1 : (ptx_hashset.single m k a).nbuckets - 1 = 4 - 1 := rfl
      rw [hc1]
      rw [ptx_add0_loop_free 1023 _ _ _ _ 0
        (by rw [hcur, ptx_slot4 _ _ _ hia hix, if_neg (fun h => hc h.symm)]) hd0]
      unfold ptx_hashset.double
      rw [if_neg hc, if_neg hc]
      simp only [ptx_hashset.single, ptx_hashset.store]
  unfold ptx_hashset_add
  rw [if_neg (by simp [ptx_hashset.single]), if_pos (by simp [ptx_hashset.single]), hadd]

theorem ptx_double_slots (m k a b : Nat) :
    ∃ (ia jb d : Nat), ia < 4 ∧ jb < 4 ∧ ia ≠ jb ∧ ia = ptx_hashof a &&& (4 - 1) ∧
      (d = 1 ∨ d = 2) ∧
      ((ptx_hashof b &&& (4 - 1) = ia ∧ jb = (ia + 1) &&& (4 - 1) ∧ d = 2) ∨
        (ptx_hashof b &&& (4 - 1) ≠ ia ∧ jb = ptx_hashof b &&& (4 - 1) ∧ d = 1)) ∧
      (ptx_hashset.double m k a b).cur
        = ([0, 0, 0, 0].set ia (ptx_sethashdib (ptx_hashof a) 1)).set jb
            (ptx_sethashdib (ptx_hashof b) d) := by
  have hia := ptx_slot_lt (ptx_hashof a)
  have hib := ptx_slot_lt (ptx_hashof b)
  by_cases hc : ptx_hashof b &&& (4 - 1) = ptx_hashof a &&& (4 - 1)
  · obtain ⟨n1, n2⟩ := ptx_next_slot _ hia
    refine ⟨_, ((ptx_hashof a &&& (4 - 1)) + 1) &&& (4 - 1), 2, hia, n1, fun h => n2 h.symm, rfl,
      Or.inr rfl, Or.inl ⟨hc, rfl, rfl⟩, ?_⟩
    unfold ptx_hashset.double ptx_hashset.cur
    simp only []
    rw [if_pos hc, if_pos hc]
  · refine ⟨_, ptx_hashof b &&& (4 - 1), 1, hia, hib, fun h => hc h.symm, rfl,
      Or.inl rfl, Or.inr ⟨hc, rfl, rfl⟩, ?_⟩
    unfold ptx_hashset.double ptx_hashset.cur
    simp only []
    rw [if_neg hc, if_neg hc]

theorem ptx_hashset_test_double (m k a b x : Nat) (hne : ptx_hashof a ≠ ptx_hashof b)
    (hx : ptx_hashof a = ptx_hashof x ∨ ptx_hashof b = ptx_hashof x) :
    ptx_hashset_test (ptx_hashset.double m k a b) x = some true := by
  obtain ⟨ia, jb, d, hia, hjb, hij, eia, hd, hcase, hcur⟩ := ptx_double_slots m k a b
  obtain ⟨sa1, sa2⟩ := ptx_sethashdib_spec a 1 (by decide)
  have sb : ptx_hashof (ptx_sethashdib (ptx_hashof b) d) = ptx_hashof b ∧
      ptx_dibof (ptx_sethashdib (ptx_hashof b) d) = d :=
    ptx_sethashdib_spec b d (by rcases hd with h | h <;> rw [h] <;> decide)
  have hfuel : 256 * (ptx_hashset.double m k a b).nbuckets = 1023 + 1 := rfl
  have hfuel2 : (1023 : Nat) = 1022 + 1 := rfl
  have hn : (ptx_hashset.double m k a b).nbuckets - 1 = 4 - 1 := rfl
  have hga : (ptx_hashset.double m k a b).cur[ia]? = some (ptx_sethashdib (ptx_hashof a) 1) := by
    rw [hcur, ptx_slot4_set ia jb ia _ _ hia hjb hia, if_neg (fun h => hij h.symm), if_pos rfl]
  have hgb : (ptx_hashset.double m k a b).cur[jb]? = some (ptx_sethashdib (ptx_hashof b) d) := by
    rw [hcur, ptx_slot4_set ia jb jb _ _ hia hjb hjb, if_pos rfl]
  have hbits : (ptx_hashset.double m k a b).bits.isSome = false := rfl
  unfold ptx_hashset_test
  rw [if_neg (by rw [hbits]; decide), hfuel, hn]
  rcases hx with hx | hx
  · rw [← hx, ← eia]
    exact ptx_test_loop_found 1023 _ _ 1 ia _ hga sa1
  · rw [← hx]
    rcases hcase with ⟨c1, c2, c3⟩ | ⟨c1, c2, c3⟩
    · rw [c1]
      rw [ptx_test_loop_pass 1023 _ _ 1 ia _ hga (by rw [sa1]; exact hne)
        (by rw [sa2]; decide), hfuel2, hn, ← c2]
      exact ptx_test_loop_found 1022 _ _ _ jb _ hgb sb.1
    · rw [← c2]
      exact ptx_test_loop_found 1023 _ _ 1 jb _ hgb sb.1

/-- Both items of the table are in occupied buckets. -/
theorem ptx_double_stored (m k a b : Nat) :
    ∃ va vb, va ∈ (ptx_hashset.double m k a b).cur.take 4 ∧
      vb ∈ (ptx_hashset.double m k a b).cur.take 4 ∧
      ptx_dibof va ≠ 0 ∧ ptx_dibof vb ≠ 0 ∧ ptx_hashof va = ptx_hashof a ∧
      ptx_hashof vb = ptx_hashof b := by
  obtain ⟨ia, jb, d, hia, hjb, hij, eia, hd, hcase, hcur⟩ := ptx_double_slots m k a b
  obtain ⟨sa1, sa2⟩ := ptx_sethashdib_spec a 1 (by decide)
  have sb : ptx_hashof (ptx_sethashdib (ptx_hashof b) d) = ptx_hashof b ∧
      ptx_dibof (ptx_sethashdib (ptx_hashof b) d) = d :=
    ptx_sethashdib_spec b d (by rcases hd with h | h <;> rw [h] <;> decide)
  have hlen : (ptx_hashset.double m k a b).cur.length = 4 := by
    rw [hcur]
    simp
  have htake : (ptx_hashset.double m k a b).cur.take 4 = (ptx_hashset.double m k a b).cur := by
    rw [← hlen]
    exact List.take_length _
  rw [htake]
  refine ⟨_, _, List.getElem?_mem (?_ : _[ia]? = some (ptx_sethashdib (ptx_hashof a) 1)),
    List.getElem?_mem (?_ : _[jb]? = some (ptx_sethashdib (ptx_hashof b) d)), ?_, ?_, sa1, sb.1⟩
  · rw [hcur, ptx_slot4_set ia jb ia _ _ hia hjb hia, if_neg (fun h => hij h.symm), if_pos rfl]
  · rw [hcur, ptx_slot4_set ia jb jb _ _ hia hjb hjb, if_pos rfl]
  · rw [sa2]; decide
  · rw [sb.2]
    rcases hd with h | h <;> rw [h] <;> decide

/-! ## Membership in a hash set through later adds and the upgrade -/

theorem ptx_hashset_init_m_zero (m : Nat) (hm : 0 < m) :
    ∀ fuel, ptx_hashset_init_m m fuel 0 = none := by
  intro fuel
  induction fuel with
  | zero => rfl
  | succ f ih =>
    unfold ptx_hashset_init_m
    rw [if_pos hm]
    exact ih

theorem ptx_hashset_init_m_pow (m : Nat) :
    ∀ (fuel j r : Nat), 1 ≤ j → j ≤ 63 → ptx_hashset_init_m m fuel (2 ^ j) = some r →
      ∃ i, 1 ≤ i ∧ r = 2 ^ i := by
  intro fuel
  induction fuel with
  | zero =>
    intro j r _ _ h
    simp [ptx_hashset_init_m] at h
  | succ f ih =>
    intro j r h1 h2 h
    unfold ptx_hashset_init_m at h
    by_cases hlt : 2 ^ j < m
    · rw [if_pos hlt] at h
      by_cases hj : j < 63
      · have hpow : (2 ^ j * 2) % 2 ^ 64 = 2 ^ (j + 1) := by
          rw [← Nat.pow_succ]
          apply Nat.mod_eq_of_lt
          exact Nat.pow_lt_pow_right (by decide) (by omega)
        rw [hpow] at h
        exact ih (j + 1) r (by omega) (by omega) h
      · have hj63 : j = 63 := by omega
        subst hj63
        have hz : (2 ^ 63 * 2) % 2 ^ 64 = 0 := by decide
        rw [hz, ptx_hashset_init_m_zero m (by omega)] at h
        cases h
    · rw [if_neg hlt] at h
      simp only [Option.some.injEq] at h
      exact ⟨j, h1, h.symm⟩

theorem ptx_hashset_init_shape (m0 k : Nat) (set0 : ptx_hashset)
    (h : ptx_hashset_init m0 k = some set0) :
    ∃ i, 1 ≤ i ∧ set0 = ptx_hashset.fresh (2 ^ i) k := by
  unfold ptx_hashset_init at h
  cases hi : ptx_hashset_init_m m0 65 2 with
  | none => rw [hi] at h; simp at h
  | some r =>
    have h2 : (2 : Nat) = 2 ^ 1 := rfl
    have hi2 := hi
    rw [h2] at hi2
    obtain ⟨i, i1, i2⟩ := ptx_hashset_init_m_pow m0 65 1 r (le_refl _) (by omega) hi2
    rw [hi] at h
    simp only [Option.some.injEq] at h
    subst h i2
    exact ⟨i, i1, rfl⟩

theorem ptx_double_take (m k a b : Nat) :
    (ptx_hashset.double m k a b).cur.take (ptx_hashset.double m k a b).nbuckets
      = (ptx_hashset.double m k a b).cur.take 4 := rfl

/-- With a filter of zero bytes every round of `ptx_testadd` is outside the
block. -/
theorem ptx_testadd_loop_nil (m : Nat) (add : Bool) (rem hash j : Nat) :
    ptx_testadd_loop m add rem [] hash j = none := by
  cases rem with
  | zero => simp [ptx_testadd_loop, ptx_testadd_bit]
  | succ r => simp [ptx_testadd_loop, ptx_testadd_bit]

/-- The upgrade into a filter of zero bytes has no defined result when a bucket
is occupied. -/
theorem ptx_grow_upgrade_nil :
    ∀ (l : List Nat) (set : ptx_hashset), set.bits = some [] →
      (∃ b ∈ l, ptx_dibof b ≠ 0) → ptx_grow_upgrade set l = none := by
  intro l
  induction l with
  | nil =>
    intro set _ hex
    obtain ⟨b, hb, _⟩ := hex
    cases hb
  | cons b rest ih =>
    intro set hbits hex
    unfold ptx_grow_upgrade
    by_cases hd : ptx_dibof b ≠ 0
    · rw [if_pos hd, ptx_testadd_eq set b true [] hbits, ptx_testadd_loop_nil]
      rfl
    · rw [if_neg hd]
      apply ih set hbits
      obtain ⟨c, hc, hcd⟩ := hex
      rcases List.mem_cons.mp hc with e | e
      · subst e
        exact absurd hcd hd
      · exact ⟨c, e, hcd⟩

/-- The add that finds the table of two items full: when it returns true the
set is a bloom filter that holds both items.  With a filter of fewer than `8`
bits it does not return true. -/
theorem ptx_hashset_add_double (g g1 : ptx_graph) (m k i a b x : Nat) (s : ptx_hashset)
    (hm : m = 2 ^ i)
    (h : ptx_hashset_add g (ptx_hashset.double m k a b) x = some (g1, s, true)) :
    s.bloom m k ∧ s.holds a ∧ s.holds b := by
  obtain ⟨va, vb, ma, mb, da, db, ea, eb⟩ := ptx_double_stored m k a b
  unfold ptx_hashset_add at h
  rw [if_neg (by simp [ptx_hashset.double]), if_neg (by simp [ptx_hashset.double])] at h
  unfold ptx_grow at h
  by_cases hup : (ptx_hashset.double m k a b).nbuckets * 2 * 8 ≥ (ptx_hashset.double m k a b).m / 8
  · rw [if_pos hup] at h
    rcases hal : g.alloc with ⟨o, ga⟩
    rw [hal] at h
    cases o with
    | none => simp at h
    | some junk =>
      simp only [] at h
      rw [ptx_double_take] at h
      by_cases hm8 : 8 ≤ m
      swap
      · exfalso
        have hz : (ptx_hashset.double m k a b).m / 8 = 0 := by
          have e : (ptx_hashset.double m k a b).m = m := rfl
          rw [e]
          omega
        rw [hz] at h
        rw [ptx_grow_upgrade_nil ((ptx_hashset.double m k a b).cur.take 4) _ rfl
          ⟨va, ma, da⟩] at h
        simp at h
      have hi : 3 ≤ i := by
        by_contra hc
        have hle : i ≤ 2 := by omega
        have hp : 2 ^ i ≤ 2 ^ 2 := Nat.pow_le_pow_right (by decide) hle
        omega
      obtain ⟨set2, u1, u2, -, u4⟩ := ptx_grow_upgrade_holds m k
        ((ptx_hashset.double m k a b).cur.take 4)
        { ptx_hashset.double m k a b with
          bits := some (List.replicate ((ptx_hashset.double m k a b).m / 8) 0),
          count := 0, nbuckets := 0, buckets := none }
        ⟨_, i, rfl, rfl, rfl, hm, hi, by simp [ptx_hashset.double]⟩
      rw [u1] at h
      simp only [Option.some.injEq, Prod.mk.injEq, and_true] at h
      rw [← h.2]
      exact ⟨u2, ptx_hashset.holds_congr set2 va a ea (u4 va ma da),
        ptx_hashset.holds_congr set2 vb b eb (u4 vb mb db)⟩
  · rw [if_neg hup] at h
    rcases hal : g.alloc with ⟨o, ga⟩
    rw [hal] at h
    cases o with
    | none => simp at h
    | some junk => simp at h

theorem ptx_hashset_shape_step (g g1 : ptx_graph) (m k i x : Nat) (set s1 : ptx_hashset)
    (hm : m = 2 ^ i) (hs : set.shape m k)
    (h : ptx_hashset_add g set x = some (g1, s1, true)) : s1.shape m k := by
  rcases hs with e | ⟨a, e⟩ | ⟨a, b, hne, e⟩ | hb
  · rw [e, ptx_hashset_add_fresh] at h
    simp only [Option.some.injEq, Prod.mk.injEq, and_true] at h
    exact Or.inr (Or.inl ⟨x, h.2.symm⟩)
  · by_cases hx : ptx_hashof a = ptx_hashof x
    · rw [e, ptx_hashset_add_single g m k a x hx.symm] at h
      simp only [Option.some.injEq, Prod.mk.injEq, and_true] at h
      exact Or.inr (Or.inl ⟨a, h.2.symm⟩)
    · rw [e, ptx_hashset_add_single_other g m k a x hx] at h
      simp only [Option.some.injEq, Prod.mk.injEq, and_true] at h
      exact Or.inr (Or.inr (Or.inl ⟨a, x, hx, h.2.symm⟩))
  · rw [e] at h
    exact Or.inr (Or.inr (Or.inr (ptx_hashset_add_double g g1 m k i a b x s1 hm h).1))
  · obtain ⟨s2, a1, a2, -, -⟩ := ptx_hashset_add_bloom g m k set x hb
    rw [a1] at h
    simp only [Option.some.injEq, Prod.mk.injEq, and_true] at h
    rw [← h.2]
    exact Or.inr (Or.inr (Or.inr a2))

theorem ptx_hashset_keeps_step (g g1 : ptx_graph) (m k i x hash : Nat) (set s1 : ptx_hashset)
    (hm : m = 2 ^ i) (hs : set.keeps m k hash)
    (h : ptx_hashset_add g set x = some (g1, s1, true)) : s1.keeps m k hash := by
  rcases hs with ⟨a, e, ha⟩ | ⟨a, b, hne, e, hab⟩ | ⟨hb, hh⟩
  · by_cases hx : ptx_hashof a = ptx_hashof x
    · rw [e, ptx_hashset_add_single g m k a x hx.symm] at h
      simp only [Option.some.injEq, Prod.mk.injEq, and_true] at h
      exact Or.inl ⟨a, h.2.symm, ha⟩
    · rw [e, ptx_hashset_add_single_other g m k a x hx] at h
      simp only [Option.some.injEq, Prod.mk.injEq, and_true] at h
      exact Or.inr (Or.inl ⟨a, x, hx, h.2.symm, Or.inl ha⟩)
  · rw [e] at h
    obtain ⟨u1, u2, u3⟩ := ptx_hashset_add_double g g1 m k i a b x s1 hm h
    refine Or.inr (Or.inr ⟨u1, ?_⟩)
    rcases hab with e1 | e1
    · exact ptx_hashset.holds_congr s1 a hash e1 u2
    · exact ptx_hashset.holds_congr s1 b hash e1 u3
  · obtain ⟨s2, a1, a2, -, a4⟩ := ptx_hashset_add_bloom g m k set x hb
    rw [a1] at h
    simp only [Option.some.injEq, Prod.mk.injEq, and_true] at h
    rw [← h.2]
    exact Or.inr (Or.inr ⟨a2, a4 hash hh⟩)

/-- A table-mode add that does not trigger growth records its item. -/
theorem ptx_hashset_keeps_first (g g1 : ptx_graph) (m k hash : Nat) (set s1 : ptx_hashset)
    (hs : set.shape m k) (htab : set.bits = none ∧ set.count < set.nbuckets >>> 1)
    (h : ptx_hashset_add g set hash = some (g1, s1, true)) : s1.keeps m k hash := by
  rcases hs with e | ⟨a, e⟩ | ⟨a, b, hne, e⟩ | hb
  · rw [e, ptx_hashset_add_fresh] at h
    simp only [Option.some.injEq, Prod.mk.injEq, and_true] at h
    exact Or.inl ⟨hash, h.2.symm, rfl⟩
  · by_cases hx : ptx_hashof a = ptx_hashof hash
    · rw [e, ptx_hashset_add_single g m k a hash hx.symm] at h
      simp only [Option.some.injEq, Prod.mk.injEq, and_true] at h
      exact Or.inl ⟨a, h.2.symm, hx⟩
    · rw [e, ptx_hashset_add_single_other g m k a hash hx] at h
      simp only [Option.some.injEq, Prod.mk.injEq, and_true] at h
      exact Or.inr (Or.inl ⟨a, hash, hx, h.2.symm, Or.inr rfl⟩)
  · exfalso
    rw [e] at htab
    have h2 : ¬ ((ptx_hashset.double m k a b).count
        < (ptx_hashset.double m k a b).nbuckets >>> 1) := by simp [ptx_hashset.double]
    exact h2 htab.2
  · exfalso
    obtain ⟨bits, i, hbits, -⟩ := hb
    rw [htab.1] at hbits
    cases hbits

theorem ptx_hashset_shape_all (m k i : Nat) (hm : m = 2 ^ i) :
    ∀ (l : List Nat) (g g1 : ptx_graph) (set s1 : ptx_hashset), set.shape m k →
      ptx_hashset_addall g set l = some (g1, s1, true) → s1.shape m k := by
  intro l
  induction l with
  | nil =>
    intro g g1 set s1 hs h
    simp only [ptx_hashset_addall, Option.some.injEq, Prod.mk.injEq, and_true] at h
    rw [← h.2]
    exact hs
  | cons x rest ih =>
    intro g g1 set s1 hs h
    unfold ptx_hashset_addall at h
    cases ha : ptx_hashset_add g set x with
    | none => rw [ha] at h; simp at h
    | some r =>
      obtain ⟨g2, s2, ok⟩ := r
      rw [ha] at h
      cases ok with
      | false => simp at h
      | true =>
        simp only [] at h
        exact ih g2 g1 s2 s1 (ptx_hashset_shape_step g g2 m k i x set s2 hm hs ha) h

theorem ptx_hashset_keeps_all (m k i hash : Nat) (hm : m = 2 ^ i) :
    ∀ (l : List Nat) (g g1 : ptx_graph) (set s1 : ptx_hashset), set.keeps m k hash →
      ptx_hashset_addall g set l = some (g1, s1, true) → s1.keeps m k hash := by
  intro l
  induction l with
  | nil =>
    intro g g1 set s1 hs h
    simp only [ptx_hashset_addall, Option.some.injEq, Prod.mk.injEq, and_true] at h
    rw [← h.2]
    exact hs
  | cons x rest ih =>
    intro g g1 set s1 hs h
    unfold ptx_hashset_addall at h
    cases ha : ptx_hashset_add g set x with
    | none => rw [ha] at h; simp at h
    | some r =>
      obtain ⟨g2, s2, ok⟩ := r
      rw [ha] at h
      cases ok with
      | false => simp at h
      | true =>
        simp only [] at h
        exact ih g2 g1 s2 s1 (ptx_hashset_keeps_step g g2 m k i x hash set s2 hm hs ha) h

theorem ptx_hashset_test_keeps (m k hash : Nat) (set : ptx_hashset) (hs : set.keeps m k hash) :
    ptx_hashset_test set hash = some true := by
  rcases hs with ⟨a, e, ha⟩ | ⟨a, b, hne, e, hab⟩ | ⟨-, hh⟩
  · rw [e]
    exact ptx_hashset_test_single m k a hash ha.symm
  · rw [e]
    exact ptx_hashset_test_double m k a b hash hne hab
  · exact ptx_hashset_test_holds set hash hh

/-- C22. Membership survives later adds and the upgrade.  Take a set made by
`ptx_hashset_init`, any adds `l1` that all return true, then an add of `h` in
table mode that does not trigger growth (the set has no filter and
`count < nbuckets / 2`), then any adds `l2`, all returning true:
`ptx_hashset_test` of `h` returns true on the set reached, whether that set is
still the table or the add that upgrades it and further bloom-mode adds are
among `l2`.  And a set that has its filter keeps it through every later add: it
does not return to table mode. -/
theorem ptx_hashset_membership_survives (m0 k : Nat) (set0 : ptx_hashset)
    (g0 g1 g3 : ptx_graph) (l1 l2 : List Nat) (h : Nat) (s1 s3 : ptx_hashset)
    (hinit : ptx_hashset_init m0 k = some set0)
    (h1 : ptx_hashset_addall g0 set0 l1 = some (g1, s1, true))
    (htab : s1.bits = none ∧ s1.count < s1.nbuckets >>> 1)
    (h3 : ptx_hashset_addall g1 s1 (h :: l2) = some (g3, s3, true)) :
    ptx_hashset_test s3 h = some true ∧
    ∀ (g g2 : ptx_graph) (set set2 : ptx_hashset) (l : List Nat) (ok : Bool),
      set.bits.isSome = true → ptx_hashset_addall g set l = some (g2, set2, ok) →
      set2.bits.isSome = true := by
  refine ⟨?_, fun g g2 set set2 l ok hb hr =>
    ptx_hashset_addall_stays_bloom l g g2 set set2 ok hb hr⟩
  obtain ⟨i, i1, e0⟩ := ptx_hashset_init_shape m0 k set0 hinit
  have hs1 := ptx_hashset_shape_all (2 ^ i) k i rfl l1 g0 g1 set0 s1 (Or.inl e0) h1
  unfold ptx_hashset_addall at h3
  cases ha : ptx_hashset_add g1 s1 h with
  | none => rw [ha] at h3; simp at h3
  | some r =>
    obtain ⟨g2, s2, ok⟩ := r
    rw [ha] at h3
    cases ok with
    | false => simp at h3
    | true =>
      simp only [] at h3
      have hk2 := ptx_hashset_keeps_first g1 g2 (2 ^ i) k h s1 s2 hs1 htab ha
      have hk3 := ptx_hashset_keeps_all (2 ^ i) k i h rfl l2 g2 g3 s2 s3 hk2 h3
      exact ptx_hashset_test_keeps (2 ^ i) k h s3 hk3

theorem ptx_addall_upgrade_runs :
    (ptx_hashset_addall ptx_example_ww (ptx_hashset.single 256 4 1) (2 :: [3, 4])).isSome
      = true := by
  decide

theorem ptx_addall_upgrade_ok :
    ((ptx_hashset_addall ptx_example_ww (ptx_hashset.single 256 4 1) (2 :: [3, 4])).get
      ptx_addall_upgrade_runs).2.2 = true := by
  decide

theorem ptx_hashset_membership_survives_witness :
    ∃ g3 s3, ptx_hashset_init 153 4 = some (ptx_hashset.fresh 256 4) ∧
      ptx_hashset_addall ptx_example_ww (ptx_hashset.fresh 256 4) [1]
        = some (ptx_example_ww, ptx_hashset.single 256 4 1, true) ∧
      ((ptx_hashset.single 256 4 1).bits = none ∧
        (ptx_hashset.single 256 4 1).count < (ptx_hashset.single 256 4 1).nbuckets >>> 1) ∧
      ptx_hashset_addall ptx_example_ww (ptx_hashset.single 256 4 1) (2 :: [3, 4])
        = some (g3, s3, true) ∧
      s3.bits.isSome = true ∧
      ptx_hashset_test s3 2 = some true := by
  have h3 : ptx_hashset_addall ptx_example_ww (ptx_hashset.single 256 4 1) (2 :: [3, 4])
      = some (((ptx_hashset_addall ptx_example_ww (ptx_hashset.single 256 4 1) (2 :: [3, 4])).get
          ptx_addall_upgrade_runs).1,
        ((ptx_hashset_addall ptx_example_ww (ptx_hashset.single 256 4 1) (2 :: [3, 4])).get
          ptx_addall_upgrade_runs).2.1, true) := by
    rw [← ptx_addall_upgrade_ok]
    exact (Option.some_get ptx_addall_upgrade_runs).symm
  exact ⟨_, _, by decide, by decide, ⟨rfl, by decide⟩, h3, by decide,
    (ptx_hashset_membership_survives 153 4 (ptx_hashset.fresh 256 4) ptx_example_ww
      ptx_example_ww _ [1] [3, 4] 2 (ptx_hashset.single 256 4 1) _ (by decide)
      (by decide) ⟨rfl, by decide⟩ h3).1⟩

/-! ## Edges that share the home slot: the bucket array -/

theorem ptx_collider_inj (p q : Nat) (h : ptx_collider p = ptx_collider q) : p = q := by
  unfold ptx_collider at h
  omega

theorem ptx_collider_home (x i : Nat) (hi1 : 1 ≤ i) (hi : i ≤ 17) :
    ptx_collider x &&& (2 ^ i - 1) = 1 := by
  rw [ptx_and_mask]
  have h17 : (131072 : Nat) = 2 ^ (17 - i) * 2 ^ i := by
    rw [← Nat.pow_add]
    have e : 17 - i + i = 17 := by omega
    rw [e]
  unfold ptx_collider
  rw [h17, ← Nat.mul_assoc, Nat.add_comm, Nat.add_mul_mod_self_right]
  have h2 := ptx_two_le_pow i hi1
  exact Nat.mod_eq_of_lt (by omega)

theorem ptx_colliding_get (K k cap p : Nat) (hp : p < cap) :
    (ptx_colliding K k cap).buckets[p]?
      = some (if 1 ≤ p ∧ p ≤ k then { dib := p % 65536, kind := K, node := ptx_collider p }
          else { dib := 0, kind := 0, node := 0 }) := by
  unfold ptx_colliding
  simp only [List.getElem?_map, List.getElem?_range hp, Option.map_some']

theorem ptx_colliding_length (K k cap : Nat) :
    (ptx_colliding K k cap).buckets.length = cap := by
  unfold ptx_colliding
  simp only [List.length_map, List.length_range]

theorem ptx_colliding_zero (K n : Nat) : ptx_edgemap_zeroed n = ptx_colliding K 0 n := by
  unfold ptx_edgemap_zeroed ptx_colliding
  congr 1
  apply List.ext_getElem?
  intro p
  by_cases hp : p < n
  · rw [List.getElem?_map, List.getElem?_range hp, List.getElem?_replicate, if_pos hp]
    simp only [Option.map_some']
    rw [if_neg (by omega)]
  · rw [List.getElem?_eq_none (by simp only [List.length_replicate]; omega),
      List.getElem?_eq_none (by simp only [List.length_map, List.length_range]; omega)]

theorem ptx_colliding_set (K k cap : Nat) (hk : k + 1 < cap) :
    (ptx_colliding K k cap).buckets.set (k + 1)
        { dib := (k + 1) % 65536, kind := K, node := ptx_collider (k + 1) }
      = (ptx_colliding K (k + 1) cap).buckets := by
  apply List.ext_getElem?
  intro p
  rw [ptx_get_set _ _ _ _ (by rw [ptx_colliding_length]; exact hk)]
  by_cases hp : p < cap
  · rw [ptx_colliding_get K k cap p hp, ptx_colliding_get K (k + 1) cap p hp]
    by_cases he : k + 1 = p
    · rw [if_pos he, ← he, if_pos (by omega)]
    · rw [if_neg he]
      by_cases h1 : 1 ≤ p ∧ p ≤ k
      · rw [if_pos h1, if_pos (by omega)]
      · rw [if_neg h1, if_neg (by omega)]
  · rw [if_neg (by omega),
      List.getElem?_eq_none (by rw [ptx_colliding_length]; omega),
      List.getElem?_eq_none (by rw [ptx_colliding_length]; omega)]

/-! ## Edges that share the home slot: insertion -/

/-- The probe of a new edge with home slot `1` walks past the `k` edges before
it and takes the first free bucket, with the DIB `k + 1` as a `uint16_t`. -/
theorem ptx_colliding_loop (K k cap i : Nat) (hcap : cap = 2 ^ i) (hk : k + 1 < cap)
    (hk2 : k + 1 ≤ 65536) :
    ∀ (r p fuel : Nat), p + r = k + 1 → 1 ≤ p → r < fuel →
      ptx_edgemap_add0_loop fuel (ptx_colliding K k cap)
          { dib := p % 65536, kind := K, node := ptx_collider (k + 1) } p
        = some (ptx_colliding K (k + 1) cap) := by
  intro r
  induction r with
  | zero =>
    intro p fuel hp hp1 hf
    obtain ⟨f, rfl⟩ : ∃ f, fuel = f + 1 := ⟨fuel - 1, by omega⟩
    have hpk : p = k + 1 := by omega
    subst hpk
    unfold ptx_edgemap_add0_loop
    rw [ptx_colliding_get K k cap (k + 1) hk, if_neg (by omega)]
    simp only []
    rw [if_pos trivial, ptx_colliding_set K k cap hk]
    rfl
  | succ r ih =>
    intro p fuel hp hp1 hf
    obtain ⟨f, rfl⟩ : ∃ f, fuel = f + 1 := ⟨fuel - 1, by omega⟩
    have hpk : p ≤ k := by omega
    unfold ptx_edgemap_add0_loop
    rw [ptx_colliding_get K k cap p (by omega), if_pos ⟨hp1, hpk⟩]
    simp only []
    have hmod : p % 65536 = p := Nat.mod_eq_of_lt (by omega)
    rw [if_neg (by omega)]
    have hne : ¬ (ptx_edge_equal { dib := p % 65536, kind := K, node := ptx_collider p }
        { dib := p % 65536, kind := K, node := ptx_collider (k + 1) } = true) := by
      intro he
      have hk1 := (ptx_edge_equal_iff _ _).mp he
      have hn : ptx_collider p = ptx_collider (k + 1) := congrArg Prod.fst hk1
      have := ptx_collider_inj _ _ hn
      omega
    rw [if_neg hne, if_neg (Nat.lt_irrefl _), if_neg (Nat.lt_irrefl _)]
    have hidx : (p + 1) &&& ((ptx_colliding K k cap).nbuckets - 1) = p + 1 := by
      show (p + 1) &&& (cap - 1) = p + 1
      rw [hcap, ptx_and_mask, ← hcap]
      exact Nat.mod_eq_of_lt (by omega)
    rw [hidx]
    have hd : (p % 65536 + 1) % 65536 = (p + 1) % 65536 := by omega
    simp only [hd]
    exact ih (p + 1) f (by omega) (by omega) (by omega)

theorem ptx_colliding_add0 (K k cap i d : Nat) (hi1 : 1 ≤ i) (hi : i ≤ 17) (hcap : cap = 2 ^ i)
    (hk : k + 1 < cap) (hk2 : k + 1 ≤ 65536) :
    ptx_edgemap_add0 (ptx_colliding K k cap)
        { dib := d, kind := K, node := ptx_collider (k + 1) }
      = some (ptx_colliding K (k + 1) cap) := by
  unfold ptx_edgemap_add0
  have hidx : ptx_collider (k + 1) &&& ((ptx_colliding K k cap).nbuckets - 1) = 1 := by
    show ptx_collider (k + 1) &&& (cap - 1) = 1
    rw [hcap]
    exact ptx_collider_home (k + 1) i hi1 hi
  simp only []
  rw [hidx]
  exact ptx_colliding_loop K k cap i hcap hk hk2 k 1 cap (by omega) (le_refl _) (by omega)

/-! ## Edges that share the home slot: growth and `ptx_edgemap_add` -/

/-- The re-insertion loop of the growth, from bucket `s` of the old array on:
the edges come out in the order of their DIB and go in in that order. -/
theorem ptx_colliding_grow_loop (K k cap cap1 i : Nat) (hi1 : 1 ≤ i) (hi : i ≤ 17)
    (hcap1 : cap1 = 2 ^ i) (hk : k < cap1) (hk2 : k ≤ 65535) (hkc : k = 0 ∨ k < cap) :
    ∀ (r s : Nat), s + r = cap →
      ptx_edgemap_grow_loop (ptx_colliding K (min (s - 1) k) cap1)
          ((List.range' s r).map (fun p =>
            if 1 ≤ p ∧ p ≤ k then ({ dib := p % 65536, kind := K, node := ptx_collider p } : ptx_edge)
            else { dib := 0, kind := 0, node := 0 }))
        = some (ptx_colliding K k cap1) := by
  intro r
  induction r with
  | zero =>
    intro s hs
    have hm : min (s - 1) k = k := by
      rcases hkc with h | h
      · omega
      · omega
    rw [hm]
    rfl
  | succ r ih =>
    intro s hs
    rw [List.range'_succ, List.map_cons]
    unfold ptx_edgemap_grow_loop
    by_cases h1 : 1 ≤ s ∧ s ≤ k
    · rw [if_pos h1]
      have hd : s % 65536 ≠ 0 := by
        have : s % 65536 = s := Nat.mod_eq_of_lt (by omega)
        omega
      rw [if_pos hd]
      have hm : min (s - 1) k = s - 1 := by omega
      have hm1 : min (s + 1 - 1) k = s := by omega
      have hs1 : s - 1 + 1 = s := by omega
      have hadd := ptx_colliding_add0 K (s - 1) cap1 i (s % 65536) hi1 hi hcap1 (by omega) (by omega)
      rw [hs1] at hadd
      rw [hm, hadd]
      simp only []
      have := ih (s + 1) (by omega)
      rw [hm1] at this
      exact this
    · rw [if_neg h1]
      rw [if_neg (by simp)]
      have hm : min (s - 1) k = min (s + 1 - 1) k := by omega
      rw [hm]
      exact ih (s + 1) (by omega)

theorem ptx_colliding_take (K k cap : Nat) :
    (ptx_colliding K k cap).buckets.take (ptx_colliding K k cap).nbuckets
      = (List.range' 0 cap).map (fun p =>
          if 1 ≤ p ∧ p ≤ k then ({ dib := p % 65536, kind := K, node := ptx_collider p } : ptx_edge)
          else { dib := 0, kind := 0, node := 0 }) := by
  have h : (ptx_colliding K k cap).nbuckets = (ptx_colliding K k cap).buckets.length := by
    rw [ptx_colliding_length]
    rfl
  rw [h, List.take_length, ← List.range_eq_range']
  rfl

/-- The growth of a map of edges that share the home slot. -/
theorem ptx_colliding_grow (g : ptx_graph) (K k cap i : Nat) (hnf : ptx_never_fails g.malloc)
    (hi1 : 1 ≤ i) (hi : i ≤ 17) (hcap1 : (if cap = 0 then 2 else cap * 2) = 2 ^ i)
    (hk : k < (if cap = 0 then 2 else cap * 2)) (hk2 : k ≤ 65535) (hkc : k = 0 ∨ k < cap) :
    ∃ g1, ptx_edgemap_grow g (ptx_colliding K k cap)
        = some (g1, ptx_colliding K k (if cap = 0 then 2 else cap * 2), true) ∧
      g.same g1 ∧ ptx_never_fails g1.malloc := by
  obtain ⟨junk, ga, ha, sa, na⟩ := ptx_graph.alloc_never_fails g hnf
  have hloop := ptx_colliding_grow_loop K k cap (if cap = 0 then 2 else cap * 2) i hi1 hi hcap1 hk
    hk2 hkc cap 0 (by omega)
  have hm : min (0 - 1) k = 0 := by omega
  rw [hm, ← ptx_colliding_zero, ← ptx_colliding_take] at hloop
  unfold ptx_edgemap_grow
  rw [ha]
  simp only []
  have hn : (ptx_colliding K k cap).nbuckets = cap := rfl
  rw [hn] at hloop ⊢
  rw [hloop]
  simp only []
  by_cases h0 : cap ≠ 0
  · rw [if_pos h0]
    exact ⟨_, rfl, ptx_graph.same_trans _ _ _ sa (ptx_graph.same_release ga).1,
      ptx_never_fails_release ga na⟩
  · rw [if_neg h0]
    exact ⟨_, rfl, sa, na⟩

theorem ptx_capacity_pow (k cap : Nat) (h : ptx_capacity k cap) (hk : 0 < k) :
    ∃ i, 1 ≤ i ∧ i ≤ 17 ∧ cap = 2 ^ i ∧ 2 * k ≤ cap ∧ (cap = 2 ∨ cap < 4 * k) := by
  rcases h with ⟨h0, -⟩ | h
  · omega
  · exact h

/-- The capacity after one more entry. -/
theorem ptx_capacity_succ (k cap : Nat) (h : ptx_capacity k cap) (hk : k ≤ 65535) :
    ptx_capacity (k + 1) (if k = cap / 2 then (if cap = 0 then 2 else cap * 2) else cap) := by
  rcases h with ⟨h0, hc0⟩ | ⟨i, hi1, hi, hcap, h2, h4⟩
  · subst h0 hc0
    exact Or.inr ⟨1, le_refl _, by omega, by decide, by decide, Or.inl (by decide)⟩
  · have hev := ptx_pow_half i hi1
    have hge := ptx_two_le_pow i hi1
    by_cases hk2 : k = cap / 2
    · rw [if_pos hk2, if_neg (by omega)]
      have hi16 : i < 17 := by
        by_contra hge17
        have : (2 : Nat) ^ 17 ≤ 2 ^ i := Nat.pow_le_pow_right (by decide) (by omega)
        omega
      refine Or.inr ⟨i + 1, by omega, by omega, by rw [hcap, Nat.pow_succ], by omega,
        Or.inr (by omega)⟩
    · rw [if_neg hk2]
      refine Or.inr ⟨i, hi1, hi, hcap, by omega, ?_⟩
      rcases h4 with h | h
      · exact Or.inl h
      · exact Or.inr (by omega)

/-- One more edge with the same home slot, by `ptx_edgemap_add`: while the map
holds at most `65535` edges the new edge takes bucket `k + 1`; for `k = 65535`
its DIB of `65536` is stored as `0`. -/
theorem ptx_colliding_add (g : ptx_graph) (K kind k cap : Nat) (hnf : ptx_never_fails g.malloc)
    (hkind : kind % 65536 = K) (hc : ptx_capacity k cap) (hk : k ≤ 65535) :
    ∃ g1 cap1, ptx_edgemap_add g (ptx_colliding K k cap) (ptx_collider (k + 1)) kind
        = some (g1, ptx_colliding K (k + 1) cap1, true) ∧
      ptx_capacity (k + 1) cap1 ∧ g.same g1 ∧ ptx_never_fails g1.malloc := by
  have hc1 := ptx_capacity_succ k cap hc hk
  obtain ⟨i, hi1, hi, hcap, h2, h4⟩ := ptx_capacity_pow (k + 1) _ hc1 (by omega)
  unfold ptx_edgemap_add
  simp only []
  have hcount : (ptx_colliding K k cap).count = k := rfl
  have hnb : (ptx_colliding K k cap).nbuckets = cap := rfl
  rw [hcount, hnb, hkind]
  by_cases hg : k = cap / 2
  · rw [if_pos hg] at hc1 hcap h2 h4
    rw [if_pos hg]
    have hkc : k = 0 ∨ k < cap := by
      rcases hc with ⟨h0, -⟩ | ⟨j, hj1, -, hcj, hh2, -⟩
      · exact Or.inl h0
      · have := ptx_two_le_pow j hj1
        exact Or.inr (by omega)
    obtain ⟨g1, r1, r2, r3⟩ := ptx_colliding_grow g K k cap i hnf hi1 hi hcap (by omega) hk hkc
    rw [r1]
    simp only []
    rw [ptx_colliding_add0 K k _ i 0 hi1 hi hcap (by omega) (by omega)]
    exact ⟨g1, _, rfl, hc1, r2, r3⟩
  · rw [if_neg hg] at hc1 hcap h2 h4
    rw [if_neg hg]
    simp only []
    rw [ptx_colliding_add0 K k cap i 0 hi1 hi hcap (by omega) (by omega)]
    exact ⟨g, cap, rfl, hc1, ptx_graph.same_refl g, hnf⟩

/-- The additions of the edges to `ptx_collider (s + 1)`, ... to a map that
holds the edges to `ptx_collider 1`, ..., `ptx_collider s`. -/
theorem ptx_colliding_adds (K : Nat) (hK : K < 65536) :
    ∀ (r s cap : Nat) (g : ptx_graph), ptx_never_fails g.malloc → ptx_capacity s cap →
      s + r ≤ 65536 →
      ∃ g1 cap1, ptx_edgemap_adds g (ptx_colliding K s cap) (ptx_collider_adds K (s + 1) r)
          = some (g1, ptx_colliding K (s + r) cap1, true) ∧
        ptx_capacity (s + r) cap1 ∧ ptx_never_fails g1.malloc := by
  intro r
  induction r with
  | zero =>
    intro s cap g hnf hc _
    exact ⟨g, cap, rfl, hc, hnf⟩
  | succ r ih =>
    intro s cap g hnf hc hs
    obtain ⟨g1, cap1, a1, a2, -, a4⟩ := ptx_colliding_add g K K s cap hnf
      (Nat.mod_eq_of_lt hK) hc (by omega)
    obtain ⟨g2, cap2, b1, b2, b3⟩ := ih (s + 1) cap1 g1 a4 a2 (by omega)
    unfold ptx_collider_adds at b1 ⊢
    rw [List.range'_succ, List.map_cons]
    unfold ptx_edgemap_adds
    simp only []
    rw [a1]
    simp only []
    have e : s + 1 + r = s + (r + 1) := by omega
    rw [e] at b1 b2
    exact ⟨g2, cap2, b1, b2, b3⟩

/-! ## Edges that share the home slot: entries and count -/

theorem ptx_range_filter_length (k : Nat) :
    ∀ cap : Nat, ((List.range cap).filter (fun p => decide (1 ≤ p ∧ p ≤ k))).length
      = min (cap - 1) k := by
  intro cap
  induction cap with
  | zero => simp
  | succ c ih =>
    rw [List.range_succ, List.filter_append, List.length_append, ih]
    by_cases h : 1 ≤ c ∧ c ≤ k
    · have hd : decide (1 ≤ c ∧ c ≤ k) = true := by simp [h]
      simp only [List.filter_cons, hd, if_true, List.filter_nil, List.length_cons, List.length_nil]
      omega
    · have hd : decide (1 ≤ c ∧ c ≤ k) = false := by simp [h]
      simp only [List.filter_cons, hd, List.filter_nil, List.length_nil]
      have : (false = true) = False := by simp
      simp only [this, if_false, List.length_nil]
      omega

/-- The occupied buckets of a map of edges that share the home slot: the first
`65535` of them at most. -/
theorem ptx_colliding_used (K k cap : Nat) (hk : k ≤ 65536) :
    ((ptx_colliding K k cap).buckets.filter (fun b => decide (b.dib ≠ 0))).length
      = min (cap - 1) (min k 65535) := by
  unfold ptx_colliding
  simp only [List.filter_map, List.length_map]
  rw [← ptx_range_filter_length (min k 65535) cap]
  congr 1
  apply List.filter_congr
  intro p _
  simp only [Function.comp]
  apply decide_eq_decide.mpr
  by_cases h1 : 1 ≤ p ∧ p ≤ k
  · rw [if_pos h1]
    simp only []
    by_cases h2 : p ≤ 65535
    · have hm : p % 65536 = p := Nat.mod_eq_of_lt (by omega)
      rw [hm]
      omega
    · have hp : p = 65536 := by omega
      subst hp
      constructor
      · intro h
        exact absurd rfl h
      · intro h
        omega
  · rw [if_neg h1]
    simp only []
    constructor
    · intro h
      exact absurd rfl h
    · intro h
      omega

/-- The entries of a map of edges that share the home slot. -/
theorem ptx_colliding_keys (K k cap : Nat) (x : Nat × Nat) :
    x ∈ ptx_edgemap_keys (ptx_colliding K k cap) ↔
      ∃ p, 1 ≤ p ∧ p ≤ k ∧ p < cap ∧ p % 65536 ≠ 0 ∧ x = (ptx_collider p, K) := by
  rw [ptx_edgemap_keys_eq _ (by rw [ptx_colliding_length]; rfl)]
  simp only [List.mem_map, List.mem_filter]
  constructor
  · rintro ⟨b, ⟨hb, hu⟩, rfl⟩
    obtain ⟨p, hp⟩ := List.getElem?_of_mem hb
    have hpc : p < cap := by
      have := (List.getElem?_eq_some.mp hp).1
      rw [ptx_colliding_length] at this
      exact this
    rw [ptx_colliding_get K k cap p hpc] at hp
    have hd := (ptx_edge.used_iff b).mp hu
    by_cases h1 : 1 ≤ p ∧ p ≤ k
    · rw [if_pos h1] at hp
      cases hp
      exact ⟨p, h1.1, h1.2, hpc, hd, rfl⟩
    · rw [if_neg h1] at hp
      cases hp
      exact absurd rfl hd
  · rintro ⟨p, h1, h2, h3, h4, rfl⟩
    refine ⟨{ dib := p % 65536, kind := K, node := ptx_collider p }, ⟨?_, ?_⟩, rfl⟩
    · apply List.getElem?_mem (n := p)
      rw [ptx_colliding_get K k cap p h3, if_pos ⟨h1, h2⟩]
    · exact (ptx_edge.used_iff _).mpr h4

theorem ptx_capacity_full (cap : Nat) (h : ptx_capacity 65536 cap) : cap = 131072 := by
  obtain ⟨i, hi1, hi, hcap, h2, h4⟩ := ptx_capacity_pow 65536 cap h (by omega)
  have hi17 : i = 17 := by
    by_contra hne
    have : (2 : Nat) ^ i ≤ 2 ^ 16 := Nat.pow_le_pow_right (by decide) (by omega)
    omega
  rw [hcap, hi17]
  rfl

/-! ## Properties that every call keeps -/

theorem ptx_node_read_loop_keeps (I : ptx_graph → Prop) (hI : ptx_stable I) (node hash : Nat) :
    ∀ (others : List Nat) (g g1 : ptx_graph), ptx_wf g → I g →
      ptx_node_read_loop node hash g others = some g1 → I g1 := by
  intro others
  induction others with
  | nil =>
    intro g g1 _ hi h
    simp [ptx_node_read_loop] at h
    subst h
    exact hi
  | cons other rest ih =>
    intro g g1 hw hi h
    unfold ptx_node_read_loop at h
    by_cases hne : other ≠ node
    · rw [if_pos hne] at h
      cases hfo : g.find other with
      | none => rw [hfo] at h; simp at h
      | some o =>
        rw [hfo] at h
        simp only [] at h
        cases ht : ptx_hashset_test o.writes hash with
        | none => rw [ht] at h; simp at h
        | some r =>
          rw [ht] at h
          cases r with
          | false => exact ih g g1 hw hi h
          | true =>
            simp only [] at h
            cases had : ptx_node_adddep g other node PTX_WR with
            | none => rw [had] at h; simp at h
            | some r2 =>
              obtain ⟨g2, ok⟩ := r2
              obtain ⟨w2, -⟩ := ptx_node_adddep_wf g g2 other node PTX_WR ok hw had
              have i2 := hI.2.2.1 g g2 other node PTX_WR ok hw hi had
              rw [had] at h
              cases ok with
              | false =>
                simp only [Option.some.injEq] at h
                rw [← h]
                exact hI.2.1 g2 node _ w2 i2 (fun _ => ⟨rfl, rfl, rfl⟩)
              | true =>
                simp only [] at h
                exact ih g2 g1 w2 i2 h
    · rw [if_neg hne] at h
      exact ih g g1 hw hi h

theorem ptx_node_read_keeps (I : ptx_graph → Prop) (hI : ptx_stable I) (g g1 : ptx_graph)
    (node hash : Nat) (hw : ptx_wf g) (hi : I g) (h : ptx_node_read g node hash = some g1) :
    I g1 := by
  unfold ptx_node_read at h
  cases hf : g.find node with
  | none => rw [hf] at h; simp at h
  | some n =>
    rw [hf] at h
    simp only [] at h
    by_cases hnm : n.state = PTX_NOMEM
    · rw [if_pos hnm] at h
      cases h
      exact hi
    · rw [if_neg hnm] at h
      by_cases hac : n.state = PTX_ACTIVE
      · rw [if_pos hac] at h
        cases hadd : ptx_hashset_add g n.reads hash with
        | none => rw [hadd] at h; simp at h
        | some r =>
          obtain ⟨g2, reads1, ok⟩ := r
          obtain ⟨hsame, hnf⟩ := ptx_hashset_add_same g g2 n.reads reads1 hash ok hadd
          obtain ⟨w2, -⟩ := ptx_wf_of_same g g2 hw hsame
          have i2 := hI.1 g g2 hw hi hsame hnf
          rw [hadd] at h
          cases ok with
          | false =>
            simp only [Option.some.injEq] at h
            rw [← h]
            exact hI.2.1 g2 node _ w2 i2 (fun _ => ⟨rfl, rfl, rfl⟩)
          | true =>
            simp only [] at h
            obtain ⟨w3, -⟩ := ptx_wf_update_frame g2 node
              (fun x => { x with reads := reads1, hasreads := true }) w2
              (fun _ => ⟨rfl, rfl, rfl⟩)
            have i3 := hI.2.1 g2 node (fun x => { x with reads := reads1, hasreads := true })
              w2 i2 (fun _ => ⟨rfl, rfl, rfl⟩)
            exact ptx_node_read_loop_keeps I hI node hash _ _ g1 w3 i3 h
      · rw [if_neg hac] at h
        simp at h

theorem ptx_node_write_ww_keeps (I : ptx_graph → Prop) (hI : ptx_stable I) (g g1 : ptx_graph)
    (node hash other : Nat) (ok : Bool) (hw : ptx_wf g) (hi : I g)
    (h : ptx_node_write_ww node hash other g = some (g1, ok)) : I g1 := by
  unfold ptx_node_write_ww at h
  cases hfo : g.find other with
  | none => rw [hfo] at h; simp at h
  | some o =>
    rw [hfo] at h
    simp only [] at h
    cases ht : ptx_hashset_test o.writes hash with
    | none => rw [ht] at h; simp at h
    | some r =>
      rw [ht] at h
      cases r with
      | false =>
        simp only [Option.some.injEq, Prod.mk.injEq] at h
        rw [← h.1]
        exact hi
      | true =>
        simp only [] at h
        cases had : ptx_node_adddep g other node PTX_WW with
        | none => rw [had] at h; simp at h
        | some r2 =>
          obtain ⟨g2, ok2⟩ := r2
          obtain ⟨w2, -⟩ := ptx_node_adddep_wf g g2 other node PTX_WW ok2 hw had
          have i2 := hI.2.2.1 g g2 other node PTX_WW ok2 hw hi had
          rw [had] at h
          cases ok2 with
          | false =>
            simp only [Option.some.injEq, Prod.mk.injEq] at h
            rw [← h.1]
            exact i2
          | true =>
            simp only [] at h
            exact hI.2.2.1 g2 g1 node other PTX_WW ok w2 i2 h

theorem ptx_node_write_loop_keeps (I : ptx_graph → Prop) (hI : ptx_stable I) (node hash : Nat) :
    ∀ (others : List Nat) (g g1 : ptx_graph), ptx_wf g → I g →
      ptx_node_write_loop node hash g others = some g1 → I g1 := by
  intro others
  induction others with
  | nil =>
    intro g g1 _ hi h
    simp [ptx_node_write_loop] at h
    subst h
    exact hi
  | cons other rest ih =>
    intro g g1 hw hi h
    unfold ptx_node_write_loop at h
    by_cases hne : other ≠ node
    · rw [if_pos hne] at h
      cases hfo : g.find other with
      | none => rw [hfo] at h; simp at h
      | some o =>
        rw [hfo] at h
        simp only [] at h
        cases ht : ptx_hashset_test o.reads hash with
        | none => rw [ht] at h; simp at h
        | some r =>
          rw [ht] at h
          simp only [] at h
          have key : ∀ (g2 : ptx_graph) (ok2 : Bool), ptx_wf g2 → I g2 →
              (match (some (g2, ok2) : Option (ptx_graph × Bool)) with
                | none => none
                | some (g1, false) =>
                  some (g1.update node (fun x => { x with state := PTX_NOMEM }))
                | some (g1, true) =>
                  match ptx_node_write_ww node hash other g1 with
                  | none => none
                  | some (g2, false) =>
                    some (g2.update node (fun x => { x with state := PTX_NOMEM }))
                  | some (g2, true) => ptx_node_write_loop node hash g2 rest) = some g1 →
              I g1 := by
            intro g2 ok2 w2 i2 h2
            cases ok2 with
            | false =>
              simp only [Option.some.injEq] at h2
              rw [← h2]
              exact hI.2.1 g2 node _ w2 i2 (fun _ => ⟨rfl, rfl, rfl⟩)
            | true =>
              simp only [] at h2
              cases hww : ptx_node_write_ww node hash other g2 with
              | none => rw [hww] at h2; simp at h2
              | some r3 =>
                obtain ⟨g3, ok3⟩ := r3
                obtain ⟨w3, -⟩ := ptx_node_write_ww_wf g2 g3 node hash other ok3 w2 hww
                have i3 := ptx_node_write_ww_keeps I hI g2 g3 node hash other ok3 w2 i2 hww
                rw [hww] at h2
                cases ok3 with
                | false =>
                  simp only [Option.some.injEq] at h2
                  rw [← h2]
                  exact hI.2.1 g3 node _ w3 i3 (fun _ => ⟨rfl, rfl, rfl⟩)
                | true =>
                  simp only [] at h2
                  exact ih g3 g1 w3 i3 h2
          cases r with
          | false =>
            simp only [Bool.false_eq_true, if_false] at h
            exact key g true hw hi h
          | true =>
            simp only [if_true] at h
            cases had : ptx_node_adddep g other node PTX_RW with
            | none => rw [had] at h; simp at h
            | some r2 =>
              obtain ⟨g2, ok2⟩ := r2
              obtain ⟨w2, -⟩ := ptx_node_adddep_wf g g2 other node PTX_RW ok2 hw had
              have i2 := hI.2.2.1 g g2 other node PTX_RW ok2 hw hi had
              rw [had] at h
              exact key g2 ok2 w2 i2 h
    · rw [if_neg hne] at h
      exact ih g g1 hw hi h

theorem ptx_node_write_keeps (I : ptx_graph → Prop) (hI : ptx_stable I) (g g1 : ptx_graph)
    (node hash : Nat) (hw : ptx_wf g) (hi : I g) (h : ptx_node_write g node hash = some g1) :
    I g1 := by
  unfold ptx_node_write at h
  cases hf : g.find node with
  | none => rw [hf] at h; simp at h
  | some n =>
    rw [hf] at h
    simp only [] at h
    by_cases hnm : n.state = PTX_NOMEM
    · rw [if_pos hnm] at h
      cases h
      exact hi
    · rw [if_neg hnm] at h
      by_cases hac : n.state = PTX_ACTIVE
      · rw [if_pos hac] at h
        cases hadd : ptx_hashset_add g n.writes hash with
        | none => rw [hadd] at h; simp at h
        | some r =>
          obtain ⟨g2, writes1, ok⟩ := r
          obtain ⟨hsame, hnf⟩ := ptx_hashset_add_same g g2 n.writes writes1 hash ok hadd
          obtain ⟨w2, -⟩ := ptx_wf_of_same g g2 hw hsame
          have i2 := hI.1 g g2 hw hi hsame hnf
          rw [hadd] at h
          cases ok with
          | false =>
            simp only [Option.some.injEq] at h
            rw [← h]
            exact hI.2.1 g2 node _ w2 i2 (fun _ => ⟨rfl, rfl, rfl⟩)
          | true =>
            simp only [] at h
            obtain ⟨w3, -⟩ := ptx_wf_update_frame g2 node
              (fun x => { x with writes := writes1, haswrites := true }) w2
              (fun _ => ⟨rfl, rfl, rfl⟩)
            have i3 := hI.2.1 g2 node (fun x => { x with writes := writes1, haswrites := true })
              w2 i2 (fun _ => ⟨rfl, rfl, rfl⟩)
            exact ptx_node_write_loop_keeps I hI node hash _ _ g1 w3 i3 h
      · rw [if_neg hac] at h
        simp at h

theorem ptx_node_deactivate_keeps (I : ptx_graph → Prop) (hI : ptx_stable I) (g g1 : ptx_graph)
    (node state : Nat) (hw : ptx_wf g) (hi : I g)
    (h : ptx_node_deactivate g node state = some g1) : I g1 := by
  unfold ptx_node_deactivate at h
  cases hf : g.find node with
  | none => rw [hf] at h; simp at h
  | some n =>
    rw [hf] at h
    simp only [] at h
    have hoff : ¬ (g.update node (fun x => { x with state := state })).autogc > 0 := by
      have := hw.1
      show ¬ g.autogc > 0
      omega
    rw [if_neg hoff] at h
    simp only [Option.some.injEq] at h
    rw [← h]
    exact hI.2.1 g node _ hw hi (fun _ => ⟨rfl, rfl, rfl⟩)

theorem ptx_node_rollback_keeps (I : ptx_graph → Prop) (hI : ptx_stable I) (g g1 : ptx_graph)
    (node : Nat) (hw : ptx_wf g) (hi : I g) (h : ptx_node_rollback g node = some g1) : I g1 := by
  unfold ptx_node_rollback at h
  cases hf : g.find node with
  | none => rw [hf] at h; simp at h
  | some n =>
    rw [hf] at h
    simp only [] at h
    by_cases hs : n.state = PTX_ACTIVE ∨ n.state = PTX_NOMEM
    · rw [if_pos hs] at h
      exact ptx_node_deactivate_keeps I hI g g1 node _ hw hi h
    · rw [if_neg hs] at h
      simp at h

theorem ptx_node_commit_keeps (I : ptx_graph → Prop) (hI : ptx_stable I) (g : ptx_graph)
    (node : Nat) (r : ptx_commit_result) (hw : ptx_wf g) (hi : I g)
    (h : ptx_node_commit g node = some r) : I r.graph := by
  unfold ptx_node_commit at h
  cases hf : g.find node with
  | none => rw [hf] at h; simp at h
  | some n =>
    rw [hf] at h
    simp only [] at h
    by_cases hnm : n.state = PTX_NOMEM
    · rw [if_pos hnm] at h
      cases hd : ptx_node_deactivate g node PTX_ROLLEDBACK with
      | none => rw [hd] at h; simp at h
      | some g1 =>
        rw [hd] at h
        simp only [Option.some.injEq] at h
        rw [← h]
        exact ptx_node_deactivate_keeps I hI g g1 node _ hw hi hd
    · rw [if_neg hnm] at h
      by_cases hac : n.state = PTX_ACTIVE
      · rw [if_pos hac] at h
        cases hsc : ptx_node_commit_scan g (ptx_edgemap_edges n.outs) with
        | none => rw [hsc] at h; simp at h
        | some ab =>
          rw [hsc] at h
          cases ab with
          | true =>
            simp only [] at h
            cases hd : ptx_node_deactivate g node PTX_ROLLEDBACK with
            | none => rw [hd] at h; simp at h
            | some g1 =>
              rw [hd] at h
              simp only [Option.some.injEq] at h
              rw [← h]
              exact ptx_node_deactivate_keeps I hI g g1 node _ hw hi hd
          | false =>
            simp only [] at h
            cases hd : ptx_node_deactivate g node PTX_COMMITTED with
            | none => rw [hd] at h; simp at h
            | some g1 =>
              rw [hd] at h
              simp only [Option.some.injEq] at h
              rw [← h]
              exact ptx_node_deactivate_keeps I hI g g1 node _ hw hi hd
      · rw [if_neg hac] at h
        simp at h

theorem ptx_apply_keeps (I : ptx_graph → Prop) (hI : ptx_stable I) (g g1 : ptx_graph)
    (op : ptx_op) (hw : ptx_wf g) (hlen : g.ident + 1 < 2 ^ 64) (hi : I g)
    (hop : op ≠ ptx_op.gc) (h : ptx_apply g op = some g1) : I g1 := by
  cases op with
  | begin =>
    simp only [ptx_apply, Option.map_eq_some'] at h
    obtain ⟨⟨g2, r⟩, hb, rfl⟩ := h
    exact hI.2.2.2 g g2 r hw hlen hi hb
  | read node hash => exact ptx_node_read_keeps I hI g g1 node _ hw hi h
  | write node hash => exact ptx_node_write_keeps I hI g g1 node _ hw hi h
  | commit node =>
    simp only [ptx_apply, Option.map_eq_some'] at h
    obtain ⟨r, hc, rfl⟩ := h
    exact ptx_node_commit_keeps I hI g node r hw hi hc
  | rollback node => exact ptx_node_rollback_keeps I hI g g1 node hw hi h
  | gc => exact absurd rfl hop

/-- A stable property that holds before a sequence of calls without the
collector holds after it. -/
theorem ptx_run_keeps (I : ptx_graph → Prop) (hI : ptx_stable I) :
    ∀ (ops : List ptx_op) (g g1 : ptx_graph), ptx_wf g → g.ident + ops.length < 2 ^ 64 →
      ptx_op.gc ∉ ops → I g → ptx_run g ops = some g1 → I g1 := by
  intro ops
  induction ops with
  | nil =>
    intro g g1 _ _ _ hi h
    simp [ptx_run] at h
    subst h
    exact hi
  | cons op rest ih =>
    intro g g1 hw hlen hgc hi h
    unfold ptx_run at h
    simp only [List.length_cons] at hlen
    cases hap : ptx_apply g op with
    | none => rw [hap] at h; simp at h
    | some g2 =>
      rw [hap] at h
      simp only [] at h
      have hop : op ≠ ptx_op.gc := fun e => hgc (by rw [e]; exact List.mem_cons_self _ _)
      obtain ⟨w2, l2⟩ := ptx_apply_wf g g2 op hw (by omega) hap
      exact ih g2 g1 w2 (by omega) (fun hm => hgc (List.mem_cons_of_mem _ hm))
        (ptx_apply_keeps I hI g g2 op hw (by omega) hi hop hap) h

/-- A stable property that holds of the new graph holds in every state reached
without the collector. -/
theorem ptx_trace_keeps (I : ptx_graph → Prop) (hI : ptx_stable I) (opts : ptx_graph_opts)
    (ops : List ptx_op) (g : ptx_graph) (hlen : ops.length < 2 ^ 64) (hgc : ptx_op.gc ∉ ops)
    (h0 : ∀ g0, ptx_graph_new opts = some g0 → I g0) (hrun : ptx_trace opts ops = some g) :
    I g := by
  unfold ptx_trace at hrun
  cases hnew : ptx_graph_new opts with
  | none => rw [hnew] at hrun; simp at hrun
  | some g0 =>
    rw [hnew] at hrun
    simp only [] at hrun
    obtain ⟨w0, i0⟩ := ptx_graph_new_wf opts g0 hnew
    exact ptx_run_keeps I hI ops g0 g w0 (by rw [i0]; omega) hgc (h0 g0 hnew) hrun

/-! ## `ptx_edgemap_add`: what the allocator decides and what it does not -/

/-- The two ways in which `ptx_edgemap_add` returns: false, when the map is full
and the allocation of the growth fails, and then the map is as before; or true,
after `ptx_edgemap_add0` on the map or on the grown map. -/
theorem ptx_edgemap_add_cases (g g1 : ptx_graph) (map map1 : ptx_edgemap) (node kind : Nat)
    (ok : Bool) (h : ptx_edgemap_add g map node kind = some (g1, map1, ok)) :
    (ok = false ∧ map1 = map ∧ g.alloc.1 = none) ∨
    (ok = true ∧ ∃ map0,
      ptx_edgemap_add0 map0 { dib := 0, kind := kind % 65536, node := node } = some map1 ∧
      ((map.count ≠ map.nbuckets / 2 ∧ map0 = map) ∨
        (map.count = map.nbuckets / 2 ∧ (∃ junk, g.alloc.1 = some junk) ∧
          ptx_edgemap_grow_loop
            (ptx_edgemap_zeroed (if map.nbuckets = 0 then 2 else map.nbuckets * 2))
            (map.buckets.take map.nbuckets) = some map0))) := by
  unfold ptx_edgemap_add at h
  simp only [] at h
  by_cases hc : map.count = map.nbuckets / 2
  · rw [if_pos hc] at h
    unfold ptx_edgemap_grow at h
    rcases hal : g.alloc with ⟨o, ga⟩
    rw [hal] at h
    cases o with
    | none =>
      simp only [Option.some.injEq, Prod.mk.injEq] at h
      exact Or.inl ⟨h.2.2.symm, h.2.1.symm, rfl⟩
    | some junk =>
      simp only [] at h
      cases hl : ptx_edgemap_grow_loop
          (ptx_edgemap_zeroed (if map.nbuckets = 0 then 2 else map.nbuckets * 2))
          (map.buckets.take map.nbuckets) with
      | none => rw [hl] at h; simp at h
      | some map0 =>
        rw [hl] at h
        simp only [] at h
        cases h0 : ptx_edgemap_add0 map0 { dib := 0, kind := kind % 65536, node := node } with
        | none => rw [h0] at h; simp at h
        | some map2 =>
          rw [h0] at h
          simp only [Option.some.injEq, Prod.mk.injEq] at h
          refine Or.inr ⟨h.2.2.symm, map0, ?_, Or.inr ⟨hc, ⟨junk, rfl⟩, rfl⟩⟩
          rw [← h.2.1]
          exact h0
  · rw [if_neg hc] at h
    simp only [] at h
    cases h0 : ptx_edgemap_add0 map { dib := 0, kind := kind % 65536, node := node } with
    | none => rw [h0] at h; simp at h
    | some map2 =>
      rw [h0] at h
      simp only [Option.some.injEq, Prod.mk.injEq] at h
      refine Or.inr ⟨h.2.2.symm, map, ?_, Or.inl ⟨hc, rfl⟩⟩
      rw [← h.2.1]
      exact h0

theorem ptx_edgemap_add_false (g g1 : ptx_graph) (map map1 : ptx_edgemap) (node kind : Nat)
    (h : ptx_edgemap_add g map node kind = some (g1, map1, false)) : map1 = map := by
  rcases ptx_edgemap_add_cases g g1 map map1 node kind false h with ⟨-, h2, -⟩ | ⟨h1, -⟩
  · exact h2
  · cases h1

theorem ptx_edgemap_add_nf (g g1 : ptx_graph) (map map1 : ptx_edgemap) (node kind : Nat)
    (ok : Bool) (h : ptx_edgemap_add g map node kind = some (g1, map1, ok))
    (hnf : ptx_never_fails g.malloc) : ok = true := by
  rcases ptx_edgemap_add_cases g g1 map map1 node kind ok h with ⟨-, -, h3⟩ | ⟨h1, -⟩
  · obtain ⟨junk, ga, ha, -⟩ := ptx_graph.alloc_never_fails g hnf
    rw [ha] at h3
    cases h3
  · exact h1

/-- What a call of `ptx_edgemap_add` that returns true makes of the map does not
depend on the allocator. -/
theorem ptx_edgemap_add_indep (g g1 h1 h2 : ptx_graph) (map map1 map2 : ptx_edgemap)
    (node kind : Nat) (ha : ptx_edgemap_add g map node kind = some (g1, map1, true))
    (hb : ptx_edgemap_add h1 map node kind = some (h2, map2, true)) : map2 = map1 := by
  rcases ptx_edgemap_add_cases g g1 map map1 node kind true ha with ⟨a1, -⟩ | ⟨-, ma, a0, am⟩
  · cases a1
  · rcases ptx_edgemap_add_cases h1 h2 map map2 node kind true hb with ⟨b1, -⟩ | ⟨-, mb, b0, bm⟩
    · cases b1
    · have hmm : mb = ma := by
        rcases am with ⟨c1, e1⟩ | ⟨c1, -, l1⟩
        · rcases bm with ⟨-, e2⟩ | ⟨c2, -, -⟩
          · rw [e1, e2]
          · exact absurd c2 c1
        · rcases bm with ⟨c2, -⟩ | ⟨-, -, l2⟩
          · exact absurd c1 c2
          · rw [l1] at l2
            exact (Option.some.inj l2).symm
      rw [hmm, a0] at b0
      exact (Option.some.inj b0).symm

/-! ## One addition to a map in Robin-Hood order, with any allocator -/

/-- A call of `ptx_edgemap_add` that returns true on a map in Robin-Hood shape
with fewer than `65535` entries: the shape is kept, the entries are the old
ones and the pair added, and the count grows by one exactly when the pair is
new. -/
theorem ptx_edgemap_add_step (g g1 : ptx_graph) (map map1 : ptx_edgemap) (node kind : Nat)
    (hr : map.robin) (hsm : map.count < 65535)
    (h : ptx_edgemap_add g map node kind = some (g1, map1, true)) :
    map1.robin ∧
    (∀ y, y ∈ ptx_edgemap_keys map1 ↔ (y ∈ ptx_edgemap_keys map ∨ y = (node, kind % 65536))) ∧
    ((node, kind % 65536) ∈ ptx_edgemap_keys map → ptx_edgemap_count map1 = ptx_edgemap_count map) ∧
    ((node, kind % 65536) ∉ ptx_edgemap_keys map →
      ptx_edgemap_count map1 = ptx_edgemap_count map + 1) := by
  obtain ⟨g2, map2, a1, -, a3, a4, a5⟩ := ptx_edgemap_add_robin { g with malloc := [] } map
    node kind (fun x hx => by cases hx) hr hsm
  have he := ptx_edgemap_add_indep _ _ _ _ map map1 map2 node kind h a1
  subst he
  obtain ⟨k1, -, -⟩ := ptx_robin_keys map hr
  obtain ⟨m1, -, -⟩ := ptx_robin_keys map2 a3
  refine ⟨a3, ?_, ?_, ?_⟩
  · intro y
    rw [m1, k1]
    by_cases hm : (node, kind % 65536) ∈ ptx_bucket_keys map.buckets
    · rw [List.Perm.mem_iff (a4 hm).1]
      constructor
      · exact fun hy => Or.inl hy
      · rintro (hy | hy)
        · exact hy
        · rw [hy]; exact hm
    · rw [List.Perm.mem_iff (a5 hm).1, List.mem_cons]
      exact or_comm
  · intro hm
    rw [k1] at hm
    exact (a4 hm).2
  · intro hm
    rw [k1] at hm
    exact (a5 hm).2

/-! ## Maps reached by additions -/

theorem ptx_gains_snoc :
    ∀ (l : List (Nat × Nat)) (map map1 map2 : ptx_edgemap) (g ga : ptx_graph) (node kind : Nat),
      map.gains l map1 → ptx_edgemap_add g map1 node kind = some (ga, map2, true) →
      map.gains (l ++ [(node, kind % 65536)]) map2 := by
  intro l
  induction l with
  | nil =>
    intro map map1 map2 g ga node kind h1 h2
    simp only [ptx_edgemap.gains] at h1
    subst h1
    exact ⟨g, ga, map2, kind, rfl, h2, rfl⟩
  | cons x rest ih =>
    intro map map1 map2 g ga node kind h1 h2
    obtain ⟨g0, g0a, mid, k0, e1, e2, e3⟩ := h1
    exact ⟨g0, g0a, mid, k0, e1, e2, ih mid map1 map2 g ga node kind e3 h2⟩

/-! ## Entries of any map after an addition -/

/-- Whatever the state of the bucket array, the entries after a call of
`ptx_edgemap_add` are among the old entries and the pair added. -/
theorem ptx_edgemap_add_sub (g g1 : ptx_graph) (map map1 : ptx_edgemap) (node kind : Nat)
    (ok : Bool) (h : ptx_edgemap_add g map node kind = some (g1, map1, ok))
    (hl : map.buckets.length = map.nbuckets) :
    map1.buckets.length = map1.nbuckets ∧
    ∀ x ∈ ptx_edgemap_keys map1, x ∈ ptx_edgemap_keys map ∨ x = (node, kind % 65536) := by
  rcases ptx_edgemap_add_cases g g1 map map1 node kind ok h with ⟨-, h2, -⟩ | ⟨-, map0, h0, hm⟩
  · subst h2
    exact ⟨hl, fun x hx => Or.inl hx⟩
  · obtain ⟨s1, s2⟩ := ptx_edgemap_add0_loop_shape _ _ _ _ _ h0
    have hsub := ptx_edgemap_add0_loop_sub _ _ _ _ _ h0
    rcases hm with ⟨-, e⟩ | ⟨-, -, hloop⟩
    · subst e
      have hl1 : map1.buckets.length = map1.nbuckets := by rw [s1, s2, hl]
      refine ⟨hl1, fun x hx => ?_⟩
      rw [ptx_edgemap_keys_eq map1 hl1] at hx
      rw [ptx_edgemap_keys_eq map0 hl]
      exact hsub x hx
    · obtain ⟨t1, t2⟩ := ptx_edgemap_grow_loop_shape _ _ _ hloop
      have hl0 : map0.buckets.length = map0.nbuckets := by
        rw [t1, t2]; simp [ptx_edgemap_zeroed]
      have hl1 : map1.buckets.length = map1.nbuckets := by rw [s1, s2, hl0]
      refine ⟨hl1, fun x hx => ?_⟩
      rw [ptx_edgemap_keys_eq map1 hl1] at hx
      rw [ptx_edgemap_keys_eq map hl]
      rcases hsub x hx with h1 | h1
      · left
        have htake : List.take map.nbuckets map.buckets = map.buckets := by
          rw [← hl]; exact List.take_length _
        rcases ptx_edgemap_grow_loop_sub _ _ _ hloop x h1 with h2 | h2
        · exfalso
          simp only [ptx_edgemap_zeroed, List.mem_map, List.mem_filter] at h2
          obtain ⟨e, ⟨he, hu⟩, -⟩ := h2
          have := List.eq_of_mem_replicate he
          subst this
          simp [ptx_edge.used] at hu
        · rw [htake] at h2
          exact h2
      · exact Or.inr h1

theorem ptx_edgemap_add_keeps_nf (g g1 : ptx_graph) (map map1 : ptx_edgemap) (node kind : Nat)
    (ok : Bool) (h : ptx_edgemap_add g map node kind = some (g1, map1, ok))
    (hnf : ptx_never_fails g.malloc) : ptx_never_fails g1.malloc := by
  unfold ptx_edgemap_add at h
  simp only [] at h
  by_cases hc : map.count = map.nbuckets / 2
  · rw [if_pos hc] at h
    unfold ptx_edgemap_grow at h
    have ha := (ptx_graph.alloc_same g).2 hnf
    rcases hal : g.alloc with ⟨o, ga⟩
    rw [hal] at h ha
    simp only [] at ha
    cases o with
    | none =>
      simp only [Option.some.injEq, Prod.mk.injEq] at h
      rw [← h.1]
      exact ha
    | some junk =>
      simp only [] at h
      cases hl : ptx_edgemap_grow_loop
          (ptx_edgemap_zeroed (if map.nbuckets = 0 then 2 else map.nbuckets * 2))
          (map.buckets.take map.nbuckets) with
      | none => rw [hl] at h; simp at h
      | some map0 =>
        rw [hl] at h
        simp only [] at h
        cases h0 : ptx_edgemap_add0 map0 { dib := 0, kind := kind % 65536, node := node } with
        | none => rw [h0] at h; simp at h
        | some map2 =>
          rw [h0] at h
          simp only [Option.some.injEq, Prod.mk.injEq] at h
          rw [← h.1]
          split
          · exact ha
          · exact ha
  · rw [if_neg hc] at h
    simp only [] at h
    cases h0 : ptx_edgemap_add0 map { dib := 0, kind := kind % 65536, node := node } with
    | none => rw [h0] at h; simp at h
    | some map2 =>
      rw [h0] at h
      simp only [Option.some.injEq, Prod.mk.injEq] at h
      rw [← h.1]
      exact hnf

/-- A call that returned true with one allocator returns true, with the same
map, with every allocator that does not fail. -/
theorem ptx_edgemap_add_transfer (g0 g1 g : ptx_graph) (map map1 : ptx_edgemap) (node kind : Nat)
    (h : ptx_edgemap_add g0 map node kind = some (g1, map1, true))
    (hnf : ptx_never_fails g.malloc) :
    ∃ g2, ptx_edgemap_add g map node kind = some (g2, map1, true) ∧ g.same g2 ∧
      ptx_never_fails g2.malloc := by
  rcases ptx_edgemap_add_cases g0 g1 map map1 node kind true h with ⟨a1, -⟩ | ⟨-, map0, h0, hm⟩
  · cases a1
  · have hgoal : ∃ g2, ptx_edgemap_add g map node kind = some (g2, map1, true) := by
      unfold ptx_edgemap_add
      simp only []
      rcases hm with ⟨c1, e⟩ | ⟨c1, -, hloop⟩
      · subst e
        rw [if_neg c1]
        simp only []
        rw [h0]
        exact ⟨_, rfl⟩
      · rw [if_pos c1]
        unfold ptx_edgemap_grow
        obtain ⟨junk, ga, ha, -, -⟩ := ptx_graph.alloc_never_fails g hnf
        rw [ha]
        simp only []
        rw [hloop]
        simp only []
        rw [h0]
        exact ⟨_, rfl⟩
    obtain ⟨g2, hg2⟩ := hgoal
    exact ⟨g2, hg2, (ptx_edgemap_add_any g g2 map map1 node kind true hg2).1,
      ptx_edgemap_add_keeps_nf g g2 map map1 node kind true hg2 hnf⟩

/-- Whatever its size, a map reached by additions from the empty map has a bucket
array of `nbuckets` buckets and no entry other than the pairs added. -/
theorem ptx_gains_sub :
    ∀ (l : List (Nat × Nat)) (map map1 : ptx_edgemap), map.buckets.length = map.nbuckets →
      map.gains l map1 →
      map1.buckets.length = map1.nbuckets ∧
      ∀ y ∈ ptx_edgemap_keys map1, y ∈ ptx_edgemap_keys map ∨ y ∈ l := by
  intro l
  induction l with
  | nil =>
    intro map map1 hl h
    simp only [ptx_edgemap.gains] at h
    subst h
    exact ⟨hl, fun y hy => Or.inl hy⟩
  | cons x rest ih =>
    intro map map1 hl h
    obtain ⟨g0, g0a, mid, k0, e1, e2, e3⟩ := h
    obtain ⟨s1, s2⟩ := ptx_edgemap_add_sub g0 g0a map mid x.1 k0 true e2 hl
    obtain ⟨r1, r2⟩ := ih mid map1 s1 e3
    refine ⟨r1, fun y hy => ?_⟩
    rcases r2 y hy with h1 | h1
    · rcases s2 y h1 with h2 | h2
      · exact Or.inl h2
      · right
        rw [h2, e1]
        exact List.mem_cons_self _ _
    · exact Or.inr (List.mem_cons_of_mem _ h1)

theorem ptx_gains_empty_sub (l : List (Nat × Nat)) (map : ptx_edgemap)
    (h : ptx_edgemap_empty.gains l map) : ∀ y ∈ ptx_edgemap_keys map, y ∈ l := by
  intro y hy
  rcases (ptx_gains_sub l ptx_edgemap_empty map rfl h).2 y hy with h1 | h1
  · have : ptx_edgemap_keys ptx_edgemap_empty = [] := by decide
    rw [this] at h1
    cases h1
  · exact h1

/-! ## What `ptx_node_adddep` does to the live list -/

theorem ptx_wf_nodup (g : ptx_graph) (hw : ptx_wf g) : (g.nodes.map (fun n => n.ident)).Nodup :=
  (hw.2.1).imp (fun h => Nat.ne_of_lt h)

theorem ptx_wf_unique (g : ptx_graph) (hw : ptx_wf g) (n m : ptx_node) (hn : n ∈ g.nodes)
    (hm : m ∈ g.nodes) (h : n.ident = m.ident) : n = m := by
  have h1 := ptx_find_of_nodup g (ptx_wf_nodup g hw) n hn
  have h2 := ptx_find_of_nodup g (ptx_wf_nodup g hw) m hm
  rw [h, h2] at h1
  exact (Option.some.inj h1).symm

theorem ptx_dep_fields (a b : Nat) (ins1 outs1 : ptx_edgemap) (n : ptx_node) :
    ((fun m : ptx_node => if m.ident == a then { m with outs := outs1 } else m)
      (if n.ident == b then { n with ins := ins1 } else n)).ident = n.ident ∧
    ((fun m : ptx_node => if m.ident == a then { m with outs := outs1 } else m)
      (if n.ident == b then { n with ins := ins1 } else n)).ins
      = (if n.ident = b then ins1 else n.ins) ∧
    ((fun m : ptx_node => if m.ident == a then { m with outs := outs1 } else m)
      (if n.ident == b then { n with ins := ins1 } else n)).outs
      = (if n.ident = a then outs1 else n.outs) := by
  beta_reduce
  refine ⟨?_, ?_, ?_⟩ <;> split_ifs <;> simp_all

theorem ptx_dep_fields_deps (a b : Nat) (ins1 outs1 : ptx_edgemap) (n : ptx_node) :
    ((fun m : ptx_node => if m.ident == b then { m with hasdeps := true } else m)
      ((fun m : ptx_node => if m.ident == a then { m with outs := outs1 } else m)
        (if n.ident == b then { n with ins := ins1 } else n))).ident = n.ident ∧
    ((fun m : ptx_node => if m.ident == b then { m with hasdeps := true } else m)
      ((fun m : ptx_node => if m.ident == a then { m with outs := outs1 } else m)
        (if n.ident == b then { n with ins := ins1 } else n))).ins
      = (if n.ident = b then ins1 else n.ins) ∧
    ((fun m : ptx_node => if m.ident == b then { m with hasdeps := true } else m)
      ((fun m : ptx_node => if m.ident == a then { m with outs := outs1 } else m)
        (if n.ident == b then { n with ins := ins1 } else n))).outs
      = (if n.ident = a then outs1 else n.outs) := by
  beta_reduce
  refine ⟨?_, ?_, ?_⟩ <;> split_ifs <;> simp_all

/-- The effect of `ptx_node_adddep g a b K` on a graph with distinct idents:
node by node it is one addition to `b.ins`, then, if that returned true, one
addition to `a.outs`; the result is true when both returned true, which is the
case when the allocator does not fail. -/
theorem ptx_node_adddep_effect (g g1 : ptx_graph) (a b K : Nat) (ok : Bool) (hw : ptx_wf g)
    (h : ptx_node_adddep g a b K = some (g1, ok)) :
    ∃ (ei eo : Bool) (F : ptx_node → ptx_node),
      g1.nodes = g.nodes.map F ∧ (∀ n ∈ g.nodes, ptx_node.dep a b K ei eo n (F n)) ∧
      (eo = true → ei = true) ∧ ok = eo ∧
      (ptx_never_fails g.malloc → ok = true ∧ ptx_never_fails g1.malloc) ∧
      (∀ n, (F n).ident = n.ident) ∧ (∃ n ∈ g.nodes, n.ident = b) ∧
      (eo = true → ∃ n ∈ g.nodes, n.ident = a) := by
  unfold ptx_node_adddep at h
  cases hb : g.find b with
  | none => rw [hb] at h; simp at h
  | some nb =>
    rw [hb] at h
    simp only [] at h
    obtain ⟨hbm, hbi⟩ := ptx_graph.find_some g b nb hb
    cases hi : ptx_edgemap_add g nb.ins a K with
    | none => rw [hi] at h; simp at h
    | some r =>
      obtain ⟨ga, ins1, oki⟩ := r
      rw [hi] at h
      have hsa := (ptx_edgemap_add_any g ga nb.ins ins1 a K oki hi).1
      have hnfa := ptx_edgemap_add_keeps_nf g ga nb.ins ins1 a K oki hi
      cases oki with
      | false =>
        simp only [Option.some.injEq, Prod.mk.injEq] at h
        obtain ⟨hg, hok⟩ := h
        have hins := ptx_edgemap_add_false g ga nb.ins ins1 a K hi
        refine ⟨false, false, fun n => if n.ident == b then { n with ins := ins1 } else n,
          ?_, ?_, fun e => e, hok.symm, ?_, ?_, ?_, ?_⟩
        · rw [← hg]
          show ga.nodes.map _ = _
          rw [hsa.1]
        · intro n hn
          refine ⟨?_, ?_, ?_, ?_, ?_⟩
          · simp only []; split <;> rfl
          · rintro ⟨-, e⟩; cases e
          · intro _
            by_cases hnb : n.ident = b
            · have : n = nb := ptx_wf_unique g hw n nb hn hbm (by rw [hnb, hbi])
              simp only [hnb, beq_self_eq_true, if_true]
              rw [hins, this]
            · have : (n.ident == b) = false := by simpa using hnb
              simp only [this]
              rfl
          · rintro ⟨-, e⟩; cases e
          · intro _
            simp only []; split <;> rfl
        · intro hnf
          have := ptx_edgemap_add_nf g ga nb.ins ins1 a K false hi hnf
          cases this
        · intro n
          simp only []
          split <;> rfl
        · exact ⟨nb, hbm, hbi⟩
        · intro e
          cases e
      | true =>
        simp only [] at h
        have hf1 : ∀ n : ptx_node, ({ n with ins := ins1 } : ptx_node).ident = n.ident :=
          fun _ => rfl
        rw [ptx_graph.find_update ga b a (fun x => { x with ins := ins1 }) hf1] at h
        cases ha : ga.find a with
        | none => rw [ha] at h; simp at h
        | some na =>
          rw [ha] at h
          simp only [Option.map_some'] at h
          have ha0 : g.find a = some na := by
            unfold ptx_graph.find at ha ⊢
            rw [← hsa.1]
            exact ha
          obtain ⟨ham, hai⟩ := ptx_graph.find_some g a na ha0
          generalize hna2 : (if (na.ident == b) = true then ({ na with ins := ins1 } : ptx_node)
            else na) = na2 at h
          have hna2o : na2.outs = na.outs := by
            rw [← hna2]; split <;> rfl
          cases ho : ptx_edgemap_add (ga.update b (fun x => { x with ins := ins1 })) na2.outs b K with
          | none => rw [ho] at h; simp at h
          | some r =>
            obtain ⟨g3, outs1, oko⟩ := r
            rw [ho] at h
            have hs3 := (ptx_edgemap_add_any _ g3 na2.outs outs1 b K oko ho).1
            have hnf3 := ptx_edgemap_add_keeps_nf _ g3 na2.outs outs1 b K oko ho
            rw [hna2o] at ho
            have hn3 : g3.nodes = g.nodes.map
                (fun n => if n.ident == b then { n with ins := ins1 } else n) := by
              rw [hs3.1]
              show ga.nodes.map _ = _
              rw [hsa.1]
            have hdep : ∀ (F : ptx_node → ptx_node),
                (∀ n, (F n).ident = n.ident) →
                (∀ n, (F n).ins = if n.ident = b then ins1 else n.ins) →
                (∀ n, (F n).outs = if n.ident = a then outs1 else n.outs) →
                ∀ n ∈ g.nodes, ptx_node.dep a b K true oko n (F n) := by
              intro F F1 F2 F3 n hn
              refine ⟨F1 n, ?_, ?_, ?_, ?_⟩
              · rintro ⟨e, -⟩
                have : n = nb := ptx_wf_unique g hw n nb hn hbm (by rw [e, hbi])
                rw [F2 n, if_pos e, this]
                exact ⟨_, _, hi⟩
              · intro hne
                have : ¬ n.ident = b := fun e => hne ⟨e, rfl⟩
                rw [F2 n, if_neg this]
              · rintro ⟨e, e2⟩
                have : n = na := ptx_wf_unique g hw n na hn ham (by rw [e, hai])
                rw [F3 n, if_pos e, this]
                subst e2
                exact ⟨_, _, ho⟩
              · intro hne
                by_cases e : n.ident = a
                · have : n = na := ptx_wf_unique g hw n na hn ham (by rw [e, hai])
                  have hko : oko = false := by
                    cases oko with
                    | false => rfl
                    | true => exact absurd ⟨e, rfl⟩ hne
                  subst hko
                  rw [F3 n, if_pos e, this]
                  exact ptx_edgemap_add_false _ g3 na.outs outs1 b K ho
                · rw [F3 n, if_neg e]
            cases oko with
            | false =>
              simp only [Option.some.injEq, Prod.mk.injEq] at h
              obtain ⟨hg, hok⟩ := h
              refine ⟨true, false,
                fun n => (fun m : ptx_node => if m.ident == a then { m with outs := outs1 } else m)
                  (if n.ident == b then { n with ins := ins1 } else n),
                ?_, ?_, (fun e => by cases e), hok.symm, ?_,
                fun n => (ptx_dep_fields a b ins1 outs1 n).1, ⟨nb, hbm, hbi⟩,
                (fun e => by cases e)⟩
              · rw [← hg]
                show g3.nodes.map _ = _
                rw [hn3, List.map_map]
                rfl
              · exact hdep _ (fun n => (ptx_dep_fields a b ins1 outs1 n).1)
                  (fun n => (ptx_dep_fields a b ins1 outs1 n).2.1)
                  (fun n => (ptx_dep_fields a b ins1 outs1 n).2.2)
              · intro hnf
                have := ptx_edgemap_add_nf _ g3 na.outs outs1 b K false ho (hnfa hnf)
                cases this
            | true =>
              simp only [Option.some.injEq, Prod.mk.injEq] at h
              obtain ⟨hg, hok⟩ := h
              refine ⟨true, true,
                fun n => (fun m : ptx_node => if m.ident == b then { m with hasdeps := true } else m)
                  ((fun m : ptx_node => if m.ident == a then { m with outs := outs1 } else m)
                    (if n.ident == b then { n with ins := ins1 } else n)),
                ?_, ?_, fun _ => rfl, hok.symm, ?_,
                fun n => (ptx_dep_fields_deps a b ins1 outs1 n).1, ⟨nb, hbm, hbi⟩,
                fun _ => ⟨na, ham, hai⟩⟩
              · rw [← hg]
                show (g3.nodes.map _).map _ = _
                rw [hn3, List.map_map, List.map_map]
                rfl
              · exact hdep _ (fun n => (ptx_dep_fields_deps a b ins1 outs1 n).1)
                  (fun n => (ptx_dep_fields_deps a b ins1 outs1 n).2.1)
                  (fun n => (ptx_dep_fields_deps a b ins1 outs1 n).2.2)
              · intro hnf
                refine ⟨hok.symm, ?_⟩
                rw [← hg]
                exact hnf3 (hnfa hnf)

/-! ## Maps of at most `65535` entries in at most `131072` buckets -/

theorem ptx_edgemap_add0_loop_count :
    ∀ (fuel : Nat) (map : ptx_edgemap) (edge : ptx_edge) (i : Nat) (map1 : ptx_edgemap),
      ptx_edgemap_add0_loop fuel map edge i = some map1 →
      map.count ≤ map1.count ∧ map1.count ≤ map.count + 1 := by
  intro fuel
  induction fuel with
  | zero =>
    intro map edge i map1 h
    simp [ptx_edgemap_add0_loop] at h
  | succ f ih =>
    intro map edge i map1 h
    unfold ptx_edgemap_add0_loop at h
    cases hget : map.buckets[i]? with
    | none => rw [hget] at h; simp at h
    | some b =>
      rw [hget] at h
      simp only [] at h
      by_cases hb : b.dib = 0
      · rw [if_pos hb] at h
        cases h
        exact ⟨Nat.le_succ _, le_refl _⟩
      · rw [if_neg hb] at h
        by_cases heq : ptx_edge_equal b edge = true
        · rw [if_pos heq] at h
          cases h
          exact ⟨le_refl _, Nat.le_succ _⟩
        · rw [if_neg heq] at h
          by_cases hsw : b.dib < edge.dib
          · simp only [hsw, if_true] at h
            have := ih _ _ _ _ h
            exact this
          · simp only [hsw, if_false] at h
            have := ih _ _ _ _ h
            exact this

/-- An edge that is not in the map is stored in a free bucket, whatever happens
to its DIB on the way: the count grows by one. -/
theorem ptx_edgemap_add0_loop_new :
    ∀ (fuel : Nat) (map : ptx_edgemap) (edge : ptx_edge) (i : Nat) (map1 : ptx_edgemap),
      (edge.key :: ptx_bucket_keys map.buckets).Nodup →
      ptx_edgemap_add0_loop fuel map edge i = some map1 → map1.count = map.count + 1 := by
  intro fuel
  induction fuel with
  | zero =>
    intro map edge i map1 _ h
    simp [ptx_edgemap_add0_loop] at h
  | succ f ih =>
    intro map edge i map1 hnd h
    unfold ptx_edgemap_add0_loop at h
    cases hget : map.buckets[i]? with
    | none => rw [hget] at h; simp at h
    | some b =>
      rw [hget] at h
      simp only [] at h
      by_cases hb : b.dib = 0
      · rw [if_pos hb] at h
        cases h
        rfl
      · rw [if_neg hb] at h
        have hbk : b.key ∈ ptx_bucket_keys map.buckets :=
          List.mem_map.mpr ⟨b, List.mem_filter.mpr ⟨List.getElem?_mem hget,
            (ptx_edge.used_iff b).mpr hb⟩, rfl⟩
        by_cases heq : ptx_edge_equal b edge = true
        · exfalso
          have hk := (ptx_edge_equal_iff b edge).mp heq
          rw [hk] at hbk
          exact (List.nodup_cons.mp hnd).1 hbk
        · rw [if_neg heq] at h
          by_cases hsw : b.dib < edge.dib
          · simp only [hsw, if_true] at h
            have hperm := ptx_keys_set_swap map.buckets i b edge hget hb (by omega)
            have hnd2 : (b.key :: ptx_bucket_keys (map.buckets.set i edge)).Nodup :=
              (List.Perm.nodup_iff hperm).mpr hnd
            have := ih { map with buckets := map.buckets.set i edge }
              { b with dib := (b.dib + 1) % 65536 } _ _ hnd2 h
            exact this
          · simp only [hsw, if_false] at h
            have := ih _ { edge with dib := (edge.dib + 1) % 65536 } _ _ hnd h
            exact this

theorem ptx_edgemap_add_small_back (g g1 : ptx_graph) (map map1 : ptx_edgemap) (node kind : Nat)
    (ok : Bool) (h : ptx_edgemap_add g map node kind = some (g1, map1, ok))
    (hs : map1.small) : map.small := by
  rcases ptx_edgemap_add_cases g g1 map map1 node kind ok h with ⟨-, h2, -⟩ | ⟨-, map0, h0, hm⟩
  · rw [← h2]; exact hs
  · obtain ⟨s1, -⟩ := ptx_edgemap_add0_loop_shape _ _ _ _ _ h0
    obtain ⟨c1, -⟩ := ptx_edgemap_add0_loop_count _ _ _ _ _ h0
    obtain ⟨n1, n2⟩ := hs
    rcases hm with ⟨-, e⟩ | ⟨hc, -, hl⟩
    · subst e
      exact ⟨by rw [← s1]; exact n1, by show map0.count ≤ 65535; omega⟩
    · obtain ⟨t1, -⟩ := ptx_edgemap_grow_loop_shape _ _ _ hl
      have hz : map0.nbuckets = (if map.nbuckets = 0 then 2 else map.nbuckets * 2) := by
        rw [t1]; rfl
      rw [s1, hz] at n1
      refine ⟨?_, ?_⟩
      · split at n1 <;> omega
      · rw [hc]
        split at n1 <;> omega

/-- One call of `ptx_edgemap_add` that returns true, on a map in Robin-Hood shape,
with a result of at most `65535` entries in at most `131072` buckets. -/
theorem ptx_edgemap_add_step_small (g g1 : ptx_graph) (map map1 : ptx_edgemap) (node kind : Nat)
    (hr : map.robin) (h : ptx_edgemap_add g map node kind = some (g1, map1, true))
    (hs : map1.small) :
    map1.robin ∧
    (∀ y, y ∈ ptx_edgemap_keys map1 ↔ (y ∈ ptx_edgemap_keys map ∨ y = (node, kind % 65536))) ∧
    ((node, kind % 65536) ∈ ptx_edgemap_keys map → ptx_edgemap_count map1 = ptx_edgemap_count map) ∧
    ((node, kind % 65536) ∉ ptx_edgemap_keys map →
      ptx_edgemap_count map1 = ptx_edgemap_count map + 1) := by
  by_cases hlt : map.count < 65535
  · exact ptx_edgemap_add_step g g1 map map1 node kind hr hlt h
  · have hsm := ptx_edgemap_add_small_back g g1 map map1 node kind true h hs
    have hcnt : map.count = 65535 := by
      have := hsm.2
      omega
    obtain ⟨r1, r2, r3, r4, r5, r6, r7⟩ := hr
    have hN : map.nbuckets = 131072 := by
      have := hsm.1
      rcases r2 with h0 | ⟨j, hj, hp⟩
      · omega
      · by_cases hj17 : j < 17
        · have : (2 : Nat) ^ j ≤ 2 ^ 16 := Nat.pow_le_pow_right (by decide) (by omega)
          omega
        · have : (2 : Nat) ^ 17 ≤ 2 ^ j := Nat.pow_le_pow_right (by decide) (by omega)
          omega
    have hpow : ∃ j, 1 ≤ j ∧ map.nbuckets = 2 ^ j := ⟨17, by decide, by rw [hN]; norm_num⟩
    obtain ⟨j, hj, hp⟩ := hpow
    have hkeys : ptx_edgemap_keys map = ptx_bucket_keys map.buckets := ptx_edgemap_keys_eq map r1
    rcases ptx_edgemap_add_cases g g1 map map1 node kind true h with ⟨a1, -⟩ | ⟨-, map0, h0, hm⟩
    · cases a1
    · have hm0 : map0 = map := by
        rcases hm with ⟨-, e⟩ | ⟨hc, -, -⟩
        · exact e
        · rw [hN] at hc
          omega
      subst hm0
      by_cases hmem : (node, kind % 65536) ∈ ptx_bucket_keys map0.buckets
      · have hf := ptx_edgemap_add0_found map0 { dib := 0, kind := kind % 65536, node := node } j
          r1 hj hp (by rw [← r3]; omega) r6 (by rw [← r3]; omega) hmem
        rw [hf] at h0
        have he : map1 = map0 := (Option.some.inj h0).symm
        subst he
        refine ⟨⟨r1, Or.inr ⟨j, hj, hp⟩, r3, r4, r5, r6, r7⟩, ?_, fun _ => rfl, ?_⟩
        · intro y
          constructor
          · exact fun hy => Or.inl hy
          · rintro (hy | hy)
            · exact hy
            · rw [hy, hkeys]; exact hmem
        · intro hn
          rw [hkeys] at hn
          exact absurd hmem hn
      · exfalso
        unfold ptx_edgemap_add0 at h0
        have := ptx_edgemap_add0_loop_new _ _ _ _ _
          (List.nodup_cons.mpr ⟨hmem, r7⟩) h0
        have := hs.2
        omega

theorem ptx_gains_small_back :
    ∀ (l : List (Nat × Nat)) (map map1 : ptx_edgemap), map.gains l map1 → map1.small →
      map.small := by
  intro l
  induction l with
  | nil =>
    intro map map1 h hs
    simp only [ptx_edgemap.gains] at h
    rw [← h]; exact hs
  | cons x rest ih =>
    intro map map1 h hs
    obtain ⟨g0, g0a, mid, k0, -, e2, e3⟩ := h
    exact ptx_edgemap_add_small_back g0 g0a map mid x.1 k0 true e2 (ih mid map1 e3 hs)

/-- A map reached by additions from a map in Robin-Hood shape, of at most `65535`
entries in at most `131072` buckets: it is in Robin-Hood shape and its entries
are the old entries and the pairs added. -/
theorem ptx_gains_small :
    ∀ (l : List (Nat × Nat)) (map map1 : ptx_edgemap), map.robin → map.gains l map1 →
      map1.small →
      map1.robin ∧ ∀ y, y ∈ ptx_edgemap_keys map1 ↔ (y ∈ ptx_edgemap_keys map ∨ y ∈ l) := by
  intro l
  induction l with
  | nil =>
    intro map map1 hr h _
    simp only [ptx_edgemap.gains] at h
    subst h
    exact ⟨hr, fun y => by simp⟩
  | cons x rest ih =>
    intro map map1 hr h hs
    obtain ⟨g0, g0a, mid, k0, e1, e2, e3⟩ := h
    have hmid := ptx_gains_small_back rest mid map1 e3 hs
    obtain ⟨s1, s2, -, -⟩ := ptx_edgemap_add_step_small g0 g0a map mid x.1 k0 hr e2 hmid
    obtain ⟨r1, r2⟩ := ih mid map1 s1 e3 hs
    refine ⟨r1, fun y => ?_⟩
    rw [r2 y, s2 y, e1, List.mem_cons]
    tauto

/-- The same from the empty map of a new node: the entries are the pairs added
and the count is the number of distinct pairs. -/
theorem ptx_gains_empty (l : List (Nat × Nat)) (map : ptx_edgemap)
    (h : ptx_edgemap_empty.gains l map) (hs : map.small) :
    map.robin ∧ (∀ y, y ∈ ptx_edgemap_keys map ↔ y ∈ l) ∧
    ptx_edgemap_count map = l.dedup.length := by
  obtain ⟨r1, r2⟩ := ptx_gains_small l ptx_edgemap_empty map ptx_edgemap_empty_robin h hs
  have hmem : ∀ y, y ∈ ptx_edgemap_keys map ↔ y ∈ l := by
    intro y
    rw [r2 y]
    have : ptx_edgemap_keys ptx_edgemap_empty = [] := by decide
    rw [this]
    simp
  obtain ⟨-, k2, k3⟩ := ptx_robin_keys map r1
  have hperm : (ptx_edgemap_keys map).Perm l.dedup :=
    (List.perm_ext_iff_of_nodup k3 (List.nodup_dedup l)).mpr
      (fun y => by rw [hmem y, List.mem_dedup])
  exact ⟨r1, hmem, by rw [k2, hperm.length_eq]⟩

/-! ## The record of additions along a run -/

theorem ptx_graph_begin_cases (g g1 : ptx_graph) (r : Option Nat)
    (hlen : g.ident + 1 < 2 ^ 64) (h : ptx_graph_begin g = some (g1, r)) :
    (ptx_never_fails g.malloc → ptx_never_fails g1.malloc) ∧
    ((g1.nodes = g.nodes ∧ g1.ident = g.ident) ∨
      ∃ n, g1.nodes = g.nodes ++ [n] ∧ g1.ident = g.ident + 1 ∧ n.ident = g.ident + 1 ∧
        n.outs = ptx_edgemap_empty ∧ n.ins = ptx_edgemap_empty) := by
  unfold ptx_graph_begin at h
  have ha := ptx_graph.alloc_same g
  cases hal : g.alloc with
  | mk res g2 =>
    rw [hal] at h ha
    simp only [] at ha
    obtain ⟨⟨hn, hi, -⟩, hnf⟩ := ha
    cases res with
    | none =>
      simp only [Option.some.injEq, Prod.mk.injEq] at h
      rw [← h.1]
      exact ⟨hnf, Or.inl ⟨hn, hi⟩⟩
    | some junk =>
      simp only [] at h
      cases hinit : ptx_hashset_init g2.m g2.k with
      | none => rw [hinit] at h; simp at h
      | some set =>
        rw [hinit] at h
        simp only [Option.some.injEq, Prod.mk.injEq] at h
        obtain ⟨hg, -⟩ := h
        have hmod : (g2.ident + 1) % 2 ^ 64 = g.ident + 1 := by
          rw [hi]; exact Nat.mod_eq_of_lt hlen
        rw [hmod] at hg
        rw [← hg]
        refine ⟨hnf, Or.inr ⟨_, by rw [← hn], rfl, rfl, rfl, rfl⟩⟩

theorem ptx_mirror_stable (strict : Prop) : ptx_stable (ptx_mirror strict) := by
  refine ⟨?_, ?_, ?_, ?_⟩
  · rintro g g1 - ⟨lo, li, m0, m1, m2, m3⟩ ⟨hn, hi, -⟩ hnf
    refine ⟨lo, li, ?_, ?_, m2, fun hs => ⟨hnf (m3 hs).1, (m3 hs).2⟩⟩
    · rw [hn]; exact m0
    · rw [hi]; exact m1
  · rintro g x f - ⟨lo, li, m0, m1, m2, m3⟩ hf
    refine ⟨lo, li, ?_, m1, m2, m3⟩
    intro n1 hn1
    obtain ⟨n, hn, e⟩ := (ptx_graph.mem_update g x f n1).mp hn1
    have h3 : n1.ident = n.ident ∧ n1.outs = n.outs ∧ n1.ins = n.ins := by
      rw [e]
      split
      · exact hf n
      · exact ⟨rfl, rfl, rfl⟩
    rw [h3.1, h3.2.1, h3.2.2]
    exact m0 n hn
  · rintro g g1 a b K ok hw ⟨lo, li, m0, m1, m2, m3⟩ h
    obtain ⟨ei, eo, F, hF, hdep, heo, hok, hnf, -, ⟨nb, hnb, hbi⟩, hna⟩ :=
      ptx_node_adddep_effect g g1 a b K ok hw h
    obtain ⟨-, hid⟩ := ptx_node_adddep_wf g g1 a b K ok hw h
    have hble : b ≤ g.ident := by rw [← hbi]; exact hw.2.2.1 nb hnb
    refine ⟨fun x => if x = a ∧ eo = true then lo a ++ [(b, K % 65536)] else lo x,
      fun x => if x = b ∧ ei = true then li b ++ [(a, K % 65536)] else li x, ?_, ?_, ?_, ?_⟩
    · intro n1 hn1
      rw [hF] at hn1
      obtain ⟨n, hn, e⟩ := List.mem_map.mp hn1
      obtain ⟨d1, d2, d3, d4, d5⟩ := hdep n hn
      obtain ⟨go, gi⟩ := m0 n hn
      rw [← e, d1]
      beta_reduce
      constructor
      · by_cases c : n.ident = a ∧ eo = true
        · rw [if_pos c]
          obtain ⟨ga, gb, hadd⟩ := d4 c
          rw [← c.1]
          exact ptx_gains_snoc _ _ _ _ ga gb b K go hadd
        · rw [if_neg c, d5 c]
          exact go
      · by_cases c : n.ident = b ∧ ei = true
        · rw [if_pos c]
          obtain ⟨ga, gb, hadd⟩ := d2 c
          rw [← c.1]
          exact ptx_gains_snoc _ _ _ _ ga gb a K gi hadd
        · rw [if_neg c, d3 c]
          exact gi
    · intro x hx
      rw [hid] at hx
      beta_reduce
      constructor
      · rw [if_neg]
        · exact (m1 x hx).1
        · rintro ⟨e1, e2⟩
          obtain ⟨na, hna1, hai⟩ := hna e2
          have := hw.2.2.1 na hna1
          omega
      · rw [if_neg]
        · exact (m1 x hx).2
        · rintro ⟨e1, -⟩
          omega
    · intro a1 b1 K1 hmem
      beta_reduce at hmem ⊢
      have hli : ∀ y, y ∈ li b1 → y ∈ (if b1 = b ∧ ei = true then li b ++ [(a, K % 65536)]
          else li b1) := by
        intro y hy
        by_cases c : b1 = b ∧ ei = true
        · rw [if_pos c, ← c.1]
          exact List.mem_append_left _ hy
        · rw [if_neg c]
          exact hy
      by_cases c : a1 = a ∧ eo = true
      · rw [if_pos c] at hmem
        rcases List.mem_append.mp hmem with h1 | h1
        · rw [c.1]
          exact hli _ (m2 a b1 K1 h1)
        · simp only [List.mem_singleton, Prod.mk.injEq] at h1
          rw [if_pos ⟨h1.1, heo c.2⟩, c.1, h1.2]
          exact List.mem_append_right _ (List.mem_singleton_self _)
      · rw [if_neg c] at hmem
        exact hli _ (m2 a1 b1 K1 hmem)
    · intro hs
      obtain ⟨s1, s2⟩ := m3 hs
      obtain ⟨hok1, hnf1⟩ := hnf s1
      have heo1 : eo = true := by rw [← hok, hok1]
      have hei1 : ei = true := heo heo1
      refine ⟨hnf1, ?_⟩
      intro a1 b1 K1 hmem
      beta_reduce at hmem ⊢
      have hlo : ∀ y, y ∈ lo a1 → y ∈ (if a1 = a ∧ eo = true then lo a ++ [(b, K % 65536)]
          else lo a1) := by
        intro y hy
        by_cases c : a1 = a ∧ eo = true
        · rw [if_pos c, ← c.1]
          exact List.mem_append_left _ hy
        · rw [if_neg c]
          exact hy
      by_cases c : b1 = b ∧ ei = true
      · rw [if_pos c] at hmem
        rcases List.mem_append.mp hmem with h1 | h1
        · rw [c.1]
          exact hlo _ (s2 a1 b K1 h1)
        · simp only [List.mem_singleton, Prod.mk.injEq] at h1
          rw [if_pos ⟨h1.1, heo1⟩, c.1, h1.2]
          exact List.mem_append_right _ (List.mem_singleton_self _)
      · rw [if_neg c] at hmem
        exact hlo _ (s2 a1 b1 K1 hmem)
  · rintro g g1 r hw hlen ⟨lo, li, m0, m1, m2, m3⟩ h
    obtain ⟨hnf, hc⟩ := ptx_graph_begin_cases g g1 r hlen h
    refine ⟨lo, li, ?_, ?_, m2, fun hs => ⟨hnf (m3 hs).1, (m3 hs).2⟩⟩
    · rcases hc with ⟨hn, -⟩ | ⟨n, hn, -, hi, ho, hins⟩
      · rw [hn]; exact m0
      · intro n1 hn1
        rw [hn] at hn1
        rcases List.mem_append.mp hn1 with h1 | h1
        · exact m0 n1 h1
        · have : n1 = n := List.mem_singleton.mp h1
          subst this
          obtain ⟨z1, z2⟩ := m1 n1.ident (by omega)
          rw [z1, z2, ho, hins]
          exact ⟨rfl, rfl⟩
    · intro x hx
      apply m1
      rcases hc with ⟨-, hi⟩ | ⟨n, -, hi, -⟩ <;> omega

theorem ptx_mirror_new (strict : Prop) (opts : ptx_graph_opts) (g0 : ptx_graph)
    (hs : strict → ptx_never_fails opts.malloc) (h : ptx_graph_new opts = some g0) :
    ptx_mirror strict g0 := by
  unfold ptx_graph_new at h
  have ha := ptx_graph.alloc_same (ptx_graph_zeroed opts)
  cases hal : (ptx_graph_zeroed opts).alloc with
  | mk res g2 =>
    rw [hal] at h ha
    simp only [] at ha
    cases res with
    | none => simp at h
    | some junk =>
      simp only [Option.some.injEq] at h
      subst h
      obtain ⟨⟨hn, -⟩, hnf⟩ := ha
      refine ⟨fun _ => [], fun _ => [], ?_, fun _ _ => ⟨rfl, rfl⟩, ?_, ?_⟩
      · intro n hn1
        rw [hn] at hn1
        cases hn1
      · intro a b K hm
        cases hm
      · intro hst
        exact ⟨hnf (hs hst), fun a b K hm => by cases hm⟩

theorem ptx_gains_append_one (l : List (Nat × Nat)) (map map1 map2 : ptx_edgemap)
    (g ga : ptx_graph) (node kind : Nat) (h1 : map.gains l map1)
    (h2 : ptx_edgemap_add g map1 node kind = some (ga, map2, true)) :
    ∃ l2, map.gains l2 map2 := ⟨_, ptx_gains_snoc l map map1 map2 g ga node kind h1 h2⟩

theorem ptx_gained_stable (id : Nat) (n : ptx_node) : ptx_stable (ptx_gained id n) := by
  refine ⟨?_, ?_, ?_, ?_⟩
  · rintro g g1 - ⟨n1, lo, li, hf, ho, hi⟩ ⟨hn, -⟩ -
    refine ⟨n1, lo, li, ?_, ho, hi⟩
    unfold ptx_graph.find at hf ⊢
    rw [hn]
    exact hf
  · rintro g x f - ⟨n1, lo, li, hf, ho, hi⟩ hfx
    have := ptx_graph.find_update g x id f (fun m => (hfx m).1)
    rw [hf] at this
    simp only [Option.map_some'] at this
    refine ⟨_, lo, li, this, ?_, ?_⟩
    · split
      · rw [(hfx n1).2.1]; exact ho
      · exact ho
    · split
      · rw [(hfx n1).2.2]; exact hi
      · exact hi
  · rintro g g1 a b K ok hw ⟨n1, lo, li, hf, ho, hi⟩ h
    obtain ⟨ei, eo, F, hF, hdep, -, -, -, hFi, -, -⟩ :=
      ptx_node_adddep_effect g g1 a b K ok hw h
    have hf1 := ptx_find_map g g1 F hF hFi id
    rw [hf] at hf1
    simp only [Option.map_some'] at hf1
    obtain ⟨hm, -⟩ := ptx_graph.find_some g id n1 hf
    obtain ⟨-, d2, d3, d4, d5⟩ := hdep n1 hm
    have hoo : ∃ l2, n.outs.gains l2 (F n1).outs := by
      by_cases c : n1.ident = a ∧ eo = true
      · obtain ⟨ga, gb, hadd⟩ := d4 c
        exact ptx_gains_append_one lo _ _ _ ga gb b K ho hadd
      · rw [d5 c]
        exact ⟨lo, ho⟩
    have hii : ∃ l2, n.ins.gains l2 (F n1).ins := by
      by_cases c : n1.ident = b ∧ ei = true
      · obtain ⟨ga, gb, hadd⟩ := d2 c
        exact ptx_gains_append_one li _ _ _ ga gb a K hi hadd
      · rw [d3 c]
        exact ⟨li, hi⟩
    obtain ⟨l2, h2⟩ := hoo
    obtain ⟨l3, h3⟩ := hii
    exact ⟨F n1, l2, l3, hf1, h2, h3⟩
  · rintro g g1 r - hlen ⟨n1, lo, li, hf, ho, hi⟩ h
    obtain ⟨-, hc⟩ := ptx_graph_begin_cases g g1 r hlen h
    refine ⟨n1, lo, li, ?_, ho, hi⟩
    unfold ptx_graph.find at hf ⊢
    rcases hc with ⟨hn, -⟩ | ⟨m, hn, -⟩
    · rw [hn]; exact hf
    · rw [hn, List.find?_append, hf]
      rfl

/-! ## `ptx_node_adddep` when both additions return true -/

theorem ptx_node.linked_fields (a b : Nat) (ins1 outs1 : ptx_edgemap) (n : ptx_node) :
    (ptx_node.linked a b ins1 outs1 n).ident = n.ident ∧
    (ptx_node.linked a b ins1 outs1 n).ins = (if n.ident = b then ins1 else n.ins) ∧
    (ptx_node.linked a b ins1 outs1 n).outs = (if n.ident = a then outs1 else n.outs) :=
  ptx_dep_fields_deps a b ins1 outs1 n

/-- With an allocator that does not fail, when the two additions return true,
`ptx_node_adddep` returns true and the live list is the old one with the two
maps replaced. -/
theorem ptx_node_adddep_run (g : ptx_graph) (a b K : Nat) (A B : ptx_node)
    (ins1 outs1 : ptx_edgemap) (hnf : ptx_never_fails g.malloc)
    (hA : g.find a = some A) (hB : g.find b = some B)
    (hi : ∃ g0 g0a, ptx_edgemap_add g0 B.ins a K = some (g0a, ins1, true))
    (ho : ∃ g0 g0a, ptx_edgemap_add g0 A.outs b K = some (g0a, outs1, true)) :
    ∃ g1, ptx_node_adddep g a b K = some (g1, true) ∧
      g1.nodes = g.nodes.map (ptx_node.linked a b ins1 outs1) ∧ g1.ident = g.ident ∧
      ptx_never_fails g1.malloc ∧ g1.m = g.m ∧ g1.k = g.k ∧ g1.autogc = g.autogc := by
  obtain ⟨g0, g0a, hi0⟩ := hi
  obtain ⟨h0, h0a, ho0⟩ := ho
  obtain ⟨ga, hadd1, hs1, hnf1⟩ := ptx_edgemap_add_transfer g0 g0a g B.ins ins1 a K hi0 hnf
  have hf1 : ∀ n : ptx_node, ({ n with ins := ins1 } : ptx_node).ident = n.ident := fun _ => rfl
  have hfa : (ga.update b (fun x => { x with ins := ins1 })).find a
      = some (if A.ident == b then { A with ins := ins1 } else A) := by
    rw [ptx_graph.find_update ga b a (fun x => { x with ins := ins1 }) hf1]
    have : ga.find a = some A := by
      unfold ptx_graph.find at hA ⊢
      rw [hs1.1]
      exact hA
    rw [this]
    rfl
  have hout : (if A.ident == b then ({ A with ins := ins1 } : ptx_node) else A).outs = A.outs := by
    split <;> rfl
  obtain ⟨g3, hadd2, hs3, hnf3⟩ := ptx_edgemap_add_transfer h0 h0a
    (ga.update b (fun x => { x with ins := ins1 })) A.outs outs1 b K ho0 hnf1
  refine ⟨(g3.update a (fun x => { x with outs := outs1 })).update b
    (fun x => { x with hasdeps := true }), ?_, ?_, ?_, ?_, ?_, ?_, ?_⟩
  · unfold ptx_node_adddep
    rw [hB]
    simp only []
    rw [hadd1]
    simp only []
    rw [hfa]
    simp only []
    rw [hout, hadd2]
  · show (g3.nodes.map _).map _ = _
    rw [hs3.1]
    show ((ga.nodes.map _).map _).map _ = _
    rw [hs1.1, List.map_map, List.map_map]
    rfl
  · show g3.ident = g.ident
    rw [hs3.2.1]
    show ga.ident = g.ident
    exact hs1.2.1
  · exact hnf3
  · show g3.m = g.m
    rw [hs3.2.2.2.1]
    exact hs1.2.2.2.1
  · show g3.k = g.k
    rw [hs3.2.2.2.2]
    exact hs1.2.2.2.2
  · show g3.autogc = g.autogc
    rw [hs3.2.2.1]
    exact hs1.2.2.1

/-! ## The edge maps of a reachable graph -/

/-- In a graph reached without the collector every edge map was reached from the
empty map by additions, and the additions to `outs` and `ins` maps mirror each
other as `ptx_mirror` says. -/
theorem ptx_trace_mirror (strict : Prop) (opts : ptx_graph_opts) (ops : List ptx_op)
    (g : ptx_graph) (hs : strict → ptx_never_fails opts.malloc) (hgc : ptx_op.gc ∉ ops)
    (hlen : ops.length < 2 ^ 64) (hrun : ptx_trace opts ops = some g) : ptx_mirror strict g :=
  ptx_trace_keeps (ptx_mirror strict) (ptx_mirror_stable strict) opts ops g hlen hgc
    (fun g0 h0 => ptx_mirror_new strict opts g0 hs h0) hrun

/-! ## Symmetry, idempotence and the maps of deactivated nodes -/

/-- C10 (amended). In every state reached from `ptx_graph_new` by fewer than
`2^64` calls of begin, read, write, commit and rollback, whatever the allocator
does, for all nodes `A` and `B` of the live list and every kind `K`: if `(B, K)`
is an entry of `A.outs` then `(A, K)` is an entry of `B.ins`, as long as `B.ins`
has at most `65535` entries in at most `131072` buckets; and if no allocation
of the run failed, `(A, K)` an entry of `B.ins` makes `(B, K)` an entry of
`A.outs`, as long as `A.outs` has at most `65535` entries in at most `131072`
buckets. -/
theorem ptx_symmetric_of_run (opts : ptx_graph_opts) (ops : List ptx_op) (g : ptx_graph)
    (A B : ptx_node) (K : Nat) (hgc : ptx_op.gc ∉ ops) (hlen : ops.length < 2 ^ 64)
    (hrun : ptx_trace opts ops = some g) (hA : A ∈ g.nodes) (hB : B ∈ g.nodes) :
    (B.ins.small → (B.ident, K) ∈ ptx_edgemap_keys A.outs →
      (A.ident, K) ∈ ptx_edgemap_keys B.ins) ∧
    (ptx_never_fails opts.malloc → A.outs.small → (A.ident, K) ∈ ptx_edgemap_keys B.ins →
      (B.ident, K) ∈ ptx_edgemap_keys A.outs) := by
  constructor
  · intro hs hk
    obtain ⟨lo, li, m0, -, m2, -⟩ :=
      ptx_trace_mirror False opts ops g (fun e => e.elim) hgc hlen hrun
    have h1 := ptx_gains_empty_sub _ _ (m0 A hA).1 _ hk
    exact ((ptx_gains_empty _ _ (m0 B hB).2 hs).2.1 _).mpr (m2 _ _ _ h1)
  · intro hnf hs hk
    obtain ⟨lo, li, m0, -, -, m3⟩ :=
      ptx_trace_mirror True opts ops g (fun _ => hnf) hgc hlen hrun
    have h1 := ptx_gains_empty_sub _ _ (m0 B hB).2 _ hk
    exact ((ptx_gains_empty _ _ (m0 A hA).1 hs).2.1 _).mpr ((m3 trivial).2 _ _ _ h1)

theorem ptx_symmetric_of_run_witness :
    (ptx_op.gc ∉ ptx_ops_write_write ∧ ptx_ops_write_write.length < 2 ^ 64 ∧
      ptx_trace ptx_opts_default ptx_ops_write_write = some ptx_example_ww ∧
      ptx_example_T1 ∈ ptx_example_ww.nodes ∧ ptx_example_T2 ∈ ptx_example_ww.nodes) ∧
    (ptx_example_T2.ins.small →
      (ptx_example_T2.ident, PTX_WW) ∈ ptx_edgemap_keys ptx_example_T1.outs →
      (ptx_example_T1.ident, PTX_WW) ∈ ptx_edgemap_keys ptx_example_T2.ins) ∧
    (ptx_never_fails ptx_opts_default.malloc → ptx_example_T1.outs.small →
      (ptx_example_T1.ident, PTX_WW) ∈ ptx_edgemap_keys ptx_example_T2.ins →
      (ptx_example_T2.ident, PTX_WW) ∈ ptx_edgemap_keys ptx_example_T1.outs) :=
  ⟨⟨by decide, by decide, ptx_example_ww_reached, by decide, by decide⟩,
    ptx_symmetric_of_run ptx_opts_default ptx_ops_write_write ptx_example_ww ptx_example_T1
      ptx_example_T2 PTX_WW (by decide) (by decide) ptx_example_ww_reached (by decide)
      (by decide)⟩

/-- What one addition that returned true has made of a map that now has at most
`65535` entries in at most `131072` buckets. -/
theorem ptx_edgemap_add_history (l : List (Nat × Nat)) (map map1 : ptx_edgemap)
    (g ga : ptx_graph) (node kind : Nat) (hg : ptx_edgemap_empty.gains l map)
    (hadd : ptx_edgemap_add g map node kind = some (ga, map1, true)) (hs : map1.small) :
    (∀ y, y ∈ ptx_edgemap_keys map1 ↔ (y ∈ ptx_edgemap_keys map ∨ y = (node, kind % 65536))) ∧
    ((node, kind % 65536) ∈ ptx_edgemap_keys map →
      ptx_edgemap_count map1 = ptx_edgemap_count map) ∧
    ((node, kind % 65536) ∉ ptx_edgemap_keys map →
      ptx_edgemap_count map1 = ptx_edgemap_count map + 1) ∧
    ∃ l1, ptx_edgemap_empty.gains l1 map1 ∧ (∀ y, y ∈ ptx_edgemap_keys map1 ↔ y ∈ l1) ∧
      ptx_edgemap_count map1 = l1.dedup.length := by
  have hsm := ptx_edgemap_add_small_back g ga map map1 node kind true hadd hs
  obtain ⟨r1, -, -⟩ := ptx_gains_empty l map hg hsm
  obtain ⟨-, s2, s3, s4⟩ := ptx_edgemap_add_step_small g ga map map1 node kind r1 hadd hs
  have hg1 := ptx_gains_snoc l _ map map1 g ga node kind hg hadd
  obtain ⟨-, t2, t3⟩ := ptx_gains_empty _ map1 hg1 hs
  exact ⟨s2, s3, s4, _, hg1, t2, t3⟩

/-- C14 (amended). Edge addition is idempotent and kind-sensitive.  In a graph
reached from `ptx_graph_new` by fewer than `2^64` calls of begin, read, write,
commit and rollback, with an allocator that does not fail from here on, for
live nodes `A` and `B` whose maps `A.outs` and `B.ins` have at most `65535`
entries in at most `131072` buckets, and every kind `K`, `ptx_node_adddep`
returns true, and of each of the two maps, as long as it still has at most
`65535` entries afterwards: its entries are the old entries and the pair
added; when the pair was an entry already the count is unchanged, otherwise it
grows by one; and the count is the number of distinct pairs added to the map
since the node began. -/
theorem ptx_node_adddep_idempotent (opts : ptx_graph_opts) (ops : List ptx_op) (g : ptx_graph)
    (a b K : Nat) (A B : ptx_node) (hgc : ptx_op.gc ∉ ops) (hlen : ops.length < 2 ^ 64)
    (hrun : ptx_trace opts ops = some g) (hnf : ptx_never_fails g.malloc)
    (hA : g.find a = some A) (hB : g.find b = some B) (hso : A.outs.small)
    (hsi : B.ins.small) :
    ∃ g1 A1 B1, ptx_node_adddep g a b K = some (g1, true) ∧
      g1.find a = some A1 ∧ g1.find b = some B1 ∧
      (A1.outs.small →
        (∀ y, y ∈ ptx_edgemap_keys A1.outs ↔
          (y ∈ ptx_edgemap_keys A.outs ∨ y = (b, K % 65536))) ∧
        ((b, K % 65536) ∈ ptx_edgemap_keys A.outs →
          ptx_edgemap_count A1.outs = ptx_edgemap_count A.outs) ∧
        ((b, K % 65536) ∉ ptx_edgemap_keys A.outs →
          ptx_edgemap_count A1.outs = ptx_edgemap_count A.outs + 1) ∧
        ∃ l, ptx_edgemap_empty.gains l A1.outs ∧ (∀ y, y ∈ ptx_edgemap_keys A1.outs ↔ y ∈ l) ∧
          ptx_edgemap_count A1.outs = l.dedup.length) ∧
      (B1.ins.small →
        (∀ y, y ∈ ptx_edgemap_keys B1.ins ↔
          (y ∈ ptx_edgemap_keys B.ins ∨ y = (a, K % 65536))) ∧
        ((a, K % 65536) ∈ ptx_edgemap_keys B.ins →
          ptx_edgemap_count B1.ins = ptx_edgemap_count B.ins) ∧
        ((a, K % 65536) ∉ ptx_edgemap_keys B.ins →
          ptx_edgemap_count B1.ins = ptx_edgemap_count B.ins + 1) ∧
        ∃ l, ptx_edgemap_empty.gains l B1.ins ∧ (∀ y, y ∈ ptx_edgemap_keys B1.ins ↔ y ∈ l) ∧
          ptx_edgemap_count B1.ins = l.dedup.length) := by
  obtain ⟨lo, li, m0, -, -, -⟩ :=
    ptx_trace_mirror False opts ops g (fun e => e.elim) hgc hlen hrun
  obtain ⟨hAm, hAi⟩ := ptx_graph.find_some g a A hA
  obtain ⟨hBm, hBi⟩ := ptx_graph.find_some g b B hB
  have gA := (m0 A hAm).1
  have gB := (m0 B hBm).2
  obtain ⟨rA, -, -⟩ := ptx_gains_empty _ _ gA hso
  obtain ⟨rB, -, -⟩ := ptx_gains_empty _ _ gB hsi
  have hcA : A.outs.count < 65536 := by have := hso.2; omega
  have hcB : B.ins.count < 65536 := by have := hsi.2; omega
  have haddA : ∃ ga outs1, ptx_edgemap_add g A.outs b K = some (ga, outs1, true) := by
    have hsome := ptx_edgemap_add_returns g A.outs b K rA hcA
    cases hr : ptx_edgemap_add g A.outs b K with
    | none => rw [hr] at hsome; cases hsome
    | some r =>
      obtain ⟨ga, outs1, ok⟩ := r
      have := ptx_edgemap_add_nf g ga A.outs outs1 b K ok hr hnf
      subst this
      exact ⟨ga, outs1, rfl⟩
  have haddB : ∃ ga ins1, ptx_edgemap_add g B.ins a K = some (ga, ins1, true) := by
    have hsome := ptx_edgemap_add_returns g B.ins a K rB hcB
    cases hr : ptx_edgemap_add g B.ins a K with
    | none => rw [hr] at hsome; cases hsome
    | some r =>
      obtain ⟨ga, ins1, ok⟩ := r
      have := ptx_edgemap_add_nf g ga B.ins ins1 a K ok hr hnf
      subst this
      exact ⟨ga, ins1, rfl⟩
  obtain ⟨gA1, outs1, hoA⟩ := haddA
  obtain ⟨gB1, ins1, hoB⟩ := haddB
  obtain ⟨g1, hrun1, hnodes, -⟩ := ptx_node_adddep_run g a b K A B ins1 outs1 hnf hA hB
    ⟨g, gB1, hoB⟩ ⟨g, gA1, hoA⟩
  have hfind := ptx_find_map g g1 (ptx_node.linked a b ins1 outs1) hnodes
    (fun n => (ptx_node.linked_fields a b ins1 outs1 n).1)
  have hfa := hfind a
  have hfb := hfind b
  rw [hA] at hfa
  rw [hB] at hfb
  simp only [Option.map_some'] at hfa hfb
  have hAo : (ptx_node.linked a b ins1 outs1 A).outs = outs1 := by
    rw [(ptx_node.linked_fields a b ins1 outs1 A).2.2, if_pos hAi]
  have hBo : (ptx_node.linked a b ins1 outs1 B).ins = ins1 := by
    rw [(ptx_node.linked_fields a b ins1 outs1 B).2.1, if_pos hBi]
  refine ⟨g1, _, _, hrun1, hfa, hfb, ?_, ?_⟩
  · rw [hAo]
    exact ptx_edgemap_add_history _ A.outs outs1 g gA1 b K gA hoA
  · rw [hBo]
    exact ptx_edgemap_add_history _ B.ins ins1 g gB1 a K gB hoB

theorem ptx_example_ww_finds :
    ptx_example_ww.find 1 = some ptx_example_T1 ∧ ptx_example_ww.find 2 = some ptx_example_T2 := by
  decide

theorem ptx_node_adddep_idempotent_witness :
    (ptx_op.gc ∉ ptx_ops_write_write ∧ ptx_ops_write_write.length < 2 ^ 64 ∧
      ptx_trace ptx_opts_default ptx_ops_write_write = some ptx_example_ww ∧
      ptx_never_fails ptx_example_ww.malloc ∧
      ptx_example_ww.find 1 = some ptx_example_T1 ∧
      ptx_example_ww.find 2 = some ptx_example_T2 ∧
      ptx_example_T1.outs.small ∧ ptx_example_T2.ins.small) ∧
    ∃ g1 A1 B1, ptx_node_adddep ptx_example_ww 1 2 PTX_WW = some (g1, true) ∧
      g1.find 1 = some A1 ∧ g1.find 2 = some B1 ∧
      (A1.outs.small →
        (∀ y, y ∈ ptx_edgemap_keys A1.outs ↔
          (y ∈ ptx_edgemap_keys ptx_example_T1.outs ∨ y = (2, PTX_WW % 65536))) ∧
        ((2, PTX_WW % 65536) ∈ ptx_edgemap_keys ptx_example_T1.outs →
          ptx_edgemap_count A1.outs = ptx_edgemap_count ptx_example_T1.outs) ∧
        ((2, PTX_WW % 65536) ∉ ptx_edgemap_keys ptx_example_T1.outs →
          ptx_edgemap_count A1.outs = ptx_edgemap_count ptx_example_T1.outs + 1) ∧
        ∃ l, ptx_edgemap_empty.gains l A1.outs ∧ (∀ y, y ∈ ptx_edgemap_keys A1.outs ↔ y ∈ l) ∧
          ptx_edgemap_count A1.outs = l.dedup.length) ∧
      (B1.ins.small →
        (∀ y, y ∈ ptx_edgemap_keys B1.ins ↔
          (y ∈ ptx_edgemap_keys ptx_example_T2.ins ∨ y = (1, PTX_WW % 65536))) ∧
        ((1, PTX_WW % 65536) ∈ ptx_edgemap_keys ptx_example_T2.ins →
          ptx_edgemap_count B1.ins = ptx_edgemap_count ptx_example_T2.ins) ∧
        ((1, PTX_WW % 65536) ∉ ptx_edgemap_keys ptx_example_T2.ins →
          ptx_edgemap_count B1.ins = ptx_edgemap_count ptx_example_T2.ins + 1) ∧
        ∃ l, ptx_edgemap_empty.gains l B1.ins ∧ (∀ y, y ∈ ptx_edgemap_keys B1.ins ↔ y ∈ l) ∧
          ptx_edgemap_count B1.ins = l.dedup.length) :=
  ⟨⟨by decide, by decide, ptx_example_ww_reached, by decide, ptx_example_ww_finds.1,
      ptx_example_ww_finds.2, by decide, by decide⟩,
    ptx_node_adddep_idempotent ptx_opts_default ptx_ops_write_write ptx_example_ww 1 2 PTX_WW
      ptx_example_T1 ptx_example_T2 (by decide) (by decide) ptx_example_ww_reached (by decide)
      ptx_example_ww_finds.1 ptx_example_ww_finds.2 (by decide) (by decide)⟩

/-- C11 (amended). Once a node is COMMITTED or ROLLEDBACK, no later call changes
its state, its read set, its write set or the flags `hasreads` and `haswrites`:
in every graph reached from `ptx_graph_new`, for a node `x` in one of these two
states and every further sequence of calls (begin, read, write, commit,
rollback, also the collector) that runs, if the node is still in the live list
afterwards, these parts are what they were.  Its `outs` map and its `ins` map
are not frozen, they grow: when the collector is not called, each of the two
maps afterwards is reached from the map before by calls of `ptx_edgemap_add`
that returned true, and as long as it has at most `65535` entries in at most
`131072` buckets its entries are the entries before and the pairs added.
Fewer than `2^64` calls in all. -/
theorem ptx_deactivated_frozen (opts : ptx_graph_opts) (ops1 ops2 : List ptx_op)
    (g g1 : ptx_graph) (x : Nat) (n n1 : ptx_node)
    (hlen : ops1.length + ops2.length < 2 ^ 64)
    (h1 : ptx_trace opts ops1 = some g) (h2 : ptx_run g ops2 = some g1)
    (hf : g.find x = some n) (hd : n.state = PTX_COMMITTED ∨ n.state = PTX_ROLLEDBACK)
    (hf1 : g1.find x = some n1) :
    (n1.state = n.state ∧ n1.reads = n.reads ∧ n1.writes = n.writes ∧
      n1.hasreads = n.hasreads ∧ n1.haswrites = n.haswrites) ∧
    (ptx_op.gc ∉ ops1 → ptx_op.gc ∉ ops2 →
      ∃ lo li, n.outs.gains lo n1.outs ∧ n.ins.gains li n1.ins ∧
        (n1.outs.small →
          ∀ y, y ∈ ptx_edgemap_keys n1.outs ↔ (y ∈ ptx_edgemap_keys n.outs ∨ y ∈ lo)) ∧
        (n1.ins.small →
          ∀ y, y ∈ ptx_edgemap_keys n1.ins ↔ (y ∈ ptx_edgemap_keys n.ins ∨ y ∈ li))) := by
  refine ⟨ptx_deactivated_keeps opts ops1 ops2 g g1 x n n1 hlen h1 h2 hf hd hf1, ?_⟩
  intro hgc1 hgc2
  have hw := ptx_trace_wf opts ops1 g (by omega) h1
  obtain ⟨-, hi⟩ := ptx_trace_balanced opts ops1 g (by omega) h1
  obtain ⟨l0, l1, m0, -, -, -⟩ :=
    ptx_trace_mirror False opts ops1 g (fun e => e.elim) hgc1 (by omega) h1
  obtain ⟨hm, -⟩ := ptx_graph.find_some g x n hf
  have hgain : ptx_gained x n g := ⟨n, [], [], hf, rfl, rfl⟩
  obtain ⟨n2, lo, li, hf2, ho, hin⟩ := ptx_run_keeps (ptx_gained x n) (ptx_gained_stable x n)
    ops2 g g1 hw (by omega) hgc2 hgain h2
  rw [hf1] at hf2
  cases hf2
  refine ⟨lo, li, ho, hin, ?_, ?_⟩
  · intro hs
    have hs0 := ptx_gains_small_back lo n.outs n1.outs ho hs
    obtain ⟨r0, -, -⟩ := ptx_gains_empty _ _ (m0 n hm).1 hs0
    exact (ptx_gains_small lo n.outs n1.outs r0 ho hs).2
  · intro hs
    have hs0 := ptx_gains_small_back li n.ins n1.ins hin hs
    obtain ⟨r0, -, -⟩ := ptx_gains_empty _ _ (m0 n hm).2 hs0
    exact (ptx_gains_small li n.ins n1.ins r0 hin hs).2

theorem ptx_deactivated_frozen_witness :
    ∃ g g1 n n1, ptx_trace ptx_opts_default ptx_ops_write_commit = some g ∧
      ptx_run g ptx_ops_begin_write = some g1 ∧ g.find 1 = some n ∧
      n.state = PTX_COMMITTED ∧ g1.find 1 = some n1 ∧
      ((n1.state = n.state ∧ n1.reads = n.reads ∧ n1.writes = n.writes ∧
        n1.hasreads = n.hasreads ∧ n1.haswrites = n.haswrites) ∧
      (ptx_op.gc ∉ ptx_ops_write_commit → ptx_op.gc ∉ ptx_ops_begin_write →
        ∃ lo li, n.outs.gains lo n1.outs ∧ n.ins.gains li n1.ins ∧
          (n1.outs.small →
            ∀ y, y ∈ ptx_edgemap_keys n1.outs ↔ (y ∈ ptx_edgemap_keys n.outs ∨ y ∈ lo)) ∧
          (n1.ins.small →
            ∀ y, y ∈ ptx_edgemap_keys n1.ins ↔ (y ∈ ptx_edgemap_keys n.ins ∨ y ∈ li)))) := by
  have h1 : ptx_trace ptx_opts_default ptx_ops_write_commit
      = some ((ptx_trace ptx_opts_default ptx_ops_write_commit).get ptx_write_commit_runs) :=
    (Option.some_get _).symm
  have h2 : ptx_run ((ptx_trace ptx_opts_default ptx_ops_write_commit).get ptx_write_commit_runs)
      ptx_ops_begin_write
      = some ((ptx_run ((ptx_trace ptx_opts_default ptx_ops_write_commit).get
          ptx_write_commit_runs) ptx_ops_begin_write).get ptx_write_commit_write_runs) :=
    (Option.some_get _).symm
  have h3 := (Option.some_get ptx_write_commit_finds).symm
  have h5 := (Option.some_get ptx_write_commit_write_finds).symm
  have h4 : (Option.get _ ptx_write_commit_finds).state = PTX_COMMITTED := by decide
  exact ⟨_, _, _, _, h1, h2, h3, h4, h5,
    ptx_deactivated_frozen ptx_opts_default ptx_ops_write_commit ptx_ops_begin_write _ _ 1 _ _
      (by decide) h1 h2 h3 (Or.inl h4) h5⟩

/-! ## The run that wraps a DIB: begin -/

theorem ptx_wrap_node_ident (m k st j cap t capi x : Nat) :
    (ptx_wrap_node m k st j cap t capi x).ident = x := by
  unfold ptx_wrap_node
  split
  · rename_i h; rw [h]
  · split <;> rfl

theorem ptx_table_idents (F : Nat → ptx_node) (hF : ∀ x, (F x).ident = x) (N : Nat) :
    ((List.range' 1 N).map F).map (fun n => n.ident) = List.range' 1 N := by
  rw [List.map_map]
  have : ((fun n : ptx_node => n.ident) ∘ F) = id := by
    funext x
    exact hF x
  rw [this, List.map_id]

theorem ptx_table_find (F : Nat → ptx_node) (hF : ∀ x, (F x).ident = x) (N x : Nat)
    (g : ptx_graph) (hg : g.nodes = (List.range' 1 N).map F) (h1 : 1 ≤ x) (hN : x ≤ N) :
    g.find x = some (F x) := by
  have hids : (g.nodes.map (fun n => n.ident)).Nodup := by
    rw [hg, ptx_table_idents F hF N]
    exact List.nodup_range' 1 N
  have hmem : F x ∈ g.nodes := by
    rw [hg]
    exact List.mem_map.mpr ⟨x, List.mem_range'_1.mpr ⟨h1, by omega⟩, rfl⟩
  have := ptx_find_of_nodup g hids (F x) hmem
  rw [hF x] at this
  exact this

theorem ptx_wrapped_find (m k st j cap t capi N x : Nat) (g : ptx_graph)
    (hg : ptx_wrapped m k st j cap t capi N g) (h1 : 1 ≤ x) (hN : x ≤ N) :
    g.find x = some (ptx_wrap_node m k st j cap t capi x) :=
  ptx_table_find _ (ptx_wrap_node_ident m k st j cap t capi) N x g hg.1 h1 hN

theorem ptx_wrap_node_fresh (m k st j cap t capi x : Nat) (h1 : x ≠ 1)
    (h2 : ¬ (x % 131072 = 1 ∧ x ≤ ptx_collider j)) :
    ptx_wrap_node m k st j cap t capi x = ptx_node.fresh m k x := by
  unfold ptx_wrap_node
  rw [if_neg h1, if_neg h2]

theorem ptx_wrapped_begin (m k st j cap t capi N : Nat) (g : ptx_graph)
    (hg : ptx_wrapped m k st j cap t capi N g) (hj : ptx_collider j ≤ N)
    (hN : N + 1 < 2 ^ 64) :
    ∃ g1, ptx_apply g ptx_op.begin = some g1 ∧ ptx_wrapped m k st j cap t capi (N + 1) g1 := by
  obtain ⟨hn, hi, hnf, hinit⟩ := hg
  obtain ⟨junk, ga, hal, hsame, hnfa⟩ := ptx_graph.alloc_never_fails g hnf
  have hinit2 : ptx_hashset_init ga.m ga.k = some (ptx_hashset.fresh m k) := by
    rw [hsame.2.2.2.1, hsame.2.2.2.2]
    exact hinit
  have hmod : (ga.ident + 1) % 2 ^ 64 = N + 1 := by
    rw [hsame.2.1, hi]
    exact Nat.mod_eq_of_lt hN
  have hb : ptx_graph_begin g = some (({ ga with
      nodes := ga.nodes ++ [ptx_node.fresh m k (N + 1)], ident := N + 1 } : ptx_graph),
      some (N + 1)) := by
    unfold ptx_graph_begin
    rw [hal]
    simp only []
    rw [hinit2]
    simp only [hmod]
    rfl
  refine ⟨({ ga with nodes := ga.nodes ++ [ptx_node.fresh m k (N + 1)], ident := N + 1 } :
    ptx_graph), ?_, ?_, rfl, hnfa, hinit2⟩
  · show (ptx_graph_begin g).map (fun r => r.1) = _
    rw [hb]
    rfl
  · show ga.nodes ++ [ptx_node.fresh m k (N + 1)] = _
    rw [hsame.1, hn, List.range'_concat, List.map_append, List.map_cons, List.map_nil]
    have hc : 1 ≤ ptx_collider j := by unfold ptx_collider; omega
    have hN1 : 1 + 1 * N = N + 1 := by omega
    rw [hN1, ptx_wrap_node_fresh m k st j cap t capi (N + 1) (by omega)
      (by rintro ⟨-, h⟩; omega)]

theorem ptx_run_cons (g : ptx_graph) (op : ptx_op) (rest : List ptx_op) :
    ptx_run g (op :: rest) = (match ptx_apply g op with
      | none => none
      | some g1 => ptx_run g1 rest) := rfl

theorem ptx_run_append (l1 l2 : List ptx_op) :
    ∀ (g g1 : ptx_graph), ptx_run g l1 = some g1 → ptx_run g (l1 ++ l2) = ptx_run g1 l2 := by
  induction l1 with
  | nil =>
    intro g g1 h
    simp only [ptx_run, Option.some.injEq] at h
    subst h
    rfl
  | cons op rest ih =>
    intro g g1 h
    rw [List.cons_append, ptx_run_cons]
    rw [ptx_run_cons] at h
    cases ha : ptx_apply g op with
    | none => rw [ha] at h; simp at h
    | some g2 =>
      rw [ha] at h
      exact ih g2 g1 h

theorem ptx_wrapped_begins (m k st j cap t capi : Nat) :
    ∀ (i N : Nat) (g : ptx_graph), ptx_wrapped m k st j cap t capi N g → ptx_collider j ≤ N →
      N + i < 2 ^ 64 →
      ∃ g1, ptx_run g (List.replicate i ptx_op.begin) = some g1 ∧
        ptx_wrapped m k st j cap t capi (N + i) g1 := by
  intro i
  induction i with
  | zero =>
    intro N g hg _ _
    exact ⟨g, rfl, hg⟩
  | succ i ih =>
    intro N g hg hj hN
    obtain ⟨g1, h1, hg1⟩ := ptx_wrapped_begin m k st j cap t capi N g hg hj (by omega)
    obtain ⟨g2, h2, hg2⟩ := ih (N + 1) g1 hg1 (by omega) (by omega)
    refine ⟨g2, ?_, ?_⟩
    · rw [List.replicate_succ, ptx_run_cons, h1]
      exact h2
    · have : N + (i + 1) = N + 1 + i := by omega
      rw [this]
      exact hg2

/-! ## The run that wraps a DIB: one reader -/

theorem ptx_edgemap_add_one_eval :
    (ptx_edgemap_add ptx_example_ww ptx_edgemap_empty 1 PTX_WR).map (fun r => r.2)
      = some (ptx_edgemap.one PTX_WR, true) ∧
    (ptx_edgemap_add ptx_example_ww ptx_edgemap_empty 1 PTX_RW).map (fun r => r.2)
      = some (ptx_edgemap.one PTX_RW, true) := by
  decide

theorem ptx_edgemap_add_one_wr :
    ∃ g0 g0a, ptx_edgemap_add g0 ptx_edgemap_empty 1 PTX_WR
      = some (g0a, ptx_edgemap.one PTX_WR, true) := by
  have h := ptx_edgemap_add_one_eval.1
  cases hr : ptx_edgemap_add ptx_example_ww ptx_edgemap_empty 1 PTX_WR with
  | none => rw [hr] at h; cases h
  | some r =>
    obtain ⟨ga, mp, ok⟩ := r
    rw [hr] at h
    simp only [Option.map_some', Option.some.injEq, Prod.mk.injEq] at h
    rw [h.1, h.2] at hr
    exact ⟨_, _, hr⟩

theorem ptx_edgemap_add_one_rw :
    ∃ g0 g0a, ptx_edgemap_add g0 ptx_edgemap_empty 1 PTX_RW
      = some (g0a, ptx_edgemap.one PTX_RW, true) := by
  have h := ptx_edgemap_add_one_eval.2
  cases hr : ptx_edgemap_add ptx_example_ww ptx_edgemap_empty 1 PTX_RW with
  | none => rw [hr] at h; cases h
  | some r =>
    obtain ⟨ga, mp, ok⟩ := r
    rw [hr] at h
    simp only [Option.map_some', Option.some.injEq, Prod.mk.injEq] at h
    rw [h.1, h.2] at hr
    exact ⟨_, _, hr⟩

theorem ptx_test_fresh_seven (m k : Nat) :
    ptx_hashset_test (ptx_hashset.fresh m k) 7 = some false := by
  rw [ptx_hashset_test_fresh]
  rfl

theorem ptx_test_single_seven (m k : Nat) :
    ptx_hashset_test (ptx_hashset.single m k 7) 7 = some true :=
  ptx_hashset_test_single m k 7 7 rfl

/-- The loop of `ptx_node_read` passes every node whose write set does not hold
the item. -/
theorem ptx_node_read_loop_skip (node hash : Nat) :
    ∀ (rest : List Nat) (g : ptx_graph),
      (∀ o ∈ rest, o ≠ node →
        ∃ n, g.find o = some n ∧ ptx_hashset_test n.writes hash = some false) →
      ptx_node_read_loop node hash g rest = some g := by
  intro rest
  induction rest with
  | nil => intro g _; rfl
  | cons o rest ih =>
    intro g h
    unfold ptx_node_read_loop
    by_cases ho : o ≠ node
    · rw [if_pos ho]
      obtain ⟨n, hf, ht⟩ := h o (List.mem_cons_self _ _) ho
      rw [hf]
      simp only []
      rw [ht]
      exact ih g (fun o1 ho1 => h o1 (List.mem_cons_of_mem _ ho1))
    · rw [if_neg ho]
      exact ih g (fun o1 ho1 => h o1 (List.mem_cons_of_mem _ ho1))

theorem ptx_wrap_node_writes (m k st j cap t capi x : Nat) (hx : x ≠ 1) :
    (ptx_wrap_node m k st j cap t capi x).writes = ptx_hashset.fresh m k := by
  unfold ptx_wrap_node
  rw [if_neg hx]
  split <;> rfl

/-- Node by node, what the read of the reader `ptx_collider (j + 1)` makes of the
live list. -/
theorem ptx_wrap_node_read (m k st j cap cap1 t capi y : Nat) (ht : t ≤ j) (hy1 : 1 ≤ y)
    (hy : y ≤ ptx_collider (j + 1)) :
    ptx_node.linked 1 (ptx_collider (j + 1)) (ptx_edgemap.one PTX_WR)
        (ptx_colliding PTX_WR (j + 1) cap1)
        ((fun n : ptx_node => if n.ident == ptx_collider (j + 1) then
            { n with reads := ptx_hashset.single m k 7, hasreads := true } else n)
          (ptx_wrap_node m k st j cap t capi y))
      = ptx_wrap_node m k st (j + 1) cap1 t capi y := by
  have hx1 : ptx_collider (j + 1) ≠ 1 := by unfold ptx_collider; omega
  by_cases h1 : y = 1
  · subst h1
    have e1 : ((1 : Nat) == ptx_collider (j + 1)) = false := by
      simpa using (fun e : 1 = ptx_collider (j + 1) => hx1 e.symm)
    simp only [ptx_wrap_node, ptx_node.linked, if_true, e1, Bool.false_eq_true, if_false,
      beq_self_eq_true]
  · by_cases h2 : y = ptx_collider (j + 1)
    · subst h2
      have hn : ¬ (ptx_collider (j + 1) % 131072 = 1 ∧ ptx_collider (j + 1) ≤ ptx_collider j) := by
        unfold ptx_collider; omega
      have hp : ptx_collider (j + 1) % 131072 = 1 ∧ ptx_collider (j + 1) ≤ ptx_collider (j + 1) := by
        unfold ptx_collider; omega
      have ht2 : ¬ ptx_collider (j + 1) ≤ ptx_collider t := by
        unfold ptx_collider; omega
      have e1 : (ptx_collider (j + 1) == 1) = false := by simpa using hx1
      simp only [ptx_wrap_node, ptx_node.linked, ptx_node.fresh, if_neg hx1, if_neg hn, if_pos hp,
        if_neg ht2, beq_self_eq_true, if_true, e1, Bool.false_eq_true, if_false]
    · have e1 : (y == ptx_collider (j + 1)) = false := by simpa using h2
      have e2 : (y == 1) = false := by simpa using h1
      have hiff : (y % 131072 = 1 ∧ y ≤ ptx_collider (j + 1)) ↔
          (y % 131072 = 1 ∧ y ≤ ptx_collider j) := by
        unfold ptx_collider at *
        omega
      have hid : (ptx_wrap_node m k st j cap t capi y).ident = y :=
        ptx_wrap_node_ident m k st j cap t capi y
      have hl : ptx_node.linked 1 (ptx_collider (j + 1)) (ptx_edgemap.one PTX_WR)
          (ptx_colliding PTX_WR (j + 1) cap1)
          ((fun n : ptx_node => if n.ident == ptx_collider (j + 1) then
              { n with reads := ptx_hashset.single m k 7, hasreads := true } else n)
            (ptx_wrap_node m k st j cap t capi y)) = ptx_wrap_node m k st j cap t capi y := by
        simp only [ptx_node.linked, hid, e1, e2, Bool.false_eq_true, if_false]
      rw [hl]
      unfold ptx_wrap_node
      rw [if_neg h1, if_neg h1]
      by_cases c : y % 131072 = 1 ∧ y ≤ ptx_collider j
      · rw [if_pos c, if_pos (hiff.mpr c)]
      · rw [if_neg c, if_neg (fun h => c (hiff.mp h))]

/-! ## The run that wraps a DIB: the readers -/

theorem ptx_node_read_loop_hit (node hash other : Nat) (rest : List Nat) (g g1 : ptx_graph)
    (o : ptx_node) (hne : other ≠ node) (hf : g.find other = some o)
    (ht : ptx_hashset_test o.writes hash = some true)
    (ha : ptx_node_adddep g other node PTX_WR = some (g1, true)) :
    ptx_node_read_loop node hash g (other :: rest) = ptx_node_read_loop node hash g1 rest := by
  rw [ptx_node_read_loop, if_pos hne, hf]
  simp only []
  rw [ht]
  simp only []
  rw [ha]

theorem ptx_wrapped_idents (m k st j cap t capi N : Nat) (g : ptx_graph)
    (hg : ptx_wrapped m k st j cap t capi N g) :
    g.nodes.map (fun n => n.ident) = List.range' 1 N := by
  rw [hg.1]
  exact ptx_table_idents _ (ptx_wrap_node_ident m k st j cap t capi) N

/-- The read of the reader `ptx_collider (j + 1)`: the reader records the item,
finds it in the write set of `T1` and the dependency is added. -/
theorem ptx_wrapped_read (m k st j cap t capi : Nat) (g : ptx_graph)
    (hg : ptx_wrapped m k st j cap t capi (ptx_collider (j + 1)) g)
    (hcap : ptx_capacity j cap) (hj : j ≤ 65535) (ht : t ≤ j) :
    ∃ g1 cap1, ptx_apply g (ptx_op.read (ptx_collider (j + 1)) 7) = some g1 ∧
      ptx_wrapped m k st (j + 1) cap1 t capi (ptx_collider (j + 1)) g1 ∧
      ptx_capacity (j + 1) cap1 := by
  have hx1 : ptx_collider (j + 1) ≠ 1 := by unfold ptx_collider; omega
  have hx2 : 2 ≤ ptx_collider (j + 1) := by unfold ptx_collider; omega
  have hxn : ¬ (ptx_collider (j + 1) % 131072 = 1 ∧ ptx_collider (j + 1) ≤ ptx_collider j) := by
    unfold ptx_collider; omega
  have hfx : g.find (ptx_collider (j + 1)) = some (ptx_node.fresh m k (ptx_collider (j + 1))) := by
    rw [ptx_wrapped_find m k st j cap t capi _ _ g hg (by omega) (le_refl _),
      ptx_wrap_node_fresh m k st j cap t capi _ hx1 hxn]
  have hf1 : g.find 1 = some (ptx_wrap_node m k st j cap t capi 1) :=
    ptx_wrapped_find m k st j cap t capi _ 1 g hg (le_refl _) (by omega)
  obtain ⟨hn, hi, hnf, hinit⟩ := hg
  -- the graph after the reader has recorded the item
  have hupd : ∀ n : ptx_node,
      ({ n with reads := ptx_hashset.single m k 7, hasreads := true } : ptx_node).ident
        = n.ident := fun _ => rfl
  have hg1 : (g.update (ptx_collider (j + 1))
      (fun n => { n with reads := ptx_hashset.single m k 7, hasreads := true })).find 1
      = some (ptx_wrap_node m k st j cap t capi 1) := by
    rw [ptx_graph.find_update g _ 1 _ hupd, hf1]
    simp only [Option.map_some', ptx_wrap_node_ident]
    have e1 : ((1 : Nat) == ptx_collider (j + 1)) = false := by
      simpa using (fun e : 1 = ptx_collider (j + 1) => hx1 e.symm)
    rw [e1]
    rfl
  have hgx : (g.update (ptx_collider (j + 1))
      (fun n => { n with reads := ptx_hashset.single m k 7, hasreads := true })).find
        (ptx_collider (j + 1))
      = some { ptx_node.fresh m k (ptx_collider (j + 1)) with
          reads := ptx_hashset.single m k 7, hasreads := true } := by
    rw [ptx_graph.find_update g _ _ _ hupd, hfx]
    simp only [Option.map_some']
    have e1 : ((ptx_node.fresh m k (ptx_collider (j + 1))).ident == ptx_collider (j + 1))
        = true := by
      show (ptx_collider (j + 1) == ptx_collider (j + 1)) = true
      simp
    rw [e1]
    rfl
  obtain ⟨gc, cap1, hcadd, hcap1, -, -⟩ :=
    ptx_colliding_add g PTX_WR PTX_WR j cap hnf (by decide) hcap hj
  obtain ⟨g1, hdep, hnodes, hident, hnf1, hm1, hk1, -⟩ :=
    ptx_node_adddep_run (g.update (ptx_collider (j + 1))
        (fun n => { n with reads := ptx_hashset.single m k 7, hasreads := true }))
      1 (ptx_collider (j + 1)) PTX_WR (ptx_wrap_node m k st j cap t capi 1)
      { ptx_node.fresh m k (ptx_collider (j + 1)) with
          reads := ptx_hashset.single m k 7, hasreads := true }
      (ptx_edgemap.one PTX_WR) (ptx_colliding PTX_WR (j + 1) cap1) hnf hg1 hgx
      ptx_edgemap_add_one_wr ⟨g, gc, hcadd⟩
  have hw1 : ptx_wrapped m k st (j + 1) cap1 t capi (ptx_collider (j + 1)) g1 := by
    refine ⟨?_, by rw [hident]; exact hi, hnf1, by rw [hm1, hk1]; exact hinit⟩
    rw [hnodes]
    show (g.nodes.map _).map _ = _
    rw [hn, List.map_map, List.map_map]
    apply List.map_congr_left
    intro y hy
    obtain ⟨hy1, hy2⟩ := List.mem_range'_1.mp hy
    exact ptx_wrap_node_read m k st j cap cap1 t capi y ht hy1 (by omega)
  refine ⟨g1, cap1, ?_, hw1, hcap1⟩
  have h7 : 7 % 2 ^ 64 = 7 := by norm_num
  show ptx_node_read g (ptx_collider (j + 1)) (7 % 2 ^ 64) = some g1
  rw [h7]
  unfold ptx_node_read
  rw [hfx]
  simp only []
  have hst : (ptx_node.fresh m k (ptx_collider (j + 1))).state = PTX_ACTIVE := rfl
  have hrd : (ptx_node.fresh m k (ptx_collider (j + 1))).reads = ptx_hashset.fresh m k := rfl
  rw [hst, if_neg (by decide), if_pos rfl, hrd, ptx_hashset_add_fresh]
  simp only []
  have hids : g.nodes.map (fun n => n.ident)
      = 1 :: List.range' 2 (ptx_collider (j + 1) - 1) := by
    rw [hn, ptx_table_idents _ (ptx_wrap_node_ident m k st j cap t capi)]
    have : ptx_collider (j + 1) = (ptx_collider (j + 1) - 1) + 1 := by omega
    conv_lhs => rw [this]
    rw [List.range'_succ]
  rw [hids, ptx_node_read_loop_hit _ 7 1 _ _ g1 _ (fun e => hx1 e.symm) hg1
    (ptx_test_single_seven m k) hdep]
  apply ptx_node_read_loop_skip
  intro o ho _
  obtain ⟨ho1, ho2⟩ := List.mem_range'_1.mp ho
  refine ⟨_, ptx_wrapped_find m k st (j + 1) cap1 t capi _ o g1 hw1 (by omega) (by omega), ?_⟩
  rw [ptx_wrap_node_writes m k st (j + 1) cap1 t capi o (by omega)]
  exact ptx_test_fresh_seven m k

/-- The first `j` readers run, and leave `T1.outs` with the `j` colliding
entries. -/
theorem ptx_wrapped_readers (m k st : Nat) :
    ∀ (j : Nat) (g : ptx_graph), j ≤ 65536 → ptx_wrapped m k st 0 0 0 0 1 g →
      ∃ g1 cap, ptx_run g (ptx_ops_readers j) = some g1 ∧
        ptx_wrapped m k st j cap 0 0 (ptx_collider j) g1 ∧ ptx_capacity j cap := by
  intro j
  induction j with
  | zero =>
    intro g _ hg
    exact ⟨g, 0, rfl, hg, Or.inl ⟨rfl, rfl⟩⟩
  | succ j ih =>
    intro g hj hg
    obtain ⟨g1, cap, h1, hw1, hc1⟩ := ih g (by omega) hg
    obtain ⟨g2, h2, hw2⟩ := ptx_wrapped_begins m k st j cap 0 0 131072 (ptx_collider j) g1 hw1
      (le_refl _) (by unfold ptx_collider; omega)
    have hN : ptx_collider j + 131072 = ptx_collider (j + 1) := by unfold ptx_collider; omega
    rw [hN] at hw2
    obtain ⟨g3, cap1, h3, hw3, hc3⟩ := ptx_wrapped_read m k st j cap 0 0 g2 hw2 hc1 (by omega)
      (Nat.zero_le _)
    refine ⟨g3, cap1, ?_, hw3, hc3⟩
    show ptx_run g (ptx_ops_readers j ++
      (List.replicate 131072 ptx_op.begin ++ [ptx_op.read (ptx_collider (j + 1)) 7])) = some g3
    rw [ptx_run_append _ _ g g1 h1, ptx_run_append _ _ g1 g2 h2, ptx_run_cons, h3]
    rfl

/-! ## The run that wraps a DIB: the writer writes again -/

theorem ptx_node_write_loop_pass (node hash other : Nat) (rest : List Nat) (g : ptx_graph)
    (o : ptx_node) (hne : other ≠ node) (hf : g.find other = some o)
    (hr : ptx_hashset_test o.reads hash = some false)
    (hw : ptx_hashset_test o.writes hash = some false) :
    ptx_node_write_loop node hash g (other :: rest) = ptx_node_write_loop node hash g rest := by
  rw [ptx_node_write_loop, if_pos hne, hf]
  simp only []
  rw [hr]
  simp only [Bool.false_eq_true, if_false]
  unfold ptx_node_write_ww
  rw [hf]
  simp only []
  rw [hw]

theorem ptx_node_write_loop_hit (node hash other : Nat) (rest : List Nat) (g g1 : ptx_graph)
    (o o1 : ptx_node) (hne : other ≠ node) (hf : g.find other = some o)
    (hr : ptx_hashset_test o.reads hash = some true)
    (ha : ptx_node_adddep g other node PTX_RW = some (g1, true))
    (hf1 : g1.find other = some o1)
    (hw : ptx_hashset_test o1.writes hash = some false) :
    ptx_node_write_loop node hash g (other :: rest) = ptx_node_write_loop node hash g1 rest := by
  rw [ptx_node_write_loop, if_pos hne, hf]
  simp only []
  rw [hr]
  simp only [if_true]
  rw [ha]
  simp only []
  unfold ptx_node_write_ww
  rw [hf1]
  simp only []
  rw [hw]

theorem ptx_wrap_node_reader (m k st j cap t capi x : Nat) (h1 : x ≠ 1)
    (h2 : x % 131072 = 1 ∧ x ≤ ptx_collider j) :
    ptx_wrap_node m k st j cap t capi x =
      { state := PTX_ACTIVE, ident := x, reached := false, nomem := false, hasdeps := true,
        hasreads := true, haswrites := false,
        outs := if x ≤ ptx_collider t then ptx_edgemap.one PTX_RW else ptx_edgemap_empty,
        ins := ptx_edgemap.one PTX_WR, reads := ptx_hashset.single m k 7,
        writes := ptx_hashset.fresh m k } := by
  unfold ptx_wrap_node
  rw [if_neg h1, if_pos h2]

/-- Node by node, what the dependency of the writer on the reader
`ptx_collider (t + 1)` makes of the live list. -/
theorem ptx_wrap_node_write (m k st j cap t capi capi1 y : Nat) (ht : t + 1 ≤ j) :
    ptx_node.linked (ptx_collider (t + 1)) 1 (ptx_colliding PTX_RW (t + 1) capi1)
        (ptx_edgemap.one PTX_RW) (ptx_wrap_node m k st j cap t capi y)
      = ptx_wrap_node m k st j cap (t + 1) capi1 y := by
  have hx1 : ptx_collider (t + 1) ≠ 1 := by unfold ptx_collider; omega
  by_cases h1 : y = 1
  · subst h1
    have e1 : ((1 : Nat) == ptx_collider (t + 1)) = false := by
      simpa using (fun e : 1 = ptx_collider (t + 1) => hx1 e.symm)
    have e2 : decide (0 < t + 1) = true := by simp
    simp only [ptx_wrap_node, ptx_node.linked, if_true, e1, e2, Bool.false_eq_true, if_false,
      beq_self_eq_true]
  · by_cases h2 : y = ptx_collider (t + 1)
    · subst h2
      have hp : ptx_collider (t + 1) % 131072 = 1 ∧ ptx_collider (t + 1) ≤ ptx_collider j := by
        unfold ptx_collider; omega
      have ht2 : ¬ ptx_collider (t + 1) ≤ ptx_collider t := by
        unfold ptx_collider; omega
      have e1 : (ptx_collider (t + 1) == 1) = false := by simpa using hx1
      rw [ptx_wrap_node_reader m k st j cap t capi _ hx1 hp,
        ptx_wrap_node_reader m k st j cap (t + 1) capi1 _ hx1 hp]
      simp only [ptx_node.linked, if_neg ht2, beq_self_eq_true, if_true, e1,
        Bool.false_eq_true, if_false, le_refl]
    · have e1 : (y == ptx_collider (t + 1)) = false := by simpa using h2
      have e2 : (y == 1) = false := by simpa using h1
      have hid : (ptx_wrap_node m k st j cap t capi y).ident = y :=
        ptx_wrap_node_ident m k st j cap t capi y
      have hl : ptx_node.linked (ptx_collider (t + 1)) 1 (ptx_colliding PTX_RW (t + 1) capi1)
          (ptx_edgemap.one PTX_RW) (ptx_wrap_node m k st j cap t capi y)
          = ptx_wrap_node m k st j cap t capi y := by
        simp only [ptx_node.linked, hid, e1, e2, Bool.false_eq_true, if_false]
      rw [hl]
      unfold ptx_wrap_node
      rw [if_neg h1, if_neg h1]
      by_cases c : y % 131072 = 1 ∧ y ≤ ptx_collider j
      · rw [if_pos c, if_pos c]
        have hiff : y ≤ ptx_collider t ↔ y ≤ ptx_collider (t + 1) := by
          unfold ptx_collider at *
          omega
        by_cases c2 : y ≤ ptx_collider t
        · rw [if_pos c2, if_pos (hiff.mp c2)]
        · rw [if_neg c2, if_neg (fun h => c2 (hiff.mpr h))]
      · rw [if_neg c, if_neg c]

/-- The loop of `ptx_node_write` of the writer over the nodes from `c` on: every
reader it meets is added to `T1.ins`. -/
theorem ptx_wrapped_write_loop (m k st j cap : Nat) (hj : j ≤ 65536) :
    ∀ (len c t capi : Nat) (g : ptx_graph),
      ptx_wrapped m k st j cap t capi (ptx_collider j) g → ptx_capacity t capi →
      ptx_collider t < c → c ≤ ptx_collider (t + 1) → c + len = ptx_collider j + 1 →
      ∃ g1 capi1, ptx_node_write_loop 1 7 g (List.range' c len) = some g1 ∧
        ptx_wrapped m k st j cap j capi1 (ptx_collider j) g1 ∧ ptx_capacity j capi1 := by
  intro len
  induction len with
  | zero =>
    intro c t capi g hg hc h1 h2 h3
    have : t = j := by
      unfold ptx_collider at *
      omega
    subst this
    exact ⟨g, capi, rfl, hg, hc⟩
  | succ len ih =>
    intro c t capi g hg hc h1 h2 h3
    have hc1 : c ≠ 1 := by unfold ptx_collider at h1; omega
    have hcN : c ≤ ptx_collider j := by omega
    have hfc := ptx_wrapped_find m k st j cap t capi _ c g hg (by omega) hcN
    rw [List.range'_succ]
    by_cases hcr : c = ptx_collider (t + 1)
    · have htj : t + 1 ≤ j := by
        unfold ptx_collider at *
        omega
      have hp : c % 131072 = 1 ∧ c ≤ ptx_collider j := by
        unfold ptx_collider at *
        omega
      have hnt : ¬ c ≤ ptx_collider t := by omega
      have hf1 := ptx_wrapped_find m k st j cap t capi _ 1 g hg (le_refl _) (by omega)
      obtain ⟨gc, capi1, hcadd, hcap1, -, -⟩ :=
        ptx_colliding_add g PTX_RW PTX_RW t capi hg.2.2.1 (by decide) hc (by omega)
      rw [← hcr] at hcadd
      have hB : (ptx_wrap_node m k st j cap t capi 1).ins = ptx_colliding PTX_RW t capi := by
        unfold ptx_wrap_node
        rw [if_pos rfl]
      have hA : (ptx_wrap_node m k st j cap t capi c).outs = ptx_edgemap_empty := by
        rw [ptx_wrap_node_reader m k st j cap t capi c hc1 hp]
        simp only [if_neg hnt]
      obtain ⟨g1, hdep, hnodes, hident, hnf1, hm1, hk1, -⟩ :=
        ptx_node_adddep_run g c 1 PTX_RW (ptx_wrap_node m k st j cap t capi c)
          (ptx_wrap_node m k st j cap t capi 1) (ptx_colliding PTX_RW (t + 1) capi1)
          (ptx_edgemap.one PTX_RW) hg.2.2.1 hfc hf1 (by rw [hB]; exact ⟨g, gc, hcadd⟩)
          (by rw [hA]; exact ptx_edgemap_add_one_rw)
      have hw1 : ptx_wrapped m k st j cap (t + 1) capi1 (ptx_collider j) g1 := by
        refine ⟨?_, by rw [hident]; exact hg.2.1, hnf1, by rw [hm1, hk1]; exact hg.2.2.2⟩
        rw [hnodes, hg.1, List.map_map]
        apply List.map_congr_left
        intro y _
        rw [hcr]
        exact ptx_wrap_node_write m k st j cap t capi capi1 y htj
      have hfc1 := ptx_wrapped_find m k st j cap (t + 1) capi1 _ c g1 hw1 (by omega) hcN
      have hrd : ptx_hashset_test (ptx_wrap_node m k st j cap t capi c).reads 7 = some true := by
        rw [ptx_wrap_node_reader m k st j cap t capi c hc1 hp]
        exact ptx_test_single_seven m k
      have hwr : ptx_hashset_test (ptx_wrap_node m k st j cap (t + 1) capi1 c).writes 7
          = some false := by
        rw [ptx_wrap_node_writes m k st j cap (t + 1) capi1 c hc1]
        exact ptx_test_fresh_seven m k
      rw [ptx_node_write_loop_hit 1 7 c _ g g1 _ _ hc1 hfc hrd hdep hfc1 hwr]
      exact ih (c + 1) (t + 1) capi1 g1 hw1 hcap1 (by omega)
        (by unfold ptx_collider at *; omega) (by omega)
    · have hn : ¬ (c % 131072 = 1 ∧ c ≤ ptx_collider j) := by
        unfold ptx_collider at *
        omega
      have hfr := ptx_wrap_node_fresh m k st j cap t capi c hc1 hn
      rw [hfr] at hfc
      rw [ptx_node_write_loop_pass 1 7 c _ g _ hc1 hfc (ptx_test_fresh_seven m k)
        (ptx_test_fresh_seven m k)]
      exact ih (c + 1) t capi g hg hc (by omega) (by omega) (by omega)

/-- The second write of the writer, after `j` readers. -/
theorem ptx_wrapped_write (m k j cap : Nat) (g : ptx_graph) (hj : j ≤ 65536)
    (hg : ptx_wrapped m k PTX_ACTIVE j cap 0 0 (ptx_collider j) g) :
    ∃ g1 capi, ptx_apply g (ptx_op.write 1 7) = some g1 ∧
      ptx_wrapped m k PTX_ACTIVE j cap j capi (ptx_collider j) g1 ∧ ptx_capacity j capi := by
  have hN : 1 ≤ ptx_collider j := by unfold ptx_collider; omega
  have hf1 := ptx_wrapped_find m k PTX_ACTIVE j cap 0 0 _ 1 g hg (le_refl _) hN
  have hw1 : ptx_wrapped m k PTX_ACTIVE j cap 0 0 (ptx_collider j)
      (g.update 1 (fun x => { x with writes := ptx_hashset.single m k 7, haswrites := true })) := by
    refine ⟨?_, hg.2.1, hg.2.2.1, hg.2.2.2⟩
    show g.nodes.map _ = _
    rw [hg.1, List.map_map]
    apply List.map_congr_left
    intro y _
    by_cases h1 : y = 1
    · subst h1
      simp only [Function.comp, ptx_wrap_node, if_true, beq_self_eq_true]
    · have e2 : (y == 1) = false := by simpa using h1
      simp only [Function.comp, ptx_wrap_node_ident, e2, Bool.false_eq_true, if_false]
  obtain ⟨g1, capi, hloop, hw2, hc2⟩ := ptx_wrapped_write_loop m k PTX_ACTIVE j cap hj
    (ptx_collider j - 1) 2 0 0 _ hw1 (Or.inl ⟨rfl, rfl⟩) (by unfold ptx_collider; omega)
    (by unfold ptx_collider; omega) (by omega)
  refine ⟨g1, capi, ?_, hw2, hc2⟩
  have h7 : 7 % 2 ^ 64 = 7 := by norm_num
  show ptx_node_write g 1 (7 % 2 ^ 64) = some g1
  rw [h7]
  unfold ptx_node_write
  rw [hf1]
  simp only []
  have hst : (ptx_wrap_node m k PTX_ACTIVE j cap 0 0 1).state = PTX_ACTIVE := by
    unfold ptx_wrap_node
    rw [if_pos rfl]
  have hwr : (ptx_wrap_node m k PTX_ACTIVE j cap 0 0 1).writes = ptx_hashset.single m k 7 := by
    unfold ptx_wrap_node
    rw [if_pos rfl]
  rw [hst, if_neg (by decide), if_pos rfl, hwr, ptx_hashset_add_single g m k 7 7 rfl]
  simp only []
  have hids : g.nodes.map (fun n => n.ident) = 1 :: List.range' 2 (ptx_collider j - 1) := by
    rw [ptx_wrapped_idents m k PTX_ACTIVE j cap 0 0 _ g hg]
    have : ptx_collider j = (ptx_collider j - 1) + 1 := by omega
    conv_lhs => rw [this]
    rw [List.range'_succ]
  rw [hids, ptx_node_write_loop, if_neg (by simp)]
  exact hloop

/-! ## The run that wraps a DIB: what it shows -/

theorem ptx_trace_append (opts : ptx_graph_opts) (l1 l2 : List ptx_op) (g : ptx_graph)
    (h : ptx_trace opts l1 = some g) : ptx_trace opts (l1 ++ l2) = ptx_run g l2 := by
  unfold ptx_trace at h ⊢
  cases hnew : ptx_graph_new opts with
  | none => rw [hnew] at h; simp at h
  | some g0 =>
    rw [hnew] at h
    simp only [] at h ⊢
    exact ptx_run_append l1 l2 g0 g h

theorem ptx_writer_runs : (ptx_trace ptx_opts_default ptx_ops_writer).isSome = true := by
  decide

theorem ptx_writer_wrapped :
    ptx_wrapped 16777216 4 PTX_ACTIVE 0 0 0 0 1
      ((ptx_trace ptx_opts_default ptx_ops_writer).get ptx_writer_runs) := by
  refine ⟨?_, ?_, ?_, ?_⟩ <;> decide

theorem ptx_write_commit_wrapped :
    ptx_wrapped 16777216 4 PTX_COMMITTED 0 0 0 0 1
      ((ptx_trace ptx_opts_default ptx_ops_write_commit).get ptx_write_commit_runs) := by
  refine ⟨?_, ?_, ?_, ?_⟩ <;> decide

theorem ptx_collider_not_key (K cap : Nat) :
    (ptx_collider 65536, K) ∉ ptx_edgemap_keys (ptx_colliding K 65536 cap) := by
  intro h
  obtain ⟨p, -, -, -, hp, he⟩ := (ptx_colliding_keys K 65536 cap _).mp h
  have h1 : ptx_collider 65536 = ptx_collider p := congrArg Prod.fst he
  have h2 := ptx_collider_inj _ _ h1
  rw [← h2] at hp
  exact hp (by norm_num)

theorem ptx_capacity_le (k cap : Nat) (h : ptx_capacity k cap) : cap ≤ 131072 := by
  rcases h with ⟨-, h0⟩ | ⟨i, -, hi, hc, -⟩
  · omega
  · rw [hc]
    calc 2 ^ i ≤ 2 ^ 17 := Nat.pow_le_pow_right (by decide) hi
      _ = 131072 := by norm_num

theorem ptx_one_keys :
    (1, PTX_WR) ∈ ptx_edgemap_keys (ptx_edgemap.one PTX_WR) ∧
    (1, PTX_RW) ∈ ptx_edgemap_keys (ptx_edgemap.one PTX_RW) := by
  decide

theorem ptx_adds_gains :
    ∀ (l : List (Nat × Nat)) (g g1 : ptx_graph) (map map1 : ptx_edgemap),
      ptx_edgemap_adds g map l = some (g1, map1, true) →
      map.gains (l.map (fun y => (y.1, y.2 % 65536))) map1 := by
  intro l
  induction l with
  | nil =>
    intro g g1 map map1 h
    simp only [ptx_edgemap_adds, Option.some.injEq, Prod.mk.injEq] at h
    exact h.2.1.symm
  | cons x rest ih =>
    intro g g1 map map1 h
    unfold ptx_edgemap_adds at h
    cases ha : ptx_edgemap_add g map x.1 x.2 with
    | none => rw [ha] at h; simp at h
    | some r =>
      obtain ⟨ga, mid, ok⟩ := r
      rw [ha] at h
      cases ok with
      | false => simp at h
      | true =>
        simp only [] at h
        exact ⟨g, ga, mid, x.2, rfl, ha, ih ga g1 mid map1 h⟩

/-- The state after the writer, `65536` readers and the second write of the
writer: what the maps of the writer and of the last reader hold. -/
theorem ptx_wrap_runs :
    ∃ g, ptx_trace ptx_opts_default ptx_ops_wrap = some g ∧
      ptx_wrapped 16777216 4 PTX_ACTIVE 65536 131072 65536 131072 (ptx_collider 65536) g := by
  have h0 : ptx_trace ptx_opts_default ptx_ops_writer
      = some ((ptx_trace ptx_opts_default ptx_ops_writer).get ptx_writer_runs) :=
    (Option.some_get _).symm
  obtain ⟨g1, cap, h1, hw1, hc1⟩ := ptx_wrapped_readers 16777216 4 PTX_ACTIVE 65536 _ (le_refl _)
    ptx_writer_wrapped
  obtain ⟨g2, capi, h2, hw2, hc2⟩ := ptx_wrapped_write 16777216 4 65536 cap g1 (le_refl _) hw1
  have e1 := ptx_capacity_full cap hc1
  have e2 := ptx_capacity_full capi hc2
  subst e1 e2
  refine ⟨g2, ?_, hw2⟩
  unfold ptx_ops_wrap
  rw [ptx_trace_append _ _ _ _ h0, ptx_run_append _ _ _ g1 h1, ptx_run_cons, h2]
  rfl

/-- C10 (counterexample). The symmetry fails in three ways.  After a failed
allocation: the fifth allocation, the growth of `T1.outs` inside
`ptx_node_adddep`, returns null after `T2.ins` has received the edge, so
`T2.ins` holds `(T1, WR)` while `T1.outs` is empty.  And, with no failed
allocation, by the wrap of a 16-bit DIB: after `T1` wrote an item, `65536`
transactions with colliding idents read it and `T1` wrote it again, the last
reader `B` has `(T1, WR)` in `B.ins` and `(T1, RW)` in `B.outs`, but `T1.outs`
has no entry `(B, WR)` and `T1.ins` has no entry `(B, RW)`: each of the two maps
counts `65536` entries in `131072` buckets, and the last of them was stored
with the DIB `0` of a free bucket. -/
theorem ptx_symmetric_fails :
    (∃ g A B, ptx_trace ptx_opts_fail5 ptx_ops_write_read = some g ∧ A ∈ g.nodes ∧
      B ∈ g.nodes ∧ A.outs.small ∧ (A.ident, PTX_WR) ∈ ptx_edgemap_keys B.ins ∧
      (B.ident, PTX_WR) ∉ ptx_edgemap_keys A.outs) ∧
    (∃ g A B, ptx_trace ptx_opts_default ptx_ops_wrap = some g ∧
      ptx_never_fails ptx_opts_default.malloc ∧ A ∈ g.nodes ∧ B ∈ g.nodes ∧
      ((A.ident, PTX_WR) ∈ ptx_edgemap_keys B.ins ∧
        (B.ident, PTX_WR) ∉ ptx_edgemap_keys A.outs ∧
        A.outs.nbuckets = 131072 ∧ ptx_edgemap_count A.outs = 65536) ∧
      ((A.ident, PTX_RW) ∈ ptx_edgemap_keys B.outs ∧
        (B.ident, PTX_RW) ∉ ptx_edgemap_keys A.ins ∧
        A.ins.nbuckets = 131072 ∧ ptx_edgemap_count A.ins = 65536)) := by
  constructor
  · have hbad : ∃ A ∈ ((ptx_trace ptx_opts_fail5 ptx_ops_write_read).get ptx_fail5_runs).nodes,
        ∃ B ∈ ((ptx_trace ptx_opts_fail5 ptx_ops_write_read).get ptx_fail5_runs).nodes,
          A.outs.small ∧ (A.ident, PTX_WR) ∈ ptx_edgemap_keys B.ins ∧
            (B.ident, PTX_WR) ∉ ptx_edgemap_keys A.outs := by
      decide
    obtain ⟨A, hA, B, hB, h⟩ := hbad
    exact ⟨_, A, B, (Option.some_get ptx_fail5_runs).symm, hA, hB, h⟩
  · obtain ⟨g, hrun, hw⟩ := ptx_wrap_runs
    have hx1 : ptx_collider 65536 ≠ 1 := by unfold ptx_collider; omega
    have hp : ptx_collider 65536 % 131072 = 1 ∧ ptx_collider 65536 ≤ ptx_collider 65536 := by
      unfold ptx_collider; omega
    have hfA := ptx_wrapped_find _ _ _ _ _ _ _ _ 1 g hw (le_refl _)
      (by unfold ptx_collider; omega)
    have hfB := ptx_wrapped_find _ _ _ _ _ _ _ _ (ptx_collider 65536) g hw
      (by unfold ptx_collider; omega) (le_refl _)
    rw [ptx_wrap_node_reader _ _ _ _ _ _ _ _ hx1 hp] at hfB
    have hA1 : ptx_wrap_node 16777216 4 PTX_ACTIVE 65536 131072 65536 131072 1
        = { state := PTX_ACTIVE, ident := 1, reached := false, nomem := false,
            hasdeps := decide (0 < 65536), hasreads := false, haswrites := true,
            outs := ptx_colliding PTX_WR 65536 131072, ins := ptx_colliding PTX_RW 65536 131072,
            reads := ptx_hashset.fresh 16777216 4, writes := ptx_hashset.single 16777216 4 7 } := by
      unfold ptx_wrap_node
      rw [if_pos rfl]
    rw [hA1] at hfA
    refine ⟨g, _, _, hrun, by decide, (ptx_graph.find_some g _ _ hfA).1,
      (ptx_graph.find_some g _ _ hfB).1, ⟨?_, ?_, rfl, rfl⟩, ⟨?_, ?_, rfl, rfl⟩⟩
    · exact ptx_one_keys.1
    · exact ptx_collider_not_key PTX_WR 131072
    · show (1, PTX_RW) ∈ ptx_edgemap_keys
        (if ptx_collider 65536 ≤ ptx_collider 65536 then ptx_edgemap.one PTX_RW
          else ptx_edgemap_empty)
      rw [if_pos (le_refl _)]
      exact ptx_one_keys.2
    · exact ptx_collider_not_key PTX_RW 131072

/-! ## The wrap of a DIB: one map, one dependency, a committed writer -/

theorem ptx_used_eq : ptx_edge.used = fun b => decide (b.dib ≠ 0) := by
  funext b
  unfold ptx_edge.used
  by_cases hb : b.dib = 0
  · simp [hb]
  · have : b.dib > 0 := by omega
    simp [hb, this]

theorem ptx_colliding_full_keys (K : Nat) :
    (ptx_edgemap_keys (ptx_colliding K 65536 131072)).length = 65535 := by
  rw [ptx_edgemap_keys_eq _ (ptx_colliding_length K 65536 131072), List.length_map, ptx_used_eq,
    ptx_colliding_used K 65536 131072 (le_refl _)]
  decide

theorem ptx_collider_adds_full (g : ptx_graph) (hnf : ptx_never_fails g.malloc) :
    ∃ g1, ptx_edgemap_adds g ptx_edgemap_empty (ptx_collider_adds PTX_WR 1 65536)
      = some (g1, ptx_colliding PTX_WR 65536 131072, true) := by
  obtain ⟨g1, cap1, h1, h2, -⟩ := ptx_colliding_adds PTX_WR (by decide) 65536 0 0 g hnf
    (Or.inl ⟨rfl, rfl⟩) (le_refl _)
  have e1 : (0 : Nat) + 65536 = 65536 := rfl
  have e2 : (0 : Nat) + 1 = 1 := rfl
  have e3 : ptx_colliding PTX_WR 0 0 = ptx_edgemap_empty := rfl
  rw [e1] at h2
  rw [e1, e2, e3] at h1
  have := ptx_capacity_full cap1 h2
  subst this
  exact ⟨g1, h1⟩

/-- C14 (counterexample). After the writer `T1` and `65535` readers with
colliding idents, one more transaction `B` with a colliding ident has begun.
`T1.outs` has `65535` entries and `B.ins` is empty, and the allocator does not
fail.  `ptx_node_adddep` of the dependency `T1 → B` of kind WR returns true; but
afterwards `(B, WR)` is not an entry of `T1.outs`, whose count is `65536` while
it has `65535` entries. -/
theorem ptx_node_adddep_wraps :
    ∃ g g1 A B A1, ptx_trace ptx_opts_default ptx_ops_wrap_before = some g ∧
      ptx_never_fails g.malloc ∧ g.find 1 = some A ∧
      g.find (ptx_collider 65536) = some B ∧ A.outs.small ∧ B.ins.small ∧
      ptx_edgemap_count A.outs = 65535 ∧
      ptx_node_adddep g 1 (ptx_collider 65536) PTX_WR = some (g1, true) ∧
      g1.find 1 = some A1 ∧
      (ptx_collider 65536, PTX_WR) ∉ ptx_edgemap_keys A1.outs ∧
      ptx_edgemap_count A1.outs = 65536 ∧ (ptx_edgemap_keys A1.outs).length = 65535 := by
  have h0 : ptx_trace ptx_opts_default ptx_ops_writer
      = some ((ptx_trace ptx_opts_default ptx_ops_writer).get ptx_writer_runs) :=
    (Option.some_get _).symm
  obtain ⟨g1, cap, h1, hw1, hc1⟩ := ptx_wrapped_readers 16777216 4 PTX_ACTIVE 65535 _
    (by norm_num) ptx_writer_wrapped
  obtain ⟨g2, h2, hw2⟩ := ptx_wrapped_begins 16777216 4 PTX_ACTIVE 65535 cap 0 0 131072
    (ptx_collider 65535) g1 hw1 (le_refl _) (by unfold ptx_collider; norm_num)
  have hN : ptx_collider 65535 + 131072 = ptx_collider 65536 := by unfold ptx_collider; norm_num
  rw [hN] at hw2
  have hrun : ptx_trace ptx_opts_default ptx_ops_wrap_before = some g2 := by
    unfold ptx_ops_wrap_before
    rw [ptx_trace_append _ _ _ _ h0, ptx_run_append _ _ _ g1 h1]
    exact h2
  have hx1 : ptx_collider 65536 ≠ 1 := by unfold ptx_collider; omega
  have hxn : ¬ (ptx_collider 65536 % 131072 = 1 ∧ ptx_collider 65536 ≤ ptx_collider 65535) := by
    unfold ptx_collider; omega
  have hfA := ptx_wrapped_find _ _ _ _ _ _ _ _ 1 g2 hw2 (le_refl _)
    (by unfold ptx_collider; omega)
  have hfB := ptx_wrapped_find _ _ _ _ _ _ _ _ (ptx_collider 65536) g2 hw2
    (by unfold ptx_collider; omega) (le_refl _)
  rw [ptx_wrap_node_fresh _ _ _ _ _ _ _ _ hx1 hxn] at hfB
  have hA1 : ptx_wrap_node 16777216 4 PTX_ACTIVE 65535 cap 0 0 1
      = { state := PTX_ACTIVE, ident := 1, reached := false, nomem := false,
          hasdeps := decide (0 < 0), hasreads := false, haswrites := true,
          outs := ptx_colliding PTX_WR 65535 cap, ins := ptx_colliding PTX_RW 0 0,
          reads := ptx_hashset.fresh 16777216 4, writes := ptx_hashset.single 16777216 4 7 } := by
    unfold ptx_wrap_node
    rw [if_pos rfl]
  rw [hA1] at hfA
  obtain ⟨gc, cap1, hcadd, hcap1, -, -⟩ :=
    ptx_colliding_add g2 PTX_WR PTX_WR 65535 cap hw2.2.2.1 (by decide) hc1 (le_refl _)
  have e1 : 65535 + 1 = 65536 := rfl
  rw [e1] at hcadd hcap1
  have := ptx_capacity_full cap1 hcap1
  subst this
  obtain ⟨g3, hdep, hnodes, -⟩ := ptx_node_adddep_run g2 1 (ptx_collider 65536) PTX_WR _ _
    (ptx_edgemap.one PTX_WR) (ptx_colliding PTX_WR 65536 131072) hw2.2.2.1 hfA hfB
    ptx_edgemap_add_one_wr ⟨g2, gc, hcadd⟩
  have hfind := ptx_find_map g2 g3 _ hnodes
    (fun n => (ptx_node.linked_fields 1 (ptx_collider 65536) (ptx_edgemap.one PTX_WR)
      (ptx_colliding PTX_WR 65536 131072) n).1) 1
  rw [hfA] at hfind
  simp only [Option.map_some'] at hfind
  have hout := (ptx_node.linked_fields 1 (ptx_collider 65536) (ptx_edgemap.one PTX_WR)
      (ptx_colliding PTX_WR 65536 131072)
      { state := PTX_ACTIVE, ident := 1, reached := false, nomem := false,
        hasdeps := decide (0 < 0), hasreads := false, haswrites := true,
        outs := ptx_colliding PTX_WR 65535 cap, ins := ptx_colliding PTX_RW 0 0,
        reads := ptx_hashset.fresh 16777216 4,
        writes := ptx_hashset.single 16777216 4 7 }).2.2
  rw [if_pos rfl] at hout
  refine ⟨g2, g3, _, _, _, hrun, hw2.2.2.1, hfA, hfB,
    ⟨ptx_capacity_le 65535 cap hc1, le_refl _⟩, by decide, rfl, hdep, hfind, ?_, ?_, ?_⟩
  · rw [hout]
    exact ptx_collider_not_key PTX_WR 131072
  · rw [hout]
    rfl
  · rw [hout]
    exact ptx_colliding_full_keys PTX_WR

theorem ptx_commit_write_eval :
    ((ptx_trace ptx_opts_default ptx_ops_write_commit).map
        (fun g => g.nodes.map (fun n => (n.ident, n.state))) = some [(1, PTX_COMMITTED)] ∧
      (ptx_trace ptx_opts_default ptx_ops_write_commit).map
        (fun g => g.nodes.map (fun n => ptx_edgemap_keys n.outs)) = some [[]] ∧
      (ptx_trace ptx_opts_default ptx_ops_write_commit).map
        (fun g => g.nodes.map (fun n => ptx_edgemap_keys n.ins)) = some [[]]) ∧
    ((ptx_trace ptx_opts_default ptx_ops_write_commit_write).map
        (fun g => g.nodes.map (fun n => (n.ident, n.state)))
        = some [(1, PTX_COMMITTED), (2, PTX_ACTIVE)] ∧
      (ptx_trace ptx_opts_default ptx_ops_write_commit_write).map
        (fun g => g.nodes.map (fun n => ptx_edgemap_keys n.outs))
        = some [[(2, PTX_WW)], [(1, PTX_WW)]] ∧
      (ptx_trace ptx_opts_default ptx_ops_write_commit_write).map
        (fun g => g.nodes.map (fun n => ptx_edgemap_keys n.ins))
        = some [[(2, PTX_WW)], [(1, PTX_WW)]]) := by
  refine ⟨⟨?_, ?_, ?_⟩, ?_, ?_, ?_⟩ <;> decide

/-- C11 (counterexample). The `outs` map and the `ins` map of a committed node
change: after `T1` wrote an item and committed, both its maps are empty; when
`T2` then writes the same item, `T1` gets the entry `(T2, WW)` in both.  And the
entries of the map are the old entries and the pairs added only while no DIB
wraps: when `65536` transactions with colliding idents read the item after the
commit, each read adds a pair to `T1.outs` by a call of `ptx_edgemap_add` that
returns true, but the pair of the last reader is not an entry of the map
afterwards, which counts `65536` entries in `131072` buckets. -/
theorem ptx_committed_maps_change :
    (((ptx_trace ptx_opts_default ptx_ops_write_commit).map
        (fun g => g.nodes.map (fun n => (n.ident, n.state))) = some [(1, PTX_COMMITTED)] ∧
      (ptx_trace ptx_opts_default ptx_ops_write_commit).map
        (fun g => g.nodes.map (fun n => ptx_edgemap_keys n.outs)) = some [[]] ∧
      (ptx_trace ptx_opts_default ptx_ops_write_commit).map
        (fun g => g.nodes.map (fun n => ptx_edgemap_keys n.ins)) = some [[]]) ∧
    ((ptx_trace ptx_opts_default ptx_ops_write_commit_write).map
        (fun g => g.nodes.map (fun n => (n.ident, n.state)))
        = some [(1, PTX_COMMITTED), (2, PTX_ACTIVE)] ∧
      (ptx_trace ptx_opts_default ptx_ops_write_commit_write).map
        (fun g => g.nodes.map (fun n => ptx_edgemap_keys n.outs))
        = some [[(2, PTX_WW)], [(1, PTX_WW)]] ∧
      (ptx_trace ptx_opts_default ptx_ops_write_commit_write).map
        (fun g => g.nodes.map (fun n => ptx_edgemap_keys n.ins))
        = some [[(2, PTX_WW)], [(1, PTX_WW)]])) ∧
    ∃ g g1 n n1 lo, ptx_trace ptx_opts_default ptx_ops_write_commit = some g ∧
      ptx_run g (ptx_ops_readers 65536) = some g1 ∧ g.find 1 = some n ∧
      n.state = PTX_COMMITTED ∧ g1.find 1 = some n1 ∧ n.outs.gains lo n1.outs ∧
      (ptx_collider 65536, PTX_WR) ∈ lo ∧
      (ptx_collider 65536, PTX_WR) ∉ ptx_edgemap_keys n1.outs ∧
      n1.outs.nbuckets = 131072 ∧ ptx_edgemap_count n1.outs = 65536 := by
  refine ⟨ptx_commit_write_eval, ?_⟩
  have h0 : ptx_trace ptx_opts_default ptx_ops_write_commit
      = some ((ptx_trace ptx_opts_default ptx_ops_write_commit).get ptx_write_commit_runs) :=
    (Option.some_get _).symm
  obtain ⟨g1, cap, h1, hw1, hc1⟩ := ptx_wrapped_readers 16777216 4 PTX_COMMITTED 65536 _
    (le_refl _) ptx_write_commit_wrapped
  have := ptx_capacity_full cap hc1
  subst this
  have hf0 := ptx_wrapped_find _ _ _ _ _ _ _ _ 1 _ ptx_write_commit_wrapped (le_refl _)
    (le_refl _)
  have hf1 := ptx_wrapped_find _ _ _ _ _ _ _ _ 1 g1 hw1 (le_refl _)
    (by unfold ptx_collider; omega)
  have hA0 : ptx_wrap_node 16777216 4 PTX_COMMITTED 0 0 0 0 1
      = { state := PTX_COMMITTED, ident := 1, reached := false, nomem := false,
          hasdeps := decide (0 < 0), hasreads := false, haswrites := true,
          outs := ptx_colliding PTX_WR 0 0, ins := ptx_colliding PTX_RW 0 0,
          reads := ptx_hashset.fresh 16777216 4, writes := ptx_hashset.single 16777216 4 7 } := by
    unfold ptx_wrap_node
    rw [if_pos rfl]
  have hA1 : ptx_wrap_node 16777216 4 PTX_COMMITTED 65536 131072 0 0 1
      = { state := PTX_COMMITTED, ident := 1, reached := false, nomem := false,
          hasdeps := decide (0 < 0), hasreads := false, haswrites := true,
          outs := ptx_colliding PTX_WR 65536 131072, ins := ptx_colliding PTX_RW 0 0,
          reads := ptx_hashset.fresh 16777216 4, writes := ptx_hashset.single 16777216 4 7 } := by
    unfold ptx_wrap_node
    rw [if_pos rfl]
  rw [hA0] at hf0
  rw [hA1] at hf1
  obtain ⟨ga, hadds⟩ := ptx_collider_adds_full ptx_example_ww (by decide)
  have hgain := ptx_adds_gains _ _ _ _ _ hadds
  refine ⟨_, g1, _, _, _, h0, h1, hf0, rfl, hf1, hgain, ?_,
    ptx_collider_not_key PTX_WR 131072, rfl, rfl⟩
  refine List.mem_map.mpr ⟨(ptx_collider 65536, PTX_WR), ?_, rfl⟩
  unfold ptx_collider_adds
  exact List.mem_map.mpr ⟨65536, List.mem_range'_1.mpr ⟨by norm_num, by norm_num⟩, rfl⟩
